import Mathlib

/-! # TCF agent: breakpoint engine

A shallow embedding of `breakpoints.c` (break-instruction table, breakpoint
registry, replant pass, condition evaluation, skip sequencer) and of the memory
checks it exports, of the stop and resume functions of `context-darwin.c`, of
the next-address prediction and the hardware-breakpoint slots of
`machine/arm/tcf/cpudefs-mdep.c`, and of `base64.c`, with the properties of the
specification proved about them.

Conventions of the embedding.

* Pointers become identities: a `Context *` is the `id` of a `Context` record
  held in the context table, a `BreakpointInfo *` is the breakpoint `id`
  (`find_breakpoint` keeps ids unique in the registry), an `InputStream *`
  is a channel number.
* `ContextAddress` and `size_t` values are natural numbers below `2 ^ w`, where
  `w` is the width of the type; the arithmetic of the source on them is taken
  modulo `2 ^ w` (`address_add`, `address_sub`).
* Bytes (`char`, `unsigned char`) are natural numbers that are only copied.
* `assert` statements are preconditions of the C code and do not change
  control flow; they are not part of the definitions.
* The `_WRS_KERNEL` branches are not taken (the software breakpoint path).
-/

set_option autoImplicit false

namespace Tcf

/-! ## Data model -/

/-- The fields of `Context` that `breakpoints.c` reads. `id` stands for the
address of the object, `mem` for `ctx->mem`, `parent` for `ctx->parent`,
`pc` for `get_regs_PC(ctx->regs)`; `regs` is the rest of the register
snapshot, seen only by the expression evaluator. -/
structure Context where
  id : Nat
  mem : Nat
  parent : Option Nat
  stopped : Bool
  exited : Bool
  exiting : Bool
  intercepted : Bool
  pending_intercept : Bool
  pc : Nat
  regs : List Nat
deriving DecidableEq, Repr, Inhabited

/-- C `struct BreakpointAttribute` (one cell of the `unsupported` list). -/
structure BreakpointAttribute where
  name : String
  value : String
deriving DecidableEq, Repr, Inhabited

/-- C `struct BreakpointInfo`. The links `link_all`, `link_id` are the position
in the registry list; `refs` is kept in the table of `BreakpointRef`s. -/
structure BreakpointInfo where
  id : String
  enabled : Bool
  planted : Nat
  deleted : Bool
  error : Nat
  err_msg : Option String
  address : Option String
  condition : Option String
  file : Option String
  line : Int
  column : Int
  ignore_count : Int
  hit_count : Int
  unsupported : List BreakpointAttribute
  status_unsupported : Bool
  status_error : Nat
  status_planted : Nat
deriving DecidableEq, Repr, Inhabited

/-- C `struct BreakpointRef`: channel `inp` subscribed to breakpoint `bp`. -/
structure BreakpointRef where
  inp : Nat
  bp : String
deriving DecidableEq, Repr, Inhabited

/-- C `struct BreakInstruction`. `refs` holds the first `ref_cnt` cells of the
C array `refs` (cells past `ref_cnt` are never read). -/
structure BreakInstruction where
  ctx : Nat
  ctx_cnt : Nat
  address : Nat
  saved_code : List Nat
  error : Nat
  skip : Bool
  refs : List String
  planted : Bool
deriving DecidableEq, Repr, Inhabited

/-- Modelled from the spec: the target of the memory primitives of §4.B
(`context_read_mem`, `context_write_mem` of the context module that
`breakpoints.c` links with are not among the sources). `mem sp a` is the byte
at address `a` of memory space `sp`; `rd_err sp a` and `wr_err sp a` are the
OS error (0 for none) raised by reading and by writing that byte. -/
structure Target where
  mem : Nat → Nat → Nat
  rd_err : Nat → Nat → Nat
  wr_err : Nat → Nat → Nat

/-- What a `status` event or a `getStatus` reply carries
(`write_breakpoint_status`). -/
inductive BreakpointStatus where
  | unsupported (names : List String)
  | instances (l : List (Nat × Nat × Nat))
  | error (code : Nat) (msg : Option String)
  | none
deriving DecidableEq, Repr, Inhabited

/-- Frames written to an output stream by the Breakpoints service. -/
inductive Event where
  | contextAdded (bp : BreakpointInfo)
  | contextChanged (bp : BreakpointInfo)
  | contextRemoved (id : String)
  | status (id : String) (st : BreakpointStatus)
  | reply (token : String) (err : Nat)
deriving DecidableEq, Repr, Inhabited

/-- Destination of a frame: the broadcast group or one channel. -/
inductive Dest where
  | bcg
  | chan (c : Nat)
deriving DecidableEq, Repr, Inhabited

/-- The global state of the breakpoint engine: the statics of `breakpoints.c`
(`breakpoints`, `instructions`, the `inp2br` table, `replanting`), the
global `BREAK_INST`, the context table in `context_root` order, the target
and the frames written so far. -/
structure Agent where
  BREAK_INST : List Nat
  contexts : List Context
  breakpoints : List BreakpointInfo
  refs : List BreakpointRef
  instructions : List BreakInstruction
  replanting : Bool
  target : Target
  out : List (Dest × Event)

/-- Modelled from the spec: the macro `BREAK_SIZE` is not among the sources;
§3 and §6 give it as the width of the architecture's break instruction. -/
def BREAK_SIZE (s : Agent) : Nat := s.BREAK_INST.length

/-- Dereference of a `Context *`. -/
def Agent.ctx (s : Agent) (id : Nat) : Context :=
  (s.contexts.find? (fun c => c.id == id)).getD default

/-- Source `context_has_state` (context-darwin.c): `ctx->parent != NULL`. -/
def context_has_state (ctx : Context) : Bool := ctx.parent.isSome

/-- Source macro `is_running`. -/
def is_running (ctx : Context) : Bool := !ctx.stopped && context_has_state ctx

/-! ## Memory checks -/

/-- C `a + b` on `ContextAddress` of `w` bits. -/
def address_add (w a b : Nat) : Nat := (a + b) % 2 ^ w

/-- The difference `a - b` of two `ContextAddress` values of `w` bits. -/
def address_sub (w a b : Nat) : Nat := (a + 2 ^ w - b % 2 ^ w) % 2 ^ w

/-- The `for` loop of `check_breakpoints_on_memory_read` over one break
instruction; `n` is `BREAK_SIZE`, `w` the width of `ContextAddress` and
`size_t`, in which `bi->address + i`, `address + size` and the index
`bi->address + i - address` are computed. -/
def read_instruction_bytes (w n : Nat) (bi : BreakInstruction) (address size : Nat)
    (buf : List Nat) : List Nat :=
  (List.range n).foldl (fun b i =>
    if address_add w bi.address i < address then b
    else if address_add w bi.address i ≥ address_add w address size then b
    else b.set (address_sub w (address_add w bi.address i) address)
      (bi.saved_code.getD i 0)) buf

/-- Body of the `while` loop of `check_breakpoints_on_memory_read` for the
break instruction `bi`. -/
def read_instruction (w : Nat) (s : Agent) (ctx : Context) (address size : Nat)
    (buf : List Nat) (bi : BreakInstruction) : List Nat :=
  if bi.planted = false then buf
  else if (s.ctx bi.ctx).mem ≠ ctx.mem then buf
  else if address_add w bi.address (BREAK_SIZE s) ≤ address then buf
  else if bi.address ≥ address_add w address size then buf
  else read_instruction_bytes w (BREAK_SIZE s) bi address size buf

/-- Source `check_breakpoints_on_memory_read`: returns the contents of `p`
after the call; `w` is the width of `ContextAddress` and `size_t`. -/
def check_breakpoints_on_memory_read (w : Nat) (s : Agent) (ctx : Context) (address : Nat)
    (p : List Nat) (size : Nat) : List Nat :=
  s.instructions.foldl (read_instruction w s ctx address size) p

/-- The `for` loop of `check_breakpoints_on_memory_write` over one break
instruction at address `a`; `n` is `BREAK_SIZE`, `w` the width of
`ContextAddress` and `size_t`, the state is the pair of `bi->saved_code` and
the buffer. -/
def write_instruction_bytes (w : Nat) (BI : List Nat) (n a address size : Nat)
    (st : List Nat × List Nat) : List Nat × List Nat :=
  (List.range n).foldl (fun st i =>
    if address_add w a i < address then st
    else if address_add w a i ≥ address_add w address size then st
    else (st.1.set i (st.2.getD (address_sub w (address_add w a i) address) 0),
          st.2.set (address_sub w (address_add w a i) address) (BI.getD i 0))) st

/-- Body of the `while` loop of `check_breakpoints_on_memory_write` for the
break instruction `bi`: the updated instruction and buffer. -/
def write_instruction (w : Nat) (s : Agent) (ctx : Context) (address size : Nat)
    (bi : BreakInstruction) (buf : List Nat) : BreakInstruction × List Nat :=
  if bi.planted = false then (bi, buf)
  else if (s.ctx bi.ctx).mem ≠ ctx.mem then (bi, buf)
  else if address_add w bi.address (BREAK_SIZE s) ≤ address then (bi, buf)
  else if bi.address ≥ address_add w address size then (bi, buf)
  else
    let r := write_instruction_bytes w s.BREAK_INST (BREAK_SIZE s) bi.address address size
      (bi.saved_code, buf)
    ({ bi with saved_code := r.1 }, r.2)

/-- The `while` loop of `check_breakpoints_on_memory_write` over the list of
break instructions. -/
def write_instructions (w : Nat) (s : Agent) (ctx : Context) (address size : Nat) :
    List BreakInstruction → List Nat → List BreakInstruction × List Nat
  | [], buf => ([], buf)
  | bi :: l, buf =>
    let r := write_instruction w s ctx address size bi buf
    let r2 := write_instructions w s ctx address size l r.2
    (r.1 :: r2.1, r2.2)

/-- Source `check_breakpoints_on_memory_write`: the state with the updated
`saved_code` fields, and the contents of `p` after the call; `w` is the width
of `ContextAddress` and `size_t`. -/
def check_breakpoints_on_memory_write (w : Nat) (s : Agent) (ctx : Context) (address : Nat)
    (p : List Nat) (size : Nat) : Agent × List Nat :=
  let r := write_instructions w s ctx address size s.instructions p
  ({ s with instructions := r.1 }, r.2)

/-! ## Target memory -/

/-- Modelled from the spec: error kind `EXITED` of §4.B (the numeric codes of
`errors.h` are not among the sources; only that they are not 0 is used). -/
def ERR_ALREADY_EXITED : Nat := 0x20000 + 11

/-- Modelled from the spec: error kind `NOT_STOPPED` of §4.B. -/
def ERR_IS_RUNNING : Nat := 0x20000 + 14

/-- First OS error met by an access to `size` bytes at `address`, 0 if none. -/
def first_error (err : Nat → Nat) (address : Nat) : Nat → Nat
  | 0 => 0
  | size + 1 => if err address ≠ 0 then err address else first_error err (address + 1) size

/-- The `size` bytes at `address` of memory space `sp`. -/
def target_bytes (s : Agent) (sp address size : Nat) : List Nat :=
  (List.range size).map (fun i => s.target.mem sp (address + i))

/-- Modelled from the spec: `read_mem` of §4.B (`context_read_mem` of the
context module that `breakpoints.c` links with is not among the sources): fails on
an exited or running context and on an OS error, otherwise returns the
`size` bytes at `address` of the memory space of `ctx`. -/
def context_read_mem (s : Agent) (ctx : Context) (address size : Nat) :
    Except Nat (List Nat) :=
  if ctx.exited then .error ERR_ALREADY_EXITED
  else if is_running ctx then .error ERR_IS_RUNNING
  else if first_error (s.target.rd_err ctx.mem) address size ≠ 0 then
    .error (first_error (s.target.rd_err ctx.mem) address size)
  else .ok (target_bytes s ctx.mem address size)

/-- The state in which the first `size` bytes of `buf` are stored at `address`
of memory space `sp`. -/
def store_bytes (s : Agent) (sp address : Nat) (buf : List Nat) (size : Nat) : Agent :=
  { s with target := { s.target with
    mem := fun sp' a =>
      if sp' = sp ∧ address ≤ a ∧ a < address + size then buf.getD (a - address) 0
      else s.target.mem sp' a } }

/-- Modelled from the spec: `write_mem` of §4.B (`context_write_mem` of the
context module that `breakpoints.c` links with is not among the sources): fails,
leaving memory as it is, on an exited or running context and on an OS error,
otherwise stores the first `size` bytes of `buf` at `address` in the memory
space of `ctx`. -/
def context_write_mem (s : Agent) (ctx : Context) (address : Nat) (buf : List Nat)
    (size : Nat) : Except Nat Agent :=
  if ctx.exited then .error ERR_ALREADY_EXITED
  else if is_running ctx then .error ERR_IS_RUNNING
  else if first_error (s.target.wr_err ctx.mem) address size ≠ 0 then
    .error (first_error (s.target.wr_err ctx.mem) address size)
  else .ok (store_bytes s ctx.mem address buf size)

/-! ## Planting and removing break instructions -/

/-- Source `plant_instruction`: the updated instruction and the state with the
updated target memory. -/
def plant_instruction (s : Agent) (bi : BreakInstruction) : BreakInstruction × Agent :=
  let bi := { bi with error := 0 }
  match context_read_mem s (s.ctx bi.ctx) bi.address (BREAK_SIZE s) with
  | .error e =>
    let bi := { bi with error := e }
    ({ bi with planted := decide (bi.error = 0) }, s)
  | .ok code =>
    let bi := { bi with saved_code := code }
    match context_write_mem s (s.ctx bi.ctx) bi.address s.BREAK_INST (BREAK_SIZE s) with
    | .error e =>
      let bi := { bi with error := e }
      ({ bi with planted := decide (bi.error = 0) }, s)
    | .ok s' => ({ bi with planted := decide (bi.error = 0) }, s')

/-- Source `verify_instruction` outside `_WRS_KERNEL`. -/
def verify_instruction (_bi : BreakInstruction) : Bool := true

/-- Source `remove_instruction`: the updated instruction and the state with
the updated target memory. -/
def remove_instruction (s : Agent) (bi : BreakInstruction) : BreakInstruction × Agent :=
  if (s.ctx bi.ctx).exited = false ∧ is_running (s.ctx bi.ctx) = false then
    match context_write_mem s (s.ctx bi.ctx) bi.address bi.saved_code (BREAK_SIZE s) with
    | .error e => ({ bi with error := e, planted := false }, s)
    | .ok s' => ({ bi with planted := false }, s')
  else ({ bi with planted := false }, s)

/-- Store through a `BreakInstruction *`: replace the `n`-th entry of the
table. -/
def Agent.set_instruction (s : Agent) (n : Nat) (bi : BreakInstruction) : Agent :=
  { s with instructions := s.instructions.set n bi }

/-- Call of `plant_instruction` on the `n`-th entry of the table, with the
entry stored back. -/
def plant_instruction_at (s : Agent) (n : Nat) : Agent :=
  match s.instructions[n]? with
  | some bi => (plant_instruction s bi).2.set_instruction n (plant_instruction s bi).1
  | none => s

/-- Call of `remove_instruction` on the `n`-th entry of the table, with the
entry stored back. -/
def remove_instruction_at (s : Agent) (n : Nat) : Agent :=
  match s.instructions[n]? with
  | some bi => (remove_instruction s bi).2.set_instruction n (remove_instruction s bi).1
  | none => s

/-- Two break instructions that are both planted in the same memory space do
not share a byte. -/
def disjoint_instructions (s : Agent) (a b : BreakInstruction) : Prop :=
  a.planted = true → b.planted = true → (s.ctx a.ctx).mem = (s.ctx b.ctx).mem →
    a.address + BREAK_SIZE s ≤ b.address ∨ b.address + BREAK_SIZE s ≤ a.address

/-- The break instruction `bi` is planted in the memory space of `ctx` and
holds the byte at address `a`. -/
def covers (s : Agent) (ctx : Context) (bi : BreakInstruction) (a : Nat) : Prop :=
  bi.planted = true ∧ (s.ctx bi.ctx).mem = ctx.mem ∧
    bi.address ≤ a ∧ a < bi.address + BREAK_SIZE s

instance (s : Agent) (ctx : Context) (bi : BreakInstruction) (a : Nat) :
    Decidable (covers s ctx bi a) := by
  unfold covers; exact inferInstance

/-! ## External collaborators -/

/-- The value types that `plant_breakpoint` tells apart (`VALUE_INT`,
`VALUE_UNS`, any other). -/
inductive ValueType where
  | VALUE_INT
  | VALUE_UNS
  | VALUE_OTHER
deriving DecidableEq, Repr, Inhabited

/-- C `struct Value` of the expression evaluator, as far as it is read here. -/
structure Value where
  type : ValueType
  value : Nat
deriving DecidableEq, Repr, Inhabited

/-- The frame argument of `evaluate_expression`. -/
inductive Frame where
  | STACK_NO_FRAME
  | STACK_TOP_FRAME
deriving DecidableEq, Repr, Inhabited

/-- The collaborators of `breakpoints.c` that are not among the sources, taken
as parameters: `evaluate_expression` (an error carries `errno` and the text of
`get_expression_error_msg`), `value_to_boolean`, `line_to_address` (the
addresses handed to the callback, then `errno`, 0 for success) and
`errno_to_str`. -/
structure Services where
  evaluate_expression : Option Context → Frame → String → Except (Nat × String) Value
  value_to_boolean : Value → Bool
  line_to_address : Context → String → Int → Int → List Nat × Nat
  errno_to_str : Nat → String

/-- Modelled from the spec: error kind `InvalidContext` of §7 (the numeric
codes of `errors.h` are not among the sources). -/
def ERR_INV_CONTEXT : Nat := 0x20000 + 16

/-- Modelled from the spec: error kind `InvalidExpression` of §7. -/
def ERR_INV_EXPRESSION : Nat := 0x20000 + 18

/-! ## Break-instruction table -/

/-- Index of the first element that satisfies `p`. -/
def find_index {α : Type} (p : α → Bool) : List α → Option Nat
  | [] => none
  | a :: l => if p a then some 0 else (find_index p l).map (· + 1)

/-- Source `add_instruction`: a zeroed entry for `(ctx, address)` appended to
the table. -/
def add_instruction (s : Agent) (ctx : Context) (address : Nat) : Agent :=
  { s with instructions := s.instructions ++
      [{ ctx := ctx.id, ctx_cnt := 0, address := address,
         saved_code := List.replicate (BREAK_SIZE s) 0, error := 0, skip := false,
         refs := [], planted := false }] }

/-- Source `clear_instruction_refs`. -/
def clear_instruction_refs (s : Agent) : Agent :=
  { s with instructions := s.instructions.map (fun bi => { bi with ctx_cnt := 1, refs := [] }) }

/-- Source `find_instruction`: the index of the entry found, and the state in
which the entry is re-homed to `ctx` when its owner exited or is running. -/
def find_instruction (s : Agent) (ctx : Context) (address : Nat) : Option Nat × Agent :=
  match find_index (fun bi => (s.ctx bi.ctx).mem == ctx.mem && bi.address == address)
      s.instructions with
  | none => (none, s)
  | some n =>
    match s.instructions[n]? with
    | none => (none, s)
    | some bi =>
      if (s.ctx bi.ctx).exited = true ∨ is_running (s.ctx bi.ctx) = true then
        (some n, s.set_instruction n { bi with ctx := ctx.id })
      else (some n, s)

/-- The loop of `delete_unused_instructions` over the table: the entries kept
and the state with the updated target memory. -/
def delete_unused_loop : List BreakInstruction → Agent → List BreakInstruction × Agent
  | [], s => ([], s)
  | bi :: l, s =>
    if bi.skip = true then
      let r := delete_unused_loop l s
      (bi :: r.1, r.2)
    else if bi.refs = [] then
      if bi.planted = true then
        let bi1 :=
          if (s.ctx bi.ctx).exited = true ∨ is_running (s.ctx bi.ctx) = true then
            match s.contexts.find? (fun c =>
                c.mem == (s.ctx bi.ctx).mem && !c.exited && !is_running c) with
            | some c => { bi with ctx := c.id }
            | none => bi
          else bi
        delete_unused_loop l (remove_instruction s bi1).2
      else delete_unused_loop l s
    else if bi.planted = false then
      let r1 := plant_instruction s bi
      let r := delete_unused_loop l r1.2
      (r1.1 :: r.1, r.2)
    else if verify_instruction bi = false then
      let r0 := remove_instruction s bi
      let r1 := plant_instruction r0.2 r0.1
      let r := delete_unused_loop l r1.2
      (r1.1 :: r.1, r.2)
    else
      let r := delete_unused_loop l s
      (bi :: r.1, r.2)

/-- Source `delete_unused_instructions`. -/
def delete_unused_instructions (s : Agent) : Agent :=
  let r := delete_unused_loop s.instructions s
  { r.2 with instructions := r.1 }

/-! ## Planting user breakpoints -/

/-- Source `write_breakpoint_status`. An instance is the owner of the break
instruction, its error and its address. -/
def write_breakpoint_status (s : Agent) (bp : BreakpointInfo) : BreakpointStatus :=
  if bp.unsupported ≠ [] then .unsupported (bp.unsupported.map (fun u => u.name))
  else if bp.planted ≠ 0 then
    .instances ((s.instructions.filter (fun bi => decide (bp.id ∈ bi.refs))).map
      (fun bi => (bi.ctx, bi.error, bi.address)))
  else if bp.error ≠ 0 then .error bp.error bp.err_msg
  else .none

/-- Source `address_expression_error`, with `errno` and the message passed in. -/
def address_expression_error (bp : BreakpointInfo) (errno : Nat) (msg : String) :
    BreakpointInfo :=
  if bp.error ≠ 0 then bp
  else { bp with error := errno,
                 err_msg := some ("Invalid breakpoint address '" ++ bp.address.getD "" ++
                   "': " ++ msg) }

/-- The tail of `plant_breakpoint_in_context`, from the growth of `refs` on:
`bp` is pushed on the ref list of the `n`-th entry. -/
def push_ref (s : Agent) (n : Nat) (bp : BreakpointInfo) (ctx : Context) :
    Agent × BreakpointInfo :=
  match s.instructions[n]? with
  | none => (s, bp)
  | some bi =>
    let bi1 := { bi with refs := bi.refs ++ [bp.id],
                         ctx_cnt := if bi.ctx ≠ ctx.id then bi.ctx_cnt + 1 else bi.ctx_cnt }
    let s1 := s.set_instruction n bi1
    if bi1.error ≠ 0 then
      (s1, if bp.error = 0 then { bp with error := bi1.error } else bp)
    else (s1, { bp with planted := bp.planted + 1, hit_count := 0 })

/-- Source `plant_breakpoint_in_context`. -/
def plant_breakpoint_in_context (s : Agent) (bp : BreakpointInfo) (ctx : Context)
    (address : Nat) : Agent × BreakpointInfo :=
  match find_instruction s ctx address with
  | (none, s1) => push_ref (add_instruction s1 ctx address) s1.instructions.length bp ctx
  | (some n, s1) =>
    if bp.planted ≠ 0 ∧ bp.id ∈ ((s1.instructions[n]?).getD default).refs then (s1, bp)
    else push_ref s1 n bp ctx

/-- Frame used by `plant_breakpoint` for a context. -/
def frame_of (ctx : Context) : Frame :=
  if context_has_state ctx then .STACK_TOP_FRAME else .STACK_NO_FRAME

/-- Body of the loop of `plant_breakpoint` over `context_root`, for the context
`ctx`; `csa` is `context_sensitive_address` and `v` the value of the address
expression evaluated without context. -/
def plant_breakpoint_context (sv : Services) (csa : Bool) (v : Value)
    (st : Agent × BreakpointInfo) (ctx : Context) : Agent × BreakpointInfo :=
  let s := st.1
  let bp := st.2
  if ctx.exited = true ∨ ctx.exiting = true then st
  else if is_running ctx = true then st
  else if (match bp.condition with
      | none => false
      | some cond =>
        match sv.evaluate_expression (some ctx) (frame_of ctx) cond with
        | .ok c => !sv.value_to_boolean c
        | .error _ => false) = true then st
  else if csa = true then
    match bp.address with
    | some addr =>
      match sv.evaluate_expression (some ctx) (frame_of ctx) addr with
      | .error e => (s, address_expression_error bp e.1 e.2)
      | .ok w =>
        if w.type ≠ .VALUE_INT ∧ w.type ≠ .VALUE_UNS then
          (s, address_expression_error bp ERR_INV_EXPRESSION "Must be integer number")
        else plant_breakpoint_in_context s bp ctx w.value
    | none =>
      match bp.file with
      | some file =>
        if (match ctx.parent with
            | some par => decide (ctx.mem = (s.ctx par).mem)
            | none => false) = true then st
        else
          let r := sv.line_to_address ctx file bp.line bp.column
          let st1 := r.1.foldl (fun st a => plant_breakpoint_in_context st.1 st.2 ctx a) st
          if r.2 ≠ 0 then
            if st1.2.error = 0 then
              (st1.1, { st1.2 with error := r.2, err_msg := some (sv.errno_to_str r.2) })
            else st1
          else st1
      | none => st
  else
    if bp.condition = none ∧ (match ctx.parent with
        | some par => decide (ctx.mem = (s.ctx par).mem)
        | none => false) = true then st
    else plant_breakpoint_in_context s bp ctx v.value

/-- The loop of `plant_breakpoint` over `context_root` and its last line. -/
def plant_breakpoint_contexts (sv : Services) (csa : Bool) (v : Value) (s : Agent)
    (bp : BreakpointInfo) : Agent × BreakpointInfo :=
  let st := s.contexts.foldl (plant_breakpoint_context sv csa v) (s, bp)
  if st.2.planted ≠ 0 then (st.1, { st.2 with error := 0 }) else st

/-- Source `plant_breakpoint` (with `SERVICE_LineNumbers`). -/
def plant_breakpoint (sv : Services) (s : Agent) (bp : BreakpointInfo) :
    Agent × BreakpointInfo :=
  let bp := { bp with error := 0, err_msg := none }
  match bp.address with
  | some addr =>
    match sv.evaluate_expression none .STACK_NO_FRAME addr with
    | .error e =>
      if e.1 ≠ ERR_INV_CONTEXT then (s, address_expression_error bp e.1 e.2)
      else plant_breakpoint_contexts sv true default s bp
    | .ok v =>
      if v.type ≠ .VALUE_INT ∧ v.type ≠ .VALUE_UNS then
        (s, address_expression_error bp ERR_INV_EXPRESSION "Must be integer number")
      else plant_breakpoint_contexts sv false v s bp
  | none =>
    match bp.file with
    | some _ => plant_breakpoint_contexts sv true default s bp
    | none => (s, { bp with error := ERR_INV_EXPRESSION })

/-- The loop of `event_replant_breakpoints` over the registry: the breakpoints
kept and the state with the updated table and output. -/
def replant_loop (sv : Services) : List BreakpointInfo → Agent → List BreakpointInfo × Agent
  | [], s => ([], s)
  | bp :: l, s =>
    if bp.deleted = true then replant_loop sv l s
    else
      let bp0 := { bp with planted := 0 }
      let r := if bp0.enabled = true ∧ bp0.unsupported = [] then plant_breakpoint sv s bp0
               else (s, bp0)
      let r1 :=
        if r.2.status_unsupported ≠ decide (r.2.unsupported ≠ []) ∨
            r.2.status_error ≠ r.2.error ∨ r.2.status_planted ≠ r.2.planted then
          ({ r.1 with out := r.1.out ++ [(Dest.bcg, Event.status r.2.id
                (write_breakpoint_status r.1 r.2))] },
           { r.2 with status_unsupported := decide (r.2.unsupported ≠ []),
                      status_error := r.2.error, status_planted := r.2.planted })
        else r
      let r2 := replant_loop sv l r1.1
      (r1.2 :: r2.1, r2.2)

/-- Source `event_replant_breakpoints`: one replant pass. -/
def event_replant_breakpoints (sv : Services) (s : Agent) : Agent :=
  let s1 := clear_instruction_refs { s with replanting := false }
  let r := replant_loop sv s1.breakpoints s1
  delete_unused_instructions { r.2 with breakpoints := r.1 }

/-- Source `replant_breakpoints`: posts the replant pass unless one is
pending. -/
def replant_breakpoints (s : Agent) : Agent :=
  if s.breakpoints = [] ∧ s.instructions = [] then s
  else if s.replanting = true then s
  else { s with replanting := true }

/-! ## Breakpoint registry -/

/-- Source `find_breakpoint`: the index in the registry of the breakpoint with
this id. -/
def find_breakpoint (s : Agent) (id : String) : Option Nat :=
  find_index (fun bp => bp.id == id) s.breakpoints

/-- Source `find_breakpoint_ref`, for the breakpoint with the id `bp`: the
index of the ref that channel `inp` holds on it. -/
def find_breakpoint_ref (s : Agent) (bp : String) (inp : Nat) : Option Nat :=
  find_index (fun r => r.bp == bp && r.inp == inp) s.refs

/-- The test of `copy_breakpoint_info` on `id`; the state is `dst` and `res`. -/
def copy_id (src : BreakpointInfo) (r : BreakpointInfo × Bool) : BreakpointInfo × Bool :=
  if r.1.id ≠ src.id then ({ r.1 with id := src.id }, true) else r

/-- The test of `copy_breakpoint_info` on `address` (`str_equ` on two strings
that may be `NULL`). -/
def copy_address (src : BreakpointInfo) (r : BreakpointInfo × Bool) : BreakpointInfo × Bool :=
  if r.1.address ≠ src.address then ({ r.1 with address := src.address }, true) else r

/-- The test of `copy_breakpoint_info` on `condition`. -/
def copy_condition (src : BreakpointInfo) (r : BreakpointInfo × Bool) : BreakpointInfo × Bool :=
  if r.1.condition ≠ src.condition then ({ r.1 with condition := src.condition }, true) else r

/-- The test of `copy_breakpoint_info` on `file`. -/
def copy_file (src : BreakpointInfo) (r : BreakpointInfo × Bool) : BreakpointInfo × Bool :=
  if r.1.file ≠ src.file then ({ r.1 with file := src.file }, true) else r

/-- The test of `copy_breakpoint_info` on `line`. -/
def copy_line (src : BreakpointInfo) (r : BreakpointInfo × Bool) : BreakpointInfo × Bool :=
  if r.1.line ≠ src.line then ({ r.1 with line := src.line }, true) else r

/-- The test of `copy_breakpoint_info` on `column`. -/
def copy_column (src : BreakpointInfo) (r : BreakpointInfo × Bool) : BreakpointInfo × Bool :=
  if r.1.column ≠ src.column then ({ r.1 with column := src.column }, true) else r

/-- The test of `copy_breakpoint_info` on `ignore_count`. -/
def copy_ignore_count (src : BreakpointInfo) (r : BreakpointInfo × Bool) :
    BreakpointInfo × Bool :=
  if r.1.ignore_count ≠ src.ignore_count then
    ({ r.1 with ignore_count := src.ignore_count }, true) else r

/-- The test of `copy_breakpoint_info` on `enabled`. -/
def copy_enabled (src : BreakpointInfo) (r : BreakpointInfo × Bool) : BreakpointInfo × Bool :=
  if r.1.enabled ≠ src.enabled then ({ r.1 with enabled := src.enabled }, true) else r

/-- The test of `copy_breakpoint_info` on `unsupported`. It compares the two
pointers; the list of `src` is freshly allocated by
`read_breakpoint_properties`, so they are equal only when both are `NULL`. -/
def copy_unsupported (src : BreakpointInfo) (r : BreakpointInfo × Bool) :
    BreakpointInfo × Bool :=
  if ¬ (r.1.unsupported = [] ∧ src.unsupported = []) then
    ({ r.1 with unsupported := src.unsupported }, true) else r

/-- Source `copy_breakpoint_info`: the updated `dst` and the "changed" bit,
through the tests of the function in their order. -/
def copy_breakpoint_info (dst src : BreakpointInfo) : BreakpointInfo × Bool :=
  copy_unsupported src (copy_enabled src (copy_ignore_count src (copy_column src
    (copy_line src (copy_file src (copy_condition src (copy_address src
      (copy_id src (dst, false)))))))))

/-- A `BreakpointInfo` as `loc_alloc_zero` returns it. -/
def zero_breakpoint : BreakpointInfo :=
  { id := "", enabled := false, planted := 0, deleted := false, error := 0, err_msg := none,
    address := none, condition := none, file := none, line := 0, column := 0,
    ignore_count := 0, hit_count := 0, unsupported := [], status_unsupported := false,
    status_error := 0, status_planted := 0 }

/-- Frame appended to an output stream. -/
def send (s : Agent) (d : Dest) (e : Event) : Agent :=
  { s with out := s.out ++ [(d, e)] }

/-- Source `add_breakpoint` for channel `c`. -/
def add_breakpoint (s : Agent) (c : Nat) (bp : BreakpointInfo) : Agent :=
  let found := find_breakpoint s bp.id
  let p0 := match found with
    | some n => (s.breakpoints[n]?).getD zero_breakpoint
    | none => zero_breakpoint
  let r := copy_breakpoint_info p0 bp
  let chng := r.2
  let p := if r.1.deleted = true then { r.1 with deleted := false } else r.1
  let added := decide (found = none) || r.1.deleted
  let s1 := { s with breakpoints := match found with
    | some n => s.breakpoints.set n p
    | none => s.breakpoints ++ [p] }
  let s2 := if find_breakpoint_ref s1 p.id c = none then
      { s1 with refs := s1.refs ++ [{ inp := c, bp := p.id }] } else s1
  let s3 := if chng = true ∨ added = true then
      (if p.planted ≠ 0 ∨ (p.enabled = true ∧ p.unsupported = []) then replant_breakpoints s2
       else s2)
    else s2
  if added = true then send s3 .bcg (.contextAdded p)
  else if chng = true then send s3 .bcg (.contextChanged p)
  else s3

/-- Source `remove_breakpoint` for the `n`-th breakpoint of the registry
(`free_bp` unlinks it). -/
def remove_breakpoint (s : Agent) (n : Nat) : Agent :=
  match s.breakpoints[n]? with
  | none => s
  | some bp =>
    let s1 := send s .bcg (.contextRemoved bp.id)
    if bp.planted ≠ 0 then
      replant_breakpoints { s1 with breakpoints := s1.breakpoints.set n { bp with deleted := true } }
    else { s1 with breakpoints := s1.breakpoints.eraseIdx n }

/-- Source `remove_ref` for the `k`-th ref of the table. -/
def remove_ref (s : Agent) (k : Nat) : Agent :=
  match s.refs[k]? with
  | none => s
  | some br =>
    let s1 := { s with refs := s.refs.eraseIdx k }
    if s1.refs.all (fun r => r.bp != br.bp) = true then
      match find_breakpoint s1 br.bp with
      | some n => remove_breakpoint s1 n
      | none => s1
    else s1

/-- Source `delete_breakpoint_refs`: every ref of channel `c` is removed, in
the order of the table. -/
def delete_breakpoint_refs (s : Agent) (c : Nat) : Agent :=
  (s.refs.filter (fun r => r.inp == c)).foldl (fun s br =>
    match find_index (fun r => r == br) s.refs with
    | some k => remove_ref s k
    | none => s) s

/-- Source `command_ini_bps` (command `set`) for a well-formed frame: `arg` is
`none` for `null`, else the breakpoints read by `read_breakpoint_properties`. -/
def command_ini_bps (s : Agent) (token : String) (c : Nat)
    (arg : Option (List BreakpointInfo)) : Agent :=
  let s1 := s.breakpoints.foldl (fun st bp =>
    if bp.deleted = true then st
    else send (send st (.chan c) (.contextAdded bp)) (.chan c)
      (.status bp.id (write_breakpoint_status st bp))) s
  let s2 := delete_breakpoint_refs s1 c
  let s3 := (arg.getD []).foldl (fun st bp => add_breakpoint st c bp) s2
  send s3 (.chan c) (.reply token 0)

/-- Source `command_bp_add` for a well-formed frame. -/
def command_bp_add (s : Agent) (token : String) (c : Nat) (bp : BreakpointInfo) : Agent :=
  send (add_breakpoint s c bp) (.chan c) (.reply token 0)

/-- Source `command_bp_change` for a well-formed frame. -/
def command_bp_change (s : Agent) (token : String) (c : Nat) (bp : BreakpointInfo) : Agent :=
  send (add_breakpoint s c bp) (.chan c) (.reply token 0)

/-- Body of the loop of `command_bp_enable` for one id. -/
def enable_breakpoint (s : Agent) (id : String) : Agent :=
  match find_breakpoint s id with
  | none => s
  | some n =>
    match s.breakpoints[n]? with
    | none => s
    | some bp =>
      if bp.enabled = false then
        let bp1 := { bp with enabled := true }
        let s1 := { s with breakpoints := s.breakpoints.set n bp1 }
        let s2 := if bp1.deleted = false ∧ bp1.unsupported = [] then replant_breakpoints s1 else s1
        send s2 .bcg (.contextChanged bp1)
      else s

/-- Source `command_bp_enable` for a well-formed frame. -/
def command_bp_enable (s : Agent) (token : String) (c : Nat) (ids : Option (List String)) :
    Agent :=
  send ((ids.getD []).foldl enable_breakpoint s) (.chan c) (.reply token 0)

/-- Body of the loop of `command_bp_disable` for one id. -/
def disable_breakpoint (s : Agent) (id : String) : Agent :=
  match find_breakpoint s id with
  | none => s
  | some n =>
    match s.breakpoints[n]? with
    | none => s
    | some bp =>
      if bp.enabled = true then
        let bp1 := { bp with enabled := false }
        let s1 := { s with breakpoints := s.breakpoints.set n bp1 }
        let s2 := if bp1.planted ≠ 0 then replant_breakpoints s1 else s1
        send s2 .bcg (.contextChanged bp1)
      else s

/-- Source `command_bp_disable` for a well-formed frame. -/
def command_bp_disable (s : Agent) (token : String) (c : Nat) (ids : Option (List String)) :
    Agent :=
  send ((ids.getD []).foldl disable_breakpoint s) (.chan c) (.reply token 0)

/-- Body of the loop of `command_bp_remove` for one id. -/
def remove_breakpoint_id (c : Nat) (s : Agent) (id : String) : Agent :=
  match find_breakpoint s id with
  | none => s
  | some _ =>
    match find_breakpoint_ref s id c with
    | some k => remove_ref s k
    | none => s

/-- Source `command_bp_remove` for a well-formed frame. -/
def command_bp_remove (s : Agent) (token : String) (c : Nat) (ids : Option (List String)) :
    Agent :=
  send ((ids.getD []).foldl (remove_breakpoint_id c) s) (.chan c) (.reply token 0)

/-- The state after `ini_breakpoints_service`: empty registry and table. -/
def ini_breakpoints_service (break_inst : List Nat) (contexts : List Context)
    (target : Target) : Agent :=
  { BREAK_INST := break_inst, contexts := contexts, breakpoints := [], refs := [],
    instructions := [], replanting := false, target := target, out := [] }

/-! ## Condition and ignore count -/

/-- The ignore-count test at the end of the loop body of
`evaluate_breakpoint_condition`: the breakpoint with its new `hit_count`, and
whether the loop returns 1 (`true`) or continues. -/
def ignore_count_step (bp : BreakpointInfo) : BreakpointInfo × Bool :=
  if bp.ignore_count > 0 then
    if bp.hit_count + 1 < bp.ignore_count then ({ bp with hit_count := bp.hit_count + 1 }, false)
    else ({ bp with hit_count := 0 }, true)
  else (bp, true)

/-- The loop of `evaluate_breakpoint_condition` over the ref list. A ref whose
breakpoint is not in the registry is passed over. -/
def evaluate_refs (sv : Services) (ctx : Context) : List String → Agent → Int × Agent
  | [], s => (0, s)
  | id :: l, s =>
    match find_breakpoint s id with
    | none => evaluate_refs sv ctx l s
    | some n =>
      match s.breakpoints[n]? with
      | none => evaluate_refs sv ctx l s
      | some bp =>
        if bp.deleted = true then evaluate_refs sv ctx l s
        else if bp.unsupported ≠ [] then evaluate_refs sv ctx l s
        else if bp.enabled = false then evaluate_refs sv ctx l s
        else
          match (match bp.condition with
              | none => some true
              | some cond =>
                match sv.evaluate_expression (some ctx) .STACK_TOP_FRAME cond with
                | .error _ => none
                | .ok v => some (sv.value_to_boolean v)) with
          | none => (1, s)
          | some false => evaluate_refs sv ctx l s
          | some true =>
            let r := ignore_count_step bp
            let s1 := { s with breakpoints := s.breakpoints.set n r.1 }
            if r.2 = true then (1, s1) else evaluate_refs sv ctx l s1

/-- Source `evaluate_breakpoint_condition`: the value returned and the state
after the call. -/
def evaluate_breakpoint_condition (sv : Services) (s : Agent) (ctx : Context) : Int × Agent :=
  match find_instruction s ctx ctx.pc with
  | (none, s1) => (0, s1)
  | (some n, s1) => evaluate_refs sv ctx ((s1.instructions[n]?).getD default).refs s1

/-- Source `is_breakpoint_address`. -/
def is_breakpoint_address (s : Agent) (ctx : Context) (address : Nat) : Bool × Agent :=
  match find_instruction s ctx address with
  | (none, s1) => (false, s1)
  | (some n, s1) =>
    let bi := (s1.instructions[n]?).getD default
    (!bi.skip && decide (bi.error = 0), s1)

/-- The breakpoint with the id `id` passes the filters of
`evaluate_breakpoint_condition` that do not depend on the ignore count: it is
in the registry, not deleted, has no unsupported attribute, is enabled, and has
no condition or a condition that evaluates to true in the top frame of `ctx`. -/
def passes_filters (sv : Services) (s : Agent) (ctx : Context) (id : String) : Prop :=
  ∃ (k : Nat) (bp : BreakpointInfo), find_breakpoint s id = some k ∧
    s.breakpoints[k]? = some bp ∧ bp.deleted = false ∧ bp.unsupported = [] ∧
    bp.enabled = true ∧
    (bp.condition = none ∨ ∃ (cond : String) (v : Value), bp.condition = some cond ∧
      sv.evaluate_expression (some ctx) .STACK_TOP_FRAME cond = .ok v ∧
      sv.value_to_boolean v = true)

/-- The breakpoint with the id `id`, if in the registry, has `ignore_count = 0`
and a condition, if any, that evaluates without error in the top frame of
`ctx`. -/
def plain_ref (sv : Services) (s : Agent) (ctx : Context) (id : String) : Prop :=
  ∀ (k : Nat) (bp : BreakpointInfo), find_breakpoint s id = some k →
    s.breakpoints[k]? = some bp →
    bp.ignore_count = 0 ∧ ∀ cond, bp.condition = some cond →
      ∃ v, sv.evaluate_expression (some ctx) .STACK_TOP_FRAME cond = .ok v

/-- The breakpoint id `x` occurs in the ref list of some break instruction of
the table `l`. -/
def referenced (l : List BreakInstruction) (x : String) : Prop :=
  ∃ bi ∈ l, x ∈ bi.refs

/-- The fields of a breakpoint that planting does not touch are the same in
`a` and `b`. -/
def same_properties (a b : BreakpointInfo) : Prop :=
  a.id = b.id ∧ a.enabled = b.enabled ∧ a.deleted = b.deleted ∧
    a.unsupported = b.unsupported ∧ a.address = b.address ∧ a.condition = b.condition ∧
    a.file = b.file ∧ a.line = b.line ∧ a.column = b.column ∧
    a.ignore_count = b.ignore_count

/-- What one step of planting does to the breakpoint record `a`, giving `b`,
and to the table `l`, giving `l1`: only the ref of the breakpoint can appear,
the counter does not decrease, a counter raised means a ref, and a ref without
a raised counter means an error. -/
structure plant_step (l : List BreakInstruction) (a : BreakpointInfo)
    (l1 : List BreakInstruction) (b : BreakpointInfo) : Prop where
  props : same_properties b a
  frame : ∀ x, x ≠ a.id → (referenced l1 x ↔ referenced l x)
  keep : referenced l a.id → referenced l1 a.id
  mono : a.planted ≤ b.planted
  planted_ref : (a.planted > 0 → referenced l a.id) → b.planted > 0 → referenced l1 a.id
  ref_error : (referenced l a.id → a.planted > 0 ∨ a.error ≠ 0) →
    referenced l1 a.id → b.planted > 0 ∨ b.error ≠ 0

/-- The state `s1` has the registry, the refs of the channels, the contexts,
the break instruction and the replant latch of `s`. -/
def same_registry (s s1 : Agent) : Prop :=
  s1.BREAK_INST = s.BREAK_INST ∧ s1.contexts = s.contexts ∧ s1.breakpoints = s.breakpoints ∧
    s1.refs = s.refs ∧ s1.replanting = s.replanting

/-- The relation between the `planted` counter of a breakpoint and the table
`l` that a replant pass establishes: the counter is positive exactly when the
breakpoint is enabled, has no unsupported attribute, has no error and is in a
ref list; and a breakpoint in a ref list is enabled and supported. -/
def planted_iff (l : List BreakInstruction) (bp : BreakpointInfo) : Prop :=
  (bp.planted > 0 ↔ (bp.enabled = true ∧ bp.unsupported = [] ∧ bp.error = 0 ∧
    referenced l bp.id)) ∧
  (referenced l bp.id → bp.enabled = true ∧ bp.unsupported = [])

/-- What `plant_breakpoint` establishes for a breakpoint that enters it
unplanted and unreferenced. -/
structure planted_post (s : Agent) (bp : BreakpointInfo) (s1 : Agent) (bp1 : BreakpointInfo) :
    Prop where
  props : same_properties bp1 bp
  registry : same_registry s s1
  frame : ∀ x, x ≠ bp.id → (referenced s1.instructions x ↔ referenced s.instructions x)
  iff : bp1.planted > 0 ↔ (bp1.error = 0 ∧ referenced s1.instructions bp.id)

/-- The record `p` that `add_breakpoint` leaves in the registry for the
properties `bp`. -/
def stored_record (s : Agent) (bp : BreakpointInfo) : BreakpointInfo :=
  let p0 := match find_breakpoint s bp.id with
    | some n => (s.breakpoints[n]?).getD zero_breakpoint
    | none => zero_breakpoint
  if (copy_breakpoint_info p0 bp).1.deleted = true then
    { (copy_breakpoint_info p0 bp).1 with deleted := false }
  else (copy_breakpoint_info p0 bp).1

/-- A breakpoint with the id `id` is in the registry and not flagged
deleted. -/
def registered (l : List BreakpointInfo) (id : String) : Prop :=
  ∃ bp ∈ l, bp.id = id ∧ bp.deleted = false

/-- The equivalence of the specification for a user breakpoint `bp` and the
table `l`: `planted > 0` if and only if the breakpoint is enabled, has no
unsupported attribute, has no error and is in the ref list of some break
instruction. -/
def planted_claim (l : List BreakInstruction) (bp : BreakpointInfo) : Prop :=
  bp.planted > 0 ↔ (bp.enabled = true ∧ bp.unsupported = [] ∧ bp.error = 0 ∧
    ∃ bi ∈ l, bp.id ∈ bi.refs)

/-- The invariant of the registry: the ids are distinct, and while no replant
is pending no breakpoint is flagged deleted and each satisfies
`planted_claim`. -/
def registry_inv (s : Agent) : Prop :=
  (s.breakpoints.map (fun bp => bp.id)).Nodup ∧
  (s.replanting = false → ∀ bp ∈ s.breakpoints,
    bp.deleted = false ∧ planted_claim s.instructions bp)

/-- One step of the breakpoint engine: a Breakpoints command of a channel, a
replant pass with the collaborators as they answer at that time, or a change of
the contexts and of the target memory between two of them. -/
inductive Step : Agent → Agent → Prop where
  | set (s : Agent) (token : String) (c : Nat) (arg : Option (List BreakpointInfo)) :
      Step s (command_ini_bps s token c arg)
  | add (s : Agent) (token : String) (c : Nat) (bp : BreakpointInfo) :
      Step s (command_bp_add s token c bp)
  | change (s : Agent) (token : String) (c : Nat) (bp : BreakpointInfo) :
      Step s (command_bp_change s token c bp)
  | enable (s : Agent) (token : String) (c : Nat) (ids : Option (List String)) :
      Step s (command_bp_enable s token c ids)
  | disable (s : Agent) (token : String) (c : Nat) (ids : Option (List String)) :
      Step s (command_bp_disable s token c ids)
  | remove (s : Agent) (token : String) (c : Nat) (ids : Option (List String)) :
      Step s (command_bp_remove s token c ids)
  | replant (s : Agent) (sv : Services) : Step s (event_replant_breakpoints sv s)
  | context (s : Agent) (contexts : List Context) (target : Target) :
      Step s { s with contexts := contexts, target := target }

/-- The states reachable from the state after `ini_breakpoints_service` by
commands and replant passes. -/
inductive Reachable : Agent → Prop where
  | init (break_inst : List Nat) (contexts : List Context) (target : Target) :
      Reachable (ini_breakpoints_service break_inst contexts target)
  | step (s s1 : Agent) : Reachable s → Step s s1 → Reachable s1

/-! ## Darwin context module (`context-darwin.c`) -/

/-- Modelled from the spec: `SigSet` (`sigsets.h` is not among the sources) as
the list of the signal numbers that are in the set. -/
abbrev SigSet := List Nat

/-- Modelled from the spec: `sigset_get`, whether signal `bit` is in the set. -/
def sigset_get (set : SigSet) (bit : Nat) : Bool := decide (bit ∈ set)

/-- Modelled from the spec: `sigset_set`, which puts signal `bit` in the set or
takes it out. -/
def sigset_set (set : SigSet) (bit : Nat) (value : Bool) : SigSet :=
  if value = true then (if bit ∈ set then set else set ++ [bit])
  else set.filter (fun n => n != bit)

/-- The least number of a list. -/
def least : List Nat → Option Nat
  | [] => none
  | n :: l =>
    match least l with
    | none => some n
    | some m => some (min n m)

/-- Modelled from the spec: `sigset_get_next`, the first signal of the set at
or after `*bit` (stored to `*bit`), if there is one. -/
def sigset_get_next (set : SigSet) (bit : Nat) : Option Nat :=
  least (set.filter (fun n => decide (bit ≤ n)))

/-- Signal numbers of Darwin `<sys/signal.h>`. -/
def SIGTRAP : Nat := 5

/-- Signal number of Darwin `<sys/signal.h>`. -/
def SIGKILL : Nat := 9

/-- Signal number of Darwin `<sys/signal.h>`. -/
def SIGSTOP : Nat := 17

/-- Error number of Darwin `<sys/errno.h>`. -/
def ESRCH : Nat := 3

/-- A thread context of `context-darwin.c`: the `Context` fields that
`breakpoints.c` reads (`ctx`, of which `pc` is `get_regs_PC(ctx)`), the other
`Context` fields the module uses, and `ContextExtensionDarwin`
(`EXT(ctx)`). `regs_error` is 0 for `NULL`, else the `errno` of the report;
`eflags` is `EXT(ctx)->regs->__eflags` (`__rflags`). -/
structure ContextDarwin where
  ctx : Context
  signal : Nat
  stopped_by_bp : Bool
  stopped_by_exception : Bool
  pending_signals : SigSet
  sig_dont_stop : SigSet
  sig_dont_pass : SigSet
  pid : Nat
  eflags : Nat
  end_of_step : Bool
  ptrace_event : Nat
  syscall_enter : Bool
  syscall_exit : Bool
  syscall_id : Nat
  syscall_pc : Nat
  regs_error : Nat
  regs_dirty : Bool
  pending_step : Bool
deriving DecidableEq, Repr, Inhabited

/-- The register snapshot that `thread_get_state` stores in `EXT(ctx)->regs`. -/
structure REG_SET where
  pc : Nat
  eflags : Nat
  regs : List Nat
deriving DecidableEq, Repr, Inhabited

/-- Events sent to the context listeners. -/
inductive ContextEvent where
  | changed (id : Nat)
  | stopped (id : Nat)
  | started (id : Nat)
deriving DecidableEq, Repr, Inhabited

/-- Store through a `Context *`: the object with this id in the context
table is `ctx`. -/
def Agent.put_context (s : Agent) (ctx : Context) : Agent :=
  { s with contexts := s.contexts.map (fun c => if c.id = ctx.id then ctx else c) }

/-- The block of `event_pid_stopped` that records the signal of the stop:
a signal other than `SIGSTOP` and `SIGTRAP` becomes pending, and requests an
intercept unless it is in `sig_dont_stop`. -/
def record_signal (c : ContextDarwin) (signal : Nat) : ContextDarwin :=
  if signal ≠ SIGSTOP ∧ signal ≠ SIGTRAP then
    if sigset_get c.sig_dont_stop signal = false then
      { c with pending_signals := sigset_set c.pending_signals signal true,
               ctx := { c.ctx with pending_intercept := true } }
    else { c with pending_signals := sigset_set c.pending_signals signal true }
  else c

/-- The block of `event_pid_stopped` that marks the thread stopped and reads
its register snapshot: the context, and `pc1`. -/
def read_snapshot (c : ContextDarwin) (signal event : Nat) (stopped_by_exception : Bool)
    (state : Except Nat REG_SET) : ContextDarwin × Nat :=
  let c : ContextDarwin :=
    { c with end_of_step := false, ptrace_event := event, signal := signal,
             stopped_by_bp := false, stopped_by_exception := stopped_by_exception,
             ctx := { c.ctx with stopped := true } }
  let pc0 := if c.regs_error ≠ 0 then 0 else c.ctx.pc
  let c : ContextDarwin := { c with regs_error := 0 }
  let c : ContextDarwin := match state with
    | .error e => { c with regs_error := e }
    | .ok r => { c with ctx := { c.ctx with pc := r.pc, regs := r.regs }, eflags := r.eflags }
  let pc1 := match state with
    | .error _ => 0
    | .ok r => r.pc
  let c : ContextDarwin :=
    if c.syscall_enter = false ∨ c.regs_error ≠ 0 ∨ pc0 ≠ pc1 then
      { c with syscall_enter := false, syscall_exit := false, syscall_id := 0, syscall_pc := 0 }
    else c
  (c, pc1)

/-- The block of `event_pid_stopped` for a `SIGTRAP` stop without ptrace event
and outside a syscall: `stopped_by_bp`, `end_of_step` and the roll-back of the
cached PC. -/
def breakpoint_stop (w : Nat) (s : Agent) (c : ContextDarwin) (pc1 : Nat) :
    Agent × ContextDarwin :=
  let break_size := BREAK_SIZE s
  let r : Bool × Agent := if c.regs_error ≠ 0 then (false, s)
    else is_breakpoint_address s c.ctx (address_sub w pc1 break_size)
  let c : ContextDarwin := { c with stopped_by_bp := r.1 }
  let c : ContextDarwin := { c with end_of_step := !c.stopped_by_bp && c.pending_step }
  let c : ContextDarwin := if c.stopped_by_bp = true then
      { c with ctx := { c.ctx with pc := address_sub w pc1 break_size } }
    else c
  (r.2, c)

/-- Source `event_pid_stopped` (context-darwin.c) from the point where the
context of the pid is known (`ctx != NULL`). `w` is the width of
`ContextAddress`, `state` the outcome of `thread_get_state` (the snapshot, or
`errno`), `get_break_instruction` yields `BREAK_SIZE`. Returns the agent,
the context and the events sent. -/
def event_pid_stopped (w : Nat) (s : Agent) (c : ContextDarwin) (signal event : Nat)
    (syscall : Bool) (state : Except Nat REG_SET) : Agent × ContextDarwin × List ContextEvent :=
  let stopped_by_exception :=
    decide (signal ≠ SIGSTOP ∧ signal ≠ SIGTRAP) && !sigset_get c.sig_dont_stop signal
  let c : ContextDarwin := record_signal c signal
  if c.ctx.stopped = true then (s.put_context c.ctx, c, [.changed c.ctx.id])
  else
    let r := read_snapshot c signal event stopped_by_exception state
    let s := s.put_context r.1.ctx
    let r2 : Agent × ContextDarwin :=
      if signal = SIGTRAP ∧ event = 0 ∧ syscall = false then breakpoint_stop w s r.1 r.2
      else (s, r.1)
    let c : ContextDarwin := { r2.2 with pending_step := false }
    (r2.1.put_context c.ctx, c, [.stopped c.ctx.id])

/-! ## ARM next-address prediction (`machine/arm/tcf/cpudefs-mdep.c`) -/

/-- Source `ContextExtensionARM`: the fields of software stepping. -/
structure ContextExtensionARM where
  sw_stepping : Bool
  opcode : List Nat
  addr : Nat
deriving DecidableEq, Repr, Inhabited

/-- Modelled from the spec: the stopped thread and its process as the ARM
module reaches them through the target primitives of §4.B
(`context_read_reg`, `context_read_mem`, `context_write_mem` are not among the
sources). `regs` is the cached snapshot `uregs[0..16]` (r0..r15, cpsr),
`reg_err i` the error of reading register `i` (0 for none), `mem a` the byte at
address `a`, `rd_err a` and `wr_err a` the OS error of reading and of writing
that byte, `exited` is `grp->exited`, `addr_bits` the width of
`ContextAddress`, `ext` is `EXT(grp)`. -/
structure ArmContext where
  regs : List Nat
  reg_err : Nat → Nat
  mem : Nat → Nat
  rd_err : Nat → Nat
  wr_err : Nat → Nat
  exited : Bool
  addr_bits : Nat
  ext : ContextExtensionARM

/-- Source `BREAK_INST` of the ARM module. -/
def ARM_BREAK_INST : List Nat := [0xf0, 0x01, 0xf0, 0xe7]

/-- Modelled from the spec: `context_read_reg` of §4.B for a register of 4
bytes, which is served from the cached snapshot, under source `read_reg`, which
assembles the little-endian bytes that `context_read_reg` yields into the
value. -/
def arm_read_reg (t : ArmContext) (i : Nat) : Except Nat Nat :=
  if t.reg_err i ≠ 0 then .error (t.reg_err i) else .ok (t.regs.getD i 0 % 2 ^ 32)

/-- Modelled from the spec: `context_read_mem` of §4.B, which fails on an OS
error and otherwise yields the `size` bytes at `address`. -/
def arm_read_mem (t : ArmContext) (address size : Nat) : Except Nat (List Nat) :=
  if first_error t.rd_err address size ≠ 0 then .error (first_error t.rd_err address size)
  else .ok ((List.range size).map (fun i => t.mem (address + i) % 256))

/-- Modelled from the spec: `context_write_mem` of §4.B, which fails, leaving
memory as it is, on an OS error and otherwise stores the first `size` bytes of
`buf` at `address`. -/
def arm_write_mem (t : ArmContext) (address : Nat) (buf : List Nat) (size : Nat) :
    Except Nat ArmContext :=
  if first_error t.wr_err address size ≠ 0 then .error (first_error t.wr_err address size)
  else .ok { t with mem := fun a =>
    if address ≤ a ∧ a < address + size then buf.getD (a - address) 0 else t.mem a }

/-- The `uint32_t` that four bytes of target memory hold (little-endian, as the
bytes of `BREAK_INST` are those of the word `0xe7f001f0`). -/
def le32 (b : List Nat) : Nat :=
  b.getD 0 0 + 256 * b.getD 1 0 + 65536 * b.getD 2 0 + 16777216 * b.getD 3 0

/-- Call of `context_read_mem` into a `uint32_t`. -/
def arm_read_word (t : ArmContext) (address : Nat) : Except Nat Nat :=
  match arm_read_mem t address 4 with
  | .error e => .error e
  | .ok b => .ok (le32 b)

/-- C `x << k` on `uint32_t`; a count of 32 or more, which C leaves undefined,
gives 0 as on the ARM shifter. -/
def shl32 (x k : Nat) : Nat := if k < 32 then (x <<< k) % 2 ^ 32 else 0

/-- C `x >> k` on `uint32_t`; a count of 32 or more, which C leaves undefined,
gives 0 as on the ARM shifter. -/
def shr32 (x k : Nat) : Nat := if k < 32 then (x % 2 ^ 32) >>> k else 0

/-- C `a + b` on `uint32_t`. -/
def add32 (a b : Nat) : Nat := (a + b) % 2 ^ 32

/-- C `a - b` on `uint32_t`. -/
def sub32 (a b : Nat) : Nat := (a % 2 ^ 32 + 2 ^ 32 - b % 2 ^ 32) % 2 ^ 32

/-- C `~a` on `uint32_t`. -/
def not32 (a : Nat) : Nat := 0xffffffff - a % 2 ^ 32

/-- Source `arm_evaluate_condition`; the statics `arm_cpsr` and `arm_instr`
are arguments. -/
def arm_evaluate_condition (arm_cpsr arm_instr : Nat) : Bool :=
  let N := (arm_cpsr >>> 31) &&& 1
  let Z := (arm_cpsr >>> 30) &&& 1
  let C := (arm_cpsr >>> 29) &&& 1
  let V := (arm_cpsr >>> 28) &&& 1
  match arm_instr >>> 28 with
  | 0 => decide (Z ≠ 0)
  | 1 => decide (Z = 0)
  | 2 => decide (C ≠ 0)
  | 3 => decide (C = 0)
  | 4 => decide (N ≠ 0)
  | 5 => decide (N = 0)
  | 6 => decide (V ≠ 0)
  | 7 => decide (V = 0)
  | 8 => decide (C = 0 ∧ Z = 0)
  | 9 => decide (C = 0 ∨ Z = 1)
  | 10 => decide (N = V)
  | 11 => decide (N ≠ V)
  | 12 => decide (Z = 0 ∧ N = V)
  | 13 => decide (Z = 1 ∨ N ≠ V)
  | 15 => false
  | _ => true

/-- Source `arm_calc_shift`. -/
def arm_calc_shift (arm_cpsr shift_type shift_imm val : Nat) : Nat :=
  match shift_type with
  | 0 => shl32 val shift_imm
  | 1 => if shift_imm = 0 then 0 else shr32 val shift_imm
  | 2 =>
    let shift_imm := if shift_imm = 0 then 32 else shift_imm
    if val &&& 0x80000000 ≠ 0 then
      if shift_imm > 32 then 0xffffffff
      else shr32 val shift_imm ||| shl32 0xffffffff (32 - shift_imm)
    else shr32 val shift_imm
  | 3 =>
    if shift_imm = 0 then
      if arm_cpsr &&& (1 <<< 29) ≠ 0 then shr32 val 1 ||| 0x80000000 else shr32 val 1
    else
      let shift_imm := shift_imm &&& 0x1f
      shr32 val shift_imm ||| shl32 val (32 - shift_imm)
  | _ => val

/-- Source `arm_get_next_bx`: the new `arm_next`. -/
def arm_get_next_bx (t : ArmContext) (arm_instr : Nat) : Except Nat Nat :=
  arm_read_reg t (arm_instr &&& 0xf)

/-- The decoding of operand 2 in `arm_get_next_data_processing`: an error of a
register read, `none` where the function returns 0 at once, else `op2val`. -/
def arm_operand2 (t : ArmContext) (arm_instr arm_cpsr : Nat) : Except Nat (Option Nat) :=
  let I := decide (arm_instr &&& 0x02000000 ≠ 0)
  let opcode := (arm_instr &&& 0x01e00000) >>> 21
  let operand2 := arm_instr &&& 0x00000fff
  if I = true then
    let shift_dist := (operand2 &&& 0x0f00) >>> 8
    let shift_const := operand2 &&& 0x00ff
    let shift_dist := (shift_dist * 2) % 256
    .ok (some (shr32 shift_const shift_dist ||| shl32 shift_const (32 - shift_dist)))
  else
    let Rm := (operand2 &&& 0x000f) % 256
    let reg_shift := decide (operand2 &&& 0x0010 ≠ 0)
    let shift_type := ((operand2 &&& 0x0060) >>> 5) % 256
    let dist : Except Nat (Option Nat) :=
      if reg_shift = true then
        let Rs := ((operand2 &&& 0x0f00) >>> 8) % 256
        if operand2 &&& 0x00800 ≠ 0 then .ok none
        else
          match arm_read_reg t Rs with
          | .error e => .error e
          | .ok d => .ok (some d)
      else .ok (some ((operand2 &&& 0x0f80) >>> 7))
    match dist with
    | .error e => .error e
    | .ok none => .ok none
    | .ok (some shift_dist) =>
      match arm_read_reg t Rm with
      | .error e => .error e
      | .ok mval =>
        if shift_type = 0 ∧ shift_dist = 0 ∧ opcode = 13 then .ok (some mval)
        else
          match shift_type with
          | 0 => .ok (some (shl32 mval shift_dist))
          | 1 =>
            let shift_dist := if reg_shift = false ∧ shift_dist = 0 then 32 else shift_dist
            .ok (some (shr32 mval shift_dist))
          | 2 =>
            let shift_dist := if reg_shift = false ∧ shift_dist = 0 then 32 else shift_dist
            if mval &&& 0x80000000 ≠ 0 then
              if shift_dist ≥ 32 then .ok (some 0xffffffff)
              else .ok (some (shr32 mval shift_dist ||| shl32 0xffffffff (32 - shift_dist)))
            else .ok (some (shr32 mval shift_dist))
          | 3 =>
            if reg_shift = false ∧ shift_dist = 0 then
              if arm_cpsr &&& (1 <<< 29) ≠ 0 then .ok (some (shr32 mval 1 ||| 0x80000000))
              else .ok (some (shr32 mval 1))
            else
              let shift_dist := shift_dist &&& 0x1f
              .ok (some (shr32 mval shift_dist ||| shl32 mval (32 - shift_dist)))
          | _ => .ok (some 0)

/-- The `switch (opcode)` of `arm_get_next_data_processing`: the new
`arm_next`. -/
def arm_compute (arm_cpsr opcode nval op2val arm_next : Nat) : Nat :=
  let carry := if arm_cpsr &&& (1 <<< 29) ≠ 0 then 1 else 0
  match opcode with
  | 0 => nval &&& op2val
  | 1 => nval ^^^ op2val
  | 2 => sub32 nval op2val
  | 3 => sub32 op2val nval
  | 4 => add32 nval op2val
  | 5 => add32 (add32 nval op2val) carry
  | 6 => add32 (sub32 nval op2val) carry
  | 7 => add32 (sub32 op2val nval) carry
  | 12 => nval ||| op2val
  | 13 => op2val
  | 14 => nval &&& not32 op2val
  | 15 => not32 op2val
  | _ => arm_next

/-- Source `arm_get_next_data_processing`: the new `arm_next`. -/
def arm_get_next_data_processing (t : ArmContext) (arm_instr arm_cpsr arm_next : Nat) :
    Except Nat Nat :=
  let I := decide (arm_instr &&& 0x02000000 ≠ 0)
  let S := decide (arm_instr &&& 0x00100000 ≠ 0)
  let opcode := (arm_instr &&& 0x01e00000) >>> 21
  let Rn := (arm_instr &&& 0x000f0000) >>> 16
  let Rd := (arm_instr &&& 0x0000f000) >>> 12
  let operand2 := arm_instr &&& 0x00000fff
  if S = false ∧ opcode ≥ 8 ∧ opcode ≤ 11 then .ok arm_next
  else if Rd ≠ 15 then .ok arm_next
  else
    match arm_operand2 t arm_instr arm_cpsr with
    | .error e => .error e
    | .ok none => .ok arm_next
    | .ok (some op2val) =>
      match arm_read_reg t Rn with
      | .error e => .error e
      | .ok nval =>
        let nval :=
          if Rn = 15 then
            if I = false ∧ operand2 &&& 0x0010 ≠ 0 then add32 nval 12 else add32 nval 8
          else nval
        .ok (arm_compute arm_cpsr opcode nval op2val arm_next)

/-- Source `arm_get_next_ldr`: the new `arm_next`. -/
def arm_get_next_ldr (t : ArmContext) (arm_instr arm_cpsr arm_next : Nat) : Except Nat Nat :=
  let w := t.addr_bits
  let I := decide (arm_instr &&& (1 <<< 25) ≠ 0)
  let P := decide (arm_instr &&& (1 <<< 24) ≠ 0)
  let U := decide (arm_instr &&& (1 <<< 23) ≠ 0)
  let B := decide (arm_instr &&& (1 <<< 22) ≠ 0)
  let W := decide (arm_instr &&& (1 <<< 21) ≠ 0)
  let L := decide (arm_instr &&& (1 <<< 20) ≠ 0)
  let Rn := (arm_instr >>> 16) &&& 0xf
  let Rd := (arm_instr >>> 12) &&& 0xf
  let size := if B = true then 1 else 4
  if L = false ∨ Rd ≠ 15 then .ok arm_next
  else
    match arm_read_reg t Rn with
    | .error e => .error e
    | .ok addr =>
      let addr := if Rn = 15 then address_add w addr 8 else addr
      let r : Except Nat (Nat × Nat) :=
        if I = false ∧ P = true then
          let offs := arm_instr &&& 0xfff
          .ok (if U = true then address_add w addr offs else address_sub w addr offs, size)
        else if I = true ∧ P = true then
          let Rm := (arm_instr &&& 0xf) % 256
          match arm_read_reg t Rm with
          | .error e => .error e
          | .ok offs =>
            if arm_instr &&& 0x00000ff0 = 0x00000000 then
              .ok (if U = true then address_add w addr offs else address_sub w addr offs, size)
            else
              let shift_imm := (arm_instr &&& 0x00000f80) >>> 7
              let shift_type := (arm_instr &&& 0x00000060) >>> 5
              let val := arm_calc_shift arm_cpsr shift_type shift_imm offs
              .ok (if U = true then address_add w addr val else address_sub w addr val, size)
        else if P = true ∨ W = true then .ok (addr, 0)
        else .ok (addr, size)
      match r with
      | .error e => .error e
      | .ok (addr, 1) =>
        match arm_read_mem t addr 1 with
        | .error e => .error e
        | .ok bt => .ok (bt.getD 0 0)
      | .ok (addr, 4) => arm_read_word t addr
      | .ok _ => .ok arm_next

/-- The `for` loop of `arm_get_next_ldm`: `addr` advanced by 4 for each of the
registers r0..r14 in the register list. -/
def arm_ldm_offset (w arm_instr addr : Nat) : Nat :=
  (List.range 15).foldl (fun a i =>
    if arm_instr &&& (1 <<< i) ≠ 0 then address_add w a 4 else a) addr

/-- Source `arm_get_next_ldm`: the new `arm_next`. -/
def arm_get_next_ldm (t : ArmContext) (arm_instr arm_next : Nat) : Except Nat Nat :=
  let w := t.addr_bits
  let P := decide (arm_instr &&& (1 <<< 24) ≠ 0)
  let U := decide (arm_instr &&& (1 <<< 23) ≠ 0)
  let S := decide (arm_instr &&& (1 <<< 22) ≠ 0)
  let L := decide (arm_instr &&& (1 <<< 20) ≠ 0)
  let Rn := (arm_instr >>> 16) &&& 0xf
  if L = false ∨ S = true ∨ Rn = 15 then .ok arm_next
  else if arm_instr &&& (1 <<< 15) = 0 then .ok arm_next
  else
    match arm_read_reg t Rn with
    | .error e => .error e
    | .ok addr =>
      let addr := if U = true then arm_ldm_offset w arm_instr addr else addr
      let addr :=
        if P = true then (if U = true then address_add w addr 4 else address_sub w addr 4)
        else addr
      arm_read_word t addr

/-- Source `arm_get_next_branch`: the new `arm_next`. The `int32_t` values are
their two's complement bit patterns. -/
def arm_get_next_branch (arm_pc arm_instr : Nat) : Nat :=
  let imm := arm_instr &&& 0x00FFFFFF
  let imm := if imm &&& 0x00800000 ≠ 0 then imm ||| 0xFF000000 else imm
  let imm := shl32 imm 2
  add32 (add32 arm_pc imm) 8

/-- The first part of `arm_get_next_address`: the registers and the opcode
are read and the opcode is decoded; the result is `arm_next`. -/
def arm_decode (t : ArmContext) : Except Nat Nat :=
  match arm_read_reg t 15 with
  | .error e => .error e
  | .ok addr =>
    match arm_read_reg t 16 with
    | .error e => .error e
    | .ok cpsr =>
      match arm_read_word t addr with
      | .error e => .error e
      | .ok arm_instr =>
        let arm_pc := addr % 2 ^ 32
        let arm_cpsr := cpsr % 2 ^ 32
        let arm_next := add32 arm_pc 4
        if arm_evaluate_condition arm_cpsr arm_instr = true then
          match (arm_instr >>> 25) &&& 7 with
          | 0 | 1 =>
            if arm_instr &&& 0x0ffffff0 = 0x012fff10 then arm_get_next_bx t arm_instr
            else arm_get_next_data_processing t arm_instr arm_cpsr arm_next
          | 2 | 3 => arm_get_next_ldr t arm_instr arm_cpsr arm_next
          | 4 => arm_get_next_ldm t arm_instr arm_next
          | 5 => .ok (arm_get_next_branch arm_pc arm_instr)
          | _ => .ok arm_next
        else .ok arm_next

/-- Source `arm_get_next_address`: `*next_addr`, or `errno`. -/
def arm_get_next_address (t : ArmContext) : Except Nat Nat :=
  match arm_decode t with
  | .error e => .error e
  | .ok addr => if addr ≥ 0xffff0000 then arm_read_reg t 14 else .ok addr

/-- Source `enable_sw_stepping_mode`: `errno` (0 when the function returns
0) and the state. -/
def enable_sw_stepping_mode (t : ArmContext) : Nat × ArmContext :=
  match arm_get_next_address t with
  | .error e => (e, t)
  | .ok addr =>
    let t := { t with ext := { t.ext with addr := addr } }
    match arm_read_mem t t.ext.addr ARM_BREAK_INST.length with
    | .error e => (e, t)
    | .ok opcode =>
      let t := { t with ext := { t.ext with opcode := opcode } }
      match arm_write_mem t t.ext.addr ARM_BREAK_INST ARM_BREAK_INST.length with
      | .error e => (e, t)
      | .ok t => (0, { t with ext := { t.ext with sw_stepping := true } })

/-- Source `disable_sw_stepping_mode`: `errno` (0 when the function returns
0) and the state. -/
def disable_sw_stepping_mode (t : ArmContext) : Nat × ArmContext :=
  if t.ext.sw_stepping = true then
    let t := { t with ext := { t.ext with sw_stepping := false } }
    if t.exited = true then (0, t)
    else
      match arm_write_mem t t.ext.addr t.ext.opcode ARM_BREAK_INST.length with
      | .error e => (e, t)
      | .ok t => (0, t)
  else (0, t)

/-- The number of registers in the register list (bits 15:0) of a load/store
multiple instruction. -/
def ldm_count (instr : Nat) : Nat :=
  (List.range 16).countP (fun i => decide (instr &&& (1 <<< i) ≠ 0))

/-- The architectural slot of PC of an LDM with PC in its register list, the
highest address transferred: `Rn + 4(n-1)` for IA (P = 0, U = 1), `Rn + 4n` for
IB (P = 1, U = 1), `Rn` for DA (P = 0, U = 0) and `Rn - 4` for DB (P = 1,
U = 0), where `n` is the number of registers in the list; computed on
addresses of `w` bits. -/
def ldm_pc_slot (w instr rn : Nat) : Nat :=
  if instr &&& (1 <<< 23) ≠ 0 then
    if instr &&& (1 <<< 24) ≠ 0 then (rn + 4 * ldm_count instr) % 2 ^ w
    else (rn + 4 * (ldm_count instr - 1)) % 2 ^ w
  else
    if instr &&& (1 <<< 24) ≠ 0 then address_sub w rn 4 else rn

/-! ## Base64 (`base64.c`) -/

/-- Source table `int2char`. -/
def int2char : List Char :=
  ['A', 'B', 'C', 'D', 'E', 'F', 'G', 'H',
   'I', 'J', 'K', 'L', 'M', 'N', 'O', 'P',
   'Q', 'R', 'S', 'T', 'U', 'V', 'W', 'X',
   'Y', 'Z', 'a', 'b', 'c', 'd', 'e', 'f',
   'g', 'h', 'i', 'j', 'k', 'l', 'm', 'n',
   'o', 'p', 'q', 'r', 's', 't', 'u', 'v',
   'w', 'x', 'y', 'z', '0', '1', '2', '3',
   '4', '5', '6', '7', '8', '9', '+', '/']

/-- Source table `char2int`. -/
def char2int : List Int :=
  [-1,  -1,  -1,  -1,  -1,  -1,  -1,  -1,
   -1,  -1,  -1,  -1,  -1,  -1,  -1,  -1,
   -1,  -1,  -1,  -1,  -1,  -1,  -1,  -1,
   -1,  -1,  -1,  -1,  -1,  -1,  -1,  -1,
   -1,  -1,  -1,  -1,  -1,  -1,  -1,  -1,
   -1,  -1,  -1,  62,  -1,  -1,  -1,  63,
   52,  53,  54,  55,  56,  57,  58,  59,
   60,  61,  -1,  -1,  -1,  -1,  -1,  -1,
   -1,   0,   1,   2,   3,   4,   5,   6,
    7,   8,   9,  10,  11,  12,  13,  14,
   15,  16,  17,  18,  19,  20,  21,  22,
   23,  24,  25,  -1,  -1,  -1,  -1,  -1,
   -1,  26,  27,  28,  29,  30,  31,  32,
   33,  34,  35,  36,  37,  38,  39,  40,
   41,  42,  43,  44,  45,  46,  47,  48,
   49, 50, 51]

/-- Modelled from the spec: error kind of a malformed Base64 value (the numeric
codes of `errors.h` are not among the sources). -/
def ERR_BASE64 : Nat := 0x20000 + 3

/-- Modelled from the spec: the value that `peek_stream` and `read_stream`
yield on a stream with no character left (`streams.h` is not among the
sources; only that it is negative is used). -/
def MARKER_EOS : Int := -2

/-- Modelled from the spec: `peek_stream` on the characters still to be read. -/
def peek_stream (inp : List Int) : Int := inp.headD MARKER_EOS

/-- Modelled from the spec: `read_stream`, the character read and the rest of
the stream. -/
def read_stream (inp : List Int) : Int × List Int := (inp.headD MARKER_EOS, inp.tail)

/-- The loop of source `write_base64` over the bytes not yet written
(`buf[pos..len)`): the characters written to `out`. -/
def write_base64_loop : List Nat → List Char
  | [] => []
  | [b0] =>
    let byte0 := b0 % 256
    [int2char.getD (byte0 >>> 2) 'A', int2char.getD ((byte0 <<< 4) &&& 0x3f) 'A', '=', '=']
  | [b0, b1] =>
    let byte0 := b0 % 256
    let byte1 := b1 % 256
    [int2char.getD (byte0 >>> 2) 'A',
     int2char.getD ((byte0 <<< 4) &&& 0x3f ||| (byte1 >>> 4)) 'A',
     int2char.getD ((byte1 <<< 2) &&& 0x3f) 'A', '=']
  | b0 :: b1 :: b2 :: rest =>
    let byte0 := b0 % 256
    let byte1 := b1 % 256
    let byte2 := b2 % 256
    [int2char.getD (byte0 >>> 2) 'A',
     int2char.getD ((byte0 <<< 4) &&& 0x3f ||| (byte1 >>> 4)) 'A',
     int2char.getD ((byte1 <<< 2) &&& 0x3f ||| (byte2 >>> 6)) 'A',
     int2char.getD (byte2 &&& 0x3f) 'A'] ++ write_base64_loop rest

/-- Source `write_base64` for the `len = buf.length` bytes of `buf`: the
characters written to `out` and the value returned. -/
def write_base64 (buf : List Nat) : List Char × Nat :=
  (write_base64_loop buf, ((buf.length + 2) / 3) * 4)

/-- The test `ch < 0 || ch >= ch_max || (n = char2int[ch]) < 0` of
`read_base64`: `none` when it holds, else `n`. -/
def base64_digit (ch : Int) : Option Nat :=
  if ch < 0 ∨ ch ≥ char2int.length then none
  else if char2int.getD ch.toNat (-1) < 0 then none
  else some (char2int.getD ch.toNat (-1)).toNat

/-- The `while` loop of source `read_base64`, with at most `fuel` iterations:
`ERR_BASE64` when `exception` is called, else `pos`, the buffer and the rest
of the stream. -/
def read_base64_loop :
    Nat → List Int → List Nat → Nat → Nat → Except Nat (Nat × List Nat × List Int)
  | 0, inp, buf, _, pos => .ok (pos, buf, inp)
  | fuel + 1, inp, buf, buf_size, pos =>
    if pos + 3 ≤ buf_size then
      let ch0 := peek_stream inp
      match base64_digit ch0 with
      | none => .ok (pos, buf, inp)
      | some n0 =>
        let inp := (read_stream inp).2
        let ch1 := (read_stream inp).1
        let inp := (read_stream inp).2
        let ch2 := (read_stream inp).1
        let inp := (read_stream inp).2
        let ch3 := (read_stream inp).1
        let inp := (read_stream inp).2
        match base64_digit ch1 with
        | none => .error ERR_BASE64
        | some n1 =>
          let buf := buf.set pos (((n0 <<< 2) ||| (n1 >>> 4)) % 256)
          let pos := pos + 1
          if ch2 = ('='.toNat : Int) then .ok (pos, buf, inp)
          else
            match base64_digit ch2 with
            | none => .error ERR_BASE64
            | some n2 =>
              let buf := buf.set pos (((n1 <<< 4) ||| (n2 >>> 2)) % 256)
              let pos := pos + 1
              if ch3 = ('='.toNat : Int) then .ok (pos, buf, inp)
              else
                match base64_digit ch3 with
                | none => .error ERR_BASE64
                | some n3 =>
                  let buf := buf.set pos (((n2 <<< 6) ||| n3) % 256)
                  let pos := pos + 1
                  read_base64_loop fuel inp buf buf_size pos
    else .ok (pos, buf, inp)

/-- Source `read_base64`: `ERR_BASE64` when `exception` is called, else the
value returned, the buffer and the rest of the stream. Every iteration that
does not leave the loop adds 3 to `pos`, so `buf_size` iterations are never
used up. -/
def read_base64 (inp : List Int) (buf : List Nat) (buf_size : Nat) :
    Except Nat (Nat × List Nat × List Int) :=
  read_base64_loop buf_size inp buf buf_size 0

/-! ## Skip-breakpoint sequencer -/

/-- Source `SkipBreakpointInfo` (declared in `breakpoints.h`, which is not
among the sources) as far as `breakpoints.c` uses it: `ctx` is the id of the
context, `done` says whether the callback is set, `c` is the channel to
unlock. -/
structure SkipBreakpointInfo where
  ctx : Nat
  address : Nat
  error : Nat
  pending_intercept : Bool
  done : Bool
  c : Option Nat
deriving DecidableEq, Repr, Inhabited

/-- What a safe event of the skip sequencer leaves: the agent, the record
`sb`, whether `safe_restore_breakpoint` was posted, and whether the record was
delivered to `sb->done` and freed. -/
structure SkipOutcome where
  agent : Agent
  sb : SkipBreakpointInfo
  restore_posted : Bool
  finished : Bool

/-- Source `safe_restore_breakpoint`. -/
def safe_restore_breakpoint (s : Agent) (sb : SkipBreakpointInfo) : SkipOutcome :=
  match find_instruction s (s.ctx sb.ctx) sb.address with
  | (some n, s1) =>
    let bi := (s1.instructions[n]?).getD default
    if bi.skip = true then
      let r := plant_instruction s1 { bi with skip := false }
      { agent := r.2.set_instruction n r.1, sb := sb, restore_posted := false, finished := true }
    else { agent := s1, sb := sb, restore_posted := false, finished := true }
  | (none, s1) => { agent := s1, sb := sb, restore_posted := false, finished := true }

/-- The first block of `safe_skip_breakpoint`: the break instruction at the
address is removed from memory and marked `skip`, or its error is latched. -/
def skip_instruction (s : Agent) (sb : SkipBreakpointInfo) : Agent × SkipBreakpointInfo :=
  if sb.error = 0 then
    match find_instruction s (s.ctx sb.ctx) sb.address with
    | (some n, s1) =>
      let bi := (s1.instructions[n]?).getD default
      if bi.skip = false then
        let r := if bi.planted = true then remove_instruction s1 bi else (bi, s1)
        if r.1.error ≠ 0 then (r.2.set_instruction n r.1, { sb with error := r.1.error })
        else (r.2.set_instruction n { r.1 with skip := true }, sb)
      else (s1, sb)
    | (none, s1) => (s1, sb)
  else (s, sb)

/-- Source `safe_skip_breakpoint`; `step` is the `errno` of
`context_single_step` (0 when it returns 0), whose effect on the thread is
that of the context module. -/
def safe_skip_breakpoint (s : Agent) (sb : SkipBreakpointInfo) (step : Nat) : SkipOutcome :=
  let r := skip_instruction s sb
  if r.2.error = 0 then
    if step ≠ 0 then
      { agent := r.1, sb := { r.2 with error := step }, restore_posted := true, finished := false }
    else if r.2.pending_intercept = true then
      { agent := r.1.put_context { r.1.ctx sb.ctx with pending_intercept := true }, sb := r.2,
        restore_posted := true, finished := false }
    else { agent := r.1, sb := r.2, restore_posted := true, finished := false }
  else { agent := r.1, sb := r.2, restore_posted := false, finished := true }

/-- Source `skip_breakpoint` outside `_WRS_KERNEL`: `NULL`, or the record for
which `safe_skip_breakpoint` is posted. -/
def skip_breakpoint (s : Agent) (ctx : Context) : Option SkipBreakpointInfo × Agent :=
  if ctx.exited = true ∨ ctx.exiting = true then (none, s)
  else
    match find_instruction s ctx ctx.pc with
    | (none, s1) => (none, s1)
    | (some n, s1) =>
      if ((s1.instructions[n]?).getD default).error ≠ 0 then (none, s1)
      else (some { ctx := ctx.id, address := ctx.pc, error := 0, pending_intercept := false,
                   done := false, c := none }, s1)

/-- The owner of the entry that `find_instruction` returns: the owner recorded,
or `ctx` when the owner recorded has exited or is running. -/
def owner_after_find (s : Agent) (ctx : Context) (bi : BreakInstruction) : Nat :=
  if (s.ctx bi.ctx).exited = true ∨ is_running (s.ctx bi.ctx) = true then ctx.id else bi.ctx

/-! ## Resuming a thread (`context-darwin.c`) -/

/-- System call number of Darwin `<sys/syscall.h>`. -/
def SYS_sigreturn : Nat := 184

/-- Modelled from the spec: error kind `Unsupported` of §7 (the numeric codes
of `errors.h` are not among the sources). -/
def ERR_UNSUPPORTED : Nat := 0x20000 + 5

/-- What the calls that `context-darwin.c` makes outside the module answer
during one call of a resume function: `skip` is the value of
`skip_breakpoint(ctx, ...)`, `set_state` the `errno` of a failing
`thread_set_state` (0 for `KERN_SUCCESS`), `ptrace` the `errno` of a failing
`ptrace` (0 for success), `kill` the `errno` of a failing `kill`. -/
structure OsOutcome where
  skip : Bool
  set_state : Nat
  ptrace : Nat
  kill : Nat
deriving DecidableEq, Repr, Inhabited

/-- What a resume function of `context-darwin.c` leaves: the value returned
(0 or -1), `errno` when it is -1, the context, the signal passed to
`ptrace(PT_CONTINUE, ...)` when that call was made, and whether
`send_context_started_event` was called. -/
structure ResumeOutcome where
  ret : Int
  errno : Nat
  ctx : ContextDarwin
  signal : Option Nat
  started : Bool
deriving DecidableEq, Repr, Inhabited

/-- Source `syscall_never_returns`. -/
def syscall_never_returns (c : ContextDarwin) : Bool :=
  c.syscall_enter && decide (c.syscall_id = SYS_sigreturn)

/-- The `while` loop of `context_continue` over `pending_signals`, with at most
`fuel` iterations: `pending_signals` and `signal` after it. Every iteration
that does not leave the loop takes a signal out of the set, so a fuel above the
size of the set is never used up. -/
def pass_signal_loop : Nat → SigSet → SigSet → Nat → SigSet × Nat
  | 0, pending, _, _ => (pending, 0)
  | fuel + 1, pending, dont_pass, n =>
    match sigset_get_next pending n with
    | none => (pending, 0)
    | some m =>
      if sigset_get dont_pass m = true then
        pass_signal_loop fuel (sigset_set pending m false) dont_pass m
      else (pending, m)

/-- Source `context_stop`. -/
def context_stop (c : ContextDarwin) (os : OsOutcome) : ResumeOutcome :=
  if os.kill ≠ 0 then
    if os.kill = ESRCH then
      { ret := 0, errno := 0, ctx := { c with ctx := { c.ctx with exiting := true } },
        signal := none, started := false }
    else { ret := -1, errno := os.kill, ctx := c, signal := none, started := false }
  else { ret := 0, errno := 0, ctx := c, signal := none, started := false }

/-- The block of `context_continue` of the `__i386__` and `__x86_64__` builds
that clears the trap flag (bit 8 of the flags register) when it is set. -/
def clear_trap_flag (c : ContextDarwin) : ContextDarwin :=
  if c.eflags &&& 0x100 ≠ 0 then { c with eflags := c.eflags ^^^ 0x100, regs_dirty := true }
  else c

/-- The block of `context_continue` that forgets the system call when
`syscall_never_returns`. -/
def forget_syscall (c : ContextDarwin) : ContextDarwin :=
  if syscall_never_returns c = true then
    { c with syscall_enter := false, syscall_exit := false, syscall_id := 0 }
  else c

/-- Source `context_continue`. -/
def context_continue (c : ContextDarwin) (os : OsOutcome) : ResumeOutcome :=
  if os.skip = true then { ret := 0, errno := 0, ctx := c, signal := none, started := false }
  else
    let r : SigSet × Nat :=
      if c.syscall_enter = false then
        pass_signal_loop (c.pending_signals.length + 1) c.pending_signals c.sig_dont_pass 0
      else (c.pending_signals, 0)
    let c : ContextDarwin := clear_trap_flag { c with pending_signals := r.1 }
    let signal := r.2
    if c.regs_dirty = true ∧ os.set_state ≠ 0 then
      { ret := -1, errno := os.set_state, ctx := c, signal := none, started := false }
    else
      let c : ContextDarwin := { c with regs_dirty := false }
      if os.ptrace ≠ 0 then
        if os.ptrace = ESRCH then
          { ret := 0, errno := 0, ctx := c, signal := some signal, started := true }
        else { ret := -1, errno := os.ptrace, ctx := c, signal := some signal, started := false }
      else
        let c : ContextDarwin :=
          forget_syscall { c with pending_signals := sigset_set c.pending_signals signal false }
        { ret := 0, errno := 0, ctx := c, signal := some signal, started := true }

/-- Source `context_single_step`; `os2` answers the calls made by the
`context_continue` that it calls when the system call never returns. -/
def context_single_step (c : ContextDarwin) (os os2 : OsOutcome) : ResumeOutcome :=
  if os.skip = true then { ret := 0, errno := 0, ctx := c, signal := none, started := false }
  else if syscall_never_returns c = true then context_continue c os2
  else if c.regs_dirty = true ∧ os.set_state ≠ 0 then
    { ret := -1, errno := os.set_state, ctx := c, signal := none, started := false }
  else
    let c : ContextDarwin := { c with regs_dirty := false }
    if os.ptrace ≠ 0 then
      if os.ptrace = ESRCH then
        { ret := 0, errno := 0, ctx := { c with pending_step := true }, signal := none,
          started := true }
      else { ret := -1, errno := os.ptrace, ctx := c, signal := none, started := false }
    else
      { ret := 0, errno := 0, ctx := { c with pending_step := true }, signal := none,
        started := true }

/-- The resume modes that `context_resume` tells apart. -/
inductive ResumeMode where
  | RM_RESUME
  | RM_STEP_INTO
  | RM_TERMINATE
  | other
deriving DecidableEq, Repr, Inhabited

/-- Source `context_resume`. -/
def context_resume (c : ContextDarwin) (mode : ResumeMode) (os os2 : OsOutcome) :
    ResumeOutcome :=
  match mode with
  | .RM_RESUME => context_continue c os
  | .RM_STEP_INTO => context_single_step c os os2
  | .RM_TERMINATE =>
    context_continue { c with pending_signals := sigset_set c.pending_signals SIGKILL true } os
  | .other => { ret := -1, errno := ERR_UNSUPPORTED, ctx := c, signal := none, started := false }

/-- One step of a thread context of `context-darwin.c`: a stop reported for
its pid, or a call of one of the functions that stop or resume it. -/
inductive ContextStep : ContextDarwin → ContextDarwin → Prop where
  | stopped (w : Nat) (s : Agent) (c : ContextDarwin) (signal event : Nat) (syscall : Bool)
      (state : Except Nat REG_SET) :
      ContextStep c (event_pid_stopped w s c signal event syscall state).2.1
  | stop (c : ContextDarwin) (os : OsOutcome) : ContextStep c (context_stop c os).ctx
  | resumed (c : ContextDarwin) (os : OsOutcome) : ContextStep c (context_continue c os).ctx
  | single_step (c : ContextDarwin) (os os2 : OsOutcome) :
      ContextStep c (context_single_step c os os2).ctx
  | resume (c : ContextDarwin) (mode : ResumeMode) (os os2 : OsOutcome) :
      ContextStep c (context_resume c mode os os2).ctx

/-- The states of a thread context reachable from its creation, when no signal
is pending, by the steps of `context-darwin.c`. -/
inductive ContextReachable : ContextDarwin → Prop where
  | created (c : ContextDarwin) : c.pending_signals = [] → ContextReachable c
  | step (c c1 : ContextDarwin) : ContextReachable c → ContextStep c c1 → ContextReachable c1

/-- The lowest-numbered signal of `pending` that is not in `dont_pass`, if
there is one. -/
def lowest_passed (pending dont_pass : SigSet) : Option Nat :=
  least (pending.filter (fun x => !sigset_get dont_pass x))

/-- Neither `SIGSTOP` nor `SIGTRAP` is pending. -/
def no_stop_trap (c : ContextDarwin) : Prop :=
  SIGSTOP ∉ c.pending_signals ∧ SIGTRAP ∉ c.pending_signals

/-! ## Hardware breakpoints (`machine/arm/tcf/cpudefs-mdep.c`) -/

/-- Source macro `MAX_HBP`. -/
def MAX_HBP : Nat := 16

/-- Source macro `MAX_HWP`. -/
def MAX_HWP : Nat := 16

/-- Source macro `MAX_HW_BPS`. -/
def MAX_HW_BPS : Nat := MAX_HBP + MAX_HWP

/-- Source macro `ARM_DEBUG_ARCH_V7_ECP14`. -/
def ARM_DEBUG_ARCH_V7_ECP14 : Nat := 3

/-- Modelled from the spec: `struct ContextBreakpoint` (`context.h` is not
among the sources) as far as the module reads it, with the address and the
length of §4.J and one field for each bit of `access_types` that the module
tests (`CTX_BP_ACCESS_INSTRUCTION`, `CTX_BP_ACCESS_DATA_READ`,
`CTX_BP_ACCESS_DATA_WRITE`, `CTX_BP_ACCESS_VIRTUAL`). -/
structure ContextBreakpoint where
  address : Nat
  length : Nat
  access_instruction : Bool
  access_data_read : Bool
  access_data_write : Bool
  access_virtual : Bool
deriving DecidableEq, Repr, Inhabited

/-- Source `ContextExtensionARM`: the fields under
`ENABLE_HardwareBreakpoints`, and `addr`. A `ContextBreakpoint *` is a number
(the address of the object) and `none` is `NULL`; `triggered_hw_bps` holds the
entries before the terminating `NULL`; `armed` and `skip_wp_set` are bit
masks. -/
structure ContextExtensionARM_HW where
  addr : Nat
  arch : Nat
  wp_size : Nat
  wp_cnt : Nat
  bp_cnt : Nat
  info_ok : Bool
  hw_stepping : Int
  triggered_hw_bps : List Nat
  hw_bps_regs_generation : Nat
  hw_bps : List (Option Nat)
  hw_bps_generation : Nat
  skip_wp_addr : Nat
  skip_wp_set : Nat
  armed : Nat
deriving DecidableEq, Repr, Inhabited

/-- The loop of `clear_bp` over the first `n` entries of `hw_bps`. -/
def clear_bp_loop (bp : Nat) : Nat → List (Option Nat) → List (Option Nat)
  | 0, l => l
  | _ + 1, [] => []
  | n + 1, x :: l => (if x = some bp then none else x) :: clear_bp_loop bp n l

/-- Source `clear_bp`, on the extension of `bp->ctx`. -/
def clear_bp (bps : ContextExtensionARM_HW) (bp : Nat) : ContextExtensionARM_HW :=
  { bps with hw_bps := clear_bp_loop bp MAX_HW_BPS bps.hw_bps }

/-- Source `get_bp_info`, which always returns 0: the extension after the
call. `probe` is what `ptrace(PTRACE_GETHBPREGS, pid, 0, &buf)` answers: `none`
when it fails, else the word stored in `buf`. -/
def get_bp_info (bps : ContextExtensionARM_HW) (probe : Option Nat) : ContextExtensionARM_HW :=
  if bps.info_ok = true then bps
  else
    match probe with
    | none => { bps with arch := 0, wp_size := 0, wp_cnt := 0, bp_cnt := 0, info_ok := true }
    | some buf =>
      let bps : ContextExtensionARM_HW :=
        { bps with arch := (buf >>> 24) % 256, wp_size := (buf >>> 16) % 256,
                   wp_cnt := (buf >>> 8) % 256, bp_cnt := buf % 256 }
      let bps : ContextExtensionARM_HW :=
        if bps.wp_cnt > MAX_HWP then { bps with wp_cnt := MAX_HWP } else bps
      let bps : ContextExtensionARM_HW :=
        if bps.bp_cnt > MAX_HBP then { bps with bp_cnt := MAX_HBP } else bps
      { bps with info_ok := true }

/-- The `for` loops of `cpu_bp_plant` over the slots `i`, ..., `i + n - 1`: the
index at which the loop finds `hw_bps[i] == NULL` and leaves, if any. -/
def first_free (hw_bps : List (Option Nat)) : Nat → Nat → Option Nat
  | _, 0 => none
  | i, n + 1 => if hw_bps.getD i none = none then some i else first_free hw_bps (i + 1) n

/-- The body of the `if` of the loops of `cpu_bp_plant`: `bp` is stored in slot
`i` and the generation counter (`unsigned`) is incremented. -/
def store_bp (bps : ContextExtensionARM_HW) (i bp : Nat) : ContextExtensionARM_HW :=
  { bps with hw_bps := bps.hw_bps.set i (some bp),
             hw_bps_generation := (bps.hw_bps_generation + 1) % 2 ^ 32 }

/-- The block of `cpu_bp_plant` for `CTX_BP_ACCESS_INSTRUCTION`, up to the test
`n == 0`: the extension with `bp` stored, or `none` when `n == 0`. -/
def plant_hbp_slot (bps : ContextExtensionARM_HW) (bp : Nat) : Option ContextExtensionARM_HW :=
  match first_free bps.hw_bps 0 bps.bp_cnt with
  | some i => some (store_bp bps i bp)
  | none => none

/-- The block of `cpu_bp_plant` for `CTX_BP_ACCESS_DATA_READ` and
`CTX_BP_ACCESS_DATA_WRITE`, up to the test `n == 0`: the extension with `bp`
stored, or `none` when `n == 0`. -/
def plant_hwp_slot (deref : Nat → ContextBreakpoint) (bps : ContextExtensionARM_HW) (bp : Nat) :
    Option ContextExtensionARM_HW :=
  match (if (deref bp).length ≤ bps.wp_size then
      first_free bps.hw_bps bps.bp_cnt bps.wp_cnt else none) with
  | some i => some (store_bp bps i bp)
  | none => none

/-- Source `cpu_bp_plant` for the breakpoint at the address `bp`, which `deref`
reads: the value returned, `errno` when it is -1, and the extension of
`bp->ctx` after the call. -/
def cpu_bp_plant (deref : Nat → ContextBreakpoint) (bps : ContextExtensionARM_HW) (bp : Nat)
    (probe : Option Nat) : Int × Nat × ContextExtensionARM_HW :=
  let bps := get_bp_info bps probe
  if (deref bp).access_virtual = true then
    match (if (deref bp).access_instruction = true then plant_hbp_slot bps bp else some bps) with
    | none => (-1, ERR_UNSUPPORTED, clear_bp bps bp)
    | some bps1 =>
      if (deref bp).access_data_read = true ∨ (deref bp).access_data_write = true then
        match plant_hwp_slot deref bps1 bp with
        | some bps2 => (0, 0, bps2)
        | none => (-1, ERR_UNSUPPORTED, clear_bp bps1 bp)
      else (0, 0, bps1)
  else (-1, ERR_UNSUPPORTED, bps)

/-- Source `cpu_bp_remove`, which always returns 0: the extension of
`bp->ctx` after the call. -/
def cpu_bp_remove (bps : ContextExtensionARM_HW) (bp : Nat) : ContextExtensionARM_HW :=
  { clear_bp bps bp with hw_bps_generation := (bps.hw_bps_generation + 1) % 2 ^ 32 }

/-- One call `ptrace(PTRACE_SETHBPREGS, pid, num, &value)` of
`set_debug_regs`, with the index `slot` of the loop iteration that makes it and
whether `value` is the control register `cr` (else the value register `vr`). -/
structure HbpWrite where
  slot : Nat
  control : Bool
  num : Int
  value : Nat
deriving DecidableEq, Repr, Inhabited

/-- The locals and outputs of `set_debug_regs`: `EXT(ctx)`,
`*step_over_hw_bp` and the calls of `ptrace(PTRACE_SETHBPREGS, ...)` made so
far, in their order. -/
structure DebugRegsState where
  ext : ContextExtensionARM_HW
  step_over_hw_bp : Bool
  writes : List HbpWrite
deriving DecidableEq, Repr, Inhabited

/-- The number of the value register of slot `i`, as `set_debug_regs` passes
it to `ptrace`. -/
def value_reg (bps : ContextExtensionARM_HW) (i : Nat) : Int :=
  if i < bps.bp_cnt then ((i * 2 + 1 : Nat) : Int) else -((i * 2 + 1 : Nat) : Int)

/-- The number of the control register of slot `i`, as `set_debug_regs` passes
it to `ptrace`. -/
def control_reg (bps : ContextExtensionARM_HW) (i : Nat) : Int :=
  if i < bps.bp_cnt then ((i * 2 + 2 : Nat) : Int) else -((i * 2 + 2 : Nat) : Int)

/-- The loop of `set_debug_regs` over `j` = 0..3 that selects the bytes of the
word at `vr` (a `uint32_t`) that a watchpoint covers. -/
def byte_select (w vr : Nat) (cb : ContextBreakpoint) : Nat :=
  (List.range 4).foldl (fun cr j =>
    if add32 vr j < cb.address then cr
    else if add32 vr j ≥ address_add w cb.address cb.length then cr
    else cr ||| (1 <<< (5 + j))) 0

/-- The end of the body of the loop of `set_debug_regs`, from `if (cr == 0)`
on: the control register of slot `i` is written. Returns `errno` (0 when
`ptrace` succeeds) and the state. -/
def write_control (bps : ContextExtensionARM_HW) (ptrace_err : Int → Nat) (i cr : Nat)
    (st : DebugRegsState) : Nat × DebugRegsState :=
  let cr := if cr = 0 then
      (0x3 <<< 1) ||| (0xf <<< 5) ||| (if i ≥ bps.bp_cnt then 1 <<< 4 else 0)
    else cr
  (ptrace_err (control_reg bps i),
    { st with writes := st.writes ++
        [{ slot := i, control := true, num := control_reg bps i, value := cr }] })

/-- The body of the loop of `set_debug_regs` for slot `i`. `w` is the width of
`ContextAddress`, `bps` is `EXT(grp)`, `pc` the PC read, `ptrace_err num` the
`errno` of `ptrace(PTRACE_SETHBPREGS, pid, num, ...)` (0 when it succeeds).
Returns `errno` (0 when the loop goes on) and the state. The shift `1u << i` is
taken for `i < 32`, which `MAX_HW_BPS` bounds. -/
def set_debug_regs_slot (w : Nat) (deref : Nat → ContextBreakpoint)
    (bps : ContextExtensionARM_HW) (pc : Nat) (ptrace_err : Int → Nat) (i : Nat)
    (st : DebugRegsState) : Nat × DebugRegsState :=
  if i = 0 ∧ st.ext.hw_stepping ≠ 0 then
    let vr := if st.ext.hw_stepping = 1 then st.ext.addr % 2 ^ 32 else pc % 2 ^ 32
    let cr := (if st.ext.hw_stepping = 1 then 0 else 1 <<< 22) ||| (0xf <<< 5) ||| 0x7
    let st : DebugRegsState :=
      { st with writes := st.writes ++ [{ slot := i, control := false, num := 1, value := vr }] }
    if ptrace_err 1 ≠ 0 then (ptrace_err 1, st) else write_control bps ptrace_err i cr st
  else
    match bps.hw_bps.getD i none with
    | some p =>
      if i < bps.bp_cnt ∧ (deref p).address = pc then
        write_control bps ptrace_err i 0 { st with step_over_hw_bp := true }
      else if bps.arch ≥ ARM_DEBUG_ARCH_V7_ECP14 ∧ st.ext.skip_wp_set.testBit i = true then
        write_control bps ptrace_err i 0 { st with step_over_hw_bp := true }
      else
        let vr := ((deref p).address - (deref p).address % 4) % 2 ^ 32
        let cr := if i < bps.bp_cnt then 0xf <<< 5
          else byte_select w vr (deref p) |||
            (if (deref p).access_data_read = true then 1 <<< 3 else 0) |||
            (if (deref p).access_data_write = true then 1 <<< 4 else 0)
        let cr := cr ||| 0x7
        let st : DebugRegsState :=
          { st with writes := st.writes ++
              [{ slot := i, control := false, num := value_reg bps i, value := vr }] }
        if ptrace_err (value_reg bps i) ≠ 0 then (ptrace_err (value_reg bps i), st)
        else
          write_control bps ptrace_err i cr
            { st with ext := { st.ext with armed := st.ext.armed ||| (1 <<< i) } }
    | none => write_control bps ptrace_err i 0 st

/-- The loop of `set_debug_regs` over the slots of the list, which a failing
`ptrace` leaves with `return -1`. -/
def set_debug_regs_loop (w : Nat) (deref : Nat → ContextBreakpoint)
    (bps : ContextExtensionARM_HW) (pc : Nat) (ptrace_err : Int → Nat) :
    List Nat → DebugRegsState → Nat × DebugRegsState
  | [], st => (0, st)
  | i :: l, st =>
    let r := set_debug_regs_slot w deref bps pc ptrace_err i st
    if r.1 ≠ 0 then r else set_debug_regs_loop w deref bps pc ptrace_err l r.2

/-- Source `set_debug_regs`: the value returned, `errno` when it is -1, and
`EXT(ctx)`, `*step_over_hw_bp` and the `ptrace` calls made. `ext` is `EXT(ctx)`,
`bps` is `EXT(grp)` (the function writes to `ext` no field that it reads from
`bps`), `pc` is what `read_reg` gives for the PC (the value, or `errno`). -/
def set_debug_regs (w : Nat) (deref : Nat → ContextBreakpoint)
    (bps ext : ContextExtensionARM_HW) (pc : Except Nat Nat) (ptrace_err : Int → Nat) :
    Int × Nat × DebugRegsState :=
  let ext : ContextExtensionARM_HW := { ext with armed := 0 }
  match pc with
  | .error e => (-1, e, { ext := ext, step_over_hw_bp := false, writes := [] })
  | .ok pc =>
    let r := set_debug_regs_loop w deref bps pc ptrace_err
      (List.range (bps.bp_cnt + bps.wp_cnt))
      { ext := ext, step_over_hw_bp := false, writes := [] }
    if r.1 ≠ 0 then (-1, r.1, r.2)
    else (0, 0, { r.2 with ext :=
      { r.2.ext with hw_bps_regs_generation := bps.hw_bps_generation } })

/-- Slot `i` is the lowest-indexed empty slot of `hw_bps` among the slots
`lo`, ..., `hi - 1`. -/
def lowest_empty (hw_bps : List (Option Nat)) (lo hi i : Nat) : Prop :=
  lo ≤ i ∧ i < hi ∧ hw_bps[i]? = some none ∧ ∀ j, j < i → lo ≤ j → hw_bps[j]? ≠ some none

instance (hw_bps : List (Option Nat)) (lo hi i : Nat) : Decidable (lowest_empty hw_bps lo hi i) := by
  unfold lowest_empty; exact inferInstance

/-- The fields of `siginfo_t` that `cpu_bp_on_suspend` reads; `si_addr` is the
address as a `ContextAddress`. -/
structure siginfo_t where
  si_signo : Nat
  si_errno : Int
  si_code : Int
  si_addr : Nat
deriving DecidableEq, Repr, Inhabited

/-- What `cpu_bp_on_suspend` leaves: the value returned, `errno` when it is
-1, `EXT(ctx)`, `ctx->stopped_by_cb` (`none` for `NULL`, else the entries
before the terminating `NULL`) and the value stored in `*triggered` (`none`
when none is stored). -/
structure SuspendOutcome where
  ret : Int
  errno : Nat
  ext : ContextExtensionARM_HW
  stopped_by_cb : Option (List Nat)
  triggered : Option Bool
deriving DecidableEq, Repr, Inhabited

/-- The body of the loop of `cpu_bp_on_suspend` over the breakpoint slots, for
slot `i`; `cbs` holds the first `cb_cnt` entries of `triggered_hw_bps`. -/
def suspend_bp_slot (deref : Nat → ContextBreakpoint) (bps ext : ContextExtensionARM_HW)
    (pc : Nat) (cbs : List Nat) (i : Nat) : List Nat :=
  match bps.hw_bps.getD i none with
  | some p => if (deref p).address = pc ∧ ext.armed.testBit i = true then cbs ++ [p] else cbs
  | none => cbs

/-- The body of the loop of `cpu_bp_on_suspend` over the watchpoint slots, for
slot `i`; the state is the first `cb_cnt` entries of `triggered_hw_bps` and
`EXT(ctx)`. `w` is the width of `ContextAddress`. -/
def suspend_wp_slot (w : Nat) (deref : Nat → ContextBreakpoint) (bps : ContextExtensionARM_HW)
    (pc addr : Nat) (st : List Nat × ContextExtensionARM_HW) (i : Nat) :
    List Nat × ContextExtensionARM_HW :=
  match bps.hw_bps.getD i none with
  | some p =>
    if st.2.armed.testBit i = true then
      if bps.wp_cnt > 1 ∧ (addr < (deref p).address ∨
          addr ≥ address_add w (deref p).address (deref p).length) then st
      else (st.1 ++ [p],
        { st.2 with skip_wp_set := st.2.skip_wp_set ||| (1 <<< i), skip_wp_addr := pc })
    else st
  | none => st

/-- The end of `cpu_bp_on_suspend`, from `if (cb_cnt > 0)` on; `cbs` holds the
first `cb_cnt` entries of `triggered_hw_bps`. -/
def suspend_finish (stopped_by_cb : Option (List Nat)) (cbs : List Nat)
    (ext : ContextExtensionARM_HW) : SuspendOutcome :=
  if cbs ≠ [] then
    { ret := 0, errno := 0, ext := { ext with triggered_hw_bps := cbs },
      stopped_by_cb := some cbs, triggered := some true }
  else
    { ret := 0, errno := 0, ext := ext, stopped_by_cb := stopped_by_cb,
      triggered := some false }

/-- Source `cpu_bp_on_suspend`. `exiting` is `ctx->exiting`, `ext` is
`EXT(ctx)`, `bps` the extension of the breakpoint group of `ctx` (the function
writes to `ext` no field that it reads from `bps`), `pc` is what `read_reg`
gives for the PC and `siginfo` what `ptrace(PTRACE_GETSIGINFO, ...)` gives (the
value, or `errno`). The low 16 bits of the `int` `si_code` are
`si_code % 0x10000`. On the error paths the entries already stored in
`triggered_hw_bps` are not kept. -/
def cpu_bp_on_suspend (w : Nat) (deref : Nat → ContextBreakpoint) (exiting : Bool)
    (stopped_by_cb : Option (List Nat)) (bps ext : ContextExtensionARM_HW)
    (pc : Except Nat Nat) (siginfo : Except Nat siginfo_t) : SuspendOutcome :=
  if exiting = true then
    { ret := 0, errno := 0, ext := ext, stopped_by_cb := stopped_by_cb, triggered := none }
  else if bps.bp_cnt > 0 ∨ bps.wp_cnt > 0 then
    match pc with
    | .error e =>
      { ret := -1, errno := e, ext := ext, stopped_by_cb := stopped_by_cb, triggered := none }
    | .ok pc =>
      let ext1 : ContextExtensionARM_HW :=
        if ext.skip_wp_addr ≠ pc then { ext with skip_wp_set := 0 } else ext
      let cbs : List Nat :=
        if bps.bp_cnt > 0 then
          (List.range bps.bp_cnt).foldl (suspend_bp_slot deref bps ext1 pc) []
        else []
      if bps.wp_cnt > 0 then
        match siginfo with
        | .error e =>
          { ret := -1, errno := e, ext := ext1, stopped_by_cb := stopped_by_cb,
            triggered := none }
        | .ok si =>
          if si.si_signo = SIGTRAP ∧ si.si_code % 0x10000 = 0x0004 ∧ si.si_errno < 0 then
            let r := (List.range' bps.bp_cnt bps.wp_cnt).foldl
              (suspend_wp_slot w deref bps pc si.si_addr) (cbs, ext1)
            suspend_finish stopped_by_cb r.1 r.2
          else suspend_finish stopped_by_cb cbs ext1
      else suspend_finish stopped_by_cb cbs ext1
  else suspend_finish stopped_by_cb [] ext

/-- The break instruction of the memory space of `ctx` at the PC of `ctx` has
the breakpoint `id` as its only ref, and that breakpoint is in the registry,
not deleted, supported, enabled and unconditional, with `ignore_count = n` and
`hit_count = h`. -/
def sole_breakpoint (s : Agent) (ctx : Context) (id : String) (n h : Int) : Prop :=
  ∃ (k : Nat) (bi : BreakInstruction) (j : Nat) (bp : BreakpointInfo),
    find_index (fun bi => (s.ctx bi.ctx).mem == ctx.mem && bi.address == ctx.pc)
      s.instructions = some k ∧
    s.instructions[k]? = some bi ∧ bi.refs = [id] ∧
    find_breakpoint s id = some j ∧ s.breakpoints[j]? = some bp ∧
    bp.deleted = false ∧ bp.unsupported = [] ∧ bp.enabled = true ∧ bp.condition = none ∧
    bp.ignore_count = n ∧ bp.hit_count = h

/-- The state after the thread `ctx` stopped `k` consecutive times and
`evaluate_breakpoint_condition` was called at each stop. -/
def hits (sv : Services) (ctx : Context) : Nat → Agent → Agent
  | 0, s => s
  | k + 1, s => (evaluate_breakpoint_condition sv (hits sv ctx k s) ctx).2

/-- The `status` events among the frames `out`. -/
def status_events (out : List (Dest × Event)) : List (String × BreakpointStatus) :=
  out.filterMap (fun x => match x.2 with
    | .status id st => some (id, st)
    | _ => none)

/-- The ARM shift `ASR #n` of a 32-bit value, for `n` in 1..32: the value is
shifted right by `n` and its sign bit fills the `n` vacated bits, of values
`2^(32-n)`, ..., `2^31`. -/
def asr32 (v n : Nat) : Nat :=
  v / 2 ^ n + (if v < 2 ^ 31 then 0 else 2 ^ 32 - 2 ^ (32 - n))

/-- The ARM shift `ROR #n` of a 32-bit value, for `n` in 1..31: the value is
shifted right by `n` and the `n` bits shifted out become the top bits. -/
def ror32 (v n : Nat) : Nat :=
  v / 2 ^ n + (v % 2 ^ n) * 2 ^ (32 - n)

/-- The ARM shifter for a register value `v` shifted by the immediate `imm5`
(0..31), following the words of the architecture: `LSL #imm5`; `LSR #imm5`,
where 0 encodes `LSR #32`; `ASR #imm5`, where 0 encodes `ASR #32`;
`ROR #imm5`, where 0 encodes `RRX`, the shift right by one with the carry
flag `c` moved into bit 31. -/
def arm_shift_by_immediate (c : Bool) (shift_type imm5 v : Nat) : Nat :=
  match shift_type with
  | 0 => (v * 2 ^ imm5) % 2 ^ 32
  | 1 => if imm5 = 0 then 0 else v / 2 ^ imm5
  | 2 => asr32 v (if imm5 = 0 then 32 else imm5)
  | _ => if imm5 = 0 then v / 2 + (if c = true then 2 ^ 31 else 0) else ror32 v imm5

/-- The architectural effective address of a single load/store `instr`,
following the words of the architecture: with P = 1 (offset or pre-indexed),
the base plus (U = 1) or minus (U = 0) the offset, modulo `2^32`, where the
offset is the 12-bit immediate (I = 0) or the register value `rm` shifted by
`#imm5` (I = 1); with P = 0 (post-indexed), the base. The base is the value
`rn` of Rn, or `rn + 8` when Rn is R15, and `c` is the carry flag. -/
def ldr_effective_address (instr rn rm : Nat) (c : Bool) : Nat :=
  let base := if (instr >>> 16) &&& 0xf = 15 then (rn + 8) % 2 ^ 32 else rn
  let offset :=
    if instr &&& (1 <<< 25) = 0 then instr &&& 0xfff
    else arm_shift_by_immediate c ((instr >>> 5) &&& 3) ((instr >>> 7) &&& 0x1f) rm
  if instr &&& (1 <<< 24) ≠ 0 then
    if instr &&& (1 <<< 23) ≠ 0 then (base + offset) % 2 ^ 32
    else (base + 2 ^ 32 - offset) % 2 ^ 32
  else base

/-- The byte at `address`, zero-extended to a `uint32_t`, or the error of
reading it. -/
def arm_read_byte (t : ArmContext) (address : Nat) : Except Nat Nat :=
  match arm_read_mem t address 1 with
  | .error e => .error e
  | .ok b => .ok (b.getD 0 0)

/-- The byte addresses that a watchpoint register pair enables, in the words
of the byte-select field: `vr + j` for each `j` in 0..3 with bit `5 + j` of the
control register `cr` set. -/
def enabled_bytes (vr cr : Nat) : List Nat :=
  ((List.range 4).filter (fun j => cr.testBit (5 + j))).map (fun j => vr + j)

/-- The part of a break instruction that says whether and how it is in target
memory: the address, the saved bytes, the error, `skip` and `planted`. -/
def instruction_state (bi : BreakInstruction) : Nat × List Nat × Nat × Bool × Bool :=
  (bi.address, bi.saved_code, bi.error, bi.skip, bi.planted)

/-- The invariant of a break instruction at a quiescent point, in the words
of the claim: `planted` is set iff `skip` is clear and `error` is 0, and an
entry with `skip` set is unplanted and error-free. -/
def planted_iff_usable (bi : BreakInstruction) : Prop :=
  (bi.planted = true ↔ (bi.skip = false ∧ bi.error = 0)) ∧
  (bi.skip = true → bi.planted = false ∧ bi.error = 0)

/-- What holds of a break instruction during a replant pass as well: a planted
entry is not skipped and has no error, and a skipped entry has no error. -/
def planted_consistent (bi : BreakInstruction) : Prop :=
  (bi.planted = true → bi.skip = false ∧ bi.error = 0) ∧ (bi.skip = true → bi.error = 0)

/-- One event of the breakpoint engine between two quiescent points: a step
of `Step` (a complete command, a replant pass, a change of the contexts and of
the target), a call of `skip_breakpoint`, or one of the safe events
`safe_skip_breakpoint` and `safe_restore_breakpoint` of the skip sequencer. -/
inductive QuiescentStep : Agent → Agent → Prop where
  | engine (s s1 : Agent) (h : Step s s1) : QuiescentStep s s1
  | lookup (s : Agent) (ctx : Context) : QuiescentStep s (skip_breakpoint s ctx).2
  | skip (s : Agent) (sb : SkipBreakpointInfo) (step : Nat) :
      QuiescentStep s (safe_skip_breakpoint s sb step).agent
  | restore (s : Agent) (sb : SkipBreakpointInfo) :
      QuiescentStep s (safe_restore_breakpoint s sb).agent

/-- The quiescent points: the states that the events of `QuiescentStep` reach
from the state after `ini_breakpoints_service`. -/
inductive Quiescent : Agent → Prop where
  | init (break_inst : List Nat) (contexts : List Context) (target : Target) :
      Quiescent (ini_breakpoints_service break_inst contexts target)
  | step (s s1 : Agent) : Quiescent s → QuiescentStep s s1 → Quiescent s1

/-- The memory space of the context that the id `id` denotes among `cs`
(`ctx->mem`). -/
def mem_of (cs : List Context) (id : Nat) : Nat :=
  ((cs.find? (fun c => c.id == id)).getD default).mem

/-- The key under which `find_instruction` looks a break instruction up: the
memory space of its owner and its address. -/
def instruction_key (cs : List Context) (bi : BreakInstruction) : Nat × Nat :=
  (mem_of cs bi.ctx, bi.address)

/-- The contexts of the list are distinct objects: no two have the same
id. -/
def contexts_wf (cs : List Context) : Prop := (cs.map (fun c => c.id)).Nodup

/-- The break-instruction table does not hold two entries with the same
memory space and the same address. -/
def unique_instructions (s : Agent) : Prop :=
  ∀ (i j : Nat) (a b : BreakInstruction), s.instructions[i]? = some a →
    s.instructions[j]? = some b → (s.ctx a.ctx).mem = (s.ctx b.ctx).mem →
    a.address = b.address → i = j

/-- One step of the engine as the break-instruction table sees it: a call of
`plant_breakpoint_in_context` for a context that has not exited, a replant
pass, a call of `skip_breakpoint`, one of the safe events of the skip
sequencer for a context of the list, an event that leaves the table and the
contexts as they are (such as a command of the service, which changes the
registry), or a change of the contexts and of the target that leaves the
owners of the break instructions in their memory spaces. -/
inductive TableStep : Agent → Agent → Prop where
  | plant (s : Agent) (bp : BreakpointInfo) (ctx : Context) (address : Nat)
      (hc : ctx ∈ s.contexts) (he : ctx.exited = false) :
      TableStep s (plant_breakpoint_in_context s bp ctx address).1
  | replant (s : Agent) (sv : Services) : TableStep s (event_replant_breakpoints sv s)
  | lookup (s : Agent) (ctx : Context) (hc : ctx ∈ s.contexts) :
      TableStep s (skip_breakpoint s ctx).2
  | skip (s : Agent) (sb : SkipBreakpointInfo) (step : Nat)
      (hc : ∃ c ∈ s.contexts, c.id = sb.ctx) :
      TableStep s (safe_skip_breakpoint s sb step).agent
  | restore (s : Agent) (sb : SkipBreakpointInfo) (hc : ∃ c ∈ s.contexts, c.id = sb.ctx) :
      TableStep s (safe_restore_breakpoint s sb).agent
  | registry (s s1 : Agent) (hi : s1.instructions = s.instructions)
      (hc : s1.contexts = s.contexts) : TableStep s s1
  | context (s : Agent) (contexts : List Context) (target : Target)
      (hwf : contexts_wf contexts)
      (hmem : ∀ bi ∈ s.instructions, mem_of contexts bi.ctx = mem_of s.contexts bi.ctx) :
      TableStep s { s with contexts := contexts, target := target }

/-- The states that the steps of `TableStep` reach from the state after
`ini_breakpoints_service` over distinct contexts. -/
inductive TableReachable : Agent → Prop where
  | init (break_inst : List Nat) (contexts : List Context) (target : Target)
      (hwf : contexts_wf contexts) :
      TableReachable (ini_breakpoints_service break_inst contexts target)
  | step (s s1 : Agent) : TableReachable s → TableStep s s1 → TableReachable s1

/-- The break instruction `bi`, when it is planted in the memory space of
`ctx`, ends below the top of the address space of `w` bits. -/
def below_top (w : Nat) (s : Agent) (ctx : Context) (bi : BreakInstruction) : Prop :=
  bi.planted = true → (s.ctx bi.ctx).mem = ctx.mem → bi.address + BREAK_SIZE s < 2 ^ w

/-! ## Concrete states used to instantiate the theorems -/

/-- A stopped thread of memory space 1. -/
def ctx1 : Context :=
  { id := 1, mem := 1, parent := some 7, stopped := true, exited := false, exiting := false,
    intercepted := false, pending_intercept := false, pc := 10, regs := [0] }

/-- A target whose memory holds `a % 256` at every address `a` and never
faults. -/
def target0 : Target :=
  { mem := fun _ a => a % 256, rd_err := fun _ _ => 0, wr_err := fun _ _ => 0 }

/-- An x86 agent (`BREAK_INST = { 0xcc }`) with one break instruction planted
at address 10 of memory space 1, whose original byte was `0x55`. -/
def agent1 : Agent :=
  { BREAK_INST := [0xcc], contexts := [ctx1], breakpoints := [], refs := [],
    instructions := [{ ctx := 1, ctx_cnt := 1, address := 10, saved_code := [0x55],
                       error := 0, skip := false, refs := ["A"], planted := true }],
    replanting := false, target := target0, out := [] }

/-- A break instruction at address 10, not yet planted. -/
def bi0 : BreakInstruction :=
  { ctx := 1, ctx_cnt := 1, address := 10, saved_code := [0], error := 0, skip := false,
    refs := ["A"], planted := false }

/-- Collaborators for the concrete states: the address expression `0x1000`
has the value 4096 in every context, the condition `r0 == 42` compares the
first register of the context, nothing else evaluates, and no source line has
an address. -/
def sv0 : Services :=
  { evaluate_expression := fun c _ e =>
      if e = "0x1000" then .ok { type := .VALUE_INT, value := 4096 }
      else if e = "r0 == 42" then
        match c with
        | some ctx => .ok { type := .VALUE_INT, value := if ctx.regs.getD 0 0 = 42 then 1 else 0 }
        | none => .error (ERR_INV_CONTEXT, "no context")
      else .error (ERR_INV_EXPRESSION, "syntax error"),
    value_to_boolean := fun v => v.value != 0,
    line_to_address := fun _ _ _ _ => ([], 0),
    errno_to_str := fun _ => "error" }

/-- A process (memory space 1) without execution state. -/
def ctx7 : Context :=
  { id := 7, mem := 1, parent := none, stopped := false, exited := false, exiting := false,
    intercepted := false, pending_intercept := false, pc := 0, regs := [] }

/-- A thread of `ctx7` stopped at address 4096 with `r0 = 42`. -/
def ctx42 : Context :=
  { id := 1, mem := 1, parent := some 7, stopped := true, exited := false, exiting := false,
    intercepted := false, pending_intercept := false, pc := 4096, regs := [42] }

/-- The thread of `ctx42` stopped at address 4096 with `r0 = 0`. -/
def ctx00 : Context := { ctx42 with regs := [0] }

/-- Breakpoint `C`: enabled, at `0x1000`, with the condition `r0 == 42`,
planted once. -/
def bpC : BreakpointInfo :=
  { zero_breakpoint with id := "C", address := some "0x1000", condition := some "r0 == 42",
                         enabled := true, planted := 1, status_planted := 1 }

/-- The break instruction of breakpoint `C`, planted at address 4096. -/
def biC : BreakInstruction :=
  { ctx := 7, ctx_cnt := 1, address := 4096, saved_code := [0], error := 0, skip := false,
    refs := ["C"], planted := true }

/-- An agent with breakpoint `C` planted at address 4096 of memory space 1. -/
def agentC : Agent :=
  { BREAK_INST := [0xcc], contexts := [ctx7, ctx42], breakpoints := [bpC],
    refs := [{ inp := 1, bp := "C" }], instructions := [biC],
    replanting := false, target := target0, out := [] }

/-- Breakpoint `I` as a client sends it: enabled, at `0x1000`, unconditional,
with `IgnoreCount: 3`. -/
def bpI : BreakpointInfo :=
  { zero_breakpoint with id := "I", address := some "0x1000", enabled := true,
                         ignore_count := 3 }

/-- The agent after channel 1 added breakpoint `I` and the replant pass
planted it at address 4096 of memory space 1. -/
def agentI : Agent :=
  event_replant_breakpoints sv0
    (command_bp_add (ini_breakpoints_service [0xcc] [ctx7, ctx42] target0) "t1" 1 bpI)

/-- The state after the thread `ctx` stopped and its breakpoint conditions
were evaluated. -/
def after_hit (sv : Services) (s : Agent) (ctx : Context) : Agent :=
  (evaluate_breakpoint_condition sv s ctx).2

/-- Breakpoint `U` as a client sends it: enabled, at `0x1000`, with the
attribute `Foo` that the agent does not know. -/
def bpU : BreakpointInfo :=
  { zero_breakpoint with id := "U", address := some "0x1000", enabled := true,
                         unsupported := [{ name := "Foo", value := "1" }] }

/-- The agent after channel 1 added breakpoint `U`; a replant is pending. -/
def agentU : Agent :=
  command_bp_add (ini_breakpoints_service [0xcc] [ctx7, ctx42] target0) "t1" 1 bpU

/-- Breakpoint `A.1` as a client sends it: enabled, at `0x1000`. -/
def bpA : BreakpointInfo :=
  { zero_breakpoint with id := "A.1", address := some "0x1000", enabled := true }

/-- The agent after channel 1 added breakpoint `A.1` and the replant pass
planted it. -/
def agentP : Agent :=
  event_replant_breakpoints sv0
    (command_bp_add (ini_breakpoints_service [0xcc] [ctx7, ctx42] target0) "t1" 1 bpA)

/-- The agent `agentP` after channel 1 disabled breakpoint `A.1`, before the
replant pass that the command requested. -/
def agentD : Agent := command_bp_disable agentP "t2" 1 (some ["A.1"])

/-- The thread `ctx1` while it runs, with its Darwin extension. -/
def threadR : ContextDarwin :=
  { (default : ContextDarwin) with ctx := { ctx1 with stopped := false }, pid := 100 }

/-- The agent `agent1` while the thread `ctx1` runs. -/
def agentR : Agent := { agent1 with contexts := [{ ctx1 with stopped := false }] }

/-- The register snapshot of a thread that has just executed the break
instruction at address 10. -/
def snapR : REG_SET := { pc := 11, eflags := 0, regs := [0] }

/-- Memory that holds the 32-bit word `word` at address `base` (little-endian)
and is `rest` elsewhere. -/
def word_at (base word : Nat) (rest : Nat → Nat) (a : Nat) : Nat :=
  if base ≤ a ∧ a < base + 4 then (word >>> (8 * (a - base))) &&& 0xff else rest a

/-- A stopped ARM thread with the registers `regs` and the memory `mem`, no
register or memory access of which fails. -/
def arm_thread (regs : List Nat) (mem : Nat → Nat) : ArmContext :=
  { regs := regs, reg_err := fun _ => 0, mem := mem, rd_err := fun _ => 0, wr_err := fun _ => 0,
    exited := false, addr_bits := 32, ext := default }

/-- A thread at PC = `0x8000` on `MOV PC, LR` (`0xE1A0F00E`), with
LR = `0x1000`. -/
def armMov : ArmContext :=
  arm_thread [0, 0, 0, 0, 0, 0, 0, 0, 0, 0, 0, 0, 0, 0, 0x1000, 0x8000, 0]
    (word_at 0x8000 0xE1A0F00E (fun _ => 0))

/-- A thread at PC = `0x8000` on `LDMIA SP!, {R4, PC}` (`0xE8BD8010`), with
SP = `0x7000` and the word `0x2048` stored at `0x7004`. -/
def armLdm : ArmContext :=
  arm_thread [0, 0, 0, 0, 0, 0, 0, 0, 0, 0, 0, 0, 0, 0x7000, 0, 0x8000, 0]
    (word_at 0x8000 0xE8BD8010 (word_at 0x7004 0x2048 (fun _ => 0)))

/-- A thread at PC = `0x8000` on `BL` with the immediate `0xFFFFFE`
(`0xEBFFFFFE`, a branch to `0x8000`). -/
def armBl : ArmContext :=
  arm_thread [0, 0, 0, 0, 0, 0, 0, 0, 0, 0, 0, 0, 0, 0, 0, 0x8000, 0]
    (word_at 0x8000 0xEBFFFFFE (fun _ => 0))

/-- A thread at PC = `0x8000` on `MOV PC, R0` (`0xE1A0F000`), with R0 =
`0xFFFF0FE0` in the kernel-helper page and LR = `0x8004`. -/
def armHelper : ArmContext :=
  arm_thread [0xFFFF0FE0, 0, 0, 0, 0, 0, 0, 0, 0, 0, 0, 0, 0, 0, 0x8004, 0x8000, 0]
    (word_at 0x8000 0xE1A0F000 (fun _ => 0))

/-- The calls outside the module all succeed and no breakpoint is skipped. -/
def osOk : OsOutcome := { skip := false, set_state := 0, ptrace := 0, kill := 0 }

/-- The thread `threadR`, created with signal 2 in `sig_dont_pass`, after it
reported stops with the signals 30, 2 and 20. -/
def threadQ : ContextDarwin :=
  (event_pid_stopped 32 agentR
    (event_pid_stopped 32 agentR
      (event_pid_stopped 32 agentR { threadR with sig_dont_pass := [2] }
        30 0 false (.ok snapR)).2.1
      2 0 false (.ok snapR)).2.1
    20 0 false (.ok snapR)).2.1

/-- The OS answers `ESRCH` ("no such process") to `kill` and to `ptrace`; no
breakpoint is skipped and the registers can be written back. -/
def osGone : OsOutcome := { skip := false, set_state := 0, ptrace := ESRCH, kill := ESRCH }

/-- The hardware breakpoints of the concrete states, by address of the object:
1, 3 and 5 are instruction breakpoints at `0x8000`, `0x8010` and `0x8020`,
2 is a write watchpoint on the two bytes at `0x9001`. -/
def cbsW (p : Nat) : ContextBreakpoint :=
  if p = 2 then
    { address := 0x9001, length := 2, access_instruction := false, access_data_read := false,
      access_data_write := true, access_virtual := true }
  else
    { address := 0x8000 + 8 * (p - 1), length := 1, access_instruction := true,
      access_data_read := false, access_data_write := false, access_virtual := true }

/-- The extension of a process with two breakpoint slots and two watchpoint
slots (debug architecture v7, watchpoints of up to 4 bytes), whose slots 0 and
1 hold the breakpoints 1 and 3. -/
def bpsW : ContextExtensionARM_HW :=
  { (default : ContextExtensionARM_HW) with
    arch := 3, wp_size := 4, wp_cnt := 2, bp_cnt := 2, info_ok := true,
    hw_bps := [some 1, some 3] ++ List.replicate 30 none }

/-- The extension of a process with two breakpoint slots and one watchpoint
slot: slot 0 holds the breakpoint 1 (at `0x8000`), slot 2 the watchpoint 2 (the
two bytes at `0x9001`). -/
def bpsS : ContextExtensionARM_HW :=
  { (default : ContextExtensionARM_HW) with
    arch := 3, wp_size := 4, wp_cnt := 1, bp_cnt := 2, info_ok := true,
    hw_bps := [some 1, none, some 2] ++ List.replicate 29 none }

/-- The extension of a thread whose slots 0 and 2 are armed. -/
def extS : ContextExtensionARM_HW := { (default : ContextExtensionARM_HW) with armed := 5 }

/-- A watchpoint trap (`SIGTRAP`, `si_code` 4, `si_errno` -1) that reports the
address `0x5000`. -/
def sigS : siginfo_t := { si_signo := 5, si_errno := -1, si_code := 4, si_addr := 0x5000 }

/-- Breakpoint `E`: enabled, at `0x1000`, with the condition `r1 == 0`,
`IgnoreCount: 2`, planted once. -/
def bpE : BreakpointInfo :=
  { zero_breakpoint with id := "E", address := some "0x1000", condition := some "r1 == 0",
                         enabled := true, ignore_count := 2, planted := 1, status_planted := 1 }

/-- An agent with breakpoint `E` planted at address 4096 of memory space 1. -/
def agentE : Agent :=
  { BREAK_INST := [0xcc], contexts := [ctx7, ctx42], breakpoints := [bpE],
    refs := [{ inp := 1, bp := "E" }], instructions := [{ biC with refs := ["E"] }],
    replanting := false, target := target0, out := [] }

/-- The collaborators `sv0`, for which the condition `r1 == 0` raises an
evaluation error, but with that condition evaluating to true in every
context. -/
def svT : Services :=
  { sv0 with evaluate_expression := fun c f e =>
      if e = "r1 == 0" then .ok { type := .VALUE_INT, value := 1 }
      else sv0.evaluate_expression c f e }

/-- Error number of `<sys/errno.h>`. -/
def EFAULT : Nat := 14

/-- The target `target0`, except that every write to its memory fails with
`EFAULT`. -/
def targetF : Target := { target0 with wr_err := fun _ _ => EFAULT }

/-- The agent of a target that cannot be written, after channel 1 added
breakpoint `A.1` (enabled, at `0x1000`) and the first replant pass ran. -/
def agentF1 : Agent :=
  event_replant_breakpoints sv0
    (command_bp_add (ini_breakpoints_service [0xcc] [ctx7, ctx42] targetF) "t1" 1 bpA)

/-- The agent `agentF1` after a second replant pass, with the contexts and the
target memory as the first pass found them. -/
def agentF2 : Agent := event_replant_breakpoints sv0 agentF1

/-- Signal number of Darwin `<sys/signal.h>`. -/
def SIGSEGV : Nat := 11

/-- The thread `threadR` running a single step (`pending_step` set by
`context_single_step`). -/
def threadStep : ContextDarwin := { threadR with pending_step := true }

/-- The register snapshot of a thread stopped at address 21, where no break
instruction is planted. -/
def snapS : REG_SET := { pc := 21, eflags := 0, regs := [0] }

/-- A thread at PC = `0x8000` on `LDR R0, [R1]` (`0xE5910000`), with R1 =
`0x9000`. -/
def armLdrR0 : ArmContext :=
  arm_thread [0, 0x9000, 0, 0, 0, 0, 0, 0, 0, 0, 0, 0, 0, 0, 0, 0x8000, 0]
    (word_at 0x8000 0xE5910000 (fun _ => 0))

/-- The thread `armLdrR0` over a memory of which only the four bytes of the
instruction can be read. -/
def armLdrR0Blind : ArmContext :=
  { armLdrR0 with
    mem := word_at 0x8000 0xE5910000 (fun _ => 0xAA)
    rd_err := fun a => if 0x8000 ≤ a ∧ a < 0x8004 then 0 else EFAULT }

/-- A thread at PC = `0x8000` on `MOV PC, R0, LSL R8` (`0xE1A0F810`), with
R0 = `0x1000` and R8 = 4. -/
def armShiftR8 : ArmContext :=
  arm_thread [0x1000, 0, 0, 0, 0, 0, 0, 0, 4, 0, 0, 0, 0, 0, 0, 0x8000, 0]
    (word_at 0x8000 0xE1A0F810 (fun _ => 0))

/-- A thread at PC = `0x8000` on `MOV PC, R0, LSL R3` (`0xE1A0F310`), with
R0 = `0x1000` and R3 = 4. -/
def armShiftR3 : ArmContext :=
  arm_thread [0x1000, 0, 0, 4, 0, 0, 0, 0, 0, 0, 0, 0, 0, 0, 0, 0x8000, 0]
    (word_at 0x8000 0xE1A0F310 (fun _ => 0))

/-- A thread at PC = `0x8000` on `SBC PC, R1, R2` (`0xE0C1F002`), with
R1 = `0x9000`, R2 = `0x1000` and the flags `cpsr`. -/
def armSbc (cpsr : Nat) : ArmContext :=
  arm_thread [0, 0x9000, 0x1000, 0, 0, 0, 0, 0, 0, 0, 0, 0, 0, 0, 0, 0x8000, cpsr]
    (word_at 0x8000 0xE0C1F002 (fun _ => 0))

/-- A thread at PC = `0x8000` on `RSC PC, R2, R1` (`0xE0E2F001`), with
R1 = `0x9000`, R2 = `0x1000` and the flags `cpsr`. -/
def armRsc (cpsr : Nat) : ArmContext :=
  arm_thread [0, 0x9000, 0x1000, 0, 0, 0, 0, 0, 0, 0, 0, 0, 0, 0, 0, 0x8000, cpsr]
    (word_at 0x8000 0xE0E2F001 (fun _ => 0))

/-- A thread at PC = `0x8000` on `ADD PC, R1, PC` (`0xE081F00F`), with
R1 = `0x100`. -/
def armAddRmPc : ArmContext :=
  arm_thread [0, 0x100, 0, 0, 0, 0, 0, 0, 0, 0, 0, 0, 0, 0, 0, 0x8000, 0]
    (word_at 0x8000 0xE081F00F (fun _ => 0))

/-- A thread at PC = `0x8000` on `ADD PC, PC, R1` (`0xE08FF001`), with
R1 = `0x100`. -/
def armAddRnPc : ArmContext :=
  arm_thread [0, 0x100, 0, 0, 0, 0, 0, 0, 0, 0, 0, 0, 0, 0, 0, 0x8000, 0]
    (word_at 0x8000 0xE08FF001 (fun _ => 0))

/-- A thread at PC = `0x8000` on the post-indexed load with W = 1
`LDRT PC, [R1], #0` (`0xE4B1F000`), with R1 = `0x9000` and the word `0x2048`
stored at `0x9000`. -/
def armLdrt : ArmContext :=
  arm_thread [0, 0x9000, 0, 0, 0, 0, 0, 0, 0, 0, 0, 0, 0, 0, 0, 0x8000, 0]
    (word_at 0x8000 0xE4B1F000 (word_at 0x9000 0x2048 (fun _ => 0)))

/-- A thread at PC = `0x8000` on `LDR PC, [R1, R2, LSL #2]` (`0xE791F102`),
with R1 = `0x9000`, R2 = 4 and the word `0x2048` stored at `0x9010`. -/
def armLdrPc : ArmContext :=
  arm_thread [0, 0x9000, 4, 0, 0, 0, 0, 0, 0, 0, 0, 0, 0, 0, 0, 0x8000, 0]
    (word_at 0x8000 0xE791F102 (word_at 0x9010 0x2048 (fun _ => 0)))

/-- The hardware breakpoints `cbsW`, with 2 a write watchpoint on the four
bytes at `0x9002`, which lie in two words. -/
def cbsX (p : Nat) : ContextBreakpoint :=
  if p = 2 then
    { address := 0x9002, length := 4, access_instruction := false, access_data_read := false,
      access_data_write := true, access_virtual := true }
  else cbsW p

/-- Breakpoint `D` as a client sends it: enabled, at `0x1000`, with the
condition `r1 == 0`. -/
def bpD : BreakpointInfo :=
  { zero_breakpoint with id := "D", address := some "0x1000", condition := some "r1 == 0",
                         enabled := true }

/-- The agent of a target that cannot be written, with the process `ctx7` and
its stopped thread `ctx42`, after channel 1 added breakpoint `D`, whose
condition holds in both contexts, and the first replant pass ran. -/
def agentD1 : Agent :=
  event_replant_breakpoints svT
    (command_bp_add (ini_breakpoints_service [0xcc] [ctx7, ctx42] targetF) "t1" 1 bpD)

/-- The agent `agentD1` after a second replant pass. -/
def agentD2 : Agent := event_replant_breakpoints svT agentD1

/-- The record of the skip sequencer for the thread `ctx42` stopped at address
4096. -/
def sbK : SkipBreakpointInfo :=
  { ctx := 1, address := 4096, error := 0, pending_intercept := false, done := false, c := none }

/-- The agent `agentP` after `safe_skip_breakpoint` for the thread `ctx42`
removed the break instruction at 4096 from memory and issued the single
step. -/
def agentK : Agent := (safe_skip_breakpoint agentP sbK 0).agent

/-- A target whose memory space holds the ARM break instruction in its last
four bytes, `0xFFFFFFFC` to `0xFFFFFFFF`, and `a % 256` at every other address
`a`, and never faults. -/
def targetTop : Target :=
  { mem := fun _ a => if 0xFFFFFFFC ≤ a then ARM_BREAK_INST.getD (a - 0xFFFFFFFC) 0 else a % 256,
    rd_err := fun _ _ => 0, wr_err := fun _ _ => 0 }

/-- The break instruction of `agentTop`: planted at `0xFFFFFFFC`, with the
original bytes 1, 2, 3, 4. -/
def biTop : BreakInstruction :=
  { ctx := 1, ctx_cnt := 1, address := 0xFFFFFFFC, saved_code := [1, 2, 3, 4], error := 0,
    skip := false, refs := ["T"], planted := true }

/-- An ARM agent with 32-bit addresses and one break instruction, `biTop`,
planted in the last four bytes of memory space 1. -/
def agentTop : Agent :=
  { BREAK_INST := ARM_BREAK_INST, contexts := [ctx1], breakpoints := [], refs := [],
    instructions := [biTop], replanting := false, target := targetTop, out := [] }

/-- A target that holds the x86 break instruction `0xcc` at address 11 of
every memory space and `a % 256` at every other address `a`, and never
faults. -/
def target11 : Target :=
  { mem := fun _ a => if a = 11 then 0xcc else a % 256,
    rd_err := fun _ _ => 0, wr_err := fun _ _ => 0 }

/-- A break instruction planted at address 11, whose original byte was
`0x77`. -/
def bi11 : BreakInstruction :=
  { ctx := 1, ctx_cnt := 1, address := 11, saved_code := [0x77], error := 0, skip := false,
    refs := ["B"], planted := true }

/-- An x86 agent with two break instructions: `bi0` at address 10, not yet
planted, and `bi11`, planted at address 11. -/
def agent011 : Agent :=
  { BREAK_INST := [0xcc], contexts := [ctx1], breakpoints := [], refs := [],
    instructions := [bi0, bi11], replanting := false, target := target11, out := [] }

/-- A break instruction planted at address 10, whose original byte was
`0x55`. -/
def bi10 : BreakInstruction :=
  { ctx := 1, ctx_cnt := 1, address := 10, saved_code := [0x55], error := 0, skip := false,
    refs := ["A"], planted := true }

/-- A target that holds the x86 break instruction `0xcc` at the addresses 10
and 11 of every memory space and `a % 256` at every other address `a`, and
never faults. -/
def target1011 : Target :=
  { mem := fun _ a => if a = 10 ∨ a = 11 then 0xcc else a % 256,
    rd_err := fun _ _ => 0, wr_err := fun _ _ => 0 }

/-- An x86 agent with two planted break instructions, `bi10` at address 10 and
`bi11` at address 11. -/
def agent1011 : Agent :=
  { BREAK_INST := [0xcc], contexts := [ctx1], breakpoints := [], refs := [],
    instructions := [bi10, bi11], replanting := false, target := target1011, out := [] }

/-! ## Lemmas on the memory checks -/

theorem getD_set_eq (l : List Nat) (i v j : Nat) :
    (l.set i v).getD j 0 = if i = j ∧ j < l.length then v else l.getD j 0 := by
  simp only [List.getD_eq_getElem?_getD, List.getElem?_set]
  by_cases h : i = j
  · subst h
    by_cases hl : i < l.length
    · simp [hl]
    · simp [hl, List.getElem?_eq_none (Nat.le_of_not_lt hl)]
  · simp [h]

theorem address_add_eq (w a b : Nat) (h : a + b < 2 ^ w) : address_add w a b = a + b :=
  Nat.mod_eq_of_lt h

theorem address_sub_eq (w a b : Nat) (ha : a < 2 ^ w) (hb : b ≤ a) :
    address_sub w a b = a - b := by
  unfold address_sub
  rw [Nat.mod_eq_of_lt (Nat.lt_of_le_of_lt hb ha)]
  have e : a + 2 ^ w - b = (a - b) + 2 ^ w := by omega
  rw [e, Nat.add_mod_right, Nat.mod_eq_of_lt (by omega)]

/-- Two entries at different places of a list that is pairwise in a symmetric
relation are in the relation. -/
theorem pairwise_getElem? {α : Type} (R : α → α → Prop) (hsymm : ∀ a b, R a b → R b a)
    (l : List α) (h : l.Pairwise R) (i j : Nat) (a b : α)
    (hi : l[i]? = some a) (hj : l[j]? = some b) (hij : i ≠ j) : R a b := by
  induction l generalizing i j with
  | nil => simp at hi
  | cons x l ih =>
    rw [List.pairwise_cons] at h
    cases i with
    | zero =>
      cases j with
      | zero => exact absurd rfl hij
      | succ j =>
        simp only [List.getElem?_cons_zero, Option.some.injEq] at hi
        simp only [List.getElem?_cons_succ] at hj
        subst hi
        exact h.1 b (List.getElem?_mem hj)
    | succ i =>
      cases j with
      | zero =>
        simp only [List.getElem?_cons_zero, Option.some.injEq] at hj
        simp only [List.getElem?_cons_succ] at hi
        subst hj
        exact hsymm _ _ (h.1 a (List.getElem?_mem hi))
      | succ j =>
        simp only [List.getElem?_cons_succ] at hi hj
        exact ih h.2 i j hi hj (by omega)

theorem disjoint_instructions_symm (s : Agent) (a b : BreakInstruction)
    (h : disjoint_instructions s a b) : disjoint_instructions s b a := by
  intro hb ha hm
  exact (h ha hb hm.symm).symm

theorem read_instruction_bytes_succ (w n : Nat) (bi : BreakInstruction)
    (address size : Nat) (buf : List Nat)
    (ha : address + size < 2 ^ w) (hb : bi.address + n < 2 ^ w) :
    read_instruction_bytes w (n + 1) bi address size buf =
      (if bi.address + n < address then read_instruction_bytes w n bi address size buf
       else if bi.address + n ≥ address + size then read_instruction_bytes w n bi address size buf
       else (read_instruction_bytes w n bi address size buf).set (bi.address + n - address)
              (bi.saved_code.getD n 0)) := by
  unfold read_instruction_bytes
  rw [List.range_succ, List.foldl_append]
  simp only [List.foldl_cons, List.foldl_nil]
  rw [address_add_eq w _ _ hb, address_add_eq w _ _ ha]
  by_cases h1 : bi.address + n < address
  · rw [if_pos h1, if_pos h1]
  · rw [if_neg h1, if_neg h1]
    by_cases h2 : bi.address + n ≥ address + size
    · rw [if_pos h2, if_pos h2]
    · rw [if_neg h2, if_neg h2, address_sub_eq w _ _ hb (by omega)]

theorem read_instruction_bytes_length (w n : Nat) (bi : BreakInstruction)
    (address size : Nat) (buf : List Nat) :
    (read_instruction_bytes w n bi address size buf).length = buf.length := by
  unfold read_instruction_bytes
  generalize List.range n = l
  induction l generalizing buf with
  | nil => rfl
  | cons i l ih =>
    rw [List.foldl_cons, ih]
    split
    · rfl
    · split
      · rfl
      · rw [List.length_set]

theorem read_instruction_bytes_getD (w n : Nat) (bi : BreakInstruction)
    (address size : Nat) (buf : List Nat) (j : Nat)
    (ha : address + size < 2 ^ w) (hb : bi.address + n ≤ 2 ^ w) :
    (read_instruction_bytes w n bi address size buf).getD j 0 =
      if j < size ∧ j < buf.length ∧ bi.address ≤ address + j ∧ address + j < bi.address + n
      then bi.saved_code.getD (address + j - bi.address) 0 else buf.getD j 0 := by
  induction n with
  | zero =>
    have : ¬ (j < size ∧ j < buf.length ∧ bi.address ≤ address + j ∧ address + j < bi.address + 0) := by
      omega
    rw [if_neg this]
    simp [read_instruction_bytes]
  | succ n ih =>
    have ih := ih (by omega)
    have hlen := read_instruction_bytes_length w n bi address size buf
    rw [read_instruction_bytes_succ w n bi address size buf ha (by omega)]
    generalize read_instruction_bytes w n bi address size buf = b at ih hlen
    by_cases hc : j < size ∧ j < buf.length ∧ bi.address ≤ address + j ∧ address + j < bi.address + n
    · rw [if_pos hc] at ih
      have hc2 : j < size ∧ j < buf.length ∧ bi.address ≤ address + j ∧
          address + j < bi.address + (n + 1) := by omega
      by_cases h1 : bi.address + n < address
      · rw [if_pos h1, if_pos hc2]; exact ih
      · rw [if_neg h1]
        by_cases h2 : bi.address + n ≥ address + size
        · rw [if_pos h2, if_pos hc2]; exact ih
        · rw [if_neg h2, if_pos hc2, getD_set_eq, if_neg (by omega)]; exact ih
    · rw [if_neg hc] at ih
      by_cases h1 : bi.address + n < address
      · rw [if_pos h1, if_neg (by omega)]; exact ih
      · rw [if_neg h1]
        by_cases h2 : bi.address + n ≥ address + size
        · rw [if_pos h2, if_neg (by omega)]; exact ih
        · rw [if_neg h2, getD_set_eq]
          by_cases hj : bi.address + n - address = j ∧ j < b.length
          · rw [if_pos hj, if_pos (by omega)]
            have e : address + j - bi.address = n := by omega
            rw [e]
          · rw [if_neg hj, if_neg (by omega)]; exact ih

theorem write_instruction_bytes_succ (w : Nat) (BI : List Nat) (n a address size : Nat)
    (st : List Nat × List Nat) (ha : address + size < 2 ^ w) (hb : a + n < 2 ^ w) :
    write_instruction_bytes w BI (n + 1) a address size st =
      (if a + n < address then write_instruction_bytes w BI n a address size st
       else if a + n ≥ address + size then write_instruction_bytes w BI n a address size st
       else ((write_instruction_bytes w BI n a address size st).1.set n
               ((write_instruction_bytes w BI n a address size st).2.getD (a + n - address) 0),
             (write_instruction_bytes w BI n a address size st).2.set (a + n - address)
               (BI.getD n 0))) := by
  unfold write_instruction_bytes
  rw [List.range_succ, List.foldl_append]
  simp only [List.foldl_cons, List.foldl_nil]
  rw [address_add_eq w _ _ hb, address_add_eq w _ _ ha]
  by_cases h1 : a + n < address
  · rw [if_pos h1, if_pos h1]
  · rw [if_neg h1, if_neg h1]
    by_cases h2 : a + n ≥ address + size
    · rw [if_pos h2, if_pos h2]
    · rw [if_neg h2, if_neg h2, address_sub_eq w _ _ hb (by omega)]

theorem write_instruction_bytes_length (w : Nat) (BI : List Nat) (n a address size : Nat)
    (st : List Nat × List Nat) :
    (write_instruction_bytes w BI n a address size st).1.length = st.1.length ∧
    (write_instruction_bytes w BI n a address size st).2.length = st.2.length := by
  unfold write_instruction_bytes
  generalize List.range n = l
  induction l generalizing st with
  | nil => exact ⟨rfl, rfl⟩
  | cons i l ih =>
    rw [List.foldl_cons]
    refine ⟨(ih _).1.trans ?_, (ih _).2.trans ?_⟩
    · split
      · rfl
      · split
        · rfl
        · simp only [List.length_set]
    · split
      · rfl
      · split
        · rfl
        · simp only [List.length_set]

theorem write_instruction_bytes_buf (w : Nat) (BI : List Nat) (n a address size : Nat)
    (st : List Nat × List Nat) (j : Nat)
    (ha : address + size < 2 ^ w) (hb : a + n ≤ 2 ^ w) :
    (write_instruction_bytes w BI n a address size st).2.getD j 0 =
      if j < size ∧ j < st.2.length ∧ a ≤ address + j ∧ address + j < a + n
      then BI.getD (address + j - a) 0 else st.2.getD j 0 := by
  induction n with
  | zero =>
    rw [if_neg (by omega)]
    simp [write_instruction_bytes]
  | succ n ih =>
    have ih := ih (by omega)
    have hlen := (write_instruction_bytes_length w BI n a address size st).2
    rw [write_instruction_bytes_succ w BI n a address size st ha (by omega)]
    generalize write_instruction_bytes w BI n a address size st = r at ih hlen
    by_cases hc : j < size ∧ j < st.2.length ∧ a ≤ address + j ∧ address + j < a + n
    · rw [if_pos hc] at ih
      have hc2 : j < size ∧ j < st.2.length ∧ a ≤ address + j ∧ address + j < a + (n + 1) := by
        omega
      by_cases h1 : a + n < address
      · rw [if_pos h1, if_pos hc2]; exact ih
      · rw [if_neg h1]
        by_cases h2 : a + n ≥ address + size
        · rw [if_pos h2, if_pos hc2]; exact ih
        · rw [if_neg h2, if_pos hc2, getD_set_eq, if_neg (by omega)]; exact ih
    · rw [if_neg hc] at ih
      by_cases h1 : a + n < address
      · rw [if_pos h1, if_neg (by omega)]; exact ih
      · rw [if_neg h1]
        by_cases h2 : a + n ≥ address + size
        · rw [if_pos h2, if_neg (by omega)]; exact ih
        · rw [if_neg h2, getD_set_eq]
          by_cases hj : a + n - address = j ∧ j < r.2.length
          · rw [if_pos hj, if_pos (by omega)]
            have e : address + j - a = n := by omega
            rw [e]
          · rw [if_neg hj, if_neg (by omega)]; exact ih

theorem write_instruction_bytes_saved (w : Nat) (BI : List Nat) (n a address size : Nat)
    (st : List Nat × List Nat) (k : Nat)
    (ha : address + size < 2 ^ w) (hb : a + n ≤ 2 ^ w) :
    (write_instruction_bytes w BI n a address size st).1.getD k 0 =
      if k < n ∧ k < st.1.length ∧ address ≤ a + k ∧ a + k < address + size
      then st.2.getD (a + k - address) 0 else st.1.getD k 0 := by
  induction n with
  | zero =>
    rw [if_neg (by omega)]
    simp [write_instruction_bytes]
  | succ n ih =>
    have ih := ih (by omega)
    have hlen := (write_instruction_bytes_length w BI n a address size st).1
    have hbuf := write_instruction_bytes_buf w BI n a address size st (a + n - address) ha
      (by omega)
    rw [write_instruction_bytes_succ w BI n a address size st ha (by omega)]
    generalize write_instruction_bytes w BI n a address size st = r at ih hlen hbuf
    by_cases hc : k < n ∧ k < st.1.length ∧ address ≤ a + k ∧ a + k < address + size
    · rw [if_pos hc] at ih
      have hc2 : k < n + 1 ∧ k < st.1.length ∧ address ≤ a + k ∧ a + k < address + size := by
        omega
      by_cases h1 : a + n < address
      · rw [if_pos h1, if_pos hc2]; exact ih
      · rw [if_neg h1]
        by_cases h2 : a + n ≥ address + size
        · rw [if_pos h2, if_pos hc2]; exact ih
        · rw [if_neg h2, if_pos hc2, getD_set_eq, if_neg (by omega)]; exact ih
    · rw [if_neg hc] at ih
      by_cases h1 : a + n < address
      · rw [if_pos h1, if_neg (by omega)]; exact ih
      · rw [if_neg h1]
        by_cases h2 : a + n ≥ address + size
        · rw [if_pos h2, if_neg (by omega)]; exact ih
        · rw [if_neg h2, getD_set_eq]
          by_cases hj : n = k ∧ k < r.1.length
          · rw [if_pos hj, if_pos (by omega), hbuf, if_neg (by omega)]
            rw [hj.1]
          · rw [if_neg hj, if_neg (by omega)]; exact ih

theorem write_instruction_fields (w : Nat) (s : Agent) (ctx : Context) (address size : Nat)
    (bi : BreakInstruction) (buf : List Nat) :
    { (write_instruction w s ctx address size bi buf).1 with saved_code := bi.saved_code } = bi ∧
    (write_instruction w s ctx address size bi buf).1.saved_code.length = bi.saved_code.length ∧
    (write_instruction w s ctx address size bi buf).2.length = buf.length := by
  unfold write_instruction
  repeat' split
  all_goals first
    | exact ⟨rfl, rfl, rfl⟩
    | exact ⟨rfl, (write_instruction_bytes_length _ _ _ _ _ _ _).1,
        (write_instruction_bytes_length _ _ _ _ _ _ _).2⟩

theorem write_instruction_buf (w : Nat) (s : Agent) (ctx : Context) (address size : Nat)
    (bi : BreakInstruction) (buf : List Nat) (j : Nat)
    (ha : address + size < 2 ^ w) (hb : below_top w s ctx bi) :
    (write_instruction w s ctx address size bi buf).2.getD j 0 =
      if j < size ∧ j < buf.length ∧ covers s ctx bi (address + j)
      then s.BREAK_INST.getD (address + j - bi.address) 0 else buf.getD j 0 := by
  unfold write_instruction covers
  by_cases hp : bi.planted = false
  · rw [if_pos hp, if_neg (by simp [hp])]
  · rw [if_neg hp]
    by_cases hm : (s.ctx bi.ctx).mem ≠ ctx.mem
    · rw [if_pos hm, if_neg (by intro h; exact hm h.2.2.2.1)]
    · rw [if_neg hm]
      have hm2 : (s.ctx bi.ctx).mem = ctx.mem := not_not.mp hm
      have hp2 : bi.planted = true := by simpa using hp
      have hb2 := hb hp2 hm2
      rw [address_add_eq w _ _ hb2, address_add_eq w _ _ ha]
      by_cases h1 : bi.address + BREAK_SIZE s ≤ address
      · rw [if_pos h1, if_neg (by omega)]
      · rw [if_neg h1]
        by_cases h2 : bi.address ≥ address + size
        · rw [if_pos h2, if_neg (by omega)]
        · rw [if_neg h2]
          show (write_instruction_bytes w s.BREAK_INST (BREAK_SIZE s) bi.address address size
            (bi.saved_code, buf)).2.getD j 0 = _
          rw [write_instruction_bytes_buf w _ _ _ _ _ _ _ ha (by omega)]
          by_cases hc : j < size ∧ j < buf.length ∧ bi.address ≤ address + j ∧
              address + j < bi.address + BREAK_SIZE s
          · rw [if_pos hc, if_pos ⟨hc.1, hc.2.1, hp2, hm2, hc.2.2⟩]
          · rw [if_neg hc, if_neg (fun h => hc ⟨h.1, h.2.1, h.2.2.2.2⟩)]

theorem write_instruction_saved (w : Nat) (s : Agent) (ctx : Context) (address size : Nat)
    (bi : BreakInstruction) (buf : List Nat) (k : Nat)
    (ha : address + size < 2 ^ w) (hb : below_top w s ctx bi) :
    (write_instruction w s ctx address size bi buf).1.saved_code.getD k 0 =
      if k < BREAK_SIZE s ∧ k < bi.saved_code.length ∧ address ≤ bi.address + k ∧
          bi.address + k < address + size ∧ covers s ctx bi (bi.address + k)
      then buf.getD (bi.address + k - address) 0 else bi.saved_code.getD k 0 := by
  unfold write_instruction covers
  by_cases hp : bi.planted = false
  · rw [if_pos hp, if_neg (by simp [hp])]
  · rw [if_neg hp]
    by_cases hm : (s.ctx bi.ctx).mem ≠ ctx.mem
    · rw [if_pos hm, if_neg (by intro h; exact hm h.2.2.2.2.2.1)]
    · rw [if_neg hm]
      have hm2 : (s.ctx bi.ctx).mem = ctx.mem := not_not.mp hm
      have hp2 : bi.planted = true := by simpa using hp
      have hb2 := hb hp2 hm2
      rw [address_add_eq w _ _ hb2, address_add_eq w _ _ ha]
      by_cases h1 : bi.address + BREAK_SIZE s ≤ address
      · rw [if_pos h1, if_neg (by omega)]
      · rw [if_neg h1]
        by_cases h2 : bi.address ≥ address + size
        · rw [if_pos h2, if_neg (by omega)]
        · rw [if_neg h2]
          show (write_instruction_bytes w s.BREAK_INST (BREAK_SIZE s) bi.address address size
            (bi.saved_code, buf)).1.getD k 0 = _
          rw [write_instruction_bytes_saved w _ _ _ _ _ _ _ ha (by omega)]
          by_cases hc : k < BREAK_SIZE s ∧ k < bi.saved_code.length ∧ address ≤ bi.address + k ∧
              bi.address + k < address + size
          · rw [if_pos hc, if_pos ⟨hc.1, hc.2.1, hc.2.2.1, hc.2.2.2, hp2, hm2, by omega, by omega⟩]
          · rw [if_neg hc, if_neg (fun h => hc ⟨h.1, h.2.1, h.2.2.1, h.2.2.2.1⟩)]

theorem write_instructions_length (w : Nat) (s : Agent) (ctx : Context) (address size : Nat)
    (l : List BreakInstruction) (buf : List Nat) :
    (write_instructions w s ctx address size l buf).1.length = l.length ∧
    (write_instructions w s ctx address size l buf).2.length = buf.length := by
  induction l generalizing buf with
  | nil => exact ⟨rfl, rfl⟩
  | cons bi l ih =>
    simp only [write_instructions, List.length_cons]
    exact ⟨by rw [(ih _).1], by rw [(ih _).2, (write_instruction_fields _ _ _ _ _ _ _).2.2]⟩

/-- A buffer byte that no planted instruction of the memory space holds inside
the range is left as it is by the write check. -/
theorem write_instructions_buf_unchanged (w : Nat) (s : Agent) (ctx : Context)
    (address size : Nat) (l : List BreakInstruction) (buf : List Nat) (j : Nat)
    (ha : address + size < 2 ^ w) (hb : ∀ bi ∈ l, below_top w s ctx bi)
    (h : ∀ bi ∈ l, ¬ (j < size ∧ covers s ctx bi (address + j))) :
    (write_instructions w s ctx address size l buf).2.getD j 0 = buf.getD j 0 := by
  induction l generalizing buf with
  | nil => rfl
  | cons bi l ih =>
    simp only [write_instructions]
    rw [ih _ (fun b hb' => hb b (List.mem_cons_of_mem _ hb'))
        (fun b hb' => h b (List.mem_cons_of_mem _ hb')),
      write_instruction_buf w _ _ _ _ _ _ _ ha (hb bi (List.mem_cons_self _ _)),
      if_neg (fun hc => h bi (List.mem_cons_self _ _) ⟨hc.1, hc.2.2⟩)]

/-- Without overlap, a buffer byte held by a planted instruction of the memory
space is replaced by the byte of the break instruction. -/
theorem write_instructions_buf_break (w : Nat) (s : Agent) (ctx : Context)
    (address size : Nat) (l : List BreakInstruction) (buf : List Nat) (j : Nat)
    (ha : address + size < 2 ^ w) (hb : ∀ bi ∈ l, below_top w s ctx bi)
    (hno : l.Pairwise (disjoint_instructions s)) (hj : j < size) (hjl : j < buf.length)
    (bi : BreakInstruction) (hbi : bi ∈ l) (hc : covers s ctx bi (address + j)) :
    (write_instructions w s ctx address size l buf).2.getD j 0 =
      s.BREAK_INST.getD (address + j - bi.address) 0 := by
  induction l generalizing buf with
  | nil => cases hbi
  | cons b l ih =>
    rw [List.pairwise_cons] at hno
    simp only [write_instructions]
    rcases List.mem_cons.mp hbi with rfl | hmem
    · rw [write_instructions_buf_unchanged w _ _ _ _ _ _ _ ha
          (fun b hb' => hb b (List.mem_cons_of_mem _ hb')),
        write_instruction_buf w _ _ _ _ _ _ _ ha (hb _ (List.mem_cons_self _ _)),
        if_pos ⟨hj, hjl, hc⟩]
      intro b hb' hcb
      have hd := hno.1 b hb' hc.1 hcb.2.1 (hc.2.1.trans hcb.2.2.1.symm)
      have h3 := hc.2.2
      have h4 := hcb.2.2.2
      omega
    · exact ih _ (fun b hb' => hb b (List.mem_cons_of_mem _ hb')) hno.2
        (by rw [(write_instruction_fields _ _ _ _ _ _ _).2.2]; exact hjl) hmem

/-- Without overlap, the write check changes of an instruction only its
`saved_code`, and there exactly the bytes of a planted instruction of the
memory space that lie in the range, which take the client's bytes. -/
theorem write_instructions_saved (w : Nat) (s : Agent) (ctx : Context) (address size : Nat)
    (l : List BreakInstruction) (buf : List Nat)
    (ha : address + size < 2 ^ w) (hb : ∀ bi ∈ l, below_top w s ctx bi)
    (hno : l.Pairwise (disjoint_instructions s)) (n : Nat) (bi : BreakInstruction)
    (hn : l[n]? = some bi) :
    ∃ bi', (write_instructions w s ctx address size l buf).1[n]? = some bi' ∧
      { bi' with saved_code := bi.saved_code } = bi ∧
      bi'.saved_code.length = bi.saved_code.length ∧
      ∀ k, bi'.saved_code.getD k 0 =
        if k < BREAK_SIZE s ∧ k < bi.saved_code.length ∧ address ≤ bi.address + k ∧
            bi.address + k < address + size ∧ covers s ctx bi (bi.address + k)
        then buf.getD (bi.address + k - address) 0 else bi.saved_code.getD k 0 := by
  induction l generalizing buf n with
  | nil => simp at hn
  | cons b l ih =>
    rw [List.pairwise_cons] at hno
    simp only [write_instructions]
    cases n with
    | zero =>
      simp only [List.getElem?_cons_zero, Option.some.injEq] at hn
      subst hn
      refine ⟨_, by simp, (write_instruction_fields _ _ _ _ _ _ _).1,
        (write_instruction_fields _ _ _ _ _ _ _).2.1,
        fun k => write_instruction_saved w _ _ _ _ _ _ _ ha (hb _ (List.mem_cons_self _ _))⟩
    | succ n =>
      simp only [List.getElem?_cons_succ] at hn
      obtain ⟨bi', h1, h2, h3, h4⟩ := ih (write_instruction w s ctx address size b buf).2
        (fun b hb' => hb b (List.mem_cons_of_mem _ hb')) hno.2 n hn
      refine ⟨bi', by simpa using h1, h2, h3, fun k => ?_⟩
      rw [h4 k]
      by_cases hc : k < BREAK_SIZE s ∧ k < bi.saved_code.length ∧ address ≤ bi.address + k ∧
            bi.address + k < address + size ∧ covers s ctx bi (bi.address + k)
      · rw [if_pos hc, if_pos hc,
          write_instruction_buf w _ _ _ _ _ _ _ ha (hb _ (List.mem_cons_self _ _)), if_neg]
        rintro ⟨_, _, hcb⟩
        have hmem : bi ∈ l := List.getElem?_mem hn
        have e : address + (bi.address + k - address) = bi.address + k := by omega
        rw [e] at hcb
        have hd := hno.1 bi hmem hcb.1 hc.2.2.2.2.1 (hcb.2.1.trans hc.2.2.2.2.2.1.symm)
        have h5 := hcb.2.2
        have h6 := hc.1
        omega
      · rw [if_neg hc, if_neg hc]

/-- When only the `n`-th instruction of the table can hold byte `j`, the
write check acts on that buffer byte as the `n`-th instruction alone does. -/
theorem write_instructions_buf_only (w : Nat) (s : Agent) (ctx : Context) (address size : Nat)
    (l : List BreakInstruction) (buf : List Nat) (j n : Nat) (bi : BreakInstruction)
    (ha : address + size < 2 ^ w) (hb : ∀ bi ∈ l, below_top w s ctx bi)
    (hn : l[n]? = some bi)
    (hoth : ∀ (m : Nat) (b : BreakInstruction), m ≠ n → l[m]? = some b →
      ¬ (j < size ∧ covers s ctx b (address + j))) :
    (write_instructions w s ctx address size l buf).2.getD j 0 =
      (write_instruction w s ctx address size bi buf).2.getD j 0 := by
  induction l generalizing buf n with
  | nil => simp at hn
  | cons b l ih =>
    simp only [write_instructions]
    cases n with
    | zero =>
      simp only [List.getElem?_cons_zero, Option.some.injEq] at hn
      subst hn
      apply write_instructions_buf_unchanged w _ _ _ _ _ _ _ ha
        (fun b hb' => hb b (List.mem_cons_of_mem _ hb'))
      intro x hx
      obtain ⟨m, hm⟩ := List.mem_iff_getElem?.mp hx
      exact hoth (m + 1) x (by omega) (by simpa using hm)
    | succ n =>
      simp only [List.getElem?_cons_succ] at hn
      have hbi : below_top w s ctx bi := hb bi (List.mem_cons_of_mem _ (List.getElem?_mem hn))
      rw [ih _ n (fun b hb' => hb b (List.mem_cons_of_mem _ hb')) hn
        (fun m x hmn hx => hoth (m + 1) x (by omega) (by simpa using hx))]
      have hb0 : ¬ (j < size ∧ covers s ctx b (address + j)) :=
        hoth 0 b (by omega) (by simp)
      have e1 : (write_instruction w s ctx address size b buf).2.getD j 0 = buf.getD j 0 := by
        rw [write_instruction_buf w _ _ _ _ _ _ _ ha (hb _ (List.mem_cons_self _ _)),
          if_neg (fun h => hb0 ⟨h.1, h.2.2⟩)]
      rw [write_instruction_buf w s ctx address size bi
          (write_instruction w s ctx address size b buf).2 j ha hbi,
        write_instruction_buf w s ctx address size bi buf j ha hbi,
        (write_instruction_fields _ _ _ _ _ _ _).2.2, e1]

/-- The write check changes of every instruction at most `saved_code`. -/
theorem write_instructions_fields (w : Nat) (s : Agent) (ctx : Context) (address size : Nat)
    (l : List BreakInstruction) (buf : List Nat) (m : Nat) (b' : BreakInstruction)
    (hm : (write_instructions w s ctx address size l buf).1[m]? = some b') :
    ∃ b : BreakInstruction, l[m]? = some b ∧ { b' with saved_code := b.saved_code } = b := by
  induction l generalizing buf m with
  | nil => simp [write_instructions] at hm
  | cons x l ih =>
    simp only [write_instructions] at hm
    cases m with
    | zero =>
      simp only [List.getElem?_cons_zero, Option.some.injEq] at hm
      subst hm
      exact ⟨x, by simp, (write_instruction_fields _ _ _ _ _ _ _).1⟩
    | succ m =>
      simp only [List.getElem?_cons_succ] at hm
      obtain ⟨b, h1, h2⟩ := ih _ m hm
      exact ⟨b, by simpa using h1, h2⟩

theorem read_instruction_length (w : Nat) (s : Agent) (ctx : Context) (address size : Nat)
    (buf : List Nat) (bi : BreakInstruction) :
    (read_instruction w s ctx address size buf bi).length = buf.length := by
  unfold read_instruction
  repeat' split
  all_goals first | rfl | exact read_instruction_bytes_length _ _ _ _ _ _

theorem read_instruction_getD (w : Nat) (s : Agent) (ctx : Context) (address size : Nat)
    (buf : List Nat) (bi : BreakInstruction) (j : Nat)
    (ha : address + size < 2 ^ w) (hb : below_top w s ctx bi) :
    (read_instruction w s ctx address size buf bi).getD j 0 =
      if j < size ∧ j < buf.length ∧ covers s ctx bi (address + j)
      then bi.saved_code.getD (address + j - bi.address) 0 else buf.getD j 0 := by
  unfold read_instruction covers
  by_cases hp : bi.planted = false
  · rw [if_pos hp, if_neg (by simp [hp])]
  · rw [if_neg hp]
    by_cases hm : (s.ctx bi.ctx).mem ≠ ctx.mem
    · rw [if_pos hm, if_neg (by intro h; exact hm h.2.2.2.1)]
    · rw [if_neg hm]
      have hm2 : (s.ctx bi.ctx).mem = ctx.mem := not_not.mp hm
      have hp2 : bi.planted = true := by simpa using hp
      have hb2 := hb hp2 hm2
      rw [address_add_eq w _ _ hb2, address_add_eq w _ _ ha]
      by_cases h1 : bi.address + BREAK_SIZE s ≤ address
      · rw [if_pos h1, if_neg (by omega)]
      · rw [if_neg h1]
        by_cases h2 : bi.address ≥ address + size
        · rw [if_pos h2, if_neg (by omega)]
        · rw [if_neg h2, read_instruction_bytes_getD w _ _ _ _ _ _ ha (by omega)]
          by_cases hc : j < size ∧ j < buf.length ∧ bi.address ≤ address + j ∧
              address + j < bi.address + BREAK_SIZE s
          · rw [if_pos hc, if_pos ⟨hc.1, hc.2.1, hp2, hm2, hc.2.2⟩]
          · rw [if_neg hc, if_neg (fun h => hc ⟨h.1, h.2.1, h.2.2.2.2⟩)]

theorem foldl_read_instruction_length (w : Nat) (s : Agent) (ctx : Context) (address size : Nat)
    (l : List BreakInstruction) (buf : List Nat) :
    (l.foldl (read_instruction w s ctx address size) buf).length = buf.length := by
  induction l generalizing buf with
  | nil => rfl
  | cons bi l ih => rw [List.foldl_cons, ih, read_instruction_length]

/-- A byte that no planted instruction of the memory space holds inside the
range is left as it is by the read check. -/
theorem foldl_read_instruction_unchanged (w : Nat) (s : Agent) (ctx : Context)
    (address size : Nat) (l : List BreakInstruction) (buf : List Nat) (j : Nat)
    (ha : address + size < 2 ^ w) (hb : ∀ bi ∈ l, below_top w s ctx bi)
    (h : ∀ bi ∈ l, ¬ (j < size ∧ covers s ctx bi (address + j))) :
    (l.foldl (read_instruction w s ctx address size) buf).getD j 0 = buf.getD j 0 := by
  induction l generalizing buf with
  | nil => rfl
  | cons bi l ih =>
    rw [List.foldl_cons, ih _ (fun b hb' => hb b (List.mem_cons_of_mem _ hb'))
        (fun b hb' => h b (List.mem_cons_of_mem _ hb')),
      read_instruction_getD w _ _ _ _ _ _ _ ha (hb bi (List.mem_cons_self _ _)),
      if_neg (fun hc => h bi (List.mem_cons_self _ _) ⟨hc.1, hc.2.2⟩)]

/-- Without overlap, a byte held by a planted instruction of the memory space
is read as that instruction's saved code. -/
theorem foldl_read_instruction_saved (w : Nat) (s : Agent) (ctx : Context)
    (address size : Nat) (l : List BreakInstruction) (buf : List Nat) (j : Nat)
    (ha : address + size < 2 ^ w) (hb : ∀ bi ∈ l, below_top w s ctx bi)
    (hno : l.Pairwise (disjoint_instructions s)) (hj : j < size) (hjl : j < buf.length)
    (bi : BreakInstruction) (hbi : bi ∈ l) (hc : covers s ctx bi (address + j)) :
    (l.foldl (read_instruction w s ctx address size) buf).getD j 0 =
      bi.saved_code.getD (address + j - bi.address) 0 := by
  induction l generalizing buf with
  | nil => cases hbi
  | cons b l ih =>
    rw [List.pairwise_cons] at hno
    rw [List.foldl_cons]
    rcases List.mem_cons.mp hbi with rfl | hmem
    · rw [foldl_read_instruction_unchanged w _ _ _ _ _ _ _ ha
          (fun b hb' => hb b (List.mem_cons_of_mem _ hb')),
        read_instruction_getD w _ _ _ _ _ _ _ ha (hb _ (List.mem_cons_self _ _)),
        if_pos ⟨hj, hjl, hc⟩]
      intro b hb' hcb
      have hd := hno.1 b hb' hc.1 hcb.2.1 (hc.2.1.trans hcb.2.2.1.symm)
      have h3 := hc.2.2
      have h4 := hcb.2.2.2
      omega
    · exact ih _ (fun b hb' => hb b (List.mem_cons_of_mem _ hb')) hno.2
        (by rw [read_instruction_length]; exact hjl) hmem

/-- When only the `n`-th instruction of the table can hold byte `j`, the read
check acts on that byte as the `n`-th instruction alone does. -/
theorem foldl_read_instruction_only (w : Nat) (s : Agent) (ctx : Context) (address size : Nat)
    (l : List BreakInstruction) (buf : List Nat) (j n : Nat) (bi : BreakInstruction)
    (ha : address + size < 2 ^ w) (hb : ∀ bi ∈ l, below_top w s ctx bi)
    (hn : l[n]? = some bi)
    (hoth : ∀ (m : Nat) (b : BreakInstruction), m ≠ n → l[m]? = some b →
      ¬ (j < size ∧ covers s ctx b (address + j))) :
    (l.foldl (read_instruction w s ctx address size) buf).getD j 0 =
      (read_instruction w s ctx address size buf bi).getD j 0 := by
  induction l generalizing buf n with
  | nil => simp at hn
  | cons b l ih =>
    rw [List.foldl_cons]
    cases n with
    | zero =>
      simp only [List.getElem?_cons_zero, Option.some.injEq] at hn
      subst hn
      apply foldl_read_instruction_unchanged w _ _ _ _ _ _ _ ha
        (fun b hb' => hb b (List.mem_cons_of_mem _ hb'))
      intro x hx
      obtain ⟨m, hm⟩ := List.mem_iff_getElem?.mp hx
      exact hoth (m + 1) x (by omega) (by simpa using hm)
    | succ n =>
      simp only [List.getElem?_cons_succ] at hn
      have hbi : below_top w s ctx bi := hb bi (List.mem_cons_of_mem _ (List.getElem?_mem hn))
      rw [ih _ n (fun b hb' => hb b (List.mem_cons_of_mem _ hb')) hn
        (fun m x hmn hx => hoth (m + 1) x (by omega) (by simpa using hx))]
      have hb0 : ¬ (j < size ∧ covers s ctx b (address + j)) :=
        hoth 0 b (by omega) (by simp)
      have e1 : (read_instruction w s ctx address size buf b).getD j 0 = buf.getD j 0 := by
        rw [read_instruction_getD w _ _ _ _ _ _ _ ha (hb _ (List.mem_cons_self _ _)),
          if_neg (fun h => hb0 ⟨h.1, h.2.2⟩)]
      rw [read_instruction_getD w s ctx address size
          (read_instruction w s ctx address size buf b) bi j ha hbi,
        read_instruction_getD w s ctx address size buf bi j ha hbi, read_instruction_length, e1]

/-- Replacing an entry by an instruction that is not planted keeps the planted
instructions of a table pairwise disjoint. -/
theorem pairwise_set_unplanted (s : Agent) (l : List BreakInstruction) (n : Nat)
    (b : BreakInstruction) (hb : b.planted = false)
    (h : l.Pairwise (disjoint_instructions s)) :
    (l.set n b).Pairwise (disjoint_instructions s) := by
  induction l generalizing n with
  | nil => simp
  | cons x l ih =>
    rw [List.pairwise_cons] at h
    cases n with
    | zero =>
      rw [List.set_cons_zero, List.pairwise_cons]
      refine ⟨fun y _ h1 => ?_, h.2⟩
      rw [hb] at h1
      cases h1
    | succ n =>
      rw [List.set_cons_succ, List.pairwise_cons]
      refine ⟨fun y hy => ?_, ih n h.2⟩
      rcases List.mem_or_eq_of_mem_set hy with hy | hy
      · exact h.1 y hy
      · intro _ h2
        rw [hy, hb] at h2
        cases h2

/-- Two instructions that differ at most in `saved_code` hold the same bytes. -/
theorem covers_congr (s : Agent) (ctx : Context) (b b' : BreakInstruction) (a : Nat)
    (h : { b' with saved_code := b.saved_code } = b) :
    covers s ctx b' a ↔ covers s ctx b a := by
  have e1 : b'.ctx = b.ctx := by rw [← h]
  have e2 : b'.address = b.address := by rw [← h]
  have e3 : b'.planted = b.planted := by rw [← h]
  unfold covers
  rw [e1, e2, e3]

theorem below_top_congr (w : Nat) (s : Agent) (ctx : Context) (b b' : BreakInstruction)
    (h : { b' with saved_code := b.saved_code } = b) (hb : below_top w s ctx b) :
    below_top w s ctx b' := by
  have e1 : b'.ctx = b.ctx := by rw [← h]
  have e2 : b'.address = b.address := by rw [← h]
  have e3 : b'.planted = b.planted := by rw [← h]
  unfold below_top at hb ⊢
  rw [e1, e2, e3]
  exact hb

theorem disjoint_instructions_congr (s : Agent) (a a' b b' : BreakInstruction)
    (ha : { a' with saved_code := a.saved_code } = a)
    (hb : { b' with saved_code := b.saved_code } = b)
    (h : disjoint_instructions s a b) : disjoint_instructions s a' b' := by
  have e1 : a'.ctx = a.ctx := by rw [← ha]
  have e2 : a'.address = a.address := by rw [← ha]
  have e3 : a'.planted = a.planted := by rw [← ha]
  have e4 : b'.ctx = b.ctx := by rw [← hb]
  have e5 : b'.address = b.address := by rw [← hb]
  have e6 : b'.planted = b.planted := by rw [← hb]
  unfold disjoint_instructions at h ⊢
  rw [e1, e2, e3, e4, e5, e6]
  exact h

/-- The write check keeps the planted instructions of a table pairwise
disjoint. -/
theorem write_instructions_pairwise (w : Nat) (s : Agent) (ctx : Context) (address size : Nat)
    (l : List BreakInstruction) (buf : List Nat)
    (h : l.Pairwise (disjoint_instructions s)) :
    (write_instructions w s ctx address size l buf).1.Pairwise (disjoint_instructions s) := by
  induction l generalizing buf with
  | nil => simp [write_instructions]
  | cons x l ih =>
    rw [List.pairwise_cons] at h
    simp only [write_instructions]
    rw [List.pairwise_cons]
    refine ⟨fun y' hy' => ?_, ih _ h.2⟩
    obtain ⟨m, hm⟩ := List.mem_iff_getElem?.mp hy'
    obtain ⟨y, hy1, hy2⟩ := write_instructions_fields w s ctx address size l _ m y' hm
    exact disjoint_instructions_congr s x _ y y' (write_instruction_fields _ _ _ _ _ _ _).1 hy2
      (h.1 y (List.getElem?_mem hy1))

/-! ## Lemmas on the target memory and on planting -/

theorem context_read_mem_error (s : Agent) (ctx : Context) (address size e : Nat)
    (h : context_read_mem s ctx address size = .error e) : e ≠ 0 := by
  unfold context_read_mem at h
  split at h
  · cases h; decide
  · split at h
    · cases h; decide
    · split at h
      · rename_i hne
        cases h; exact hne
      · cases h

theorem context_read_mem_ok (s : Agent) (ctx : Context) (address size : Nat) (v : List Nat)
    (h : context_read_mem s ctx address size = .ok v) :
    v = target_bytes s ctx.mem address size ∧ ctx.exited = false ∧ is_running ctx = false := by
  unfold context_read_mem at h
  split at h
  · cases h
  · split at h
    · cases h
    · split at h
      · cases h
      · rename_i h1 h2 _
        cases h
        exact ⟨rfl, by simpa using h1, by simpa using h2⟩

theorem context_write_mem_error (s : Agent) (ctx : Context) (address : Nat) (buf : List Nat)
    (size e : Nat) (h : context_write_mem s ctx address buf size = .error e) : e ≠ 0 := by
  unfold context_write_mem at h
  split at h
  · cases h; decide
  · split at h
    · cases h; decide
    · split at h
      · rename_i hne
        cases h; exact hne
      · cases h

theorem context_write_mem_ok (s : Agent) (ctx : Context) (address : Nat) (buf : List Nat)
    (size : Nat) (s2 : Agent) (h : context_write_mem s ctx address buf size = .ok s2) :
    s2 = { s with target := { s.target with
      mem := fun sp a =>
        if sp = ctx.mem ∧ address ≤ a ∧ a < address + size then buf.getD (a - address) 0
        else s.target.mem sp a } } ∧ ctx.exited = false ∧ is_running ctx = false := by
  unfold context_write_mem at h
  split at h
  · cases h
  · split at h
    · cases h
    · split at h
      · cases h
      · rename_i h1 h2 _
        cases h
        exact ⟨rfl, by simpa using h1, by simpa using h2⟩

theorem target_bytes_length (s : Agent) (sp address size : Nat) :
    (target_bytes s sp address size).length = size := by
  simp [target_bytes]

theorem target_bytes_getD (s : Agent) (sp address size j : Nat) (hj : j < size) :
    (target_bytes s sp address size).getD j 0 = s.target.mem sp (address + j) := by
  simp [target_bytes, List.getD_eq_getElem?_getD, List.getElem?_map, List.getElem?_range hj]

theorem list_ext_getD (l1 l2 : List Nat) (hl : l1.length = l2.length)
    (h : ∀ j, j < l1.length → l1.getD j 0 = l2.getD j 0) : l1 = l2 := by
  apply List.ext_getElem hl
  intro j h1 h2
  have := h j h1
  simpa [List.getD_eq_getElem?_getD, List.getElem?_eq_getElem h1,
    List.getElem?_eq_getElem h2] using this

/-- A successful `plant_instruction`: the owner is stopped, the saved code is
what memory held, and memory holds the break instruction. -/
theorem plant_instruction_ok (s : Agent) (bi : BreakInstruction)
    (h : (plant_instruction s bi).1.planted = true) :
    (s.ctx bi.ctx).exited = false ∧ is_running (s.ctx bi.ctx) = false ∧
    (plant_instruction s bi).1 =
      { bi with error := 0, planted := true,
                saved_code := target_bytes s (s.ctx bi.ctx).mem bi.address (BREAK_SIZE s) } ∧
    (plant_instruction s bi).2 = { s with target := { s.target with
      mem := fun sp a =>
        if sp = (s.ctx bi.ctx).mem ∧ bi.address ≤ a ∧ a < bi.address + BREAK_SIZE s
        then s.BREAK_INST.getD (a - bi.address) 0 else s.target.mem sp a } } := by
  unfold plant_instruction at h ⊢
  simp only at h ⊢
  cases hr : context_read_mem s (s.ctx bi.ctx) bi.address (BREAK_SIZE s) with
  | error e =>
    rw [hr] at h
    simp only [decide_eq_true_eq] at h
    exact absurd h (context_read_mem_error _ _ _ _ _ hr)
  | ok code =>
    rw [hr] at h
    simp only at h ⊢
    obtain ⟨hcode, hex, hrun⟩ := context_read_mem_ok _ _ _ _ _ hr
    cases hw : context_write_mem s (s.ctx bi.ctx) bi.address s.BREAK_INST (BREAK_SIZE s) with
    | error e =>
      rw [hw] at h
      simp only [decide_eq_true_eq] at h
      exact absurd h (context_write_mem_error _ _ _ _ _ _ hw)
    | ok s2 =>
      obtain ⟨hs2, _, _⟩ := context_write_mem_ok _ _ _ _ _ _ hw
      simp only
      refine ⟨hex, hrun, ?_, hs2⟩
      rw [hcode]
      simp

/-- A `remove_instruction` that leaves no error on a stopped owner has written
the saved code back. -/
theorem remove_instruction_ok (s : Agent) (bi : BreakInstruction)
    (hex : (s.ctx bi.ctx).exited = false) (hrun : is_running (s.ctx bi.ctx) = false)
    (h : (remove_instruction s bi).1.error = 0) :
    (remove_instruction s bi).1 = { bi with planted := false } ∧
    (remove_instruction s bi).2 = { s with target := { s.target with
      mem := fun sp a =>
        if sp = (s.ctx bi.ctx).mem ∧ bi.address ≤ a ∧ a < bi.address + BREAK_SIZE s
        then bi.saved_code.getD (a - bi.address) 0 else s.target.mem sp a } } := by
  unfold remove_instruction at h ⊢
  rw [if_pos ⟨hex, hrun⟩] at h ⊢
  cases hw : context_write_mem s (s.ctx bi.ctx) bi.address bi.saved_code (BREAK_SIZE s) with
  | error e =>
    rw [hw] at h
    exact absurd h (context_write_mem_error _ _ _ _ _ _ hw)
  | ok s2 =>
    obtain ⟨hs2, _, _⟩ := context_write_mem_ok _ _ _ _ _ _ hw
    exact ⟨rfl, hs2⟩

/-- The table and target after a successful `plant_instruction` on the `n`-th
entry. -/
theorem plant_instruction_at_ok (s : Agent) (n : Nat) (bi : BreakInstruction)
    (hn : s.instructions[n]? = some bi) (h : (plant_instruction s bi).1.planted = true) :
    plant_instruction_at s n =
      { s with
        instructions := s.instructions.set n
          { bi with error := 0, planted := true,
                    saved_code := target_bytes s (s.ctx bi.ctx).mem bi.address (BREAK_SIZE s) },
        target := { s.target with
          mem := fun sp a =>
            if sp = (s.ctx bi.ctx).mem ∧ bi.address ≤ a ∧ a < bi.address + BREAK_SIZE s
            then s.BREAK_INST.getD (a - bi.address) 0 else s.target.mem sp a } } := by
  obtain ⟨_, _, hB, hS⟩ := plant_instruction_ok s bi h
  unfold plant_instruction_at
  rw [hn]
  simp only
  rw [hB, hS]
  rfl

/-- The table and target after an error-free `remove_instruction` on the
`n`-th entry, whose owner is stopped. -/
theorem remove_instruction_at_ok (s : Agent) (n : Nat) (bi : BreakInstruction)
    (hn : s.instructions[n]? = some bi)
    (hex : (s.ctx bi.ctx).exited = false) (hrun : is_running (s.ctx bi.ctx) = false)
    (h : (remove_instruction s bi).1.error = 0) :
    remove_instruction_at s n =
      { s with
        instructions := s.instructions.set n { bi with planted := false },
        target := { s.target with
          mem := fun sp a =>
            if sp = (s.ctx bi.ctx).mem ∧ bi.address ≤ a ∧ a < bi.address + BREAK_SIZE s
            then bi.saved_code.getD (a - bi.address) 0 else s.target.mem sp a } } := by
  obtain ⟨hB, hS⟩ := remove_instruction_ok s bi hex hrun h
  unfold remove_instruction_at
  rw [hn]
  simp only
  rw [hB, hS]
  rfl

/-! ## Lemmas on the break-instruction table and on condition evaluation -/

theorem find_index_some {α : Type} (p : α → Bool) (l : List α) (n : Nat)
    (h : find_index p l = some n) : ∃ a, l[n]? = some a ∧ p a = true := by
  induction l generalizing n with
  | nil => simp [find_index] at h
  | cons x l ih =>
    simp only [find_index] at h
    split at h
    · rename_i hp
      cases h
      exact ⟨x, by simp, hp⟩
    · cases hf : find_index p l with
      | none => rw [hf] at h; simp at h
      | some m =>
        rw [hf] at h
        simp only [Option.map_some', Option.some.injEq] at h
        subst h
        obtain ⟨a, h1, h2⟩ := ih m hf
        exact ⟨a, by simpa using h1, h2⟩

/-- `find_instruction` leaves the registry alone and changes of the entry
found at most its owner. -/
theorem find_instruction_some (s : Agent) (ctx : Context) (address n : Nat) (s1 : Agent)
    (h : find_instruction s ctx address = (some n, s1)) :
    s1.breakpoints = s.breakpoints ∧
    ∃ bi : BreakInstruction, s.instructions[n]? = some bi ∧
      (s.ctx bi.ctx).mem = ctx.mem ∧ bi.address = address ∧
      ∃ bi1 : BreakInstruction, s1.instructions[n]? = some bi1 ∧ { bi1 with ctx := bi.ctx } = bi := by
  unfold find_instruction at h
  cases hf : find_index (fun bi => (s.ctx bi.ctx).mem == ctx.mem && bi.address == address)
      s.instructions with
  | none => rw [hf] at h; simp at h
  | some m =>
    rw [hf] at h
    obtain ⟨bi, hbi, hp⟩ := find_index_some _ _ _ hf
    simp only [hbi] at h
    simp only [Bool.and_eq_true, beq_iff_eq] at hp
    have hlt : m < s.instructions.length := by
      rcases Nat.lt_or_ge m s.instructions.length with h' | h'
      · exact h'
      · rw [List.getElem?_eq_none h'] at hbi; cases hbi
    split at h
    · simp only [Prod.mk.injEq, Option.some.injEq] at h
      obtain ⟨rfl, rfl⟩ := h
      exact ⟨rfl, bi, hbi, hp.1, hp.2, _, List.getElem?_set_self hlt, rfl⟩
    · simp only [Prod.mk.injEq, Option.some.injEq] at h
      obtain ⟨rfl, rfl⟩ := h
      exact ⟨rfl, bi, hbi, hp.1, hp.2, bi, hbi, rfl⟩

theorem find_instruction_none (s : Agent) (ctx : Context) (address : Nat) (s1 : Agent)
    (h : find_instruction s ctx address = (none, s1)) : s1 = s := by
  unfold find_instruction at h
  cases hf : find_index (fun bi => (s.ctx bi.ctx).mem == ctx.mem && bi.address == address)
      s.instructions with
  | none => rw [hf] at h; simp at h; exact h.symm
  | some m =>
    rw [hf] at h
    obtain ⟨bi, hbi, _⟩ := find_index_some _ _ _ hf
    simp only [hbi] at h
    split at h <;> simp at h

/-- With ignore counts 0 and conditions that evaluate, the loop over the ref
list returns 1 exactly when some ref passes the filters, else 0. -/
theorem evaluate_refs_plain (sv : Services) (ctx : Context) (l : List String) (s : Agent)
    (h : ∀ id ∈ l, plain_ref sv s ctx id) :
    ((evaluate_refs sv ctx l s).1 = 1 ↔ ∃ id ∈ l, passes_filters sv s ctx id) ∧
    ((evaluate_refs sv ctx l s).1 = 1 ∨ (evaluate_refs sv ctx l s).1 = 0) := by
  induction l with
  | nil => simp [evaluate_refs]
  | cons id l ih =>
    have ih := ih (fun x hx => h x (List.mem_cons_of_mem _ hx))
    have hid := h id (List.mem_cons_self _ _)
    have hskip : ¬ passes_filters sv s ctx id →
        (((evaluate_refs sv ctx l s).1 = 1 ↔ ∃ x ∈ id :: l, passes_filters sv s ctx x) ∧
        ((evaluate_refs sv ctx l s).1 = 1 ∨ (evaluate_refs sv ctx l s).1 = 0)) := by
      intro hn
      refine ⟨?_, ih.2⟩
      rw [ih.1]
      constructor
      · rintro ⟨x, hx, hpx⟩
        exact ⟨x, List.mem_cons_of_mem _ hx, hpx⟩
      · rintro ⟨x, hx, hpx⟩
        rcases List.mem_cons.mp hx with rfl | hx
        · exact absurd hpx hn
        · exact ⟨x, hx, hpx⟩
    have hhit : passes_filters sv s ctx id →
        (((1 : Int) = 1 ↔ ∃ x ∈ id :: l, passes_filters sv s ctx x) ∧
        ((1 : Int) = 1 ∨ (1 : Int) = 0)) := by
      intro hp
      exact ⟨⟨fun _ => ⟨id, List.mem_cons_self _ _, hp⟩, fun _ => rfl⟩, Or.inl rfl⟩
    unfold evaluate_refs
    cases hf : find_breakpoint s id with
    | none =>
      simp only
      exact hskip (by rintro ⟨k, bp, hk, _⟩; rw [hf] at hk; cases hk)
    | some n =>
      simp only
      cases hb : s.breakpoints[n]? with
      | none =>
        simp only
        exact hskip (by
          rintro ⟨k, bp, hk, hbp, _⟩
          rw [hf] at hk; cases hk
          rw [hb] at hbp; cases hbp)
      | some bp =>
        simp only
        obtain ⟨hic, hcond⟩ := hid n bp hf hb
        by_cases hd : bp.deleted = true
        · rw [if_pos hd]
          exact hskip (by
            rintro ⟨k, bp', hk, hbp, h1, _⟩
            rw [hf] at hk; cases hk
            rw [hb] at hbp; cases hbp
            rw [hd] at h1; cases h1)
        · rw [if_neg hd]
          by_cases hu : bp.unsupported ≠ []
          · rw [if_pos hu]
            exact hskip (by
              rintro ⟨k, bp', hk, hbp, _, h2, _⟩
              rw [hf] at hk; cases hk
              rw [hb] at hbp; cases hbp
              exact hu h2)
          · rw [if_neg hu]
            by_cases he : bp.enabled = false
            · rw [if_pos he]
              exact hskip (by
                rintro ⟨k, bp', hk, hbp, _, _, h3, _⟩
                rw [hf] at hk; cases hk
                rw [hb] at hbp; cases hbp
                rw [he] at h3; cases h3)
            · rw [if_neg he]
              have hd' : bp.deleted = false := by simpa using hd
              have hu' : bp.unsupported = [] := not_not.mp hu
              have he' : bp.enabled = true := by simpa using he
              have hstep : ignore_count_step bp = (bp, true) := by
                unfold ignore_count_step
                rw [if_neg (by omega)]
              cases hc : bp.condition with
              | none =>
                rw [hstep]
                exact hhit ⟨n, bp, hf, hb, hd', hu', he', Or.inl hc⟩
              | some cond =>
                obtain ⟨v, hv⟩ := hcond cond hc
                simp only [hv]
                cases hvb : sv.value_to_boolean v with
                | false =>
                  simp only
                  exact hskip (by
                    rintro ⟨k, bp', hk, hbp, _, _, _, h4⟩
                    rw [hf] at hk; cases hk
                    rw [hb] at hbp; cases hbp
                    rcases h4 with h4 | ⟨c', v', h5, h6, h7⟩
                    · rw [hc] at h4; cases h4
                    · rw [hc] at h5; cases h5
                      rw [hv] at h6; cases h6
                      rw [hvb] at h7; cases h7)
                | true =>
                  rw [hstep]
                  exact hhit ⟨n, bp, hf, hb, hd', hu', he', Or.inr ⟨cond, v, hc, hv, hvb⟩⟩

theorem passes_filters_congr (sv : Services) (s s1 : Agent) (ctx : Context) (id : String)
    (h : s1.breakpoints = s.breakpoints) :
    passes_filters sv s1 ctx id ↔ passes_filters sv s ctx id := by
  unfold passes_filters find_breakpoint
  rw [h]

theorem plain_ref_congr (sv : Services) (s s1 : Agent) (ctx : Context) (id : String)
    (h : s1.breakpoints = s.breakpoints) :
    plain_ref sv s1 ctx id ↔ plain_ref sv s ctx id := by
  unfold plain_ref find_breakpoint
  rw [h]

/-! ## Lemmas on the replant pass -/

theorem referenced_nil (x : String) : ¬ referenced [] x := by
  rintro ⟨bi, hbi, _⟩
  cases hbi

theorem referenced_cons (a : BreakInstruction) (l : List BreakInstruction) (x : String) :
    referenced (a :: l) x ↔ x ∈ a.refs ∨ referenced l x := by
  unfold referenced
  simp

theorem referenced_append (l1 l2 : List BreakInstruction) (x : String) :
    referenced (l1 ++ l2) x ↔ referenced l1 x ∨ referenced l2 x := by
  unfold referenced
  constructor
  · rintro ⟨bi, hbi, hx⟩
    rcases List.mem_append.mp hbi with h | h
    · exact Or.inl ⟨bi, h, hx⟩
    · exact Or.inr ⟨bi, h, hx⟩
  · rintro (⟨bi, hbi, hx⟩ | ⟨bi, hbi, hx⟩)
    · exact ⟨bi, List.mem_append_left _ hbi, hx⟩
    · exact ⟨bi, List.mem_append_right _ hbi, hx⟩

/-- Storing back an entry whose ref list grew by `y`. -/
theorem referenced_set_push (l : List BreakInstruction) (n : Nat) (bi bi1 : BreakInstruction)
    (y x : String) (hn : l[n]? = some bi) (hr : bi1.refs = bi.refs ++ [y]) :
    referenced (l.set n bi1) x ↔ referenced l x ∨ x = y := by
  induction l generalizing n with
  | nil => simp at hn
  | cons a l ih =>
    cases n with
    | zero =>
      simp only [List.getElem?_cons_zero, Option.some.injEq] at hn
      subst hn
      simp only [List.set_cons_zero, referenced_cons, hr, List.mem_append, List.mem_singleton]
      tauto
    | succ n =>
      simp only [List.getElem?_cons_succ] at hn
      simp only [List.set_cons_succ, referenced_cons, ih n hn]
      tauto

/-- Storing back an entry with the same ref list. -/
theorem referenced_set_same (l : List BreakInstruction) (n : Nat) (bi bi1 : BreakInstruction)
    (x : String) (hn : l[n]? = some bi) (hr : bi1.refs = bi.refs) :
    referenced (l.set n bi1) x ↔ referenced l x := by
  induction l generalizing n with
  | nil => simp at hn
  | cons a l ih =>
    cases n with
    | zero =>
      simp only [List.getElem?_cons_zero, Option.some.injEq] at hn
      subst hn
      simp only [List.set_cons_zero, referenced_cons, hr]
    | succ n =>
      simp only [List.getElem?_cons_succ] at hn
      simp only [List.set_cons_succ, referenced_cons, ih n hn]

theorem same_properties_refl (a : BreakpointInfo) : same_properties a a :=
  ⟨rfl, rfl, rfl, rfl, rfl, rfl, rfl, rfl, rfl, rfl⟩

theorem same_properties_trans (a b c : BreakpointInfo) (h1 : same_properties a b)
    (h2 : same_properties b c) : same_properties a c := by
  obtain ⟨a1, a2, a3, a4, a5, a6, a7, a8, a9, a10⟩ := h1
  obtain ⟨b1, b2, b3, b4, b5, b6, b7, b8, b9, b10⟩ := h2
  exact ⟨a1.trans b1, a2.trans b2, a3.trans b3, a4.trans b4, a5.trans b5, a6.trans b6,
    a7.trans b7, a8.trans b8, a9.trans b9, a10.trans b10⟩

theorem plant_step_refl (l : List BreakInstruction) (a : BreakpointInfo) :
    plant_step l a l a :=
  ⟨same_properties_refl a, fun _ _ => Iff.rfl, id, Nat.le_refl _, fun h hp => h hp,
    fun h hr => h hr⟩

theorem plant_step_trans (l l1 l2 : List BreakInstruction) (a b c : BreakpointInfo)
    (h1 : plant_step l a l1 b) (h2 : plant_step l1 b l2 c) : plant_step l a l2 c := by
  have hid : b.id = a.id := h1.props.1
  refine ⟨same_properties_trans _ _ _ h2.props h1.props, ?_, ?_, Nat.le_trans h1.mono h2.mono,
    ?_, ?_⟩
  · intro x hx
    rw [h2.frame x (by rw [hid]; exact hx), h1.frame x hx]
  · intro h
    have := h2.keep (by rw [hid]; exact h1.keep h)
    rw [hid] at this
    exact this
  · intro h hp
    have := h2.planted_ref (by rw [hid]; exact h1.planted_ref h) hp
    rw [hid] at this
    exact this
  · intro h hr
    exact h2.ref_error (by rw [hid]; exact h1.ref_error h) (by rw [hid]; exact hr)

theorem same_registry_refl (s : Agent) : same_registry s s := ⟨rfl, rfl, rfl, rfl, rfl⟩

theorem same_registry_trans (s s1 s2 : Agent) (h1 : same_registry s s1)
    (h2 : same_registry s1 s2) : same_registry s s2 :=
  ⟨h2.1.trans h1.1, h2.2.1.trans h1.2.1, h2.2.2.1.trans h1.2.2.1,
    h2.2.2.2.1.trans h1.2.2.2.1, h2.2.2.2.2.trans h1.2.2.2.2⟩

theorem same_registry_ctx (s s1 : Agent) (h : same_registry s s1) (id : Nat) :
    s1.ctx id = s.ctx id := by
  unfold Agent.ctx
  rw [h.2.1]

/-- `find_instruction` changes neither the registry nor any ref list. -/
theorem find_instruction_frame (s : Agent) (ctx : Context) (address : Nat) :
    same_registry s (find_instruction s ctx address).2 ∧
    (∀ x, referenced (find_instruction s ctx address).2.instructions x ↔
      referenced s.instructions x) ∧
    (∀ n, (find_instruction s ctx address).1 = some n →
      ∃ bi1 : BreakInstruction, (find_instruction s ctx address).2.instructions[n]? = some bi1) := by
  cases hf : find_instruction s ctx address with
  | mk r s1 =>
    cases r with
    | none =>
      have := find_instruction_none s ctx address s1 hf
      subst this
      exact ⟨same_registry_refl _, fun _ => Iff.rfl, fun n h => by cases h⟩
    | some n =>
      obtain ⟨_, bi, hbi, _, _, bi1, hbi1, hfields⟩ := find_instruction_some s ctx address n s1 hf
      have hreg : same_registry s s1 ∧ ∀ x, referenced s1.instructions x ↔
          referenced s.instructions x := by
        unfold find_instruction at hf
        cases hfi : find_index (fun bi => (s.ctx bi.ctx).mem == ctx.mem && bi.address == address)
            s.instructions with
        | none => rw [hfi] at hf; simp at hf
        | some m =>
          rw [hfi] at hf
          obtain ⟨b, hb, _⟩ := find_index_some _ _ _ hfi
          simp only [hb] at hf
          split at hf
          · simp only [Prod.mk.injEq, Option.some.injEq] at hf
            obtain ⟨rfl, rfl⟩ := hf
            exact ⟨same_registry_refl _, fun x => referenced_set_same _ _ b _ x hb rfl⟩
          · simp only [Prod.mk.injEq, Option.some.injEq] at hf
            obtain ⟨rfl, rfl⟩ := hf
            exact ⟨same_registry_refl _, fun _ => Iff.rfl⟩
      refine ⟨hreg.1, hreg.2, fun m hm => ?_⟩
      simp only [Option.some.injEq] at hm
      subst hm
      exact ⟨bi1, hbi1⟩

/-- `push_ref` on an entry of the table is a step of planting. -/
theorem push_ref_step (s : Agent) (n : Nat) (bp : BreakpointInfo) (ctx : Context)
    (bi : BreakInstruction) (hn : s.instructions[n]? = some bi) :
    plant_step s.instructions bp (push_ref s n bp ctx).1.instructions (push_ref s n bp ctx).2 ∧
    same_registry s (push_ref s n bp ctx).1 ∧
    referenced (push_ref s n bp ctx).1.instructions bp.id := by
  have hpush : ∀ x, referenced (s.instructions.set n
      { bi with refs := bi.refs ++ [bp.id],
                ctx_cnt := if bi.ctx ≠ ctx.id then bi.ctx_cnt + 1 else bi.ctx_cnt }) x ↔
      referenced s.instructions x ∨ x = bp.id :=
    fun x => referenced_set_push _ _ bi _ bp.id x hn rfl
  unfold push_ref
  rw [hn]
  simp only
  by_cases he : bi.error ≠ 0
  · rw [if_pos he]
    by_cases hbe : bp.error = 0
    · rw [if_pos hbe]
      refine ⟨⟨same_properties_refl _, fun x hx => ?_, fun h => ?_, Nat.le_refl _, fun _ _ => ?_,
        fun _ _ => Or.inr he⟩, same_registry_refl _, ?_⟩
      · exact (hpush x).trans ⟨fun h => h.resolve_right hx, Or.inl⟩
      · exact (hpush _).mpr (Or.inl h)
      · exact (hpush _).mpr (Or.inr rfl)
      · exact (hpush _).mpr (Or.inr rfl)
    · rw [if_neg hbe]
      refine ⟨⟨same_properties_refl _, fun x hx => ?_, fun h => ?_, Nat.le_refl _, fun _ _ => ?_,
        fun _ _ => Or.inr hbe⟩, same_registry_refl _, ?_⟩
      · exact (hpush x).trans ⟨fun h => h.resolve_right hx, Or.inl⟩
      · exact (hpush _).mpr (Or.inl h)
      · exact (hpush _).mpr (Or.inr rfl)
      · exact (hpush _).mpr (Or.inr rfl)
  · rw [if_neg he]
    refine ⟨⟨same_properties_refl _, fun x hx => ?_, fun h => ?_, Nat.le_succ _, fun _ _ => ?_,
      fun _ _ => Or.inl (Nat.succ_pos _)⟩, same_registry_refl _, ?_⟩
    · exact (hpush x).trans ⟨fun h => h.resolve_right hx, Or.inl⟩
    · exact (hpush _).mpr (Or.inl h)
    · exact (hpush _).mpr (Or.inr rfl)
    · exact (hpush _).mpr (Or.inr rfl)

/-- `plant_breakpoint_in_context` is a step of planting after which the
breakpoint is referenced. -/
theorem plant_breakpoint_in_context_step (s : Agent) (bp : BreakpointInfo) (ctx : Context)
    (address : Nat) :
    plant_step s.instructions bp (plant_breakpoint_in_context s bp ctx address).1.instructions
      (plant_breakpoint_in_context s bp ctx address).2 ∧
    same_registry s (plant_breakpoint_in_context s bp ctx address).1 ∧
    referenced (plant_breakpoint_in_context s bp ctx address).1.instructions bp.id := by
  obtain ⟨hreg, href, hidx⟩ := find_instruction_frame s ctx address
  unfold plant_breakpoint_in_context
  cases hf : find_instruction s ctx address with
  | mk r s1 =>
    rw [hf] at hreg href hidx
    simp only at hreg href hidx
    have hfirst : plant_step s.instructions bp s1.instructions bp :=
      ⟨same_properties_refl _, fun x _ => href x, fun h => (href _).mpr h, Nat.le_refl _,
        fun h hp => (href _).mpr (h hp), fun h hr => h ((href _).mp hr)⟩
    cases r with
    | none =>
      simp only
      have hnew : (add_instruction s1 ctx address).instructions[s1.instructions.length]? =
          some { ctx := ctx.id, ctx_cnt := 0, address := address,
                 saved_code := List.replicate (BREAK_SIZE s1) 0, error := 0, skip := false,
                 refs := [], planted := false } := by
        simp [add_instruction]
      obtain ⟨h1, h2, h3⟩ := push_ref_step (add_instruction s1 ctx address)
        s1.instructions.length bp ctx _ hnew
      have hadd : plant_step s1.instructions bp (add_instruction s1 ctx address).instructions bp := by
        have hr : ∀ x, referenced (add_instruction s1 ctx address).instructions x ↔
            referenced s1.instructions x := by
          intro x
          simp only [add_instruction, referenced_append, referenced_cons]
          constructor
          · rintro (h | h | h)
            · exact h
            · cases h
            · exact absurd h (referenced_nil x)
          · exact Or.inl
        exact ⟨same_properties_refl _, fun x _ => hr x, fun h => (hr _).mpr h, Nat.le_refl _,
          fun h hp => (hr _).mpr (h hp), fun h hr' => h ((hr _).mp hr')⟩
      exact ⟨plant_step_trans _ _ _ _ _ _ hfirst (plant_step_trans _ _ _ _ _ _ hadd h1),
        same_registry_trans _ _ _ hreg
          (same_registry_trans _ (add_instruction s1 ctx address) _ (same_registry_refl _) h2), h3⟩
    | some n =>
      simp only
      obtain ⟨bi1, hbi1⟩ := hidx n rfl
      by_cases hc : bp.planted ≠ 0 ∧ bp.id ∈ ((s1.instructions[n]?).getD default).refs
      · rw [if_pos hc]
        have hr : referenced s1.instructions bp.id := by
          have := hc.2
          rw [hbi1] at this
          exact ⟨bi1, List.getElem?_mem hbi1, this⟩
        exact ⟨hfirst, hreg, hr⟩
      · rw [if_neg hc]
        obtain ⟨h1, h2, h3⟩ := push_ref_step s1 n bp ctx bi1 hbi1
        exact ⟨plant_step_trans _ _ _ _ _ _ hfirst h1, same_registry_trans _ _ _ hreg h2, h3⟩

/-- A change of the error fields that does not clear an error is a step of
planting. -/
theorem plant_step_error (l : List BreakInstruction) (a b : BreakpointInfo)
    (hp : same_properties b a) (hpl : b.planted = a.planted) (he : a.error ≠ 0 → b.error ≠ 0) :
    plant_step l a l b := by
  refine ⟨hp, fun _ _ => Iff.rfl, id, by rw [hpl], fun h h1 => h (by rw [← hpl]; exact h1),
    fun h hr => ?_⟩
  rcases h hr with h1 | h1
  · exact Or.inl (by rw [hpl]; exact h1)
  · exact Or.inr (he h1)

theorem address_expression_error_step (l : List BreakInstruction) (bp : BreakpointInfo)
    (errno : Nat) (msg : String) :
    plant_step l bp l (address_expression_error bp errno msg) := by
  apply plant_step_error
  · unfold address_expression_error
    split
    · exact same_properties_refl _
    · exact same_properties_refl _
  · unfold address_expression_error
    split <;> rfl
  · intro h
    unfold address_expression_error
    rw [if_pos h]
    exact h

/-- The calls of `plant_breakpoint_in_context` made by the callback of
`line_to_address` are a step of planting. -/
theorem foldl_plant_in_context_step (ctx : Context) (addrs : List Nat)
    (st : Agent × BreakpointInfo) :
    plant_step st.1.instructions st.2
      (addrs.foldl (fun st a => plant_breakpoint_in_context st.1 st.2 ctx a) st).1.instructions
      (addrs.foldl (fun st a => plant_breakpoint_in_context st.1 st.2 ctx a) st).2 ∧
    same_registry st.1
      (addrs.foldl (fun st a => plant_breakpoint_in_context st.1 st.2 ctx a) st).1 := by
  induction addrs generalizing st with
  | nil => exact ⟨plant_step_refl _ _, same_registry_refl _⟩
  | cons a addrs ih =>
    rw [List.foldl_cons]
    obtain ⟨h1, h2, _⟩ := plant_breakpoint_in_context_step st.1 st.2 ctx a
    obtain ⟨h3, h4⟩ := ih (plant_breakpoint_in_context st.1 st.2 ctx a)
    exact ⟨plant_step_trans _ _ _ _ _ _ h1 h3, same_registry_trans _ _ _ h2 h4⟩

/-- The body of the loop of `plant_breakpoint` is a step of planting. -/
theorem plant_breakpoint_context_step (sv : Services) (csa : Bool) (v : Value)
    (st : Agent × BreakpointInfo) (ctx : Context) :
    plant_step st.1.instructions st.2
      (plant_breakpoint_context sv csa v st ctx).1.instructions
      (plant_breakpoint_context sv csa v st ctx).2 ∧
    same_registry st.1 (plant_breakpoint_context sv csa v st ctx).1 := by
  have hrefl : plant_step st.1.instructions st.2 st.1.instructions st.2 ∧
      same_registry st.1 st.1 := ⟨plant_step_refl _ _, same_registry_refl _⟩
  have hin : ∀ a, plant_step st.1.instructions st.2
      (plant_breakpoint_in_context st.1 st.2 ctx a).1.instructions
      (plant_breakpoint_in_context st.1 st.2 ctx a).2 ∧
      same_registry st.1 (plant_breakpoint_in_context st.1 st.2 ctx a).1 := fun a =>
    ⟨(plant_breakpoint_in_context_step st.1 st.2 ctx a).1,
      (plant_breakpoint_in_context_step st.1 st.2 ctx a).2.1⟩
  unfold plant_breakpoint_context
  simp only
  split
  · exact hrefl
  · split
    · exact hrefl
    · split
      · exact hrefl
      · split
        · split
          · split
            · exact ⟨address_expression_error_step _ _ _ _, same_registry_refl _⟩
            · split
              · exact ⟨address_expression_error_step _ _ _ _, same_registry_refl _⟩
              · exact hin _
          · split
            · split
              · exact hrefl
              · obtain ⟨h1, h2⟩ := foldl_plant_in_context_step ctx
                  (sv.line_to_address ctx _ st.2.line st.2.column).1 st
                split
                · rename_i hne
                  split
                  · refine ⟨plant_step_trans _ _ _ _ _ _ h1 ?_, h2⟩
                    apply plant_step_error
                    · exact same_properties_refl _
                    · rfl
                    · intro _
                      exact hne
                  · exact ⟨h1, h2⟩
                · exact ⟨h1, h2⟩
            · exact hrefl
        · split
          · exact hrefl
          · exact hin _

theorem foldl_plant_breakpoint_context_step (sv : Services) (csa : Bool) (v : Value)
    (cs : List Context) (st : Agent × BreakpointInfo) :
    plant_step st.1.instructions st.2
      (cs.foldl (plant_breakpoint_context sv csa v) st).1.instructions
      (cs.foldl (plant_breakpoint_context sv csa v) st).2 ∧
    same_registry st.1 (cs.foldl (plant_breakpoint_context sv csa v) st).1 := by
  induction cs generalizing st with
  | nil => exact ⟨plant_step_refl _ _, same_registry_refl _⟩
  | cons c cs ih =>
    rw [List.foldl_cons]
    obtain ⟨h1, h2⟩ := plant_breakpoint_context_step sv csa v st c
    obtain ⟨h3, h4⟩ := ih (plant_breakpoint_context sv csa v st c)
    exact ⟨plant_step_trans _ _ _ _ _ _ h1 h3, same_registry_trans _ _ _ h2 h4⟩

theorem plant_breakpoint_contexts_post (sv : Services) (csa : Bool) (v : Value) (s : Agent)
    (bp : BreakpointInfo) (hp : bp.planted = 0) (hr : ¬ referenced s.instructions bp.id) :
    planted_post s bp (plant_breakpoint_contexts sv csa v s bp).1
      (plant_breakpoint_contexts sv csa v s bp).2 := by
  obtain ⟨h1, h2⟩ := foldl_plant_breakpoint_context_step sv csa v s.contexts (s, bp)
  have i1 := h1.planted_ref (fun h => by rw [hp] at h; exact absurd h (Nat.lt_irrefl 0))
  have i2 := h1.ref_error (fun h => absurd h hr)
  unfold plant_breakpoint_contexts
  simp only
  generalize s.contexts.foldl (plant_breakpoint_context sv csa v) (s, bp) = st at h1 h2 i1 i2
  by_cases hpl : st.2.planted ≠ 0
  · rw [if_pos hpl]
    exact ⟨h1.props, h2, h1.frame, ⟨fun h => ⟨rfl, i1 h⟩, fun _ => Nat.pos_of_ne_zero hpl⟩⟩
  · rw [if_neg hpl]
    refine ⟨h1.props, h2, h1.frame, ⟨fun h => absurd (Nat.pos_iff_ne_zero.mp h) hpl, ?_⟩⟩
    rintro ⟨he, hrf⟩
    rcases i2 hrf with h | h
    · exact h
    · exact absurd he h

theorem planted_post_unplanted (s : Agent) (bp bp1 : BreakpointInfo)
    (hr : ¬ referenced s.instructions bp.id) (hprops : same_properties bp1 bp)
    (hp : bp1.planted = 0) : planted_post s bp s bp1 :=
  ⟨hprops, same_registry_refl _, fun _ _ => Iff.rfl,
    ⟨fun h => by rw [hp] at h; exact absurd h (Nat.lt_irrefl 0), fun h => absurd h.2 hr⟩⟩

/-- The contract of `plant_breakpoint` for a breakpoint that enters it
unplanted and unreferenced. -/
theorem plant_breakpoint_post (sv : Services) (s : Agent) (bp : BreakpointInfo)
    (hp : bp.planted = 0) (hr : ¬ referenced s.instructions bp.id) :
    planted_post s bp (plant_breakpoint sv s bp).1 (plant_breakpoint sv s bp).2 := by
  have hcs : ∀ csa v, planted_post s bp
      (plant_breakpoint_contexts sv csa v s { bp with error := 0, err_msg := none }).1
      (plant_breakpoint_contexts sv csa v s { bp with error := 0, err_msg := none }).2 := by
    intro csa v
    have := plant_breakpoint_contexts_post sv csa v s { bp with error := 0, err_msg := none } hp hr
    exact ⟨this.props, this.registry, this.frame, this.iff⟩
  have herr : ∀ e msg, planted_post s bp s
      (address_expression_error { bp with error := 0, err_msg := none } e msg) := by
    intro e msg
    apply planted_post_unplanted s bp _ hr
    · exact (address_expression_error_step [] { bp with error := 0, err_msg := none } e msg).props
    · unfold address_expression_error
      split
      · exact hp
      · exact hp
  unfold plant_breakpoint
  simp only
  split
  · split
    · split
      · exact herr _ _
      · exact hcs _ _
    · split
      · exact herr _ _
      · exact hcs _ _
  · split
    · exact hcs _ _
    · exact planted_post_unplanted s bp _ hr (same_properties_refl _) hp

/-- The loop of the replant pass over a registry with distinct ids, none of
them referenced: it keeps the breakpoints that are not deleted, with their
properties, and establishes `planted_iff` for each of them. -/
theorem replant_loop_post (sv : Services) (l : List BreakpointInfo) (s : Agent)
    (hnd : (l.map (fun bp => bp.id)).Nodup)
    (hun : ∀ bp ∈ l, ¬ referenced s.instructions bp.id) :
    same_registry s (replant_loop sv l s).2 ∧
    (∀ x, x ∉ l.map (fun bp => bp.id) →
      (referenced (replant_loop sv l s).2.instructions x ↔ referenced s.instructions x)) ∧
    (∀ bp1 ∈ (replant_loop sv l s).1,
      planted_iff (replant_loop sv l s).2.instructions bp1 ∧
      ∃ bp ∈ l, bp.deleted = false ∧ same_properties bp1 bp) ∧
    (replant_loop sv l s).1.map (fun bp => bp.id) =
      (l.filter (fun bp => !bp.deleted)).map (fun bp => bp.id) ∧
    (∀ x, referenced (replant_loop sv l s).2.instructions x →
      referenced s.instructions x ∨ ∃ bp1 ∈ (replant_loop sv l s).1, bp1.id = x) := by
  induction l generalizing s with
  | nil =>
    refine ⟨same_registry_refl _, fun _ _ => Iff.rfl, fun b hb => ?_, rfl, fun _ h => Or.inl h⟩
    simp [replant_loop] at hb
  | cons bp l ih =>
    rw [List.map_cons, List.nodup_cons] at hnd
    have hun' : ∀ b ∈ l, ¬ referenced s.instructions b.id :=
      fun b hb => hun b (List.mem_cons_of_mem _ hb)
    unfold replant_loop
    by_cases hd : bp.deleted = true
    · rw [if_pos hd]
      obtain ⟨h1, h2, h3, h4, h5⟩ := ih s hnd.2 hun'
      refine ⟨h1, fun x hx => h2 x (fun h => hx (List.mem_cons_of_mem _ h)), fun b hb => ?_, ?_,
        h5⟩
      · obtain ⟨hb1, b0, hb0, hb2⟩ := h3 b hb
        exact ⟨hb1, b0, List.mem_cons_of_mem _ hb0, hb2⟩
      · rw [h4, List.filter_cons]
        simp [hd]
    · rw [if_neg hd]
      have hd' : bp.deleted = false := by simpa using hd
      have hunb : ¬ referenced s.instructions bp.id := hun bp (List.mem_cons_self _ _)
      -- the head breakpoint after `plant_breakpoint` or untouched
      have hpost : planted_post s bp
          (if bp.enabled = true ∧ bp.unsupported = [] then
            plant_breakpoint sv s { bp with planted := 0 } else (s, { bp with planted := 0 })).1
          (if bp.enabled = true ∧ bp.unsupported = [] then
            plant_breakpoint sv s { bp with planted := 0 } else (s, { bp with planted := 0 })).2 ∧
          ((if bp.enabled = true ∧ bp.unsupported = [] then
            plant_breakpoint sv s { bp with planted := 0 } else (s, { bp with planted := 0 })).2.planted
              > 0 → bp.enabled = true ∧ bp.unsupported = []) ∧
          (referenced (if bp.enabled = true ∧ bp.unsupported = [] then
            plant_breakpoint sv s { bp with planted := 0 }
              else (s, { bp with planted := 0 })).1.instructions bp.id →
              bp.enabled = true ∧ bp.unsupported = []) := by
        by_cases he : bp.enabled = true ∧ bp.unsupported = []
        · rw [if_pos he]
          have := plant_breakpoint_post sv s { bp with planted := 0 } rfl hunb
          exact ⟨⟨this.props, this.registry, this.frame, this.iff⟩, fun _ => he, fun _ => he⟩
        · rw [if_neg he]
          exact ⟨planted_post_unplanted s bp _ hunb (same_properties_refl _) rfl,
            fun h => absurd h (Nat.lt_irrefl 0), fun h => absurd h hunb⟩
      simp only
      generalize (if bp.enabled = true ∧ bp.unsupported = [] then
            plant_breakpoint sv s { bp with planted := 0 } else (s, { bp with planted := 0 })) = r
        at hpost
      obtain ⟨hpost, hen, href⟩ := hpost
      -- the status report changes neither the table nor the planting fields
      have hstat : ∃ (s2 : Agent) (bp2 : BreakpointInfo),
          (if r.2.status_unsupported ≠ decide (r.2.unsupported ≠ []) ∨
              r.2.status_error ≠ r.2.error ∨ r.2.status_planted ≠ r.2.planted then
            ({ r.1 with out := r.1.out ++ [(Dest.bcg, Event.status r.2.id
                  (write_breakpoint_status r.1 r.2))] },
             { r.2 with status_unsupported := decide (r.2.unsupported ≠ []),
                        status_error := r.2.error, status_planted := r.2.planted })
          else r) = (s2, bp2) ∧ s2.instructions = r.1.instructions ∧ same_registry r.1 s2 ∧
          same_properties bp2 r.2 ∧ bp2.planted = r.2.planted ∧ bp2.error = r.2.error := by
        split
        · exact ⟨_, _, rfl, rfl, same_registry_refl _, same_properties_refl _, rfl, rfl⟩
        · exact ⟨r.1, r.2, rfl, rfl, same_registry_refl _, same_properties_refl _, rfl, rfl⟩
      obtain ⟨s2, bp2, hr1, hins, hreg2, hprops2, hpl2, her2⟩ := hstat
      rw [hr1]
      simp only
      have hun2 : ∀ b ∈ l, ¬ referenced s2.instructions b.id := by
        intro b hb
        rw [hins, hpost.frame b.id (fun h => hnd.1 (by
          rw [← h]; exact List.mem_map_of_mem _ hb))]
        exact hun' b hb
      obtain ⟨h1, h2, h3, h4, h5⟩ := ih s2 hnd.2 hun2
      have hid2 : bp2.id = bp.id := hprops2.1.trans hpost.props.1
      refine ⟨same_registry_trans _ _ _ hpost.registry (same_registry_trans _ _ _ hreg2 h1),
        fun x hx => ?_, fun b hb => ?_, ?_, fun x hx => ?_⟩
      · rw [List.map_cons, List.mem_cons, not_or] at hx
        rw [h2 x hx.2, hins, hpost.frame x hx.1]
      · rcases List.mem_cons.mp hb with rfl | hb
        · have hfin : referenced (replant_loop sv l s2).2.instructions b.id ↔
              referenced r.1.instructions bp.id := by
            rw [hid2, h2 bp.id hnd.1, hins]
          have hsp : same_properties b bp := same_properties_trans _ _ _ hprops2 hpost.props
          refine ⟨⟨?_, ?_⟩, bp, List.mem_cons_self _ _, hd', hsp⟩
          · rw [hfin, hpl2, her2, hsp.2.1, hsp.2.2.2.1]
            constructor
            · intro h
              exact ⟨(hen h).1, (hen h).2, (hpost.iff.mp h).1, (hpost.iff.mp h).2⟩
            · rintro ⟨_, _, h3', h4'⟩
              exact hpost.iff.mpr ⟨h3', h4'⟩
          · rw [hfin, hsp.2.1, hsp.2.2.2.1]
            exact href
        · obtain ⟨hb1, b0, hb0, hb2⟩ := h3 b hb
          exact ⟨hb1, b0, List.mem_cons_of_mem _ hb0, hb2⟩
      · rw [List.map_cons, h4, List.filter_cons]
        simp [hd', hid2]
      · rcases h5 x hx with h | ⟨b, hb, hbx⟩
        · by_cases hxb : x = bp.id
          · exact Or.inr ⟨bp2, List.mem_cons_self _ _, by rw [hid2, hxb]⟩
          · rw [hins, hpost.frame x hxb] at h
            exact Or.inl h
        · exact Or.inr ⟨b, List.mem_cons_of_mem _ hb, hbx⟩

theorem context_write_mem_registry (s : Agent) (ctx : Context) (address : Nat)
    (buf : List Nat) (size : Nat) (s2 : Agent)
    (h : context_write_mem s ctx address buf size = .ok s2) :
    same_registry s s2 ∧ s2.instructions = s.instructions ∧ s2.out = s.out := by
  obtain ⟨h1, _, _⟩ := context_write_mem_ok _ _ _ _ _ _ h
  subst h1
  exact ⟨same_registry_refl _, rfl, rfl⟩

/-- `plant_instruction` keeps the ref list of the entry and the registry. -/
theorem plant_instruction_frame (s : Agent) (bi : BreakInstruction) :
    (plant_instruction s bi).1.refs = bi.refs ∧ same_registry s (plant_instruction s bi).2 := by
  unfold plant_instruction
  simp only
  cases hr : context_read_mem s (s.ctx bi.ctx) bi.address (BREAK_SIZE s) with
  | error e => exact ⟨rfl, same_registry_refl _⟩
  | ok code =>
    simp only
    cases hw : context_write_mem s (s.ctx bi.ctx) bi.address s.BREAK_INST (BREAK_SIZE s) with
    | error e => exact ⟨rfl, same_registry_refl _⟩
    | ok s2 => exact ⟨rfl, (context_write_mem_registry _ _ _ _ _ _ hw).1⟩

/-- `remove_instruction` keeps the ref list of the entry and the registry. -/
theorem remove_instruction_frame (s : Agent) (bi : BreakInstruction) :
    (remove_instruction s bi).1.refs = bi.refs ∧ same_registry s (remove_instruction s bi).2 := by
  unfold remove_instruction
  split
  · cases hw : context_write_mem s (s.ctx bi.ctx) bi.address bi.saved_code (BREAK_SIZE s) with
    | error e => exact ⟨rfl, same_registry_refl _⟩
    | ok s2 => exact ⟨rfl, (context_write_mem_registry _ _ _ _ _ _ hw).1⟩
  · exact ⟨rfl, same_registry_refl _⟩

/-- `delete_unused_instructions` drops only entries without refs. -/
theorem delete_unused_loop_frame (l : List BreakInstruction) (s : Agent) :
    (∀ x, referenced (delete_unused_loop l s).1 x ↔ referenced l x) ∧
    same_registry s (delete_unused_loop l s).2 := by
  induction l generalizing s with
  | nil => exact ⟨fun _ => Iff.rfl, same_registry_refl _⟩
  | cons bi l ih =>
    unfold delete_unused_loop
    split
    · obtain ⟨h1, h2⟩ := ih s
      exact ⟨fun x => by simp only [referenced_cons, h1 x], h2⟩
    · split
      · rename_i hrefs
        have hx : ∀ x, (referenced (bi :: l) x ↔ referenced l x) := by
          intro x
          rw [referenced_cons, hrefs]
          simp
        split
        · obtain ⟨h1, h2⟩ := ih (remove_instruction s
            (if (s.ctx bi.ctx).exited = true ∨ is_running (s.ctx bi.ctx) = true then
              match s.contexts.find? (fun c =>
                  c.mem == (s.ctx bi.ctx).mem && !c.exited && !is_running c) with
              | some c => { bi with ctx := c.id }
              | none => bi
            else bi)).2
          exact ⟨fun x => (h1 x).trans (hx x).symm,
            same_registry_trans _ _ _ (remove_instruction_frame _ _).2 h2⟩
        · obtain ⟨h1, h2⟩ := ih s
          exact ⟨fun x => (h1 x).trans (hx x).symm, h2⟩
      · split
        · obtain ⟨h1, h2⟩ := ih (plant_instruction s bi).2
          exact ⟨fun x => by
              simp only [referenced_cons, h1 x, (plant_instruction_frame s bi).1],
            same_registry_trans _ _ _ (plant_instruction_frame _ _).2 h2⟩
        · split
          · obtain ⟨h1, h2⟩ := ih (plant_instruction (remove_instruction s bi).2
              (remove_instruction s bi).1).2
            exact ⟨fun x => by
                simp only [referenced_cons, h1 x, (plant_instruction_frame _ _).1,
                  (remove_instruction_frame s bi).1],
              same_registry_trans _ _ _ (remove_instruction_frame _ _).2
                (same_registry_trans _ _ _ (plant_instruction_frame _ _).2 h2)⟩
          · obtain ⟨h1, h2⟩ := ih s
            exact ⟨fun x => by simp only [referenced_cons, h1 x], h2⟩

theorem clear_instruction_refs_unreferenced (s : Agent) (x : String) :
    ¬ referenced (clear_instruction_refs s).instructions x := by
  rintro ⟨bi, hbi, hx⟩
  simp only [clear_instruction_refs, List.mem_map] at hbi
  obtain ⟨b, _, rfl⟩ := hbi
  cases hx

theorem delete_unused_instructions_frame (s : Agent) :
    same_registry s (delete_unused_instructions s) ∧
    ∀ x, referenced (delete_unused_instructions s).instructions x ↔
      referenced s.instructions x := by
  obtain ⟨h1, h2⟩ := delete_unused_loop_frame s.instructions s
  unfold delete_unused_instructions
  exact ⟨h2, h1⟩

theorem planted_iff_congr (l l1 : List BreakInstruction) (bp : BreakpointInfo)
    (h : ∀ x, referenced l1 x ↔ referenced l x) (hp : planted_iff l bp) : planted_iff l1 bp := by
  unfold planted_iff at hp ⊢
  rw [h bp.id]
  exact hp

/-- The contract of one replant pass on a registry with distinct ids: the
latch is cleared, the breakpoints flagged deleted are gone, the others keep
their properties, and each of them satisfies `planted_iff`. -/
theorem event_replant_breakpoints_post (sv : Services) (s : Agent)
    (hnd : (s.breakpoints.map (fun bp => bp.id)).Nodup) :
    (event_replant_breakpoints sv s).replanting = false ∧
    (event_replant_breakpoints sv s).refs = s.refs ∧
    (event_replant_breakpoints sv s).contexts = s.contexts ∧
    (event_replant_breakpoints sv s).BREAK_INST = s.BREAK_INST ∧
    (∀ bp1 ∈ (event_replant_breakpoints sv s).breakpoints,
      planted_iff (event_replant_breakpoints sv s).instructions bp1 ∧
      ∃ bp ∈ s.breakpoints, bp.deleted = false ∧ same_properties bp1 bp) ∧
    (event_replant_breakpoints sv s).breakpoints.map (fun bp => bp.id) =
      (s.breakpoints.filter (fun bp => !bp.deleted)).map (fun bp => bp.id) ∧
    (∀ x, referenced (event_replant_breakpoints sv s).instructions x →
      ∃ bp1 ∈ (event_replant_breakpoints sv s).breakpoints, bp1.id = x) := by
  obtain ⟨h1, _, h3, h4, h7⟩ := replant_loop_post sv s.breakpoints
    (clear_instruction_refs { s with replanting := false }) hnd
    (fun bp _ => clear_instruction_refs_unreferenced _ _)
  have key : event_replant_breakpoints sv s = delete_unused_instructions
      { (replant_loop sv s.breakpoints
          (clear_instruction_refs { s with replanting := false })).2 with
        breakpoints := (replant_loop sv s.breakpoints
          (clear_instruction_refs { s with replanting := false })).1 } := rfl
  rw [key]
  generalize replant_loop sv s.breakpoints
    (clear_instruction_refs { s with replanting := false }) = r at h1 h3 h4 h7
  obtain ⟨h5, h6⟩ := delete_unused_instructions_frame { r.2 with breakpoints := r.1 }
  generalize delete_unused_instructions { r.2 with breakpoints := r.1 } = s' at h5 h6
  obtain ⟨a1, a2, a3, a4, a5⟩ := h1
  obtain ⟨b1, b2, b3, b4, b5⟩ := h5
  simp only at b1 b2 b3 b4 b5 h6
  refine ⟨b5.trans a5, b4.trans a4, b2.trans a2, b1.trans a1, ?_, ?_, ?_⟩
  · intro bp1 hbp1
    rw [b3] at hbp1
    obtain ⟨ha, hb⟩ := h3 bp1 hbp1
    exact ⟨planted_iff_congr _ _ _ h6 ha, hb⟩
  · rw [b3]
    exact h4
  · intro x hx
    rw [b3]
    rcases h7 x ((h6 x).mp hx) with h | h
    · exact absurd h (clear_instruction_refs_unreferenced _ _)
    · exact h

theorem find_index_none {α : Type} (p : α → Bool) (l : List α) :
    find_index p l = none ↔ ∀ a ∈ l, p a = false := by
  induction l with
  | nil => simp [find_index]
  | cons x l ih =>
    simp only [find_index, List.mem_cons, forall_eq_or_imp]
    by_cases hp : p x = true
    · simp [hp]
    · have hp' : p x = false := by simpa using hp
      simp [hp', ih]

/-- The element that `find_index` returns is the first that satisfies `p`. -/
theorem find_index_first {α : Type} (p : α → Bool) (l : List α) (n : Nat)
    (h : find_index p l = some n) : ∀ (m : Nat) (a : α), m < n → l[m]? = some a → p a = false := by
  induction l generalizing n with
  | nil => simp [find_index] at h
  | cons x l ih =>
    simp only [find_index] at h
    split at h
    · cases h
      intro m a hm
      omega
    · rename_i hp
      cases hf : find_index p l with
      | none => rw [hf] at h; simp at h
      | some k =>
        rw [hf] at h
        simp only [Option.map_some', Option.some.injEq] at h
        subst h
        intro m a hm ha
        cases m with
        | zero =>
          simp only [List.getElem?_cons_zero, Option.some.injEq] at ha
          subst ha
          simpa using hp
        | succ m =>
          simp only [List.getElem?_cons_succ] at ha
          exact ih k hf m a (by omega) ha

theorem find_index_of_unique {α : Type} (p : α → Bool) (l : List α) (n : Nat) (a : α)
    (hn : l[n]? = some a) (hp : p a = true)
    (hu : ∀ (m : Nat) (b : α), m < n → l[m]? = some b → p b = false) :
    find_index p l = some n := by
  induction l generalizing n with
  | nil => simp at hn
  | cons x l ih =>
    cases n with
    | zero =>
      simp only [List.getElem?_cons_zero, Option.some.injEq] at hn
      subst hn
      simp [find_index, hp]
    | succ n =>
      simp only [List.getElem?_cons_succ] at hn
      have hx : p x = false := hu 0 x (by omega) (by simp)
      simp only [find_index, hx, Bool.false_eq_true, if_false]
      rw [ih n hn (fun m b hm hb => hu (m + 1) b (by omega) (by simpa using hb))]
      rfl

theorem nodup_map_index {α β : Type} (f : α → β) (l : List α) (hnd : (l.map f).Nodup)
    (m n : Nat) (a b : α) (hm : l[m]? = some a) (hn : l[n]? = some b) (hab : f a = f b) :
    m = n := by
  induction l generalizing m n with
  | nil => simp at hm
  | cons x l ih =>
    rw [List.map_cons, List.nodup_cons] at hnd
    cases m with
    | zero =>
      cases n with
      | zero => rfl
      | succ n =>
        simp only [List.getElem?_cons_zero, Option.some.injEq] at hm
        simp only [List.getElem?_cons_succ] at hn
        subst hm
        exact absurd (by rw [hab]; exact List.mem_map_of_mem f (List.getElem?_mem hn)) hnd.1
    | succ m =>
      cases n with
      | zero =>
        simp only [List.getElem?_cons_zero, Option.some.injEq] at hn
        simp only [List.getElem?_cons_succ] at hm
        subst hn
        exact absurd (by rw [← hab]; exact List.mem_map_of_mem f (List.getElem?_mem hm)) hnd.1
      | succ n =>
        simp only [List.getElem?_cons_succ] at hm hn
        rw [ih hnd.2 m n hm hn]

theorem copy_breakpoint_info_fields (dst src : BreakpointInfo) :
    (copy_breakpoint_info dst src).1 =
      { dst with id := src.id, address := src.address, condition := src.condition,
                 file := src.file, line := src.line, column := src.column,
                 ignore_count := src.ignore_count, enabled := src.enabled,
                 unsupported := src.unsupported } := by
  have h1 : ∀ r, (copy_id src r).1 = { r.1 with id := src.id } := by
    intro r; unfold copy_id; split
    · rfl
    · rename_i h; obtain ⟨r1, r2⟩ := r; cases r1; simp_all
  have h2 : ∀ r, (copy_address src r).1 = { r.1 with address := src.address } := by
    intro r; unfold copy_address; split
    · rfl
    · rename_i h; obtain ⟨r1, r2⟩ := r; cases r1; simp_all
  have h3 : ∀ r, (copy_condition src r).1 = { r.1 with condition := src.condition } := by
    intro r; unfold copy_condition; split
    · rfl
    · rename_i h; obtain ⟨r1, r2⟩ := r; cases r1; simp_all
  have h4 : ∀ r, (copy_file src r).1 = { r.1 with file := src.file } := by
    intro r; unfold copy_file; split
    · rfl
    · rename_i h; obtain ⟨r1, r2⟩ := r; cases r1; simp_all
  have h5 : ∀ r, (copy_line src r).1 = { r.1 with line := src.line } := by
    intro r; unfold copy_line; split
    · rfl
    · rename_i h; obtain ⟨r1, r2⟩ := r; cases r1; simp_all
  have h6 : ∀ r, (copy_column src r).1 = { r.1 with column := src.column } := by
    intro r; unfold copy_column; split
    · rfl
    · rename_i h; obtain ⟨r1, r2⟩ := r; cases r1; simp_all
  have h7 : ∀ r, (copy_ignore_count src r).1 = { r.1 with ignore_count := src.ignore_count } := by
    intro r; unfold copy_ignore_count; split
    · rfl
    · rename_i h; obtain ⟨r1, r2⟩ := r; cases r1; simp_all
  have h8 : ∀ r, (copy_enabled src r).1 = { r.1 with enabled := src.enabled } := by
    intro r; unfold copy_enabled; split
    · rfl
    · rename_i h; obtain ⟨r1, r2⟩ := r; cases r1; simp_all
  have h9 : ∀ r, (copy_unsupported src r).1 = { r.1 with unsupported := src.unsupported } := by
    intro r; unfold copy_unsupported; split
    · rfl
    · rename_i h; obtain ⟨r1, r2⟩ := r; cases r1; simp_all
  unfold copy_breakpoint_info
  rw [h9, h8, h7, h6, h5, h4, h3, h2, h1]

theorem copy_breakpoint_info_unchanged (dst src : BreakpointInfo)
    (h : (copy_breakpoint_info dst src).2 = false) : (copy_breakpoint_info dst src).1 = dst := by
  have step : ∀ (f : BreakpointInfo × Bool → BreakpointInfo × Bool) (c : BreakpointInfo × Bool → Prop)
      (u : BreakpointInfo × Bool → BreakpointInfo) [∀ r, Decidable (c r)],
      (∀ r, f r = if c r then (u r, true) else r) →
      ∀ r, (f r).2 = false → f r = r := by
    intro f c u _ hf r hr
    rw [hf] at hr ⊢
    split at hr
    · cases hr
    · rename_i hc; rw [if_neg hc]
  unfold copy_breakpoint_info at h ⊢
  have e9 := step (copy_unsupported src) _ _ (fun r => rfl) _ h
  rw [e9] at h ⊢
  have e8 := step (copy_enabled src) _ _ (fun r => rfl) _ h
  rw [e8] at h ⊢
  have e7 := step (copy_ignore_count src) _ _ (fun r => rfl) _ h
  rw [e7] at h ⊢
  have e6 := step (copy_column src) _ _ (fun r => rfl) _ h
  rw [e6] at h ⊢
  have e5 := step (copy_line src) _ _ (fun r => rfl) _ h
  rw [e5] at h ⊢
  have e4 := step (copy_file src) _ _ (fun r => rfl) _ h
  rw [e4] at h ⊢
  have e3 := step (copy_condition src) _ _ (fun r => rfl) _ h
  rw [e3] at h ⊢
  have e2 := step (copy_address src) _ _ (fun r => rfl) _ h
  rw [e2] at h ⊢
  have e1 := step (copy_id src) _ _ (fun r => rfl) _ h
  rw [e1]

theorem replant_breakpoints_frame (s : Agent) :
    { replant_breakpoints s with replanting := s.replanting } = s := by
  unfold replant_breakpoints
  by_cases hc : (s.breakpoints = [] ∧ s.instructions = [])
  · rw [if_pos hc]
  · rw [if_neg hc]
    by_cases hr : s.replanting = true
    · rw [if_pos hr]
    · rw [if_neg hr]

theorem replant_breakpoints_refs (s : Agent) : (replant_breakpoints s).refs = s.refs := by
  have h := congrArg Agent.refs (replant_breakpoints_frame s)
  exact h

theorem replant_breakpoints_breakpoints (s : Agent) :
    (replant_breakpoints s).breakpoints = s.breakpoints := by
  have h := congrArg Agent.breakpoints (replant_breakpoints_frame s)
  exact h

theorem replant_breakpoints_instructions (s : Agent) :
    (replant_breakpoints s).instructions = s.instructions := by
  have h := congrArg Agent.instructions (replant_breakpoints_frame s)
  exact h

theorem replant_breakpoints_latch (s : Agent) (h : s.breakpoints ≠ []) :
    (replant_breakpoints s).replanting = true := by
  unfold replant_breakpoints
  rw [if_neg (fun hc => h hc.1)]
  by_cases hr : s.replanting = true
  · rw [if_pos hr]; exact hr
  · rw [if_neg hr]

theorem replant_breakpoints_latch_mono (s : Agent) (h : s.replanting = true) :
    (replant_breakpoints s).replanting = true := by
  unfold replant_breakpoints
  by_cases hc : (s.breakpoints = [] ∧ s.instructions = [])
  · rw [if_pos hc]; exact h
  · rw [if_neg hc, if_pos h]; exact h

theorem send_refs (s : Agent) (d : Dest) (e : Event) : (send s d e).refs = s.refs := rfl

theorem send_breakpoints (s : Agent) (d : Dest) (e : Event) :
    (send s d e).breakpoints = s.breakpoints := rfl

theorem send_instructions (s : Agent) (d : Dest) (e : Event) :
    (send s d e).instructions = s.instructions := rfl

theorem send_replanting (s : Agent) (d : Dest) (e : Event) :
    (send s d e).replanting = s.replanting := rfl

theorem ref_eq_iff (r : BreakpointRef) (c : Nat) (id : String) :
    (r.bp == id && r.inp == c) = true ↔ r = { inp := c, bp := id } := by
  cases r
  simp [and_comm]

theorem find_breakpoint_ref_none (s : Agent) (id : String) (c : Nat) :
    find_breakpoint_ref s id c = none ↔ ({ inp := c, bp := id } : BreakpointRef) ∉ s.refs := by
  unfold find_breakpoint_ref
  rw [find_index_none]
  constructor
  · intro h hm
    have := h _ hm
    simp at this
  · intro h r hr
    cases hb : (r.bp == id && r.inp == c) with
    | false => rfl
    | true =>
      rw [(ref_eq_iff r c id).mp hb] at hr
      exact absurd hr h

/-- The breakpoint record that `add_breakpoint` stores: `dst` after
`copy_breakpoint_info`, with the deleted flag cleared. -/
theorem add_breakpoint_record_id (p0 bp : BreakpointInfo) :
    (if (copy_breakpoint_info p0 bp).1.deleted = true
      then { (copy_breakpoint_info p0 bp).1 with deleted := false }
      else (copy_breakpoint_info p0 bp).1).id = bp.id := by
  split
  · show (copy_breakpoint_info _ bp).1.id = bp.id
    rw [copy_breakpoint_info_fields]
  · rw [copy_breakpoint_info_fields]

/-- The refs after `add_breakpoint`: the ref of channel `c` on the breakpoint
is appended unless the channel holds one already. -/
theorem add_breakpoint_refs (s : Agent) (c : Nat) (bp : BreakpointInfo) :
    (add_breakpoint s c bp).refs =
      if { inp := c, bp := bp.id } ∈ s.refs then s.refs
      else s.refs ++ [{ inp := c, bp := bp.id }] := by
  unfold add_breakpoint
  simp only [apply_ite Agent.refs, send_refs, replant_breakpoints_refs, ite_self,
    add_breakpoint_record_id, find_breakpoint_ref_none]
  by_cases hm : ({ inp := c, bp := bp.id } : BreakpointRef) ∈ s.refs
  · rw [if_pos hm, if_neg (fun h => h hm)]
  · rw [if_neg hm, if_pos hm]

theorem find_breakpoint_some (s : Agent) (id : String) (n : Nat)
    (h : find_breakpoint s id = some n) :
    ∃ bp : BreakpointInfo, s.breakpoints[n]? = some bp ∧ bp.id = id := by
  obtain ⟨bp, h1, h2⟩ := find_index_some _ _ _ h
  exact ⟨bp, h1, by simpa using h2⟩

theorem map_set_same {α β : Type} (f : α → β) (l : List α) (n : Nat) (a b : α)
    (hn : l[n]? = some a) (hab : f b = f a) : (l.set n b).map f = l.map f := by
  induction l generalizing n with
  | nil => simp at hn
  | cons x l ih =>
    cases n with
    | zero =>
      simp only [List.getElem?_cons_zero, Option.some.injEq] at hn
      subst hn
      simp [hab]
    | succ n =>
      simp only [List.getElem?_cons_succ] at hn
      simp [ih n hn]

theorem remove_breakpoint_refs (s : Agent) (n : Nat) : (remove_breakpoint s n).refs = s.refs := by
  unfold remove_breakpoint
  cases s.breakpoints[n]? with
  | none => rfl
  | some bp =>
    simp only
    split
    · rw [replant_breakpoints_refs]; rfl
    · rfl

theorem remove_ref_refs (s : Agent) (k : Nat) : (remove_ref s k).refs = s.refs.eraseIdx k := by
  unfold remove_ref
  cases hk : s.refs[k]? with
  | none =>
    simp only
    rw [List.eraseIdx_of_length_le]
    rcases Nat.lt_or_ge k s.refs.length with h | h
    · rw [List.getElem?_eq_getElem h] at hk; cases hk
    · exact h
  | some br =>
    simp only
    split
    · split
      · rw [remove_breakpoint_refs]
      · rfl
    · rfl

theorem erase_find_index (l : List BreakpointRef) (br : BreakpointRef) :
    (match find_index (fun r => r == br) l with
     | some k => l.eraseIdx k
     | none => l) = l.erase br := by
  induction l with
  | nil => rfl
  | cons x l ih =>
    simp only [find_index]
    by_cases hx : (x == br) = true
    · rw [if_pos hx]
      simp [List.erase_cons, hx]
    · rw [if_neg hx]
      have hx' : (x == br) = false := by simpa using hx
      rw [List.erase_cons, hx']
      simp only [Bool.false_eq_true, if_false]
      rw [← ih]
      cases find_index (fun r => r == br) l with
      | none => rfl
      | some k => rfl

theorem foldl_erase_cons (x : BreakpointRef) (F m : List BreakpointRef)
    (h : ∀ y ∈ F, y ≠ x) :
    F.foldl (fun acc br => acc.erase br) (x :: m) = x :: F.foldl (fun acc br => acc.erase br) m := by
  induction F generalizing m with
  | nil => rfl
  | cons y F ih =>
    have hy : y ≠ x := h y (List.mem_cons_self _ _)
    rw [List.foldl_cons, List.foldl_cons, List.erase_cons]
    have : (x == y) = false := by simpa using (Ne.symm hy)
    rw [this]
    simp only [Bool.false_eq_true, if_false]
    exact ih _ (fun z hz => h z (List.mem_cons_of_mem _ hz))

theorem foldl_erase_filter (c : Nat) (l : List BreakpointRef) :
    (l.filter (fun r => r.inp == c)).foldl (fun acc br => acc.erase br) l =
      l.filter (fun r => r.inp != c) := by
  induction l with
  | nil => rfl
  | cons x l ih =>
    by_cases hx : (x.inp == c) = true
    · have hx2 : (x.inp != c) = false := by simp [bne, hx]
      rw [List.filter_cons, if_pos hx, List.foldl_cons, List.filter_cons, hx2]
      simp only [Bool.false_eq_true, if_false, List.erase_cons_head]
      exact ih
    · have hx1 : (x.inp == c) = false := by simpa using hx
      have hx2 : (x.inp != c) = true := by simp [bne, hx1]
      rw [List.filter_cons, hx1, List.filter_cons, if_pos hx2]
      simp only [Bool.false_eq_true, if_false]
      rw [foldl_erase_cons, ih]
      intro y hy hyx
      have := (List.mem_filter.mp hy).2
      rw [hyx, hx1] at this
      cases this

/-- After `delete_breakpoint_refs` the refs of channel `c` are gone and the
others are as before. -/
theorem delete_breakpoint_refs_refs (s : Agent) (c : Nat) :
    (delete_breakpoint_refs s c).refs = s.refs.filter (fun r => r.inp != c) := by
  have key : ∀ (F : List BreakpointRef) (t : Agent),
      (F.foldl (fun s br =>
        match find_index (fun r => r == br) s.refs with
        | some k => remove_ref s k
        | none => s) t).refs = F.foldl (fun acc br => acc.erase br) t.refs := by
    intro F
    induction F with
    | nil => intro t; rfl
    | cons br F ih =>
      intro t
      rw [List.foldl_cons, List.foldl_cons, ih]
      congr 1
      rw [← erase_find_index]
      cases find_index (fun r => r == br) t.refs with
      | none => rfl
      | some k => exact remove_ref_refs t k
  unfold delete_breakpoint_refs
  rw [key, foldl_erase_filter]

/-- The registry after `add_breakpoint`. -/
theorem add_breakpoint_breakpoints (s : Agent) (c : Nat) (bp : BreakpointInfo) :
    (add_breakpoint s c bp).breakpoints =
      match find_breakpoint s bp.id with
      | some n => s.breakpoints.set n (stored_record s bp)
      | none => s.breakpoints ++ [stored_record s bp] := by
  unfold add_breakpoint stored_record
  simp only [apply_ite Agent.breakpoints, send_breakpoints, replant_breakpoints_breakpoints,
    ite_self]

theorem stored_record_fields (s : Agent) (bp : BreakpointInfo) :
    (stored_record s bp).id = bp.id ∧ (stored_record s bp).deleted = false ∧
    (stored_record s bp).enabled = bp.enabled ∧
    (stored_record s bp).unsupported = bp.unsupported := by
  unfold stored_record
  simp only
  split
  · refine ⟨?_, rfl, ?_, ?_⟩
    · show (copy_breakpoint_info _ bp).1.id = bp.id
      rw [copy_breakpoint_info_fields]
    · show (copy_breakpoint_info _ bp).1.enabled = bp.enabled
      rw [copy_breakpoint_info_fields]
    · show (copy_breakpoint_info _ bp).1.unsupported = bp.unsupported
      rw [copy_breakpoint_info_fields]
  · rename_i h
    refine ⟨?_, by simpa using h, ?_, ?_⟩
    · rw [copy_breakpoint_info_fields]
    · rw [copy_breakpoint_info_fields]
    · rw [copy_breakpoint_info_fields]

theorem add_breakpoint_registered (s : Agent) (c : Nat) (bp : BreakpointInfo) :
    registered (add_breakpoint s c bp).breakpoints bp.id ∧
    ∀ id, registered s.breakpoints id → registered (add_breakpoint s c bp).breakpoints id := by
  obtain ⟨hid, hdel, _, _⟩ := stored_record_fields s bp
  rw [add_breakpoint_breakpoints]
  cases hf : find_breakpoint s bp.id with
  | none =>
    simp only
    refine ⟨⟨_, List.mem_append_right _ (List.mem_singleton.mpr rfl), hid, hdel⟩, ?_⟩
    rintro id ⟨b, hb, h1, h2⟩
    exact ⟨b, List.mem_append_left _ hb, h1, h2⟩
  | some n =>
    simp only
    obtain ⟨b0, hb0, hb0id⟩ := find_breakpoint_some s bp.id n hf
    have hlt : n < s.breakpoints.length := by
      rcases Nat.lt_or_ge n s.breakpoints.length with h | h
      · exact h
      · rw [List.getElem?_eq_none h] at hb0; cases hb0
    have hmem : stored_record s bp ∈ s.breakpoints.set n (stored_record s bp) :=
      List.getElem?_mem (List.getElem?_set_self hlt)
    refine ⟨⟨_, hmem, hid, hdel⟩, ?_⟩
    rintro id ⟨b, hb, h1, h2⟩
    obtain ⟨m, hm⟩ := List.mem_iff_getElem?.mp hb
    by_cases hmn : m = n
    · subst hmn
      rw [hb0] at hm
      cases hm
      exact ⟨_, hmem, by rw [hid, ← hb0id, h1], hdel⟩
    · exact ⟨b, List.getElem?_mem (by rw [List.getElem?_set_ne (Ne.symm hmn)]; exact hm), h1, h2⟩

/-- The refs and the registry after the calls of `add_breakpoint` made by a
`set` command of channel `c` for the list `L`. -/
theorem foldl_add_breakpoint_refs (c : Nat) (L : List BreakpointInfo) (t : Agent) :
    (L.foldl (fun st bp => add_breakpoint st c bp) t).refs.filter (fun r => r.inp != c) =
      t.refs.filter (fun r => r.inp != c) ∧
    (∀ id, ({ inp := c, bp := id } : BreakpointRef) ∈
        (L.foldl (fun st bp => add_breakpoint st c bp) t).refs ↔
      ({ inp := c, bp := id } : BreakpointRef) ∈ t.refs ∨ id ∈ L.map (fun bp => bp.id)) ∧
    ((t.refs.filter (fun r => r.inp == c)).Nodup →
      ((L.foldl (fun st bp => add_breakpoint st c bp) t).refs.filter
        (fun r => r.inp == c)).Nodup) ∧
    (∀ id, registered t.breakpoints id ∨ id ∈ L.map (fun bp => bp.id) →
      registered (L.foldl (fun st bp => add_breakpoint st c bp) t).breakpoints id) := by
  induction L generalizing t with
  | nil =>
    refine ⟨rfl, fun id => by simp, fun h => h, fun id h => ?_⟩
    rcases h with h | h
    · exact h
    · cases h
  | cons bp L ih =>
    rw [List.foldl_cons]
    obtain ⟨h1, h2, h3, h4⟩ := ih (add_breakpoint t c bp)
    have hr := add_breakpoint_refs t c bp
    obtain ⟨hq1, hq2⟩ := add_breakpoint_registered t c bp
    refine ⟨?_, fun id => ?_, fun hnd => ?_, fun id h => ?_⟩
    · rw [h1, hr]
      split
      · rfl
      · rw [List.filter_append]
        simp
    · rw [h2 id, hr, List.map_cons, List.mem_cons]
      split
      · rename_i hm
        constructor
        · rintro (h | h)
          · exact Or.inl h
          · exact Or.inr (Or.inr h)
        · rintro (h | h | h)
          · exact Or.inl h
          · rw [h]; exact Or.inl hm
          · exact Or.inr h
      · constructor
        · rintro (h | h)
          · rcases List.mem_append.mp h with h | h
            · exact Or.inl h
            · have := List.mem_singleton.mp h
              simp only [BreakpointRef.mk.injEq, true_and] at this
              exact Or.inr (Or.inl this)
          · exact Or.inr (Or.inr h)
        · rintro (h | h | h)
          · exact Or.inl (List.mem_append_left _ h)
          · rw [h]; exact Or.inl (List.mem_append_right _ (List.mem_singleton.mpr rfl))
          · exact Or.inr h
    · apply h3
      rw [hr]
      split
      · exact hnd
      · rename_i hm
        rw [List.filter_append]
        have : List.filter (fun r => r.inp == c) [({ inp := c, bp := bp.id } : BreakpointRef)] =
            [{ inp := c, bp := bp.id }] := by simp
        rw [this]
        apply List.Nodup.append hnd (List.nodup_singleton _)
        intro x hx1 hx2
        rw [List.mem_singleton.mp hx2] at hx1
        exact hm (List.mem_filter.mp hx1).1
    · apply h4
      rcases h with h | h
      · exact Or.inl (hq2 id h)
      · rw [List.map_cons, List.mem_cons] at h
        rcases h with h | h
        · rw [h]; exact Or.inl hq1
        · exact Or.inr h

theorem foldl_preserves {α β : Type} (f : Agent → β → Agent) (g : Agent → α)
    (h : ∀ s b, g (f s b) = g s) (l : List β) (s : Agent) : g (l.foldl f s) = g s := by
  induction l generalizing s with
  | nil => rfl
  | cons b l ih => rw [List.foldl_cons, ih, h]

/-! ## The invariant of the registry -/

theorem find_breakpoint_none (s : Agent) (id : String) :
    find_breakpoint s id = none ↔ id ∉ s.breakpoints.map (fun bp => bp.id) := by
  unfold find_breakpoint
  rw [find_index_none]
  constructor
  · intro h hm
    obtain ⟨b, hb, hbid⟩ := List.mem_map.mp hm
    have := h b hb
    simp [hbid] at this
  · intro h b hb
    cases hc : (b.id == id) with
    | false => rfl
    | true =>
      exact absurd (List.mem_map.mpr ⟨b, hb, by simpa using hc⟩) h

theorem registry_inv_send (s : Agent) (d : Dest) (e : Event) (h : registry_inv s) :
    registry_inv (send s d e) := h

theorem registry_inv_replant_request (s : Agent) (h : registry_inv s) :
    registry_inv (replant_breakpoints s) := by
  unfold replant_breakpoints
  split
  · exact h
  · split
    · exact h
    · exact ⟨h.1, fun hf => by cases hf⟩

/-- A state whose registry is that of a state with the invariant, but for a
replant that has been requested. -/
theorem registry_inv_requested (s1 : Agent) (h : (s1.breakpoints.map (fun bp => bp.id)).Nodup)
    (hne : s1.breakpoints ≠ []) : registry_inv (replant_breakpoints s1) ∧
    (replant_breakpoints s1).replanting = true := by
  have hl := replant_breakpoints_latch s1 hne
  refine ⟨⟨?_, fun hf => ?_⟩, hl⟩
  · rw [replant_breakpoints_breakpoints]; exact h
  · rw [hl] at hf; cases hf

theorem registry_inv_replant (sv : Services) (s : Agent) (h : registry_inv s) :
    registry_inv (event_replant_breakpoints sv s) := by
  obtain ⟨_, _, _, _, h5, h6, _⟩ := event_replant_breakpoints_post sv s h.1
  refine ⟨?_, fun _ bp hbp => ?_⟩
  · rw [h6]
    exact List.Nodup.sublist (List.Sublist.map _ (List.filter_sublist _)) h.1
  · obtain ⟨⟨hp, _⟩, b0, _, hdel, hsp⟩ := h5 bp hbp
    exact ⟨by rw [hsp.2.2.1]; exact hdel, hp⟩

theorem set_same {α : Type} (l : List α) (n : Nat) (a : α) (h : l[n]? = some a) :
    l.set n a = l := by
  induction l generalizing n with
  | nil => rfl
  | cons x l ih =>
    cases n with
    | zero =>
      simp only [List.getElem?_cons_zero, Option.some.injEq] at h
      rw [List.set_cons_zero, h]
    | succ n =>
      simp only [List.getElem?_cons_succ] at h
      rw [List.set_cons_succ, ih n h]

theorem add_breakpoint_instructions (s : Agent) (c : Nat) (bp : BreakpointInfo) :
    (add_breakpoint s c bp).instructions = s.instructions := by
  unfold add_breakpoint
  simp only [apply_ite Agent.instructions, send_instructions, replant_breakpoints_instructions,
    ite_self]

/-- Either `add_breakpoint` leaves a replant requested, or it leaves the latch
as it is and stores a record that is unplanted and not plantable, or it leaves
the registry as it is. -/
theorem add_breakpoint_latch (s : Agent) (c : Nat) (bp : BreakpointInfo) :
    (add_breakpoint s c bp).replanting = true ∨
    ((add_breakpoint s c bp).replanting = s.replanting ∧
      (((stored_record s bp).planted = 0 ∧
          ¬ ((stored_record s bp).enabled = true ∧ (stored_record s bp).unsupported = [])) ∨
        (add_breakpoint s c bp).breakpoints = s.breakpoints)) := by
  have hbps := add_breakpoint_breakpoints s c bp
  have hp0 : ∀ n, find_breakpoint s bp.id = some n →
      s.breakpoints[n]? = some (match find_breakpoint s bp.id with
        | some n => (s.breakpoints[n]?).getD zero_breakpoint
        | none => zero_breakpoint) := by
    intro n hn
    obtain ⟨b, hb, _⟩ := find_breakpoint_some s bp.id n hn
    rw [hn]
    simp only [hb, Option.getD_some]
  have hcopy := copy_breakpoint_info_unchanged (match find_breakpoint s bp.id with
        | some n => (s.breakpoints[n]?).getD zero_breakpoint
        | none => zero_breakpoint) bp
  rw [hbps]
  clear hbps
  unfold stored_record
  unfold add_breakpoint
  simp only
  generalize (match find_breakpoint s bp.id with
        | some n => (s.breakpoints[n]?).getD zero_breakpoint
        | none => zero_breakpoint) = p0 at hp0 hcopy ⊢
  generalize copy_breakpoint_info p0 bp = r at hcopy ⊢
  have hp : r.1.deleted = false →
      (if r.1.deleted = true then { r.1 with deleted := false } else r.1) = r.1 := by
    intro h
    rw [if_neg (by simp [h])]
  generalize (if r.1.deleted = true then { r.1 with deleted := false } else r.1) = p at hp ⊢
  simp only [apply_ite Agent.replanting, send_replanting, ite_self]
  by_cases hca : r.2 = true ∨ (decide (find_breakpoint s bp.id = none) || r.1.deleted) = true
  · rw [if_pos hca]
    by_cases hB : p.planted ≠ 0 ∨ (p.enabled = true ∧ p.unsupported = [])
    · rw [if_pos hB]
      left
      apply replant_breakpoints_latch
      simp only [apply_ite Agent.breakpoints]
      rw [ite_self]
      cases hf : find_breakpoint s bp.id with
      | none => simp
      | some n =>
        simp only
        intro hnil
        have h0 : (s.breakpoints.set n p).length = 0 := by rw [hnil]; rfl
        rw [List.length_set] at h0
        obtain ⟨b, hb, _⟩ := find_breakpoint_some s bp.id n hf
        have hlt : n < s.breakpoints.length := by
          rcases Nat.lt_or_ge n s.breakpoints.length with h | h
          · exact h
          · rw [List.getElem?_eq_none h] at hb; cases hb
        omega
    · rw [if_neg hB]
      right
      refine ⟨rfl, Or.inl ?_⟩
      rw [not_or] at hB
      exact ⟨not_not.mp hB.1, hB.2⟩
  · rw [if_neg hca]
    right
    refine ⟨rfl, Or.inr ?_⟩
    rw [not_or] at hca
    obtain ⟨h1, h2⟩ := hca
    have h1' : r.2 = false := by simpa using h1
    have h2' : find_breakpoint s bp.id ≠ none ∧ r.1.deleted = false := by
      simpa using h2
    cases hf : find_breakpoint s bp.id with
    | none => exact absurd hf h2'.1
    | some n =>
      simp only
      rw [hp h2'.2, hcopy h1']
      have := hp0 n hf
      exact set_same _ _ _ this
theorem getElem?_lt {α : Type} (l : List α) (n : Nat) (a : α) (h : l[n]? = some a) :
    n < l.length := by
  rcases Nat.lt_or_ge n l.length with h1 | h1
  · exact h1
  · rw [List.getElem?_eq_none h1] at h; cases h

theorem mem_set_cases {α : Type} (l : List α) (n : Nat) (a x : α) (h : x ∈ l.set n a) :
    x = a ∨ x ∈ l := by
  induction l generalizing n with
  | nil => simp at h
  | cons y l ih =>
    cases n with
    | zero =>
      rw [List.set_cons_zero] at h
      rcases List.mem_cons.mp h with h | h
      · exact Or.inl h
      · exact Or.inr (List.mem_cons_of_mem _ h)
    | succ n =>
      rw [List.set_cons_succ] at h
      rcases List.mem_cons.mp h with h | h
      · exact Or.inr (by rw [h]; exact List.mem_cons_self _ _)
      · rcases ih n h with h | h
        · exact Or.inl h
        · exact Or.inr (List.mem_cons_of_mem _ h)

/-- The invariant when the record at index `n` is replaced by one of the same
id that satisfies the equivalence. -/
theorem registry_inv_set (s : Agent) (n : Nat) (bp bp1 : BreakpointInfo) (h : registry_inv s)
    (hn : s.breakpoints[n]? = some bp) (hid : bp1.id = bp.id)
    (h1 : s.replanting = false → bp1.deleted = false ∧ planted_claim s.instructions bp1) :
    registry_inv { s with breakpoints := s.breakpoints.set n bp1 } := by
  refine ⟨?_, fun hf b hb => ?_⟩
  · show ((s.breakpoints.set n bp1).map (fun bp => bp.id)).Nodup
    rw [map_set_same (fun b : BreakpointInfo => b.id) s.breakpoints n bp bp1 hn hid]
    exact h.1
  · rcases mem_set_cases _ _ _ _ hb with hb | hb
    · rw [hb]; exact h1 hf
    · exact h.2 hf b hb

/-- The invariant when a replant is requested after the record at index `n` has
been replaced by one of the same id. -/
theorem registry_inv_set_request (s : Agent) (n : Nat) (bp bp1 : BreakpointInfo)
    (h : registry_inv s) (hn : s.breakpoints[n]? = some bp) (hid : bp1.id = bp.id) :
    registry_inv (replant_breakpoints { s with breakpoints := s.breakpoints.set n bp1 }) := by
  refine (registry_inv_requested _ ?_ ?_).1
  · show ((s.breakpoints.set n bp1).map (fun bp => bp.id)).Nodup
    rw [map_set_same (fun b : BreakpointInfo => b.id) s.breakpoints n bp bp1 hn hid]
    exact h.1
  · show s.breakpoints.set n bp1 ≠ []
    intro hnil
    have h0 : (s.breakpoints.set n bp1).length = 0 := by rw [hnil]; rfl
    rw [List.length_set] at h0
    have := getElem?_lt _ _ _ hn
    omega

theorem registry_inv_add_breakpoint (s : Agent) (c : Nat) (bp : BreakpointInfo)
    (h : registry_inv s) : registry_inv (add_breakpoint s c bp) := by
  obtain ⟨hid, hdel, _, _⟩ := stored_record_fields s bp
  have hnd : ((add_breakpoint s c bp).breakpoints.map (fun bp => bp.id)).Nodup := by
    rw [add_breakpoint_breakpoints]
    cases hf : find_breakpoint s bp.id with
    | none =>
      simp only
      rw [List.map_append, List.map_singleton, hid]
      have := (find_breakpoint_none s bp.id).mp hf
      exact List.Nodup.append h.1 (List.nodup_singleton _)
        (by
          intro x hx hx1
          rw [List.mem_singleton] at hx1
          rw [hx1] at hx
          exact this hx)
    | some n =>
      simp only
      obtain ⟨b0, hb0, hb0id⟩ := find_breakpoint_some s bp.id n hf
      rw [map_set_same (fun b : BreakpointInfo => b.id) s.breakpoints n b0 (stored_record s bp)
        hb0 (by show (stored_record s bp).id = b0.id; rw [hid, hb0id])]
      exact h.1
  refine ⟨hnd, fun hf b hb => ?_⟩
  rcases add_breakpoint_latch s c bp with hl | ⟨hl, hc⟩
  · rw [hl] at hf; cases hf
  · rw [hl] at hf
    rw [add_breakpoint_instructions]
    rcases hc with ⟨hp, hne⟩ | hsame
    · have hrec : (stored_record s bp).deleted = false ∧
          planted_claim s.instructions (stored_record s bp) := by
        refine ⟨hdel, ?_⟩
        unfold planted_claim
        constructor
        · intro h0; omega
        · rintro ⟨h1, h2, _⟩
          exact absurd ⟨h1, h2⟩ hne
      rw [add_breakpoint_breakpoints] at hb
      cases hfb : find_breakpoint s bp.id with
      | none =>
        rw [hfb] at hb
        simp only at hb
        rcases List.mem_append.mp hb with hb | hb
        · exact h.2 hf b hb
        · rw [List.mem_singleton.mp hb]; exact hrec
      | some n =>
        rw [hfb] at hb
        simp only at hb
        rcases mem_set_cases _ _ _ _ hb with hb | hb
        · rw [hb]; exact hrec
        · exact h.2 hf b hb
    · rw [hsame] at hb
      exact h.2 hf b hb

theorem registry_inv_enable_breakpoint (s : Agent) (id : String) (h : registry_inv s) :
    registry_inv (enable_breakpoint s id) := by
  unfold enable_breakpoint
  cases hf : find_breakpoint s id with
  | none => exact h
  | some n =>
    simp only
    cases hb : s.breakpoints[n]? with
    | none => exact h
    | some bp =>
      simp only
      split
      · rename_i hen
        apply registry_inv_send
        split
        · exact registry_inv_set_request s n bp _ h hb (by rfl)
        · rename_i hcond
          refine registry_inv_set s n bp { bp with enabled := true } h hb rfl ?_
          intro hl
          obtain ⟨hd, hpc⟩ := h.2 hl bp (List.getElem?_mem hb)
          refine ⟨hd, ?_⟩
          unfold planted_claim at hpc ⊢
          have hun : bp.unsupported ≠ [] := fun hu => hcond ⟨hd, hu⟩
          constructor
          · intro hp
            have := (hpc.mp hp).1
            rw [hen] at this; cases this
          · rintro ⟨_, hu, _⟩
            exact absurd hu hun
      · exact h

theorem registry_inv_disable_breakpoint (s : Agent) (id : String) (h : registry_inv s) :
    registry_inv (disable_breakpoint s id) := by
  unfold disable_breakpoint
  cases hf : find_breakpoint s id with
  | none => exact h
  | some n =>
    simp only
    cases hb : s.breakpoints[n]? with
    | none => exact h
    | some bp =>
      simp only
      split
      · apply registry_inv_send
        split
        · exact registry_inv_set_request s n bp _ h hb (by rfl)
        · rename_i hcond
          refine registry_inv_set s n bp { bp with enabled := false } h hb rfl ?_
          intro hl
          obtain ⟨hd, _⟩ := h.2 hl bp (List.getElem?_mem hb)
          refine ⟨hd, ?_⟩
          unfold planted_claim
          have hp0 : bp.planted = 0 := not_not.mp hcond
          constructor
          · intro hp
            have : bp.planted > 0 := hp
            omega
          · rintro ⟨he, _⟩
            cases he
      · exact h

theorem registry_inv_remove_breakpoint (s : Agent) (n : Nat) (h : registry_inv s) :
    registry_inv (remove_breakpoint s n) := by
  unfold remove_breakpoint
  cases hb : s.breakpoints[n]? with
  | none => exact h
  | some bp =>
    simp only
    split
    · exact registry_inv_set_request (send s .bcg (.contextRemoved bp.id)) n bp _ h hb rfl
    · refine ⟨?_, fun hl b hbm => ?_⟩
      · exact List.Nodup.sublist (List.Sublist.map _ (List.eraseIdx_sublist _ _)) h.1
      · exact h.2 hl b ((List.eraseIdx_sublist _ _).subset hbm)

theorem registry_inv_remove_ref (s : Agent) (k : Nat) (h : registry_inv s) :
    registry_inv (remove_ref s k) := by
  unfold remove_ref
  cases hr : s.refs[k]? with
  | none => exact h
  | some br =>
    simp only
    have h1 : registry_inv { s with refs := s.refs.eraseIdx k } := h
    split
    · split
      · exact registry_inv_remove_breakpoint _ _ h1
      · exact h1
    · exact h1

theorem foldl_registry_inv {β : Type} (f : Agent → β → Agent)
    (hf : ∀ s b, registry_inv s → registry_inv (f s b)) (l : List β) (s : Agent)
    (h : registry_inv s) : registry_inv (l.foldl f s) := by
  induction l generalizing s with
  | nil => exact h
  | cons b l ih => exact ih _ (hf s b h)

theorem registry_inv_delete_breakpoint_refs (s : Agent) (c : Nat) (h : registry_inv s) :
    registry_inv (delete_breakpoint_refs s c) := by
  unfold delete_breakpoint_refs
  apply foldl_registry_inv _ _ _ _ h
  intro t br ht
  split
  · exact registry_inv_remove_ref _ _ ht
  · exact ht

theorem registry_inv_step (s s1 : Agent) (hs : Step s s1) (h : registry_inv s) :
    registry_inv s1 := by
  cases hs with
  | set token c arg =>
    unfold command_ini_bps
    apply registry_inv_send
    apply foldl_registry_inv _ (fun t b ht => registry_inv_add_breakpoint t c b ht)
    apply registry_inv_delete_breakpoint_refs
    apply foldl_registry_inv _ _ _ _ h
    intro t b ht
    split
    · exact ht
    · exact ht
  | add token c bp => exact registry_inv_add_breakpoint s c bp h
  | change token c bp => exact registry_inv_add_breakpoint s c bp h
  | enable token c ids =>
    exact foldl_registry_inv _ (fun t b ht => registry_inv_enable_breakpoint t b ht) _ _ h
  | disable token c ids =>
    exact foldl_registry_inv _ (fun t b ht => registry_inv_disable_breakpoint t b ht) _ _ h
  | remove token c ids =>
    apply foldl_registry_inv _ _ _ _ h
    intro t id ht
    unfold remove_breakpoint_id
    split
    · exact ht
    · split
      · exact registry_inv_remove_ref _ _ ht
      · exact ht
  | replant sv => exact registry_inv_replant sv s h
  | context contexts target => exact h

theorem registry_inv_reachable (s : Agent) (h : Reachable s) : registry_inv s := by
  induction h with
  | init break_inst contexts target =>
    exact ⟨List.nodup_nil, fun _ bp hbp => by cases hbp⟩
  | step s s1 _ hs ih => exact registry_inv_step s s1 hs ih

/-! ## Lemmas on the Darwin context module -/

theorem find_index_find {α : Type} (p : α → Bool) (l : List α) :
    l.find? p = (find_index p l).bind (fun n => l[n]?) := by
  induction l with
  | nil => rfl
  | cons x l ih =>
    simp only [List.find?, find_index]
    cases hp : p x with
    | true => simp
    | false =>
      simp only [Bool.false_eq_true, if_false]
      rw [ih]
      cases find_index p l with
      | none => rfl
      | some m => simp

/-- The answer of `is_breakpoint_address` in terms of the first entry of the
table for the memory space of `ctx` and the address. -/
theorem is_breakpoint_address_find (s : Agent) (ctx : Context) (a : Nat) :
    (is_breakpoint_address s ctx a).1 =
      match s.instructions.find? (fun bi => (s.ctx bi.ctx).mem == ctx.mem && bi.address == a) with
      | some bi => !bi.skip && decide (bi.error = 0)
      | none => false := by
  rw [find_index_find]
  unfold is_breakpoint_address find_instruction
  cases hf : find_index (fun bi => (s.ctx bi.ctx).mem == ctx.mem && bi.address == a)
      s.instructions with
  | none => rfl
  | some n =>
    obtain ⟨bi, hbi, _⟩ := find_index_some _ _ _ hf
    have hlt := getElem?_lt _ _ _ hbi
    simp only [hbi, Option.bind_some]
    by_cases hc : (s.ctx bi.ctx).exited = true ∨ is_running (s.ctx bi.ctx) = true
    · rw [if_pos hc]
      simp only [Agent.set_instruction, List.getElem?_set_self hlt, Option.getD_some,
        Option.some_bind, hbi]
    · rw [if_neg hc]
      simp only [hbi, Option.getD_some, Option.some_bind]

theorem find_put_mem (ctx : Context) (id : Nat) (l : List Context)
    (h : ∀ x ∈ l, x.id = ctx.id → x.mem = ctx.mem) :
    (((l.map (fun c => if c.id = ctx.id then ctx else c)).find? (fun c => c.id == id)).getD
      default).mem = ((l.find? (fun c => c.id == id)).getD default).mem := by
  induction l with
  | nil => rfl
  | cons x l ih =>
    have ih := ih (fun y hy => h y (List.mem_cons_of_mem _ hy))
    simp only [List.map_cons, List.find?]
    by_cases hx : x.id = ctx.id
    · rw [if_pos hx]
      by_cases hid : ctx.id = id
      · have h1 : (ctx.id == id) = true := by simpa using hid
        have h2 : (x.id == id) = true := by simpa using hx.trans hid
        rw [h1, h2]
        simp only [Option.getD_some]
        exact (h x (List.mem_cons_self _ _) hx).symm
      · have h1 : (ctx.id == id) = false := by simpa using hid
        have h2 : (x.id == id) = false := by simpa using fun h' => hid (hx.symm.trans h')
        rw [h1, h2]
        exact ih
    · rw [if_neg hx]
      cases hxi : (x.id == id) with
      | true => rfl
      | false => exact ih

theorem put_context_mem (s : Agent) (ctx : Context)
    (h : ∀ x ∈ s.contexts, x.id = ctx.id → x.mem = ctx.mem) (id : Nat) :
    ((s.put_context ctx).ctx id).mem = (s.ctx id).mem :=
  find_put_mem ctx id s.contexts h

theorem record_signal_ctx (c : ContextDarwin) (signal : Nat) :
    (record_signal c signal).ctx.stopped = c.ctx.stopped ∧
    (record_signal c signal).ctx.id = c.ctx.id ∧
    (record_signal c signal).ctx.mem = c.ctx.mem ∧
    (record_signal c signal).ctx.pc = c.ctx.pc ∧
    (record_signal c signal).pending_step = c.pending_step := by
  unfold record_signal
  split
  · split <;> exact ⟨rfl, rfl, rfl, rfl, rfl⟩
  · exact ⟨rfl, rfl, rfl, rfl, rfl⟩

theorem read_snapshot_fields (c : ContextDarwin) (signal event : Nat) (sbe : Bool)
    (state : Except Nat REG_SET) :
    (read_snapshot c signal event sbe state).1.ctx.id = c.ctx.id ∧
    (read_snapshot c signal event sbe state).1.ctx.mem = c.ctx.mem ∧
    (read_snapshot c signal event sbe state).1.regs_error =
      (match state with | .error e => e | .ok _ => 0) ∧
    (read_snapshot c signal event sbe state).1.ctx.pc =
      (match state with | .error _ => c.ctx.pc | .ok r => r.pc) ∧
    (read_snapshot c signal event sbe state).2 =
      (match state with | .error _ => 0 | .ok r => r.pc) ∧
    (read_snapshot c signal event sbe state).1.stopped_by_bp = false ∧
    (read_snapshot c signal event sbe state).1.pending_step = c.pending_step := by
  unfold read_snapshot
  cases state with
  | error e => simp only []; split_ifs <;> simp
  | ok r => simp only []; split_ifs <;> simp

theorem breakpoint_stop_fields (w : Nat) (s : Agent) (c : ContextDarwin) (pc1 : Nat) :
    (breakpoint_stop w s c pc1).2.stopped_by_bp =
      (if c.regs_error ≠ 0 then false
       else (is_breakpoint_address s c.ctx (address_sub w pc1 (BREAK_SIZE s))).1) ∧
    (breakpoint_stop w s c pc1).2.ctx.pc =
      (if (breakpoint_stop w s c pc1).2.stopped_by_bp = true then
        address_sub w pc1 (BREAK_SIZE s) else c.ctx.pc) := by
  unfold breakpoint_stop
  simp only []
  by_cases he : c.regs_error ≠ 0
  · simp only [if_pos he]
    exact ⟨rfl, rfl⟩
  · simp only [if_neg he]
    cases (is_breakpoint_address s c.ctx (address_sub w pc1 (BREAK_SIZE s))).1 with
    | true => exact ⟨rfl, rfl⟩
    | false => exact ⟨rfl, rfl⟩

/-- The result of `event_pid_stopped` for a thread that was running. -/
theorem event_pid_stopped_running (w : Nat) (s : Agent) (c : ContextDarwin) (signal event : Nat)
    (syscall : Bool) (state : Except Nat REG_SET) (hrun : c.ctx.stopped = false) :
    (event_pid_stopped w s c signal event syscall state).2.1 =
      { (if signal = SIGTRAP ∧ event = 0 ∧ syscall = false then
          breakpoint_stop w
            (s.put_context (read_snapshot (record_signal c signal) signal event
              (decide (signal ≠ SIGSTOP ∧ signal ≠ SIGTRAP) &&
                !sigset_get c.sig_dont_stop signal) state).1.ctx)
            (read_snapshot (record_signal c signal) signal event
              (decide (signal ≠ SIGSTOP ∧ signal ≠ SIGTRAP) &&
                !sigset_get c.sig_dont_stop signal) state).1
            (read_snapshot (record_signal c signal) signal event
              (decide (signal ≠ SIGSTOP ∧ signal ≠ SIGTRAP) &&
                !sigset_get c.sig_dont_stop signal) state).2
        else (s.put_context (read_snapshot (record_signal c signal) signal event
              (decide (signal ≠ SIGSTOP ∧ signal ≠ SIGTRAP) &&
                !sigset_get c.sig_dont_stop signal) state).1.ctx,
            (read_snapshot (record_signal c signal) signal event
              (decide (signal ≠ SIGSTOP ∧ signal ≠ SIGTRAP) &&
                !sigset_get c.sig_dont_stop signal) state).1)).2 with
        pending_step := false } := by
  have h1 := (record_signal_ctx c signal).1
  rw [hrun] at h1
  unfold event_pid_stopped
  simp only [h1, Bool.false_eq_true, if_false]

/-! ## Lemmas on the ARM module -/

theorem and_two_pow_eq (x k : Nat) : x &&& 2 ^ k = if x / 2 ^ k % 2 = 1 then 2 ^ k else 0 := by
  apply Nat.eq_of_testBit_eq
  intro i
  rw [Nat.testBit_and, Nat.testBit_two_pow]
  by_cases hki : k = i
  · subst hki
    rw [Nat.testBit_to_div_mod]
    by_cases hb : x / 2 ^ k % 2 = 1
    · simp [hb, Nat.testBit_two_pow_self]
    · simp [hb]
  · by_cases hb : x / 2 ^ k % 2 = 1
    · simp [hb, hki, Nat.testBit_two_pow_of_ne hki]
    · simp [hb, hki]

theorem and_two_pow_ne_zero (x k : Nat) : x &&& 2 ^ k ≠ 0 ↔ x / 2 ^ k % 2 = 1 := by
  rw [and_two_pow_eq]
  have : 2 ^ k ≠ 0 := Nat.pos_iff_ne_zero.mp (Nat.two_pow_pos k)
  by_cases hb : x / 2 ^ k % 2 = 1
  · simp [hb]
  · simp [hb]

theorem le32_lt (b : List Nat) (h : ∀ i, b.getD i 0 < 256) : le32 b < 2 ^ 32 := by
  unfold le32
  have h0 := h 0
  have h1 := h 1
  have h2 := h 2
  have h3 := h 3
  omega

theorem arm_read_word_lt (t : ArmContext) (a v : Nat) (h : arm_read_word t a = .ok v) :
    v < 2 ^ 32 := by
  unfold arm_read_word arm_read_mem at h
  split at h
  · cases h
  · rename_i b hb
    split at hb
    · cases hb
    · simp only [Except.ok.injEq] at hb h
      subst hb
      subst h
      apply le32_lt
      intro i
      rw [List.getD_eq_getElem?_getD, List.getElem?_map]
      cases hi : (List.range 4)[i]? with
      | none => simp
      | some j =>
        simp only [Option.map_some', Option.getD_some]
        exact Nat.mod_lt _ (by decide)

theorem arm_read_reg_lt (t : ArmContext) (i v : Nat) (h : arm_read_reg t i = .ok v) :
    v < 2 ^ 32 := by
  unfold arm_read_reg at h
  split at h
  · cases h
  · simp only [Except.ok.injEq] at h
    subst h
    exact Nat.mod_lt _ (by decide)

/-- The fields of the instruction `MOV PC, Rm` (`0xE1A0F000 + Rm`). -/
theorem mov_pc_fields : ∀ Rm, Rm < 15 →
    (0xE1A0F000 + Rm) >>> 28 = 14 ∧ ((0xE1A0F000 + Rm) >>> 25) &&& 7 = 0 ∧
    (0xE1A0F000 + Rm) &&& 0x0ffffff0 ≠ 0x012fff10 ∧
    (0xE1A0F000 + Rm) &&& 0x02000000 = 0 ∧ (0xE1A0F000 + Rm) &&& 0x00100000 = 0 ∧
    ((0xE1A0F000 + Rm) &&& 0x01e00000) >>> 21 = 13 ∧
    ((0xE1A0F000 + Rm) &&& 0x000f0000) >>> 16 = 0 ∧
    ((0xE1A0F000 + Rm) &&& 0x0000f000) >>> 12 = 15 ∧
    (0xE1A0F000 + Rm) &&& 0x00000fff = Rm ∧
    (Rm &&& 0x000f) % 256 = Rm ∧ Rm &&& 0x0010 = 0 ∧ ((Rm &&& 0x0060) >>> 5) % 256 = 0 ∧
    (Rm &&& 0x0f80) >>> 7 = 0 := by
  decide

/-- The opcode `MOV PC, Rm` decodes to the value of `Rm`. -/
theorem arm_decode_mov_pc (t : ArmContext) (Rm pc cpsr v x : Nat) (hRm : Rm < 15)
    (hpc : arm_read_reg t 15 = .ok pc) (hcpsr : arm_read_reg t 16 = .ok cpsr)
    (hfetch : arm_read_word t pc = .ok (0xE1A0F000 + Rm))
    (hv : arm_read_reg t Rm = .ok v) (hx : arm_read_reg t 0 = .ok x) :
    arm_decode t = .ok v := by
  obtain ⟨f1, f2, f3, f4, f5, f6, f7, f8, f9, f10, f11, f12, f13⟩ := mov_pc_fields Rm hRm
  have hcond : arm_evaluate_condition (cpsr % 2 ^ 32) (0xE1A0F000 + Rm) = true := by
    unfold arm_evaluate_condition
    simp only [f1]
  have hop : arm_operand2 t (0xE1A0F000 + Rm) (cpsr % 2 ^ 32) = .ok (some v) := by
    unfold arm_operand2
    simp only [f4, f6, f9, f10, f11, f12, f13, hv, ne_eq, not_true_eq_false, decide_False,
      Bool.false_eq_true, if_false, and_self, if_true]
  have hdp : arm_get_next_data_processing t (0xE1A0F000 + Rm) (cpsr % 2 ^ 32)
      (add32 (pc % 2 ^ 32) 4) = .ok v := by
    unfold arm_get_next_data_processing
    simp only [f4, f5, f6, f7, f8, f9, hop, hx, ne_eq, not_true_eq_false, decide_False,
      if_false]
    simp [arm_compute]
  unfold arm_decode
  simp only [hpc, hcpsr, hfetch, hcond, f2, if_true, if_neg f3, hdp]

theorem foldl_address_add (m : Nat) (p : Nat → Bool) (l : List Nat) (a : Nat) (ha : a < m) :
    l.foldl (fun a i => if p i = true then (a + 4) % m else a) a =
      (a + 4 * l.countP p) % m := by
  induction l generalizing a with
  | nil => simp [Nat.mod_eq_of_lt ha]
  | cons x l ih =>
    rw [List.foldl_cons, List.countP_cons]
    cases hp : p x with
    | true =>
      simp only [if_true]
      rw [ih _ (Nat.mod_lt _ (by omega))]
      rw [Nat.add_mod, Nat.mod_mod, ← Nat.add_mod]
      congr 1
      omega
    | false =>
      simp only [Bool.false_eq_true, if_false]
      rw [ih _ ha]
      rfl

theorem arm_ldm_offset_eq (w instr addr : Nat) (ha : addr < 2 ^ w) :
    arm_ldm_offset w instr addr =
      (addr + 4 * (List.range 15).countP (fun i => decide (instr &&& (1 <<< i) ≠ 0))) % 2 ^ w := by
  unfold arm_ldm_offset address_add
  have := foldl_address_add (2 ^ w) (fun i => decide (instr &&& (1 <<< i) ≠ 0)) (List.range 15)
    addr ha
  simp only [decide_eq_true_eq] at this
  exact this

theorem ldm_count_succ (instr : Nat) (h15 : instr &&& (1 <<< 15) ≠ 0) :
    ldm_count instr =
      (List.range 15).countP (fun i => decide (instr &&& (1 <<< i) ≠ 0)) + 1 := by
  unfold ldm_count
  rw [List.range_succ, List.countP_append]
  have h15' : ¬ instr &&& 32768 = 0 := h15
  simp [List.countP_cons, h15']

theorem xor_bit_and_bit (x j k : Nat) (h : j ≠ k) :
    (x ^^^ (1 <<< j)) &&& (1 <<< k) = x &&& (1 <<< k) := by
  apply Nat.eq_of_testBit_eq
  intro i
  simp only [Nat.testBit_and, Nat.testBit_xor, Nat.one_shiftLeft, Nat.testBit_two_pow]
  by_cases hki : k = i
  · subst hki
    simp [h]
  · simp [hki]

theorem xor_bit_field (x : Nat) :
    ((x ^^^ (1 <<< 21)) >>> 16) &&& 0xf = (x >>> 16) &&& 0xf := by
  apply Nat.eq_of_testBit_eq
  intro i
  have h15 : (0xf : Nat) = 2 ^ 4 - 1 := rfl
  rw [h15]
  simp only [Nat.testBit_and, Nat.testBit_shiftRight, Nat.testBit_xor, Nat.one_shiftLeft,
    Nat.testBit_two_pow, Nat.testBit_two_pow_sub_one]
  by_cases hi : i < 4
  · have : ¬ (21 = 16 + i) := by omega
    simp [this]
  · simp [hi]

theorem foldl_congr_mem {α β : Type} (f g : α → β → α) (l : List β) (a : α)
    (h : ∀ a, ∀ b ∈ l, f a b = g a b) : l.foldl f a = l.foldl g a := by
  induction l generalizing a with
  | nil => rfl
  | cons x l ih =>
    rw [List.foldl_cons, List.foldl_cons, h a x (List.mem_cons_self _ _)]
    exact ih _ (fun a b hb => h a b (List.mem_cons_of_mem _ hb))

/-- The writeback bit (bit 21) of the opcode does not change the result of
`arm_get_next_ldm`. -/
theorem arm_get_next_ldm_writeback (t : ArmContext) (instr next : Nat) :
    arm_get_next_ldm t (instr ^^^ (1 <<< 21)) next = arm_get_next_ldm t instr next := by
  have hoff : ∀ a, arm_ldm_offset t.addr_bits (instr ^^^ (1 <<< 21)) a =
      arm_ldm_offset t.addr_bits instr a := by
    intro a
    unfold arm_ldm_offset
    apply foldl_congr_mem
    intro a i hi
    have hi' : i < 15 := List.mem_range.mp hi
    rw [xor_bit_and_bit instr 21 i (by omega)]
  unfold arm_get_next_ldm
  simp only [xor_bit_and_bit instr 21 24 (by decide), xor_bit_and_bit instr 21 23 (by decide),
    xor_bit_and_bit instr 21 22 (by decide), xor_bit_and_bit instr 21 20 (by decide),
    xor_bit_and_bit instr 21 15 (by decide), xor_bit_field, hoff]

/-- The value of `arm_get_next_branch` as an integer: `PC + 8` plus four times
the sign-extended 24-bit immediate, modulo `2^32`. -/
theorem arm_get_next_branch_value (pc instr : Nat) :
    ((arm_get_next_branch pc instr : Nat) : Int) =
      ((pc : Int) + 8 + 4 * (if instr % 2 ^ 24 < 2 ^ 23 then ((instr % 2 ^ 24 : Nat) : Int)
        else ((instr % 2 ^ 24 : Nat) : Int) - 2 ^ 24)) % 2 ^ 32 := by
  unfold arm_get_next_branch
  have h1 : instr &&& 0x00FFFFFF = instr % 2 ^ 24 := Nat.and_pow_two_sub_one_eq_mod instr 24
  rw [h1]
  generalize hm : instr % 2 ^ 24 = imm
  have himm : imm < 2 ^ 24 := by rw [← hm]; exact Nat.mod_lt _ (by decide)
  have h2 : imm &&& 0x00800000 ≠ 0 ↔ imm / 2 ^ 23 % 2 = 1 := and_two_pow_ne_zero imm 23
  have h3 : imm ||| 0xFF000000 = 0xFF000000 + imm := by
    rw [Nat.or_comm]
    exact (Nat.mul_add_lt_is_or (i := 24) himm 255).symm
  simp only
  by_cases hs : imm < 2 ^ 23
  · have hn : ¬ (imm &&& 0x00800000 ≠ 0) := by
      rw [h2]; omega
    rw [if_neg hn, if_pos hs]
    unfold shl32 add32
    rw [if_pos (by decide), Nat.shiftLeft_eq]
    omega
  · have hn : imm &&& 0x00800000 ≠ 0 := by
      rw [h2]; omega
    rw [if_pos hn, if_neg hs, h3]
    unfold shl32 add32
    rw [if_pos (by decide), Nat.shiftLeft_eq]
    omega

/-! ## Lemmas on Base64 -/

set_option maxRecDepth 100000 in
theorem base64_digit_int2char : ∀ i, i < 64 →
    base64_digit ((int2char.getD i 'A').toNat : Int) = some i ∧
    ((int2char.getD i 'A').toNat : Int) ≠ ('='.toNat : Int) := by
  decide

set_option maxRecDepth 100000 in
theorem base64_byte0 : ∀ b0, b0 < 256 → ∀ h, h < 16 →
    (((b0 >>> 2) <<< 2) ||| ((((b0 <<< 4) &&& 0x3f) ||| h) >>> 4)) % 256 = b0 ∧
    (((b0 <<< 4) &&& 0x3f) ||| h) < 64 ∧ b0 >>> 2 < 64 ∧ (b0 <<< 4) &&& 0x3f < 64 ∧
    b0 >>> 4 < 16 ∧ b0 >>> 6 < 4 ∧ b0 &&& 0x3f < 64 ∧
    (b0 <<< 4) &&& 0x3f = (b0 % 4) * 16 ∧ (b0 <<< 2) &&& 0x3f = (b0 % 16) * 4 := by
  decide

set_option maxRecDepth 100000 in
theorem base64_byte1 : ∀ a, a < 4 → ∀ b1, b1 < 256 → ∀ t, t < 4 →
    ((((a * 16) ||| (b1 >>> 4)) <<< 4) ||| ((((b1 <<< 2) &&& 0x3f) ||| t) >>> 2)) % 256 = b1 ∧
    (((b1 <<< 2) &&& 0x3f) ||| t) < 64 := by
  decide

set_option maxRecDepth 100000 in
theorem base64_byte2 : ∀ q, q < 16 → ∀ b2, b2 < 256 →
    (((((q * 4) ||| (b2 >>> 6)) <<< 6) ||| (b2 &&& 0x3f)) % 256 = b2) := by
  decide

/-- One iteration of the loop of `read_base64` on a group of four digits. -/
theorem read_base64_loop_group (fuel : Nat) (x0 x1 x2 x3 : Int) (tl : List Int) (buf : List Nat)
    (buf_size pos n0 n1 n2 n3 : Nat) (hpos : pos + 3 ≤ buf_size)
    (h0 : base64_digit x0 = some n0) (h1 : base64_digit x1 = some n1)
    (h2 : base64_digit x2 = some n2) (h3 : base64_digit x3 = some n3)
    (e2 : x2 ≠ ('='.toNat : Int)) (e3 : x3 ≠ ('='.toNat : Int)) :
    read_base64_loop (fuel + 1) (x0 :: x1 :: x2 :: x3 :: tl) buf buf_size pos =
      read_base64_loop fuel tl
        (((buf.set pos (((n0 <<< 2) ||| (n1 >>> 4)) % 256)).set (pos + 1)
          (((n1 <<< 4) ||| (n2 >>> 2)) % 256)).set (pos + 1 + 1) (((n2 <<< 6) ||| n3) % 256))
        buf_size (pos + 1 + 1 + 1) := by
  rw [read_base64_loop]
  simp only [hpos, if_true, peek_stream, read_stream, List.headD_cons, List.tail_cons, h0, h1, h2,
    h3, if_neg e2, if_neg e3]

/-- The last iteration on a group that ends in one `=`. -/
theorem read_base64_loop_pad1 (fuel : Nat) (x0 x1 x2 x3 : Int) (tl : List Int) (buf : List Nat)
    (buf_size pos n0 n1 n2 : Nat) (hpos : pos + 3 ≤ buf_size)
    (h0 : base64_digit x0 = some n0) (h1 : base64_digit x1 = some n1)
    (h2 : base64_digit x2 = some n2) (e2 : x2 ≠ ('='.toNat : Int))
    (e3 : x3 = ('='.toNat : Int)) :
    read_base64_loop (fuel + 1) (x0 :: x1 :: x2 :: x3 :: tl) buf buf_size pos =
      .ok (pos + 1 + 1,
        (buf.set pos (((n0 <<< 2) ||| (n1 >>> 4)) % 256)).set (pos + 1)
          (((n1 <<< 4) ||| (n2 >>> 2)) % 256), tl) := by
  rw [read_base64_loop]
  simp only [hpos, if_true, peek_stream, read_stream, List.headD_cons, List.tail_cons, h0, h1, h2,
    if_neg e2, if_pos e3]

/-- The last iteration on a group that ends in two `=`. -/
theorem read_base64_loop_pad2 (fuel : Nat) (x0 x1 x2 x3 : Int) (tl : List Int) (buf : List Nat)
    (buf_size pos n0 n1 : Nat) (hpos : pos + 3 ≤ buf_size)
    (h0 : base64_digit x0 = some n0) (h1 : base64_digit x1 = some n1)
    (e2 : x2 = ('='.toNat : Int)) :
    read_base64_loop (fuel + 1) (x0 :: x1 :: x2 :: x3 :: tl) buf buf_size pos =
      .ok (pos + 1, buf.set pos (((n0 <<< 2) ||| (n1 >>> 4)) % 256), tl) := by
  rw [read_base64_loop]
  simp only [hpos, if_true, peek_stream, read_stream, List.headD_cons, List.tail_cons, h0, h1,
    if_pos e2]

/-- The loop leaves at a character that is not a digit. -/
theorem read_base64_loop_stop (fuel : Nat) (c : Int) (tl : List Int) (buf : List Nat)
    (buf_size pos : Nat) (hc : base64_digit c = none) :
    read_base64_loop fuel (c :: tl) buf buf_size pos = .ok (pos, buf, c :: tl) := by
  cases fuel with
  | zero => rfl
  | succ f =>
    rw [read_base64_loop]
    simp only [peek_stream, List.headD_cons, hc, ite_self]
theorem getD_set_ne {α : Type} (l : List α) (i j : Nat) (v d : α) (h : i ≠ j) :
    (l.set i v).getD j d = l.getD j d := by
  simp only [List.getD_eq_getElem?_getD, List.getElem?_set_ne h]

theorem getD_set_self {α : Type} (l : List α) (i : Nat) (v d : α) (h : i < l.length) :
    (l.set i v).getD i d = v := by
  simp only [List.getD_eq_getElem?_getD, List.getElem?_set_self h, Option.getD_some]

/-- The loop of `read_base64` on the characters that `write_base64` writes for
the bytes `b`, followed by a character `c` that is not a digit: it stores `b`
at `pos` and stops in front of `c`. -/
theorem read_base64_loop_write (c : Int) (rest : List Int) (buf_size : Nat)
    (hc : base64_digit c = none) (b : List Nat) :
    ∀ (fuel pos : Nat) (buf : List Nat), (∀ x ∈ b, x < 256) → b.length / 3 + 1 ≤ fuel →
      pos + 3 * ((b.length + 2) / 3) ≤ buf_size → buf.length = buf_size →
      ∃ buf1 : List Nat,
        read_base64_loop fuel
          ((write_base64_loop b).map (fun ch => (ch.toNat : Int)) ++ c :: rest) buf buf_size pos =
          .ok (pos + b.length, buf1, c :: rest) ∧
        buf1.length = buf.length ∧
        (∀ i, i < b.length → buf1.getD (pos + i) 0 = b.getD i 0) ∧
        (∀ i, i < pos ∨ pos + b.length ≤ i → buf1.getD i 0 = buf.getD i 0) := by
  induction b using write_base64_loop.induct with
  | case1 =>
    intro fuel pos buf _ _ _ _
    refine ⟨buf, ?_, rfl, fun i hi => by simp at hi, fun i _ => rfl⟩
    exact read_base64_loop_stop fuel c rest buf buf_size pos hc
  | case2 b0 =>
    intro fuel pos buf hb hfuel hsize hlen
    have hb0 : b0 < 256 := hb b0 (by simp)
    obtain ⟨f0, _, f2, f3, _⟩ := base64_byte0 b0 hb0 0 (by decide)
    obtain ⟨fuel, rfl⟩ : ∃ f, fuel = f + 1 := ⟨fuel - 1, by omega⟩
    simp only [List.length_singleton] at hsize
    have hd0 := base64_digit_int2char (b0 >>> 2) f2
    have hd1 := base64_digit_int2char ((b0 <<< 4) &&& 0x3f) f3
    refine ⟨buf.set pos b0, ?_, by simp, fun i hi => ?_, fun i hi => ?_⟩
    · simp only [write_base64_loop, Nat.mod_eq_of_lt hb0, List.map_cons, List.map_nil,
        List.cons_append, List.nil_append, List.length_singleton]
      rw [read_base64_loop_pad2 fuel _ _ _ _ _ buf buf_size pos _ _ (by omega) hd0.1 hd1.1 rfl]
      rw [Nat.or_zero] at f0
      rw [f0]
    · simp only [List.length_singleton] at hi
      have : i = 0 := by omega
      subst this
      rw [Nat.add_zero, getD_set_self _ _ _ _ (by omega)]
      rfl
    · simp only [List.length_singleton] at hi
      rw [getD_set_ne _ _ _ _ _ (by omega)]
  | case3 b0 b1 =>
    intro fuel pos buf hb hfuel hsize hlen
    have hb0 : b0 < 256 := hb b0 (by simp)
    have hb1 : b1 < 256 := hb b1 (by simp)
    obtain ⟨_, _, _, _, g4, _, _, _, g8⟩ := base64_byte0 b1 hb1 0 (by decide)
    obtain ⟨f0, f1, f2, _, _, _, _, f7, _⟩ := base64_byte0 b0 hb0 (b1 >>> 4) g4
    obtain ⟨k0, k1⟩ := base64_byte1 (b0 % 4) (Nat.mod_lt _ (by decide)) b1 hb1 0 (by decide)
    rw [Nat.or_zero] at k0 k1
    rw [← f7] at k0
    obtain ⟨fuel, rfl⟩ : ∃ f, fuel = f + 1 := ⟨fuel - 1, by omega⟩
    simp only [List.length_cons, List.length_nil] at hsize
    have hd0 := base64_digit_int2char (b0 >>> 2) f2
    have hd1 := base64_digit_int2char (((b0 <<< 4) &&& 0x3f) ||| (b1 >>> 4)) f1
    have hd2 := base64_digit_int2char ((b1 <<< 2) &&& 0x3f) k1
    refine ⟨(buf.set pos b0).set (pos + 1) b1, ?_, by simp, fun i hi => ?_, fun i hi => ?_⟩
    · simp only [write_base64_loop, Nat.mod_eq_of_lt hb0, Nat.mod_eq_of_lt hb1, List.map_cons,
        List.map_nil, List.cons_append, List.nil_append, List.length_cons, List.length_nil]
      rw [read_base64_loop_pad1 fuel _ _ _ _ _ buf buf_size pos _ _ _ (by omega) hd0.1 hd1.1
        hd2.1 hd2.2 rfl, f0, k0]
    · simp only [List.length_cons, List.length_nil] at hi
      have hi' : i = 0 ∨ i = 1 := by omega
      rcases hi' with rfl | rfl
      · rw [getD_set_ne _ _ _ _ _ (by omega), Nat.add_zero, getD_set_self _ _ _ _ (by omega)]
        rfl
      · rw [getD_set_self _ _ _ _ (by rw [List.length_set]; omega)]
        rfl
    · simp only [List.length_cons, List.length_nil] at hi
      rw [getD_set_ne _ _ _ _ _ (by omega), getD_set_ne _ _ _ _ _ (by omega)]
  | case4 b0 b1 b2 rest' ih =>
    intro fuel pos buf hb hfuel hsize hlen
    have hb0 : b0 < 256 := hb b0 (by simp)
    have hb1 : b1 < 256 := hb b1 (by simp)
    have hb2 : b2 < 256 := hb b2 (by simp)
    obtain ⟨_, _, _, _, _, j5, j6, _, _⟩ := base64_byte0 b2 hb2 0 (by decide)
    obtain ⟨_, _, _, _, g4, _, _, _, g8⟩ := base64_byte0 b1 hb1 0 (by decide)
    obtain ⟨f0, f1, f2, _, _, _, _, f7, _⟩ := base64_byte0 b0 hb0 (b1 >>> 4) g4
    obtain ⟨k0, k1⟩ := base64_byte1 (b0 % 4) (Nat.mod_lt _ (by decide)) b1 hb1 (b2 >>> 6) j5
    rw [← f7] at k0
    have m0 := base64_byte2 (b1 % 16) (Nat.mod_lt _ (by decide)) b2 hb2
    rw [← g8] at m0
    obtain ⟨fuel, rfl⟩ : ∃ f, fuel = f + 1 := ⟨fuel - 1, by omega⟩
    simp only [List.length_cons] at hsize hfuel
    have hd0 := base64_digit_int2char (b0 >>> 2) f2
    have hd1 := base64_digit_int2char (((b0 <<< 4) &&& 0x3f) ||| (b1 >>> 4)) f1
    have hd2 := base64_digit_int2char (((b1 <<< 2) &&& 0x3f) ||| (b2 >>> 6)) k1
    have hd3 := base64_digit_int2char (b2 &&& 0x3f) j6
    obtain ⟨buf1, r1, r2, r3, r4⟩ := ih fuel (pos + 1 + 1 + 1)
      (((buf.set pos b0).set (pos + 1) b1).set (pos + 1 + 1) b2)
      (fun x hx => hb x (by simp [hx])) (by omega) (by omega) (by simp [hlen])
    refine ⟨buf1, ?_, by rw [r2]; simp, fun i hi => ?_, fun i hi => ?_⟩
    · simp only [write_base64_loop, Nat.mod_eq_of_lt hb0, Nat.mod_eq_of_lt hb1,
        Nat.mod_eq_of_lt hb2, List.map_cons, List.map_append, List.cons_append, List.nil_append,
        List.map_nil, List.length_cons]
      rw [read_base64_loop_group fuel _ _ _ _ _ buf buf_size pos _ _ _ _ (by omega) hd0.1 hd1.1
        hd2.1 hd3.1 hd2.2 hd3.2, f0, k0, m0, r1]
      congr 2
      omega
    · simp only [List.length_cons] at hi
      rcases i with _ | _ | _ | i
      · rw [r4 _ (Or.inl (by omega)), getD_set_ne _ _ _ _ _ (by omega),
          getD_set_ne _ _ _ _ _ (by omega), Nat.add_zero, getD_set_self _ _ _ _ (by omega)]
        rfl
      · rw [r4 _ (Or.inl (by omega)), getD_set_ne _ _ _ _ _ (by omega),
          getD_set_self _ _ _ _ (by rw [List.length_set]; omega)]
        rfl
      · rw [r4 _ (Or.inl (by omega)),
          getD_set_self _ _ _ _ (by rw [List.length_set, List.length_set]; omega)]
        rfl
      · have := r3 i (by omega)
        rw [show pos + (i + 1 + 1 + 1) = pos + 1 + 1 + 1 + i by omega, this]
        rfl
    · simp only [List.length_cons] at hi
      rw [r4 i (by omega), getD_set_ne _ _ _ _ _ (by omega), getD_set_ne _ _ _ _ _ (by omega),
        getD_set_ne _ _ _ _ _ (by omega)]
theorem write_base64_loop_length (b : List Nat) :
    (write_base64_loop b).length = ((b.length + 2) / 3) * 4 := by
  induction b using write_base64_loop.induct with
  | case1 => rfl
  | case2 b0 => simp [write_base64_loop]
  | case3 b0 b1 => simp [write_base64_loop]
  | case4 b0 b1 b2 rest ih =>
    simp only [write_base64_loop, List.length_append, List.length_cons, List.length_nil, ih]
    omega

theorem getElem?_of_getD (l1 l2 : List Nat) (i j : Nat) (h1 : i < l1.length)
    (h2 : j < l2.length) (h : l1.getD i 0 = l2.getD j 0) : l1[i]? = l2[j]? := by
  rw [List.getD_eq_getElem _ _ h1, List.getD_eq_getElem _ _ h2] at h
  rw [List.getElem?_eq_getElem h1, List.getElem?_eq_getElem h2, h]

/-! ## Lemmas on the skip sequencer -/

theorem find_instruction_owner (s : Agent) (ctx : Context) (address n : Nat)
    (bi : BreakInstruction)
    (hf : find_index (fun b => (s.ctx b.ctx).mem == ctx.mem && b.address == address)
      s.instructions = some n)
    (hn : s.instructions[n]? = some bi) :
    find_instruction s ctx address =
      (some n, { s with instructions :=
        s.instructions.set n { bi with ctx := owner_after_find s ctx bi } }) := by
  unfold find_instruction owner_after_find
  simp only [hf, hn]
  by_cases hc : (s.ctx bi.ctx).exited = true ∨ is_running (s.ctx bi.ctx) = true
  · rw [if_pos hc, if_pos hc]
    rfl
  · rw [if_neg hc, if_neg hc]
    have : s.instructions.set n { bi with ctx := bi.ctx } = s.instructions := set_same _ _ _ hn
    rw [this]

theorem least_none (l : List Nat) : least l = none ↔ l = [] := by
  cases l with
  | nil => simp [least]
  | cons x l =>
    simp only [least]
    cases least l <;> simp

theorem least_some (l : List Nat) (m : Nat) :
    least l = some m ↔ m ∈ l ∧ ∀ x ∈ l, m ≤ x := by
  induction l generalizing m with
  | nil => simp [least]
  | cons a l ih =>
    simp only [least]
    cases hl : least l with
    | none =>
      have hnil := (least_none l).mp hl
      subst hnil
      simp only [Option.some.injEq, List.mem_singleton, forall_eq]
      constructor
      · intro h; subst h; exact ⟨rfl, Nat.le_refl _⟩
      · intro h; exact h.1.symm
    | some b =>
      obtain ⟨hb1, hb2⟩ := (ih b).mp hl
      simp only [Option.some.injEq, List.mem_cons, forall_eq_or_imp]
      constructor
      · intro h
        subst h
        by_cases hab : a ≤ b
        · rw [Nat.min_eq_left hab]
          exact ⟨Or.inl rfl, Nat.le_refl _, fun x hx => Nat.le_trans hab (hb2 x hx)⟩
        · have hba : b ≤ a := by omega
          rw [Nat.min_eq_right hba]
          exact ⟨Or.inr hb1, hba, hb2⟩
      · rintro ⟨h1 | h1, h2, h3⟩
        · subst h1
          exact Nat.min_eq_left (h3 b hb1)
        · have := hb2 m h1
          have := h3 b hb1
          have hmb : m = b := by omega
          subst hmb
          exact Nat.min_eq_right h2

theorem mem_sigset_set_false (set : SigSet) (bit x : Nat) :
    x ∈ sigset_set set bit false ↔ x ∈ set ∧ x ≠ bit := by
  unfold sigset_set
  simp

theorem mem_sigset_set_true (set : SigSet) (bit x : Nat) :
    x ∈ sigset_set set bit true ↔ x ∈ set ∨ x = bit := by
  unfold sigset_set
  by_cases h : bit ∈ set
  · simp only [if_true, if_pos h]
    constructor
    · exact Or.inl
    · rintro (h1 | h1)
      · exact h1
      · rw [h1]; exact h
  · simp only [if_true, if_neg h, List.mem_append, List.mem_singleton]

theorem sigset_set_false_length (set : SigSet) (bit : Nat) (h : bit ∈ set) :
    (sigset_set set bit false).length < set.length := by
  unfold sigset_set
  simp only [Bool.false_eq_true, if_false]
  induction set with
  | nil => cases h
  | cons a l ih =>
    rw [List.filter_cons]
    by_cases ha : a = bit
    · have : (a != bit) = false := by simp [ha]
      rw [this]
      simp only [Bool.false_eq_true, if_false, List.length_cons]
      exact Nat.lt_succ_of_le (List.length_filter_le _ _)
    · have : (a != bit) = true := by simp [ha]
      rw [this]
      simp only [if_true, List.length_cons]
      rcases List.mem_cons.mp h with h1 | h1
      · exact absurd h1.symm ha
      · exact Nat.succ_lt_succ (ih h1)

/-- The loop of `context_continue` from a position `n` that no pending signal
is below: `signal` is the least pending signal that is not in `dont_pass` (0
when there is none), and the signals taken out of `pending` are the signals of
`dont_pass` below it (all of them when there is none). -/
theorem pass_signal_loop_spec (dont_pass : SigSet) (fuel : Nat) :
    ∀ (pending : SigSet) (n : Nat), pending.length < fuel → (∀ x ∈ pending, n ≤ x) →
      (pass_signal_loop fuel pending dont_pass n).2 =
        (least (pending.filter (fun x => !sigset_get dont_pass x))).getD 0 ∧
      ∀ x, x ∈ (pass_signal_loop fuel pending dont_pass n).1 ↔
        x ∈ pending ∧ (x ∉ dont_pass ∨
          ∃ b, least (pending.filter (fun x => !sigset_get dont_pass x)) = some b ∧ b ≤ x) := by
  induction fuel with
  | zero => intro pending n h; omega
  | succ fuel ih =>
    intro pending n hlen hn
    have hfilter : pending.filter (fun x => decide (n ≤ x)) = pending :=
      List.filter_eq_self.mpr (fun x hx => by simpa using hn x hx)
    rw [pass_signal_loop]
    unfold sigset_get_next
    rw [hfilter]
    cases hl : least pending with
    | none =>
      have hnil := (least_none pending).mp hl
      subst hnil
      simp [least]
    | some m =>
      obtain ⟨hm1, hm2⟩ := (least_some pending m).mp hl
      simp only
      by_cases hd : sigset_get dont_pass m = true
      · rw [if_pos hd]
        have hmd : m ∈ dont_pass := by simpa [sigset_get] using hd
        have hcand : (sigset_set pending m false).filter (fun x => !sigset_get dont_pass x) =
            pending.filter (fun x => !sigset_get dont_pass x) := by
          unfold sigset_set
          simp only [Bool.false_eq_true, if_false, List.filter_filter]
          apply List.filter_congr
          intro x hx
          by_cases hxm : x = m
          · subst hxm
            simp [hd]
          · simp [hxm]
        obtain ⟨i1, i2⟩ := ih (sigset_set pending m false) m
          (by have := sigset_set_false_length pending m hm1; omega)
          (fun x hx => hm2 x ((mem_sigset_set_false _ _ _).mp hx).1)
        rw [hcand] at i1 i2
        refine ⟨i1, fun x => ?_⟩
        rw [i2, mem_sigset_set_false]
        constructor
        · rintro ⟨⟨h1, _⟩, h3⟩
          exact ⟨h1, h3⟩
        · rintro ⟨h1, h3⟩
          refine ⟨⟨h1, fun hxm => ?_⟩, h3⟩
          subst hxm
          rcases h3 with h3 | ⟨b, hb, hbx⟩
          · exact h3 hmd
          · obtain ⟨hb1, _⟩ := (least_some _ b).mp hb
            have hbp := (List.mem_filter.mp hb1)
            have := hm2 b hbp.1
            have hbm : b = x := by omega
            subst hbm
            simp [sigset_get, hmd] at hbp
      · rw [if_neg hd]
        have hmd : m ∉ dont_pass := by simpa [sigset_get] using hd
        have hleast : least (pending.filter (fun x => !sigset_get dont_pass x)) = some m := by
          rw [least_some]
          refine ⟨List.mem_filter.mpr ⟨hm1, by simpa using hd⟩, fun x hx => ?_⟩
          exact hm2 x (List.mem_filter.mp hx).1
        rw [hleast]
        refine ⟨rfl, fun x => ⟨fun hx => ⟨hx, Or.inr ⟨m, rfl, hm2 x hx⟩⟩, fun hx => hx.1⟩⟩
theorem lowest_passed_some (pending dont_pass : SigSet) (b : Nat) :
    lowest_passed pending dont_pass = some b ↔
      b ∈ pending ∧ b ∉ dont_pass ∧ ∀ x ∈ pending, x ∉ dont_pass → b ≤ x := by
  unfold lowest_passed
  rw [least_some]
  simp only [List.mem_filter, sigset_get, Bool.not_eq_true', decide_eq_false_iff_not]
  constructor
  · rintro ⟨⟨h1, h2⟩, h3⟩
    exact ⟨h1, h2, fun x hx hxd => h3 x ⟨hx, hxd⟩⟩
  · rintro ⟨h1, h2, h3⟩
    exact ⟨⟨h1, h2⟩, fun x hx => h3 x hx.1 hx.2⟩

theorem lowest_passed_none (pending dont_pass : SigSet) :
    lowest_passed pending dont_pass = none ↔ ∀ x ∈ pending, x ∈ dont_pass := by
  unfold lowest_passed
  rw [least_none, List.filter_eq_nil_iff]
  simp [sigset_get]

theorem clear_trap_flag_pending (c : ContextDarwin) :
    (clear_trap_flag c).pending_signals = c.pending_signals := by
  unfold clear_trap_flag
  split <;> rfl

theorem forget_syscall_pending (c : ContextDarwin) :
    (forget_syscall c).pending_signals = c.pending_signals := by
  unfold forget_syscall
  split <;> rfl

/-- The signal passed and the pending signals left by `context_continue` when
no breakpoint is skipped, the thread is not at a syscall entry and the
registers can be flushed. -/
theorem context_continue_fields (c : ContextDarwin) (os : OsOutcome) (hskip : os.skip = false)
    (hsys : c.syscall_enter = false) (hflush : os.set_state = 0) :
    (context_continue c os).signal =
      some (pass_signal_loop (c.pending_signals.length + 1) c.pending_signals
        c.sig_dont_pass 0).2 ∧
    (context_continue c os).ctx.pending_signals =
      (if os.ptrace = 0 then
        sigset_set (pass_signal_loop (c.pending_signals.length + 1) c.pending_signals
          c.sig_dont_pass 0).1 (pass_signal_loop (c.pending_signals.length + 1)
          c.pending_signals c.sig_dont_pass 0).2 false
       else (pass_signal_loop (c.pending_signals.length + 1) c.pending_signals
          c.sig_dont_pass 0).1) ∧
    (os.ptrace = 0 → (context_continue c os).ret = 0) ∧
    (os.ptrace = 0 → (context_continue c os).started = true) := by
  unfold context_continue
  simp only [hskip, Bool.false_eq_true, if_false, hsys, if_true, hflush, ne_eq, not_true_eq_false,
    and_false]
  generalize pass_signal_loop (c.pending_signals.length + 1) c.pending_signals
    c.sig_dont_pass 0 = L
  by_cases hp : os.ptrace = 0
  · simp only [hp, not_true_eq_false, if_false, if_true, forget_syscall_pending,
      clear_trap_flag_pending, and_self, implies_true]
  · simp only [hp, not_false_eq_true, if_true, if_false]
    split_ifs <;> simp [clear_trap_flag_pending]

/-- The pending signals after `context_continue` were pending before. -/
theorem context_continue_pending (c : ContextDarwin) (os : OsOutcome) :
    ∀ x ∈ (context_continue c os).ctx.pending_signals, x ∈ c.pending_signals := by
  have hL : ∀ x ∈ (pass_signal_loop (c.pending_signals.length + 1) c.pending_signals
      c.sig_dont_pass 0).1, x ∈ c.pending_signals := fun x hx =>
    (((pass_signal_loop_spec c.sig_dont_pass _ c.pending_signals 0 (Nat.lt_succ_self _)
      (fun _ _ => Nat.zero_le _)).2 x).mp hx).1
  generalize hgen : pass_signal_loop (c.pending_signals.length + 1) c.pending_signals
    c.sig_dont_pass 0 = L at hL
  have hr : ∀ x ∈ (if c.syscall_enter = false then L else (c.pending_signals, 0)).1,
      x ∈ c.pending_signals := by
    intro x hx
    split at hx
    · exact hL x hx
    · exact hx
  unfold context_continue
  rw [hgen]
  generalize (if c.syscall_enter = false then L else (c.pending_signals, 0)) = r at hr
  intro x
  simp only [apply_ite ResumeOutcome.ctx, apply_ite ContextDarwin.pending_signals]
  split_ifs <;>
    (try simp only [mem_sigset_set_false, forget_syscall_pending, clear_trap_flag_pending]) <;>
    intro hx
  all_goals first
    | exact hx
    | exact hr x hx
    | exact hr x hx.1
theorem record_signal_pending (c : ContextDarwin) (signal x : Nat)
    (hx : x ∈ (record_signal c signal).pending_signals) :
    x ∈ c.pending_signals ∨ (x ≠ SIGSTOP ∧ x ≠ SIGTRAP) := by
  unfold record_signal at hx
  split_ifs at hx with h1 h2
  · rcases (mem_sigset_set_true _ _ _).mp hx with h | h
    · exact Or.inl h
    · exact Or.inr (h ▸ h1)
  · rcases (mem_sigset_set_true _ _ _).mp hx with h | h
    · exact Or.inl h
    · exact Or.inr (h ▸ h1)
  · exact Or.inl hx

theorem read_snapshot_pending (c : ContextDarwin) (signal event : Nat) (sbe : Bool)
    (state : Except Nat REG_SET) :
    (read_snapshot c signal event sbe state).1.pending_signals = c.pending_signals := by
  unfold read_snapshot
  cases state <;> simp only <;> split_ifs <;> rfl

theorem breakpoint_stop_pending (w : Nat) (s : Agent) (c : ContextDarwin) (pc1 : Nat) :
    (breakpoint_stop w s c pc1).2.pending_signals = c.pending_signals := by
  unfold breakpoint_stop
  simp only
  split_ifs <;> rfl

theorem event_pid_stopped_pending (w : Nat) (s : Agent) (c : ContextDarwin)
    (signal event : Nat) (syscall : Bool) (state : Except Nat REG_SET) :
    (event_pid_stopped w s c signal event syscall state).2.1.pending_signals =
      (record_signal c signal).pending_signals := by
  unfold event_pid_stopped
  simp only
  split_ifs
  · rfl
  · show (breakpoint_stop w _ _ _).2.pending_signals = _
    rw [breakpoint_stop_pending, read_snapshot_pending]
  · show (read_snapshot _ _ _ _ _).1.pending_signals = _
    rw [read_snapshot_pending]

theorem context_stop_pending (c : ContextDarwin) (os : OsOutcome) :
    (context_stop c os).ctx.pending_signals = c.pending_signals := by
  unfold context_stop
  split_ifs <;> rfl

theorem context_single_step_pending (c : ContextDarwin) (os os2 : OsOutcome) :
    ∀ x ∈ (context_single_step c os os2).ctx.pending_signals, x ∈ c.pending_signals := by
  unfold context_single_step
  intro x
  simp only [apply_ite ResumeOutcome.ctx, apply_ite ContextDarwin.pending_signals]
  split_ifs
  all_goals first
    | exact id
    | exact context_continue_pending c os2 x

theorem context_resume_pending (c : ContextDarwin) (mode : ResumeMode) (os os2 : OsOutcome) :
    ∀ x ∈ (context_resume c mode os os2).ctx.pending_signals,
      x ∈ c.pending_signals ∨ x = SIGKILL := by
  intro x hx
  cases mode with
  | RM_RESUME => exact Or.inl (context_continue_pending c os x hx)
  | RM_STEP_INTO => exact Or.inl (context_single_step_pending c os os2 x hx)
  | RM_TERMINATE =>
    exact (mem_sigset_set_true _ _ _).mp (context_continue_pending _ os x hx)
  | other => exact Or.inl hx

/-- No step of `context-darwin.c` makes `SIGSTOP` or `SIGTRAP` pending. -/
theorem no_stop_trap_step (c c1 : ContextDarwin) (h : no_stop_trap c) (hs : ContextStep c c1) :
    no_stop_trap c1 := by
  have key : ∀ d : ContextDarwin,
      (∀ x ∈ d.pending_signals, x ∈ c.pending_signals ∨ (x ≠ SIGSTOP ∧ x ≠ SIGTRAP)) →
      no_stop_trap d := by
    intro d hd
    constructor
    · intro hm
      rcases hd _ hm with h1 | h1
      · exact h.1 h1
      · exact h1.1 rfl
    · intro hm
      rcases hd _ hm with h1 | h1
      · exact h.2 h1
      · exact h1.2 rfl
  cases hs with
  | stopped w s _ signal event syscall state =>
    apply key
    intro x hx
    rw [event_pid_stopped_pending] at hx
    exact record_signal_pending c signal x hx
  | stop _ os =>
    apply key
    intro x hx
    rw [context_stop_pending] at hx
    exact Or.inl hx
  | resumed _ os =>
    apply key
    intro x hx
    exact Or.inl (context_continue_pending c os x hx)
  | single_step _ os os2 =>
    apply key
    intro x hx
    exact Or.inl (context_single_step_pending c os os2 x hx)
  | resume _ mode os os2 =>
    apply key
    intro x hx
    rcases context_resume_pending c mode os os2 x hx with h1 | h1
    · exact Or.inl h1
    · exact Or.inr (by rw [h1]; decide)

/-- In every reachable state of a thread context neither `SIGSTOP` nor
`SIGTRAP` is pending. -/
theorem no_stop_trap_reachable (c : ContextDarwin) (h : ContextReachable c) : no_stop_trap c := by
  induction h with
  | created c h0 =>
    unfold no_stop_trap
    rw [h0]
    simp
  | step c c1 _ hs ih => exact no_stop_trap_step c c1 ih hs

/-! ## Lemmas on the hardware-breakpoint slots -/

theorem first_free_some (l : List (Option Nat)) (n : Nat) :
    ∀ (i k : Nat), first_free l i n = some k →
      i ≤ k ∧ k < i + n ∧ l.getD k none = none ∧ ∀ j, j < k → i ≤ j → l.getD j none ≠ none := by
  induction n with
  | zero => intro i k h; simp [first_free] at h
  | succ n ih =>
    intro i k h
    rw [first_free] at h
    by_cases hi : l.getD i none = none
    · rw [if_pos hi] at h
      cases h
      exact ⟨Nat.le_refl _, by omega, hi, fun j h1 h2 => by omega⟩
    · rw [if_neg hi] at h
      obtain ⟨h1, h2, h3, h4⟩ := ih (i + 1) k h
      refine ⟨by omega, by omega, h3, fun j hj hij => ?_⟩
      by_cases e : j = i
      · rw [e]; exact hi
      · exact h4 j hj (by omega)

theorem first_free_none (l : List (Option Nat)) (n : Nat) :
    ∀ i : Nat, first_free l i n = none → ∀ j, i ≤ j → j < i + n → l.getD j none ≠ none := by
  induction n with
  | zero => intro i _ j h1 h2; omega
  | succ n ih =>
    intro i h j h1 h2
    rw [first_free] at h
    by_cases hi : l.getD i none = none
    · rw [if_pos hi] at h; cases h
    · rw [if_neg hi] at h
      by_cases e : j = i
      · rw [e]; exact hi
      · exact ih (i + 1) h j (by omega) (by omega)

theorem getD_none_iff (l : List (Option Nat)) (j : Nat) (h : j < l.length) :
    l.getD j none = none ↔ l[j]? = some none := by
  rw [List.getD_eq_getElem?_getD, List.getElem?_eq_getElem h]
  simp

theorem lowest_empty_unique (l : List (Option Nat)) (lo hi i k : Nat)
    (hi1 : lowest_empty l lo hi i) (hk : lowest_empty l lo hi k) : i = k := by
  obtain ⟨a1, a2, a3, a4⟩ := hi1
  obtain ⟨b1, b2, b3, b4⟩ := hk
  rcases Nat.lt_trichotomy i k with h | h | h
  · exact absurd a3 (b4 i h a1)
  · exact h
  · exact absurd b3 (a4 k h b1)

theorem lowest_empty_congr (l1 l2 : List (Option Nat)) (lo hi k : Nat)
    (h : ∀ j, lo ≤ j → j < hi → l1[j]? = l2[j]?) :
    lowest_empty l1 lo hi k ↔ lowest_empty l2 lo hi k := by
  unfold lowest_empty
  constructor
  · rintro ⟨a1, a2, a3, a4⟩
    exact ⟨a1, a2, by rw [← h k a1 a2]; exact a3,
      fun j hj hlo => by rw [← h j hlo (by omega)]; exact a4 j hj hlo⟩
  · rintro ⟨a1, a2, a3, a4⟩
    exact ⟨a1, a2, by rw [h k a1 a2]; exact a3,
      fun j hj hlo => by rw [h j hlo (by omega)]; exact a4 j hj hlo⟩

/-- The loops of `cpu_bp_plant` find the lowest-indexed empty slot of their
range. -/
theorem first_free_lowest (l : List (Option Nat)) (lo n : Nat) (hlen : lo + n ≤ l.length) :
    (∀ k, first_free l lo n = some k ↔ lowest_empty l lo (lo + n) k) ∧
    (first_free l lo n = none ↔ ¬ ∃ k, lowest_empty l lo (lo + n) k) := by
  have hsome : ∀ k, first_free l lo n = some k → lowest_empty l lo (lo + n) k := by
    intro k h
    obtain ⟨h1, h2, h3, h4⟩ := first_free_some l n lo k h
    exact ⟨h1, h2, (getD_none_iff l k (by omega)).mp h3,
      fun j hj hlo => fun e => h4 j hj hlo ((getD_none_iff l j (by omega)).mpr e)⟩
  have hnone : first_free l lo n = none → ¬ ∃ k, lowest_empty l lo (lo + n) k := by
    rintro h ⟨k, h1, h2, h3, _⟩
    exact first_free_none l n lo h k h1 h2 ((getD_none_iff l k (by omega)).mpr h3)
  constructor
  · intro k
    constructor
    · exact hsome k
    · intro hk
      cases hf : first_free l lo n with
      | none => exact absurd ⟨k, hk⟩ (hnone hf)
      | some k1 => rw [lowest_empty_unique l lo (lo + n) k1 k (hsome k1 hf) hk]
  · constructor
    · exact hnone
    · intro h
      cases hf : first_free l lo n with
      | none => rfl
      | some k1 => exact absurd ⟨k1, hsome k1 hf⟩ h

theorem clear_bp_loop_getElem? (bp : Nat) (n : Nat) :
    ∀ (l : List (Option Nat)) (j : Nat), (clear_bp_loop bp n l)[j]? =
      if j < n ∧ l[j]? = some (some bp) then some none else l[j]? := by
  induction n with
  | zero => intro l j; simp [clear_bp_loop]
  | succ n ih =>
    intro l j
    cases l with
    | nil => simp [clear_bp_loop]
    | cons x l =>
      rw [clear_bp_loop]
      cases j with
      | zero =>
        simp only [List.getElem?_cons_zero, Nat.zero_lt_succ, true_and, Option.some.injEq]
        split_ifs <;> simp_all
      | succ j =>
        simp only [List.getElem?_cons_succ, Nat.add_lt_add_iff_right]
        exact ih l j

theorem get_bp_info_fields (bps : ContextExtensionARM_HW) (probe : Option Nat)
    (hwf : bps.info_ok = true → bps.bp_cnt ≤ MAX_HBP ∧ bps.wp_cnt ≤ MAX_HWP) :
    (get_bp_info bps probe).hw_bps = bps.hw_bps ∧
    (get_bp_info bps probe).bp_cnt ≤ MAX_HBP ∧ (get_bp_info bps probe).wp_cnt ≤ MAX_HWP ∧
    (get_bp_info bps probe).info_ok = true ∧
    (bps.info_ok = true → get_bp_info bps probe = bps) := by
  unfold get_bp_info
  by_cases h : bps.info_ok = true
  · rw [if_pos h]
    exact ⟨rfl, (hwf h).1, (hwf h).2, h, fun _ => rfl⟩
  · rw [if_neg h]
    cases probe with
    | none => exact ⟨by rfl, Nat.zero_le _, Nat.zero_le _, by rfl, fun h' => absurd h' h⟩
    | some buf =>
      simp only
      refine ⟨?_, ?_, ?_, trivial, fun h' => absurd h' h⟩
      · split_ifs <;> rfl
      · split_ifs <;> simp_all
      · split_ifs <;> simp_all

theorem plant_hbp_slot_spec (bps : ContextExtensionARM_HW) (bp : Nat)
    (hlen : bps.bp_cnt ≤ bps.hw_bps.length) :
    (plant_hbp_slot bps bp = none ↔ ¬ ∃ i, lowest_empty bps.hw_bps 0 bps.bp_cnt i) ∧
    (∀ b1, plant_hbp_slot bps bp = some b1 →
      b1.bp_cnt = bps.bp_cnt ∧ b1.wp_cnt = bps.wp_cnt ∧ b1.wp_size = bps.wp_size ∧
      ∃ i, lowest_empty bps.hw_bps 0 bps.bp_cnt i ∧ b1.hw_bps = bps.hw_bps.set i (some bp)) := by
  obtain ⟨h1, h2⟩ := first_free_lowest bps.hw_bps 0 bps.bp_cnt (by omega)
  rw [Nat.zero_add] at h1 h2
  unfold plant_hbp_slot
  cases hf : first_free bps.hw_bps 0 bps.bp_cnt with
  | none => exact ⟨⟨fun _ => h2.mp hf, fun _ => rfl⟩, fun b1 h => by cases h⟩
  | some i =>
    refine ⟨⟨fun h => (by cases h), fun h => absurd ⟨i, (h1 i).mp hf⟩ h⟩, ?_⟩
    intro b1 h
    cases h
    exact ⟨rfl, rfl, rfl, i, (h1 i).mp hf, rfl⟩

theorem plant_hwp_slot_spec (deref : Nat → ContextBreakpoint) (bps : ContextExtensionARM_HW)
    (bp : Nat) (hlen : bps.bp_cnt + bps.wp_cnt ≤ bps.hw_bps.length) :
    (plant_hwp_slot deref bps bp = none ↔ ¬ ((deref bp).length ≤ bps.wp_size ∧
      ∃ i, lowest_empty bps.hw_bps bps.bp_cnt (bps.bp_cnt + bps.wp_cnt) i)) ∧
    (∀ b1, plant_hwp_slot deref bps bp = some b1 →
      (deref bp).length ≤ bps.wp_size ∧
      ∃ i, lowest_empty bps.hw_bps bps.bp_cnt (bps.bp_cnt + bps.wp_cnt) i ∧
        b1.hw_bps = bps.hw_bps.set i (some bp)) := by
  obtain ⟨h1, h2⟩ := first_free_lowest bps.hw_bps bps.bp_cnt bps.wp_cnt hlen
  unfold plant_hwp_slot
  by_cases hl : (deref bp).length ≤ bps.wp_size
  · rw [if_pos hl]
    cases hf : first_free bps.hw_bps bps.bp_cnt bps.wp_cnt with
    | none => exact ⟨⟨fun _ h => h2.mp hf h.2, fun _ => rfl⟩, fun b1 h => by cases h⟩
    | some i =>
      refine ⟨⟨fun h => (by cases h), fun h => absurd ⟨hl, i, (h1 i).mp hf⟩ h⟩, ?_⟩
      intro b1 h
      cases h
      exact ⟨hl, i, (h1 i).mp hf, rfl⟩
  · rw [if_neg hl]
    exact ⟨⟨fun _ h => hl h.1, fun _ => rfl⟩, fun b1 h => by cases h⟩


theorem clear_bp_loop_length (bp : Nat) (n : Nat) :
    ∀ l : List (Option Nat), (clear_bp_loop bp n l).length = l.length := by
  induction n with
  | zero => intro l; rfl
  | succ n ih =>
    intro l
    cases l with
    | nil => rfl
    | cons x l => simp [clear_bp_loop, ih l]

/-- The slots after the body of `cpu_bp_plant` that follows `get_bp_info`. -/
theorem cpu_bp_plant_spec (deref : Nat → ContextBreakpoint) (bps : ContextExtensionARM_HW)
    (bp : Nat) (probe : Option Nat) (hlen : bps.hw_bps.length = MAX_HW_BPS)
    (hwf : bps.info_ok = true → bps.bp_cnt ≤ MAX_HBP ∧ bps.wp_cnt ≤ MAX_HWP) :
    ((cpu_bp_plant deref bps bp probe).1 = 0 ↔
      (deref bp).access_virtual = true ∧
      ((deref bp).access_instruction = true →
        ∃ i, lowest_empty bps.hw_bps 0 (get_bp_info bps probe).bp_cnt i) ∧
      ((deref bp).access_data_read = true ∨ (deref bp).access_data_write = true →
        (deref bp).length ≤ (get_bp_info bps probe).wp_size ∧
        ∃ k, lowest_empty bps.hw_bps (get_bp_info bps probe).bp_cnt
          ((get_bp_info bps probe).bp_cnt + (get_bp_info bps probe).wp_cnt) k)) ∧
    ((cpu_bp_plant deref bps bp probe).1 = 0 → ∀ j,
      (cpu_bp_plant deref bps bp probe).2.2.hw_bps[j]? =
        if ((deref bp).access_instruction = true ∧
              lowest_empty bps.hw_bps 0 (get_bp_info bps probe).bp_cnt j) ∨
            (((deref bp).access_data_read = true ∨ (deref bp).access_data_write = true) ∧
              lowest_empty bps.hw_bps (get_bp_info bps probe).bp_cnt
                ((get_bp_info bps probe).bp_cnt + (get_bp_info bps probe).wp_cnt) j)
        then some (some bp) else bps.hw_bps[j]?) := by
  obtain ⟨hb, hbc, hwc, _, _⟩ := get_bp_info_fields bps probe hwf
  have hL : (get_bp_info bps probe).bp_cnt + (get_bp_info bps probe).wp_cnt ≤
      (get_bp_info bps probe).hw_bps.length := by
    rw [hb, hlen]; unfold MAX_HW_BPS; omega
  rw [← hb]
  unfold cpu_bp_plant
  simp only []
  generalize get_bp_info bps probe = b at hL ⊢
  clear hb hbc hwc hwf hlen
  -- a slot of the instruction range is not a slot of the watchpoint range
  have hdisj : ∀ i j, lowest_empty b.hw_bps 0 b.bp_cnt i →
      lowest_empty b.hw_bps b.bp_cnt (b.bp_cnt + b.wp_cnt) j → i ≠ j := by
    intro i j h1 h2 e
    have := h1.2.1
    have := h2.1
    omega
  by_cases hv : (deref bp).access_virtual = true
  swap
  · rw [if_neg hv]
    exact ⟨⟨fun h => (by cases h), fun h => absurd h.1 hv⟩, fun h => (by cases h)⟩
  rw [if_pos hv]
  by_cases hi : (deref bp).access_instruction = true
  · rw [if_pos hi]
    obtain ⟨p1, p2⟩ := plant_hbp_slot_spec b bp (by omega)
    cases hp : plant_hbp_slot b bp with
    | none =>
      simp only
      exact ⟨⟨fun h => (by cases h), fun h => absurd (h.2.1 hi) (p1.mp hp)⟩, fun h => (by cases h)⟩
    | some b1 =>
      simp only
      obtain ⟨e1, e2, e3, i, hle, hset⟩ := p2 b1 hp
      have hilt : i < b.hw_bps.length := by have := hle.2.1; omega
      have hcong : ∀ k, lowest_empty b1.hw_bps b1.bp_cnt (b1.bp_cnt + b1.wp_cnt) k ↔
          lowest_empty b.hw_bps b.bp_cnt (b.bp_cnt + b.wp_cnt) k := by
        intro k
        rw [e1, e2]
        apply lowest_empty_congr
        intro j h1 h2
        rw [hset, List.getElem?_set_ne]
        have := hle.2.1
        omega
      by_cases hd : (deref bp).access_data_read = true ∨ (deref bp).access_data_write = true
      · rw [if_pos hd]
        obtain ⟨q1, q2⟩ := plant_hwp_slot_spec deref b1 bp (by rw [e1, e2, hset]; simpa using hL)
        cases hq : plant_hwp_slot deref b1 bp with
        | none =>
          simp only
          refine ⟨⟨fun h => (by cases h), fun h => ?_⟩, fun h => (by cases h)⟩
          obtain ⟨hl, k, hk⟩ := h.2.2 hd
          exact absurd ⟨by rw [e3]; exact hl, k, (hcong k).mpr hk⟩ (q1.mp hq)
        | some b2 =>
          simp only
          obtain ⟨hl, k, hk, hset2⟩ := q2 b2 hq
          have hk' := (hcong k).mp hk
          have hklt : k < b.hw_bps.length := by have := hk'.2.1; omega
          refine ⟨⟨fun _ => ⟨hv, fun _ => ⟨i, hle⟩, fun _ => ⟨by rw [← e3]; exact hl, k, hk'⟩⟩,
            fun _ => trivial⟩, fun _ j => ?_⟩
          rw [hset2, hset]
          by_cases hjk : j = k
          · subst hjk
            rw [List.getElem?_set_self (by simpa using hklt), if_pos (Or.inr ⟨hd, hk'⟩)]
          · rw [List.getElem?_set_ne (fun e => hjk e.symm)]
            by_cases hji : j = i
            · subst hji
              rw [List.getElem?_set_self hilt, if_pos (Or.inl ⟨hi, hle⟩)]
            · rw [List.getElem?_set_ne (fun e => hji e.symm), if_neg]
              rintro (⟨_, h⟩ | ⟨_, h⟩)
              · exact hji (lowest_empty_unique _ _ _ _ _ h hle)
              · exact hjk (lowest_empty_unique _ _ _ _ _ h hk')
      · rw [if_neg hd]
        refine ⟨⟨fun _ => ⟨hv, fun _ => ⟨i, hle⟩, fun h => absurd h hd⟩, fun _ => rfl⟩,
          fun _ j => ?_⟩
        rw [hset]
        by_cases hji : j = i
        · subst hji
          rw [List.getElem?_set_self hilt, if_pos (Or.inl ⟨hi, hle⟩)]
        · rw [List.getElem?_set_ne (fun e => hji e.symm), if_neg]
          rintro (⟨_, h⟩ | ⟨h, _⟩)
          · exact hji (lowest_empty_unique _ _ _ _ _ h hle)
          · exact hd h
  · rw [if_neg hi]
    simp only
    by_cases hd : (deref bp).access_data_read = true ∨ (deref bp).access_data_write = true
    · rw [if_pos hd]
      obtain ⟨q1, q2⟩ := plant_hwp_slot_spec deref b bp hL
      cases hq : plant_hwp_slot deref b bp with
      | none =>
        simp only
        exact ⟨⟨fun h => (by cases h), fun h => absurd (h.2.2 hd) (q1.mp hq)⟩, fun h => (by cases h)⟩
      | some b2 =>
        simp only
        obtain ⟨hl, k, hk, hset2⟩ := q2 b2 hq
        have hklt : k < b.hw_bps.length := by have := hk.2.1; omega
        refine ⟨⟨fun _ => ⟨hv, fun h => absurd h hi, fun _ => ⟨hl, k, hk⟩⟩, fun _ => trivial⟩,
          fun _ j => ?_⟩
        rw [hset2]
        by_cases hjk : j = k
        · subst hjk
          rw [List.getElem?_set_self hklt, if_pos (Or.inr ⟨hd, hk⟩)]
        · rw [List.getElem?_set_ne (fun e => hjk e.symm), if_neg]
          rintro (⟨h, _⟩ | ⟨_, h⟩)
          · exact hi h
          · exact hjk (lowest_empty_unique _ _ _ _ _ h hk)
    · rw [if_neg hd]
      refine ⟨⟨fun _ => ⟨hv, fun h => absurd h hi, fun h => absurd h hd⟩, fun _ => rfl⟩,
        fun _ j => ?_⟩
      rw [if_neg]
      rintro (⟨h, _⟩ | ⟨h, _⟩)
      · exact hi h
      · exact hd h

/-! ## Lemmas on `set_debug_regs` -/

theorem testBit_or_shift_self (a i : Nat) : (a ||| (1 <<< i)).testBit i = true := by
  rw [Nat.testBit_or, Nat.testBit_shiftLeft]
  simp

theorem testBit_or_mono (a b j : Nat) (h : a.testBit j = true) : (a ||| b).testBit j = true := by
  rw [Nat.testBit_or, h]
  rfl

theorem testBit_or_seven (a : Nat) : (a ||| 0x7).testBit 0 = true := by
  rw [Nat.testBit_or]
  simp

theorem ne_zero_of_testBit (v j : Nat) (h : v.testBit j = true) : v ≠ 0 := by
  intro e
  rw [e, Nat.zero_testBit] at h
  cases h

/-- The control register that `set_debug_regs` writes for slot `i` is never
zero, and has its enable bit set only if `cr` has. -/
theorem write_control_spec (bps : ContextExtensionARM_HW) (ptrace_err : Int → Nat) (i cr : Nat)
    (st : DebugRegsState) :
    ∃ v, write_control bps ptrace_err i cr st =
        (ptrace_err (control_reg bps i),
          { st with writes := st.writes ++
              [{ slot := i, control := true, num := control_reg bps i, value := v }] }) ∧
      v ≠ 0 ∧ (v.testBit 0 = true → cr.testBit 0 = true) := by
  unfold write_control
  by_cases hc : cr = 0
  · simp only [if_pos hc]
    refine ⟨_, rfl, ?_, ?_⟩
    · split_ifs <;> decide
    · split_ifs <;> intro h <;> exact absurd h (by decide)
  · simp only [if_neg hc]
    exact ⟨cr, rfl, hc, fun h => h⟩

/-- What the body of the loop of `set_debug_regs` does for slot `i`. -/
theorem set_debug_regs_slot_spec (w : Nat) (deref : Nat → ContextBreakpoint)
    (bps : ContextExtensionARM_HW) (pc : Nat) (ptrace_err : Int → Nat) (i : Nat)
    (st : DebugRegsState) :
    ∃ new : List HbpWrite,
      (set_debug_regs_slot w deref bps pc ptrace_err i st).2.writes = st.writes ++ new ∧
      (∀ e ∈ new, e.slot = i ∧ (e.control = true → e.value ≠ 0 ∧
        (e.value.testBit 0 = true →
          (set_debug_regs_slot w deref bps pc ptrace_err i st).2.ext.armed.testBit i = true ∨
          (i = 0 ∧ st.ext.hw_stepping ≠ 0)))) ∧
      ((set_debug_regs_slot w deref bps pc ptrace_err i st).1 = 0 →
        ∃ e ∈ new, e.control = true ∧ e.num = control_reg bps i) ∧
      (∀ j, st.ext.armed.testBit j = true →
        (set_debug_regs_slot w deref bps pc ptrace_err i st).2.ext.armed.testBit j = true) ∧
      (set_debug_regs_slot w deref bps pc ptrace_err i st).2.ext.hw_stepping
        = st.ext.hw_stepping ∧
      ((∀ n, ptrace_err n = 0) →
        (set_debug_regs_slot w deref bps pc ptrace_err i st).1 = 0) := by
  -- the slot is left through `write_control` with `cr = 0`
  have hzero : ∀ st1 : DebugRegsState, st1.writes = st.writes → st1.ext = st.ext →
      ∃ new : List HbpWrite,
      (write_control bps ptrace_err i 0 st1).2.writes = st.writes ++ new ∧
      (∀ e ∈ new, e.slot = i ∧ (e.control = true → e.value ≠ 0 ∧
        (e.value.testBit 0 = true →
          (write_control bps ptrace_err i 0 st1).2.ext.armed.testBit i = true ∨
          (i = 0 ∧ st.ext.hw_stepping ≠ 0)))) ∧
      ((write_control bps ptrace_err i 0 st1).1 = 0 →
        ∃ e ∈ new, e.control = true ∧ e.num = control_reg bps i) ∧
      (∀ j, st.ext.armed.testBit j = true →
        (write_control bps ptrace_err i 0 st1).2.ext.armed.testBit j = true) ∧
      (write_control bps ptrace_err i 0 st1).2.ext.hw_stepping = st.ext.hw_stepping ∧
      ((∀ n, ptrace_err n = 0) → (write_control bps ptrace_err i 0 st1).1 = 0) := by
    intro st1 hw he
    obtain ⟨v, hv, hv0, hvb⟩ := write_control_spec bps ptrace_err i 0 st1
    rw [hv]
    refine ⟨[{ slot := i, control := true, num := control_reg bps i, value := v }],
      by simp only [hw], ?_, fun _ => ⟨_, List.mem_singleton.mpr rfl, rfl, rfl⟩,
      fun j hj => by simp only [he]; exact hj, by simp only [he], fun h => h _⟩
    intro e he'
    rw [List.mem_singleton] at he'
    subst he'
    exact ⟨rfl, fun _ => ⟨hv0, fun h => absurd (hvb h) (by decide)⟩⟩
  unfold set_debug_regs_slot
  by_cases hs : i = 0 ∧ st.ext.hw_stepping ≠ 0
  · rw [if_pos hs]
    simp only []
    by_cases hp : ptrace_err 1 ≠ 0
    · rw [if_pos hp]
      refine ⟨[_], rfl, ?_, fun h => absurd h hp, fun j hj => hj, rfl, fun h => absurd (h 1) hp⟩
      intro e he
      rw [List.mem_singleton] at he
      subst he
      exact ⟨rfl, fun h => by cases h⟩
    · rw [if_neg hp]
      obtain ⟨v, hv, hv0, _⟩ := write_control_spec bps ptrace_err i
        ((if st.ext.hw_stepping = 1 then 0 else 1 <<< 22) ||| (0xf <<< 5) ||| 0x7)
        { st with writes := st.writes ++
            [{ slot := i, control := false, num := 1,
               value := (if st.ext.hw_stepping = 1 then st.ext.addr % 2 ^ 32 else pc % 2 ^ 32) }] }
      rw [hv]
      refine ⟨[⟨i, false, 1,
          if st.ext.hw_stepping = 1 then st.ext.addr % 2 ^ 32 else pc % 2 ^ 32⟩,
          ⟨i, true, control_reg bps i, v⟩], by simp, ?_,
        fun _ => ⟨_, List.mem_cons_of_mem _ (List.mem_singleton.mpr rfl),
        rfl, rfl⟩, fun j hj => hj, rfl, fun h => h _⟩
      intro e he
      simp only [List.mem_cons, List.mem_singleton, List.not_mem_nil, or_false] at he
      rcases he with he | he
      · subst he
        exact ⟨rfl, fun h => by cases h⟩
      · subst he
        exact ⟨rfl, fun _ => ⟨hv0, fun _ => Or.inr hs⟩⟩
  · rw [if_neg hs]
    cases hcb : bps.hw_bps.getD i none with
    | none => exact hzero st rfl rfl
    | some p =>
      simp only []
      by_cases h1 : i < bps.bp_cnt ∧ (deref p).address = pc
      · rw [if_pos h1]
        exact hzero _ rfl rfl
      rw [if_neg h1]
      by_cases h2 : bps.arch ≥ ARM_DEBUG_ARCH_V7_ECP14 ∧ st.ext.skip_wp_set.testBit i = true
      · rw [if_pos h2]
        exact hzero _ rfl rfl
      rw [if_neg h2]
      by_cases hp : ptrace_err (value_reg bps i) ≠ 0
      · rw [if_pos hp]
        refine ⟨[_], rfl, ?_, fun h => absurd h hp, fun j hj => hj, rfl,
          fun h => absurd (h _) hp⟩
        intro e he
        rw [List.mem_singleton] at he
        subst he
        exact ⟨rfl, fun h => by cases h⟩
      · rw [if_neg hp]
        generalize ((if i < bps.bp_cnt then 0xf <<< 5
          else byte_select w (((deref p).address - (deref p).address % 4) % 2 ^ 32) (deref p) |||
            (if (deref p).access_data_read = true then 1 <<< 3 else 0) |||
            (if (deref p).access_data_write = true then 1 <<< 4 else 0)) ||| 0x7) = cr
        obtain ⟨v, hv, hv0, _⟩ := write_control_spec bps ptrace_err i cr
          { ext := { st.ext with armed := st.ext.armed ||| (1 <<< i) },
            step_over_hw_bp := st.step_over_hw_bp,
            writes := st.writes ++
              [{ slot := i, control := false, num := value_reg bps i,
                 value := ((deref p).address - (deref p).address % 4) % 2 ^ 32 }] }
        rw [hv]
        refine ⟨[⟨i, false, value_reg bps i,
            ((deref p).address - (deref p).address % 4) % 2 ^ 32⟩,
            ⟨i, true, control_reg bps i, v⟩], by simp, ?_,
          fun _ => ⟨_, List.mem_cons_of_mem _
          (List.mem_singleton.mpr rfl), rfl, rfl⟩, fun j hj => testBit_or_mono _ _ _ hj, rfl,
          fun h => h _⟩
        intro e he
        simp only [List.mem_cons, List.mem_singleton, List.not_mem_nil, or_false] at he
        rcases he with he | he
        · subst he
          exact ⟨rfl, fun h => by cases h⟩
        · subst he
          exact ⟨rfl, fun _ => ⟨hv0, fun _ => Or.inl (testBit_or_shift_self _ _)⟩⟩


/-- What the loop of `set_debug_regs` over the slots of `l` does. -/
theorem set_debug_regs_loop_spec (w : Nat) (deref : Nat → ContextBreakpoint)
    (bps : ContextExtensionARM_HW) (pc : Nat) (ptrace_err : Int → Nat) (l : List Nat) :
    ∀ st : DebugRegsState,
      (∀ e ∈ (set_debug_regs_loop w deref bps pc ptrace_err l st).2.writes,
        e ∈ st.writes ∨ (e.slot ∈ l ∧ (e.control = true → e.value ≠ 0 ∧
          (e.value.testBit 0 = true →
            (set_debug_regs_loop w deref bps pc ptrace_err l st).2.ext.armed.testBit e.slot
              = true ∨ (e.slot = 0 ∧ st.ext.hw_stepping ≠ 0))))) ∧
      ((set_debug_regs_loop w deref bps pc ptrace_err l st).1 = 0 → ∀ i ∈ l,
        ∃ e ∈ (set_debug_regs_loop w deref bps pc ptrace_err l st).2.writes,
          e.control = true ∧ e.slot = i ∧ e.num = control_reg bps i) ∧
      (∀ j, st.ext.armed.testBit j = true →
        (set_debug_regs_loop w deref bps pc ptrace_err l st).2.ext.armed.testBit j = true) ∧
      (set_debug_regs_loop w deref bps pc ptrace_err l st).2.ext.hw_stepping
        = st.ext.hw_stepping ∧
      (∀ e ∈ st.writes, e ∈ (set_debug_regs_loop w deref bps pc ptrace_err l st).2.writes) ∧
      ((∀ n, ptrace_err n = 0) →
        (set_debug_regs_loop w deref bps pc ptrace_err l st).1 = 0) := by
  induction l with
  | nil =>
    intro st
    exact ⟨fun e he => Or.inl he, fun _ i hi => (by cases hi), fun j hj => hj, rfl,
      fun e he => he, fun _ => rfl⟩
  | cons i l ih =>
    intro st
    obtain ⟨new, s1, s2, s3, s4, s5, s6⟩ :=
      set_debug_regs_slot_spec w deref bps pc ptrace_err i st
    rw [set_debug_regs_loop]
    by_cases hr : (set_debug_regs_slot w deref bps pc ptrace_err i st).1 ≠ 0
    · rw [if_pos hr]
      refine ⟨?_, fun h => absurd h hr, s4, s5, ?_, fun h => absurd (s6 h) hr⟩
      · intro e he
        rw [s1, List.mem_append] at he
        rcases he with he | he
        · exact Or.inl he
        · obtain ⟨a1, a2⟩ := s2 e he
          exact Or.inr ⟨by rw [a1]; exact List.mem_cons_self _ _, fun hc => by
            obtain ⟨b1, b2⟩ := a2 hc
            exact ⟨b1, fun hb => by rw [a1]; exact b2 hb⟩⟩
      · intro e he
        rw [s1]
        exact List.mem_append_left _ he
    · rw [if_neg hr]
      have hr0 : (set_debug_regs_slot w deref bps pc ptrace_err i st).1 = 0 := by
        by_contra h; exact hr h
      obtain ⟨t1, t2, t3, t4, t5, t6⟩ := ih (set_debug_regs_slot w deref bps pc ptrace_err i st).2
      refine ⟨?_, ?_, fun j hj => t3 j (s4 j hj), by rw [t4, s5], ?_, t6⟩
      · intro e he
        rcases t1 e he with h | ⟨h1, h2⟩
        · rw [s1, List.mem_append] at h
          rcases h with h | h
          · exact Or.inl h
          · obtain ⟨a1, a2⟩ := s2 e h
            refine Or.inr ⟨by rw [a1]; exact List.mem_cons_self _ _, fun hc => ?_⟩
            obtain ⟨b1, b2⟩ := a2 hc
            refine ⟨b1, fun hb => ?_⟩
            rcases b2 hb with b | b
            · exact Or.inl (by rw [a1]; exact t3 i b)
            · exact Or.inr (by rw [a1]; exact b)
        · refine Or.inr ⟨List.mem_cons_of_mem _ h1, fun hc => ?_⟩
          obtain ⟨b1, b2⟩ := h2 hc
          refine ⟨b1, fun hb => ?_⟩
          rcases b2 hb with b | b
          · exact Or.inl b
          · exact Or.inr ⟨b.1, by rw [← s5]; exact b.2⟩
      · intro h k hk
        rcases List.mem_cons.mp hk with hk | hk
        · subst hk
          obtain ⟨e, he, e1, e2⟩ := s3 hr0
          exact ⟨e, t5 e (by rw [s1]; exact List.mem_append_right _ he), e1, (s2 e he).1, e2⟩
        · exact t2 h k hk
      · intro e he
        exact t5 e (by rw [s1]; exact List.mem_append_left _ he)

/-! ## Lemmas on `cpu_bp_on_suspend` -/

theorem getD_some_iff (l : List (Option Nat)) (i q : Nat) :
    l.getD i none = some q ↔ l[i]? = some (some q) := by
  rw [List.getD_eq_getElem?_getD]
  cases h : l[i]? with
  | none => simp
  | some x => simp

/-- The breakpoints that the loop of `cpu_bp_on_suspend` over the breakpoint
slots of `l` appends. -/
theorem suspend_bp_loop_mem (deref : Nat → ContextBreakpoint)
    (bps ext : ContextExtensionARM_HW) (pc : Nat) (l : List Nat) :
    ∀ (cbs : List Nat) (q : Nat),
      q ∈ l.foldl (suspend_bp_slot deref bps ext pc) cbs ↔
        q ∈ cbs ∨ ∃ i ∈ l, bps.hw_bps[i]? = some (some q) ∧ (deref q).address = pc ∧
          ext.armed.testBit i = true := by
  induction l with
  | nil => intro cbs q; simp
  | cons i l ih =>
    intro cbs q
    rw [List.foldl_cons, ih]
    unfold suspend_bp_slot
    cases hg : bps.hw_bps.getD i none with
    | none =>
      simp only []
      constructor
      · rintro (h | ⟨k, hk, h⟩)
        · exact Or.inl h
        · exact Or.inr ⟨k, List.mem_cons_of_mem _ hk, h⟩
      · rintro (h | ⟨k, hk, h⟩)
        · exact Or.inl h
        · rcases List.mem_cons.mp hk with e | e
          · subst e
            rw [← getD_some_iff, hg] at h
            cases h.1
          · exact Or.inr ⟨k, e, h⟩
    | some p =>
      simp only []
      have hp := (getD_some_iff bps.hw_bps i p).mp hg
      by_cases hc : (deref p).address = pc ∧ ext.armed.testBit i = true
      · rw [if_pos hc]
        constructor
        · rintro (h | ⟨k, hk, h⟩)
          · rcases List.mem_append.mp h with h | h
            · exact Or.inl h
            · rw [List.mem_singleton] at h
              subst h
              exact Or.inr ⟨i, List.mem_cons_self _ _, hp, hc⟩
          · exact Or.inr ⟨k, List.mem_cons_of_mem _ hk, h⟩
        · rintro (h | ⟨k, hk, h⟩)
          · exact Or.inl (List.mem_append_left _ h)
          · rcases List.mem_cons.mp hk with e | e
            · subst e
              rw [hp] at h
              have : p = q := by simpa using h.1
              subst this
              exact Or.inl (List.mem_append_right _ (List.mem_singleton.mpr rfl))
            · exact Or.inr ⟨k, e, h⟩
      · rw [if_neg hc]
        constructor
        · rintro (h | ⟨k, hk, h⟩)
          · exact Or.inl h
          · exact Or.inr ⟨k, List.mem_cons_of_mem _ hk, h⟩
        · rintro (h | ⟨k, hk, h⟩)
          · exact Or.inl h
          · rcases List.mem_cons.mp hk with e | e
            · subst e
              rw [hp] at h
              have : p = q := by simpa using h.1
              subst this
              exact absurd h.2 hc
            · exact Or.inr ⟨k, e, h⟩

theorem suspend_wp_slot_armed (w : Nat) (deref : Nat → ContextBreakpoint)
    (bps : ContextExtensionARM_HW) (pc addr : Nat) (st : List Nat × ContextExtensionARM_HW)
    (i : Nat) :
    (suspend_wp_slot w deref bps pc addr st i).2.armed = st.2.armed ∧
    (∀ j, st.2.skip_wp_set.testBit j = true →
      (suspend_wp_slot w deref bps pc addr st i).2.skip_wp_set.testBit j = true) := by
  unfold suspend_wp_slot
  cases bps.hw_bps.getD i none with
  | none => exact ⟨rfl, fun j h => h⟩
  | some p =>
    simp only []
    split_ifs
    · exact ⟨rfl, fun j h => h⟩
    · exact ⟨rfl, fun j h => testBit_or_mono _ _ _ h⟩
    · exact ⟨rfl, fun j h => h⟩

/-- The watchpoints that the loop of `cpu_bp_on_suspend` over the watchpoint
slots of `l` appends, and the bits it sets in `skip_wp_set`. -/
theorem suspend_wp_loop_mem (w : Nat) (deref : Nat → ContextBreakpoint)
    (bps : ContextExtensionARM_HW) (pc addr : Nat) (l : List Nat) :
    ∀ (st : List Nat × ContextExtensionARM_HW),
      (l.foldl (suspend_wp_slot w deref bps pc addr) st).2.armed = st.2.armed ∧
      (∀ j, st.2.skip_wp_set.testBit j = true →
        (l.foldl (suspend_wp_slot w deref bps pc addr) st).2.skip_wp_set.testBit j = true) ∧
      (∀ q, q ∈ (l.foldl (suspend_wp_slot w deref bps pc addr) st).1 ↔
        q ∈ st.1 ∨ ∃ i ∈ l, bps.hw_bps[i]? = some (some q) ∧ st.2.armed.testBit i = true ∧
          (bps.wp_cnt > 1 → (deref q).address ≤ addr ∧
            addr < address_add w (deref q).address (deref q).length)) ∧
      (∀ i ∈ l, ∀ q, bps.hw_bps[i]? = some (some q) → st.2.armed.testBit i = true →
        (bps.wp_cnt > 1 → (deref q).address ≤ addr ∧
          addr < address_add w (deref q).address (deref q).length) →
        (l.foldl (suspend_wp_slot w deref bps pc addr) st).2.skip_wp_set.testBit i = true) := by
  induction l with
  | nil =>
    intro st
    exact ⟨rfl, fun j h => h, fun q => by simp, fun i hi => by cases hi⟩
  | cons i l ih =>
    intro st
    rw [List.foldl_cons]
    obtain ⟨a1, a2, a3, a4⟩ := ih (suspend_wp_slot w deref bps pc addr st i)
    obtain ⟨b1, b2⟩ := suspend_wp_slot_armed w deref bps pc addr st i
    rw [b1] at a1 a3 a4
    -- the slot `i` itself
    have hslot : (∀ q, q ∈ (suspend_wp_slot w deref bps pc addr st i).1 ↔
        q ∈ st.1 ∨ (bps.hw_bps[i]? = some (some q) ∧ st.2.armed.testBit i = true ∧
          (bps.wp_cnt > 1 → (deref q).address ≤ addr ∧
            addr < address_add w (deref q).address (deref q).length))) ∧
        (∀ q, bps.hw_bps[i]? = some (some q) → st.2.armed.testBit i = true →
          (bps.wp_cnt > 1 → (deref q).address ≤ addr ∧
            addr < address_add w (deref q).address (deref q).length) →
          (suspend_wp_slot w deref bps pc addr st i).2.skip_wp_set.testBit i = true) := by
      unfold suspend_wp_slot
      cases hg : bps.hw_bps.getD i none with
      | none =>
        simp only []
        have hn : ∀ q, ¬ bps.hw_bps[i]? = some (some q) := by
          intro q h
          rw [← getD_some_iff, hg] at h
          cases h
        exact ⟨fun q => ⟨fun h => Or.inl h, fun h => h.elim id (fun h => absurd h.1 (hn q))⟩,
          fun q h => absurd h (hn q)⟩
      | some p =>
        simp only []
        have hp := (getD_some_iff bps.hw_bps i p).mp hg
        have hq : ∀ q, bps.hw_bps[i]? = some (some q) → p = q := by
          intro q h
          rw [hp] at h
          simpa using h
        by_cases harm : st.2.armed.testBit i = true
        · rw [if_pos harm]
          by_cases hout : bps.wp_cnt > 1 ∧ (addr < (deref p).address ∨
              addr ≥ address_add w (deref p).address (deref p).length)
          · rw [if_pos hout]
            refine ⟨fun q => ⟨fun h => Or.inl h, fun h => h.elim id (fun h => ?_)⟩,
              fun q h _ hr => ?_⟩
            · have := hq q h.1
              subst this
              have := h.2.2 hout.1
              omega
            · have := hq q h
              subst this
              have := hr hout.1
              omega
          · rw [if_neg hout]
            refine ⟨fun q => ⟨fun h => ?_, fun h => ?_⟩, fun q _ _ _ => testBit_or_shift_self _ _⟩
            · rcases List.mem_append.mp h with h | h
              · exact Or.inl h
              · rw [List.mem_singleton] at h
                subst h
                refine Or.inr ⟨hp, harm, fun hw => ?_⟩
                by_contra hc
                exact hout ⟨hw, by omega⟩
            · rcases h with h | h
              · exact List.mem_append_left _ h
              · have := hq q h.1
                subst this
                exact List.mem_append_right _ (List.mem_singleton.mpr rfl)
        · rw [if_neg harm]
          exact ⟨fun q => ⟨fun h => Or.inl h, fun h => h.elim id (fun h => absurd h.2.1 harm)⟩,
            fun q _ h => absurd h harm⟩
    refine ⟨a1, fun j h => a2 j (b2 j h), fun q => ?_, fun k hk q h1 h2 h3 => ?_⟩
    · rw [a3, hslot.1 q]
      constructor
      · rintro ((h | h) | ⟨k, hk, h⟩)
        · exact Or.inl h
        · exact Or.inr ⟨i, List.mem_cons_self _ _, h⟩
        · exact Or.inr ⟨k, List.mem_cons_of_mem _ hk, h⟩
      · rintro (h | ⟨k, hk, h⟩)
        · exact Or.inl (Or.inl h)
        · rcases List.mem_cons.mp hk with e | e
          · subst e
            exact Or.inl (Or.inr h)
          · exact Or.inr ⟨k, e, h⟩
    · rcases List.mem_cons.mp hk with e | e
      · subst e
        exact a2 k (hslot.2 q h1 h2 h3)
      · exact a4 k e q h1 h2 h3

/-! ## Lemmas on the ignore count -/

theorem find_index_set {α : Type} (p : α → Bool) (l : List α) (k : Nat) (a : α)
    (h : find_index p l = some k) (ha : p a = true) : find_index p (l.set k a) = some k := by
  obtain ⟨b, hb, _⟩ := find_index_some p l k h
  have hlt := getElem?_lt _ _ _ hb
  apply find_index_of_unique p (l.set k a) k a
  · exact List.getElem?_set_self hlt
  · exact ha
  · intro m c hm hc
    rw [List.getElem?_set_ne (by omega)] at hc
    exact find_index_first p l k h m c hm hc

/-- The loop of `evaluate_breakpoint_condition` over a ref list that holds one
breakpoint, which passes the filters and has no condition. -/
theorem evaluate_refs_sole (sv : Services) (ctx : Context) (s : Agent) (id : String) (j : Nat)
    (bp : BreakpointInfo) (hj : find_breakpoint s id = some j)
    (hbp : s.breakpoints[j]? = some bp) (hd : bp.deleted = false) (hu : bp.unsupported = [])
    (he : bp.enabled = true) (hc : bp.condition = none) :
    evaluate_refs sv ctx [id] s =
      ((if (ignore_count_step bp).2 = true then 1 else 0),
        { s with breakpoints := s.breakpoints.set j (ignore_count_step bp).1 }) := by
  rw [evaluate_refs]
  simp only [hj, hbp]
  rw [if_neg (by simp [hd]), if_neg (by simp [hu]), if_neg (by simp [he])]
  simp only [hc]
  by_cases hs : (ignore_count_step bp).2 = true
  · rw [if_pos hs, if_pos hs]
  · rw [if_neg hs, if_neg hs]
    rfl

theorem ignore_count_step_counting (bp : BreakpointInfo) (n h : Int)
    (hi : bp.ignore_count = n) (hh : bp.hit_count = h) (h0 : 0 < n) :
    (ignore_count_step bp).2 = decide (¬ h + 1 < n) ∧
    (ignore_count_step bp).1 = { bp with hit_count := if h + 1 < n then h + 1 else 0 } := by
  unfold ignore_count_step
  rw [hi, hh, if_pos h0]
  split_ifs with h1
  · exact ⟨by simp [h1], rfl⟩
  · exact ⟨by simp [h1], rfl⟩

/-- One call of `evaluate_breakpoint_condition` at a break instruction whose
only breakpoint counts hits. -/
theorem sole_breakpoint_step (sv : Services) (s : Agent) (ctx : Context) (id : String)
    (n h : Int) (hn : 0 < n) (hctx : (s.ctx ctx.id).mem = ctx.mem)
    (H : sole_breakpoint s ctx id n h) :
    (evaluate_breakpoint_condition sv s ctx).1 = (if h + 1 < n then 0 else 1) ∧
    sole_breakpoint (evaluate_breakpoint_condition sv s ctx).2 ctx id n
      (if h + 1 < n then h + 1 else 0) ∧
    ((evaluate_breakpoint_condition sv s ctx).2.ctx ctx.id).mem = ctx.mem := by
  obtain ⟨k, bi, j, bp, hk, hbi, hrefs, hj, hbp, hd, hu, he, hc, hi, hh⟩ := H
  have hklt := getElem?_lt _ _ _ hbi
  have hjlt := getElem?_lt _ _ _ hbp
  obtain ⟨bi0, hbi0, hp0⟩ := find_index_some _ _ _ hk
  have hbib : bi0 = bi := by rw [hbi] at hbi0; cases hbi0; rfl
  subst hbib
  have hst := ignore_count_step_counting bp n h hi hh hn
  -- the state that `find_instruction` leaves
  have hfind : ∃ bi1 : BreakInstruction, bi1.refs = [id] ∧
      ((s.ctx bi1.ctx).mem == ctx.mem && bi1.address == ctx.pc) = true ∧
      find_instruction s ctx ctx.pc =
        (some k, { s with instructions := s.instructions.set k bi1 }) := by
    unfold find_instruction
    simp only [hk, hbi]
    by_cases hown : (s.ctx bi0.ctx).exited = true ∨ is_running (s.ctx bi0.ctx) = true
    · rw [if_pos hown]
      refine ⟨{ bi0 with ctx := ctx.id }, hrefs, ?_, rfl⟩
      simp only [Bool.and_eq_true, beq_iff_eq] at hp0 ⊢
      exact ⟨hctx, hp0.2⟩
    · rw [if_neg hown]
      refine ⟨bi0, hrefs, hp0, ?_⟩
      rw [set_same _ _ _ hbi]
  obtain ⟨bi1, hr1, hp1, hf⟩ := hfind
  have hev : evaluate_breakpoint_condition sv s ctx =
      ((if (ignore_count_step bp).2 = true then 1 else 0),
        { s with instructions := s.instructions.set k bi1,
                 breakpoints := s.breakpoints.set j (ignore_count_step bp).1 }) := by
    unfold evaluate_breakpoint_condition
    rw [hf]
    simp only [List.getElem?_set_self hklt, Option.getD_some, hr1]
    exact evaluate_refs_sole sv ctx _ id j bp hj hbp hd hu he hc
  rw [hev, hst.1, hst.2]
  refine ⟨?_, ?_, hctx⟩
  · by_cases hlt : h + 1 < n
    · simp [hlt]
    · simp [hlt]
  · refine ⟨k, bi1, j, { bp with hit_count := if h + 1 < n then h + 1 else 0 },
      find_index_set _ _ k bi1 hk hp1, List.getElem?_set_self hklt, hr1, ?_,
      List.getElem?_set_self hjlt, hd, hu, he, hc, hi, rfl⟩
    obtain ⟨bp0, hbp0, hid⟩ := find_breakpoint_some s id j hj
    have : bp0 = bp := by rw [hbp] at hbp0; cases hbp0; rfl
    subst this
    exact find_index_set (fun b : BreakpointInfo => b.id == id) s.breakpoints j _ hj
      (by simpa using hid)

/-! ## Lemmas on conditions that fail to evaluate -/

theorem ignore_count_step_fields (bp : BreakpointInfo) :
    (ignore_count_step bp).1.condition = bp.condition ∧
    (ignore_count_step bp).1.ignore_count = bp.ignore_count := by
  unfold ignore_count_step
  split_ifs <;> exact ⟨rfl, rfl⟩

theorem ignore_count_step_zero (bp : BreakpointInfo) (h : bp.ignore_count ≤ 0) :
    ignore_count_step bp = (bp, true) := by
  unfold ignore_count_step
  rw [if_neg (by omega)]

/-- The loop of `evaluate_breakpoint_condition` gives the same result for two
evaluators, one for which the condition `cond` raises an error and one for
which it is true, when no breakpoint with that condition counts hits. -/
theorem evaluate_refs_error_as_true (sv1 sv2 : Services) (ctx : Context) (cond : String)
    (e1 : Nat × String) (v : Value)
    (hagree : ∀ e, e ≠ cond → sv1.evaluate_expression (some ctx) .STACK_TOP_FRAME e =
      sv2.evaluate_expression (some ctx) .STACK_TOP_FRAME e)
    (hvb : sv1.value_to_boolean = sv2.value_to_boolean)
    (h1 : sv1.evaluate_expression (some ctx) .STACK_TOP_FRAME cond = .error e1)
    (h2 : sv2.evaluate_expression (some ctx) .STACK_TOP_FRAME cond = .ok v)
    (hv : sv2.value_to_boolean v = true) (l : List String) :
    ∀ s : Agent, (∀ bp ∈ s.breakpoints, bp.condition = some cond → bp.ignore_count ≤ 0) →
      evaluate_refs sv1 ctx l s = evaluate_refs sv2 ctx l s := by
  induction l with
  | nil => intro s _; rfl
  | cons id l ih =>
    intro s hs
    rw [evaluate_refs, evaluate_refs]
    cases hf : find_breakpoint s id with
    | none => exact ih s hs
    | some n =>
      simp only
      cases hb : s.breakpoints[n]? with
      | none => exact ih s hs
      | some bp =>
        simp only
        have hmem : bp ∈ s.breakpoints := List.mem_iff_getElem?.mpr ⟨n, hb⟩
        have hset : ∀ bp1 ∈ s.breakpoints.set n (ignore_count_step bp).1,
            bp1.condition = some cond → bp1.ignore_count ≤ 0 := by
          intro bp1 hbp1 hc
          rcases mem_set_cases _ _ _ _ hbp1 with h | h
          · subst h
            rw [(ignore_count_step_fields bp).1] at hc
            rw [(ignore_count_step_fields bp).2]
            exact hs bp hmem hc
          · exact hs bp1 h hc
        by_cases hd : bp.deleted = true
        · rw [if_pos hd, if_pos hd]; exact ih s hs
        rw [if_neg hd, if_neg hd]
        by_cases hu : bp.unsupported ≠ []
        · rw [if_pos hu, if_pos hu]; exact ih s hs
        rw [if_neg hu, if_neg hu]
        by_cases he : bp.enabled = false
        · rw [if_pos he, if_pos he]; exact ih s hs
        rw [if_neg he, if_neg he]
        cases hc : bp.condition with
        | none =>
          simp only
          split_ifs
          · rfl
          · exact ih _ hset
        | some c =>
          simp only
          by_cases hcc : c = cond
          · subst hcc
            rw [h1, h2]
            simp only [hv]
            rw [ignore_count_step_zero bp (hs bp hmem hc)]
            simp only [if_true]
            rw [set_same _ _ _ hb]
          · rw [hagree c hcc, hvb]
            cases sv2.evaluate_expression (some ctx) .STACK_TOP_FRAME c with
            | error _ => rfl
            | ok w =>
              simp only
              cases sv2.value_to_boolean w with
              | false => exact ih s hs
              | true =>
                simp only
                split_ifs
                · rfl
                · exact ih _ hset

/-- When no breakpoint with the condition `cond` has a positive
`ignore_count`, `evaluate_breakpoint_condition` returns the same result and
leaves the same state when `cond` raises an evaluation error as when it
evaluates to true. -/
theorem condition_error_as_true (sv1 sv2 : Services) (s : Agent) (ctx : Context)
    (cond : String) (e1 : Nat × String) (v : Value)
    (hagree : ∀ e, e ≠ cond → sv1.evaluate_expression (some ctx) .STACK_TOP_FRAME e =
      sv2.evaluate_expression (some ctx) .STACK_TOP_FRAME e)
    (hvb : sv1.value_to_boolean = sv2.value_to_boolean)
    (h1 : sv1.evaluate_expression (some ctx) .STACK_TOP_FRAME cond = .error e1)
    (h2 : sv2.evaluate_expression (some ctx) .STACK_TOP_FRAME cond = .ok v)
    (hv : sv2.value_to_boolean v = true)
    (hign : ∀ bp ∈ s.breakpoints, bp.condition = some cond → bp.ignore_count ≤ 0) :
    evaluate_breakpoint_condition sv1 s ctx = evaluate_breakpoint_condition sv2 s ctx := by
  unfold evaluate_breakpoint_condition
  cases hf : find_instruction s ctx ctx.pc with
  | mk o s1 =>
    cases o with
    | none => rfl
    | some n =>
      simp only
      have hb : s1.breakpoints = s.breakpoints := (find_instruction_some s ctx ctx.pc n s1 hf).1
      exact evaluate_refs_error_as_true sv1 sv2 ctx cond e1 v hagree hvb h1 h2 hv _ s1
        (by rw [hb]; exact hign)

theorem read_snapshot_end_of_step (c : ContextDarwin) (signal event : Nat) (sbe : Bool)
    (state : Except Nat REG_SET) :
    (read_snapshot c signal event sbe state).1.end_of_step = false := by
  unfold read_snapshot
  cases state <;> simp only <;> split_ifs <;> rfl

theorem breakpoint_stop_end_of_step (w : Nat) (s : Agent) (c : ContextDarwin) (pc1 : Nat) :
    (breakpoint_stop w s c pc1).2.end_of_step =
      (!(breakpoint_stop w s c pc1).2.stopped_by_bp && c.pending_step) ∧
    (breakpoint_stop w s c pc1).2.pending_step = c.pending_step := by
  unfold breakpoint_stop
  simp only
  split_ifs <;> exact ⟨rfl, rfl⟩

/-- The word read at `a` depends only on the four bytes at `a` and on their
readability. -/
theorem arm_read_word_congr (t t1 : ArmContext) (a : Nat)
    (h : ∀ i, i < 4 → t1.mem (a + i) = t.mem (a + i) ∧ t1.rd_err (a + i) = t.rd_err (a + i)) :
    arm_read_word t1 a = arm_read_word t a := by
  have h0 := h 0 (by decide)
  have h1 := h 1 (by decide)
  have h2 := h 2 (by decide)
  have h3 := h 3 (by decide)
  have hr : List.range 4 = [0, 1, 2, 3] := by decide
  simp only [Nat.add_zero] at h0
  unfold arm_read_word arm_read_mem
  simp only [first_error, Nat.add_assoc, Nat.reduceAdd, h0.2, h1.2, h2.2, h3.2, hr, List.map,
    Nat.add_zero, h0.1, h1.1, h2.1, h3.1]

/-- Register reads depend only on the snapshot and on the register errors. -/
theorem arm_read_reg_congr (t t1 : ArmContext) (hr : t1.regs = t.regs)
    (he : t1.reg_err = t.reg_err) (i : Nat) : arm_read_reg t1 i = arm_read_reg t i := by
  unfold arm_read_reg
  rw [hr, he]

/-- A field extracted by masking and shifting is the field extracted by
shifting and masking. -/
theorem shiftRight_and_shiftLeft (x m k : Nat) : (x &&& (m <<< k)) >>> k = (x >>> k) &&& m := by
  apply Nat.eq_of_testBit_eq
  intro i
  simp [Nat.testBit_shiftRight, Nat.testBit_and, Nat.testBit_shiftLeft]

/-- The two ways in which the source extracts the field Rd agree. -/
theorem arm_rd_field (x : Nat) : (x &&& 0x0000f000) >>> 12 = (x >>> 12) &&& 0xf :=
  shiftRight_and_shiftLeft x 0xf 12

/-- An instruction of the BX pattern has the field Rd equal to 15. -/
theorem arm_bx_rd (x : Nat) (h : x &&& 0x0ffffff0 = 0x012fff10) : (x >>> 12) &&& 0xf = 15 := by
  rw [← arm_rd_field]
  have e : x &&& 0x0000f000 = (x &&& 0x0ffffff0) &&& 0x0000f000 := by
    rw [Nat.and_assoc]
    rfl
  rw [e, h]
  rfl

/-- The cases in which the decoding leaves `arm_next` at the address of the
following instruction. -/
theorem arm_decode_no_prediction (t : ArmContext) (pc cpsr instr : Nat)
    (hpc : arm_read_reg t 15 = .ok pc) (hcpsr : arm_read_reg t 16 = .ok cpsr)
    (hfetch : arm_read_word t pc = .ok instr)
    (hcase : arm_evaluate_condition (cpsr % 2 ^ 32) instr = false ∨
      (instr >>> 25) &&& 7 = 6 ∨ (instr >>> 25) &&& 7 = 7 ∨
      (((instr >>> 25) &&& 7 = 0 ∨ (instr >>> 25) &&& 7 = 1) ∧ (instr >>> 12) &&& 0xf ≠ 15) ∨
      (((instr >>> 25) &&& 7 = 2 ∨ (instr >>> 25) &&& 7 = 3) ∧
        (instr &&& (1 <<< 20) = 0 ∨ (instr >>> 12) &&& 0xf ≠ 15)) ∨
      ((instr >>> 25) &&& 7 = 4 ∧ (instr &&& (1 <<< 20) = 0 ∨ instr &&& (1 <<< 22) ≠ 0 ∨
        (instr >>> 16) &&& 0xf = 15 ∨ instr &&& (1 <<< 15) = 0))) :
    arm_decode t = .ok (add32 pc 4) := by
  have hpclt := arm_read_reg_lt t 15 pc hpc
  unfold arm_decode
  simp only [hpc, hcpsr, hfetch, Nat.mod_eq_of_lt hpclt]
  by_cases hc : arm_evaluate_condition (cpsr % 2 ^ 32) instr = true
  · rw [if_pos hc]
    rcases hcase with h | h | h | ⟨h, hRd⟩ | ⟨h, hL⟩ | ⟨h, hL⟩
    · rw [hc] at h
      cases h
    · simp only [h]
    · simp only [h]
    · have hbx : ¬ instr &&& 0x0ffffff0 = 0x012fff10 := fun e => hRd (arm_bx_rd instr e)
      have hdp : arm_get_next_data_processing t instr (cpsr % 2 ^ 32) (add32 pc 4) =
          .ok (add32 pc 4) := by
        unfold arm_get_next_data_processing
        simp only [arm_rd_field]
        split_ifs
        · rfl
        · rfl
      rcases h with h | h
      · simp only [h, hbx, if_false, hdp]
      · simp only [h, hbx, if_false, hdp]
    · have hl : arm_get_next_ldr t instr (cpsr % 2 ^ 32) (add32 pc 4) = .ok (add32 pc 4) := by
        unfold arm_get_next_ldr
        have hor : decide (instr &&& (1 <<< 20) ≠ 0) = false ∨ (instr >>> 12) &&& 0xf ≠ 15 := by
          rcases hL with e | e
          · exact Or.inl (by rw [e]; rfl)
          · exact Or.inr e
        simp only
        rw [if_pos hor]
      rcases h with h | h
      · simp only [h, hl]
      · simp only [h, hl]
    · have hl : arm_get_next_ldm t instr (add32 pc 4) = .ok (add32 pc 4) := by
        unfold arm_get_next_ldm
        simp only
        rcases hL with e | e | e | e
        · rw [if_pos (Or.inl (by rw [e]; rfl))]
        · rw [if_pos (Or.inr (Or.inl (decide_eq_true e)))]
        · rw [if_pos (Or.inr (Or.inr e))]
        · split_ifs
          · rfl
          · rfl
      simp only [h, hl]
  · rw [if_neg hc]

/-- A value below `2^i` and a multiple of `2^i` have no bit in common. -/
theorem or_eq_add_of_dvd (x y i : Nat) (hx : x < 2 ^ i) (hy : 2 ^ i ∣ y) : x ||| y = x + y := by
  obtain ⟨a, rfl⟩ := hy
  rw [Nat.or_comm, Nat.add_comm]
  exact (Nat.mul_add_lt_is_or hx a).symm

/-- The word `0xffffffff` shifted left by `k` keeps the bits `k`..31. -/
theorem shl32_ones : ∀ k, k < 32 → shl32 0xffffffff k + 2 ^ k = 2 ^ 32 := by
  decide

theorem pow_split (n : Nat) (h : n ≤ 32) : 2 ^ 32 = 2 ^ n * 2 ^ (32 - n) := by
  rw [← Nat.pow_add]
  congr 1
  omega

theorem shr32_eq (v n : Nat) (hv : v < 2 ^ 32) (hn : n < 32) : shr32 v n = v / 2 ^ n := by
  unfold shr32
  rw [if_pos hn, Nat.mod_eq_of_lt hv, Nat.shiftRight_eq_div_pow]

theorem shr32_lt (v n : Nat) (hv : v < 2 ^ 32) (hn : n ≤ 32) : v / 2 ^ n < 2 ^ (32 - n) := by
  apply Nat.div_lt_of_lt_mul
  rw [← pow_split n hn]
  exact hv

/-- The code of `ASR #n` on a negative value, for `n` in 1..31. -/
theorem asr32_code (v n : Nat) (hv : v < 2 ^ 32) (h1 : 1 ≤ n) (hn : n < 32) :
    shr32 v n ||| shl32 0xffffffff (32 - n) = v / 2 ^ n + (2 ^ 32 - 2 ^ (32 - n)) := by
  have hs := shl32_ones (32 - n) (by omega)
  have he : shl32 0xffffffff (32 - n) = 2 ^ 32 - 2 ^ (32 - n) := by omega
  rw [he, shr32_eq v n hv hn]
  apply or_eq_add_of_dvd _ _ (32 - n) (shr32_lt v n hv (by omega))
  exact Nat.dvd_sub' (Nat.pow_dvd_pow 2 (by omega)) (dvd_refl _)

/-- The code of `ROR #n`, for `n` in 1..31. -/
theorem ror32_code (v n : Nat) (hv : v < 2 ^ 32) (h1 : 1 ≤ n) (hn : n < 32) :
    shr32 v n ||| shl32 v (32 - n) = ror32 v n := by
  have he : shl32 v (32 - n) = (v % 2 ^ n) * 2 ^ (32 - n) := by
    unfold shl32
    rw [if_pos (by omega), Nat.shiftLeft_eq]
    have e := Nat.mul_mod_mul_right (2 ^ (32 - n)) v (2 ^ n)
    rw [← pow_split n (by omega)] at e
    exact e
  unfold ror32
  rw [he, shr32_eq v n hv hn]
  exact or_eq_add_of_dvd _ _ (32 - n) (shr32_lt v n hv (by omega)) (Dvd.intro_left _ rfl)

/-- Source `arm_calc_shift` computes the ARM shifter for a register shifted by
an immediate. -/
theorem arm_calc_shift_arch (cpsr shift_type imm5 v : Nat) (hv : v < 2 ^ 32) (hi : imm5 < 32)
    (ht : shift_type < 4) :
    arm_calc_shift cpsr shift_type imm5 v =
      arm_shift_by_immediate (decide (cpsr &&& (1 <<< 29) ≠ 0)) shift_type imm5 v := by
  have h31 : ∀ x, x < 2 ^ 32 → (x &&& 0x80000000 ≠ 0 ↔ ¬ x < 2 ^ 31) := by
    intro x hx
    have e := and_two_pow_ne_zero x 31
    have e1 : (0x80000000 : Nat) = 2 ^ 31 := by decide
    rw [e1, e]
    omega
  interval_cases shift_type
  · unfold arm_calc_shift arm_shift_by_immediate shl32
    simp only
    rw [if_pos hi, Nat.shiftLeft_eq]
  · unfold arm_calc_shift arm_shift_by_immediate
    simp only
    by_cases h0 : imm5 = 0
    · rw [if_pos h0, if_pos h0]
    · rw [if_neg h0, if_neg h0, shr32_eq v imm5 hv hi]
  · unfold arm_calc_shift arm_shift_by_immediate asr32
    simp only
    by_cases h0 : imm5 = 0
    · subst h0
      simp only [if_true]
      by_cases hneg : v < 2 ^ 31
      · rw [if_neg (by rw [h31 v hv]; exact not_not.mpr hneg), if_pos hneg]
        unfold shr32
        rw [if_neg (by decide), Nat.div_eq_of_lt hv]
      · rw [if_pos ((h31 v hv).mpr hneg), if_neg (by decide), if_neg hneg,
          Nat.div_eq_of_lt hv]
        unfold shr32
        rw [if_neg (by decide)]
        rfl
    · simp only [if_neg h0]
      by_cases hneg : v < 2 ^ 31
      · rw [if_neg (by rw [h31 v hv]; exact not_not.mpr hneg), if_pos hneg,
          shr32_eq v imm5 hv hi]
        rfl
      · rw [if_pos ((h31 v hv).mpr hneg), if_neg (by omega), if_neg hneg]
        exact asr32_code v imm5 hv (by omega) hi
  · unfold arm_calc_shift arm_shift_by_immediate
    simp only
    by_cases h0 : imm5 = 0
    · subst h0
      simp only [if_true]
      by_cases hc : cpsr &&& (1 <<< 29) ≠ 0
      · rw [if_pos hc, shr32_eq v 1 hv (by decide), decide_eq_true hc, if_pos rfl]
        exact or_eq_add_of_dvd _ _ 31 (shr32_lt v 1 hv (by decide)) (dvd_refl _)
      · rw [if_neg hc, shr32_eq v 1 hv (by decide), decide_eq_false hc]
        rfl
    · simp only [if_neg h0]
      have hm : imm5 &&& 0x1f = imm5 := by
        have e1 : (0x1f : Nat) = 2 ^ 5 - 1 := by decide
        rw [e1, Nat.and_pow_two_sub_one_eq_mod]
        exact Nat.mod_eq_of_lt hi
      rw [hm]
      exact ror32_code v imm5 hv (by omega) hi
theorem shl32_lt (x k : Nat) : shl32 x k < 2 ^ 32 := by
  unfold shl32
  split_ifs
  · exact Nat.mod_lt _ (by decide)
  · decide

theorem shr32_lt_pow (x k : Nat) : shr32 x k < 2 ^ 32 := by
  unfold shr32
  split_ifs
  · rw [Nat.shiftRight_eq_div_pow]
    exact Nat.lt_of_le_of_lt (Nat.div_le_self _ _) (Nat.mod_lt _ (by decide))
  · decide

/-- The result of `arm_calc_shift` is a `uint32_t`. -/
theorem arm_calc_shift_lt (cpsr shift_type imm5 v : Nat) (hv : v < 2 ^ 32) :
    arm_calc_shift cpsr shift_type imm5 v < 2 ^ 32 := by
  unfold arm_calc_shift
  split
  · exact shl32_lt _ _
  · split_ifs
    · decide
    · exact shr32_lt_pow _ _
  · simp only
    split_ifs
    · decide
    · exact Nat.or_lt_two_pow (shr32_lt_pow _ _) (shl32_lt _ _)
    · decide
    · exact Nat.or_lt_two_pow (shr32_lt_pow _ _) (shl32_lt _ _)
    · exact shr32_lt_pow _ _
    · exact shr32_lt_pow _ _
  · split_ifs
    · exact Nat.or_lt_two_pow (shr32_lt_pow _ _) (by decide)
    · exact shr32_lt_pow _ _
    · exact Nat.or_lt_two_pow (shr32_lt_pow _ _) (shl32_lt _ _)
  · exact hv

/-- The fields of the shifted register offset of a single load/store. -/
theorem ldr_shift_fields (x : Nat) :
    (x &&& 0x00000f80) >>> 7 = (x >>> 7) &&& 0x1f ∧ (x &&& 0x00000060) >>> 5 = (x >>> 5) &&& 3 ∧
    (x >>> 7) &&& 0x1f < 32 ∧ (x >>> 5) &&& 3 < 4 ∧
    (x &&& 0x00000ff0 = 0 → (x >>> 7) &&& 0x1f = 0 ∧ (x >>> 5) &&& 3 = 0) := by
  have a := shiftRight_and_shiftLeft x 0x1f 7
  have b := shiftRight_and_shiftLeft x 3 5
  refine ⟨a, b, Nat.lt_succ_of_le Nat.and_le_right, Nat.lt_succ_of_le Nat.and_le_right,
    fun h => ?_⟩
  have e1 : x &&& 0x00000f80 = (x &&& 0x00000ff0) &&& 0x00000f80 := by
    rw [Nat.and_assoc]
    rfl
  have e2 : x &&& 0x00000060 = (x &&& 0x00000ff0) &&& 0x00000060 := by
    rw [Nat.and_assoc]
    rfl
  rw [h] at e1 e2
  constructor
  · rw [← a]
    show (x &&& 0x00000f80) >>> 7 = 0
    rw [e1]
    rfl
  · rw [← b]
    show (x &&& 0x00000060) >>> 5 = 0
    rw [e2]
    rfl

/-- Source `arm_get_next_ldr` on a load into R15: no load is predicted for the
post-indexed form with W = 1, and otherwise the byte or the word at the
architectural effective address is read. -/
theorem arm_get_next_ldr_spec (t : ArmContext) (instr cpsr next rn rm : Nat)
    (hw : t.addr_bits = 32) (hL : instr &&& (1 <<< 20) ≠ 0) (hRd : (instr >>> 12) &&& 0xf = 15)
    (hrn : arm_read_reg t ((instr >>> 16) &&& 0xf) = .ok rn)
    (hrm : instr &&& (1 <<< 25) ≠ 0 → instr &&& (1 <<< 24) ≠ 0 →
      arm_read_reg t (instr &&& 0xf) = .ok rm) :
    arm_get_next_ldr t instr cpsr next =
      (if instr &&& (1 <<< 24) = 0 ∧ instr &&& (1 <<< 21) ≠ 0 then .ok next
       else if instr &&& (1 <<< 22) ≠ 0 then
         arm_read_byte t
           (ldr_effective_address instr rn rm (decide (cpsr &&& (1 <<< 29) ≠ 0)))
       else arm_read_word t
         (ldr_effective_address instr rn rm (decide (cpsr &&& (1 <<< 29) ≠ 0)))) := by
  obtain ⟨f1, f2, f3, f4, f5⟩ := ldr_shift_fields instr
  have hrnlt := arm_read_reg_lt t _ rn hrn
  have hm : (instr &&& 0xf) % 256 = instr &&& 0xf :=
    Nat.mod_eq_of_lt (Nat.lt_of_le_of_lt Nat.and_le_right (by decide))
  have hsub : ∀ a b, b < 2 ^ 32 → address_sub 32 a b = (a + 2 ^ 32 - b) % 2 ^ 32 := by
    intro a b hb
    unfold address_sub
    rw [Nat.mod_eq_of_lt hb]
  have himm : instr &&& 4095 < 2 ^ 32 := Nat.lt_of_le_of_lt Nat.and_le_right (by decide)
  unfold arm_get_next_ldr ldr_effective_address arm_read_byte
  simp only [Nat.reduceShiftLeft] at hL hrm ⊢
  simp only [hw, hL, hRd, hrn, hm, ne_eq, not_false_eq_true, decide_True, not_true_eq_false,
    Bool.true_eq_false, or_self, if_false, decide_eq_true_eq, decide_eq_false_iff_not, not_not,
    f1, f2]
  by_cases hP : instr &&& 16777216 = 0
  · by_cases hW : instr &&& 2097152 = 0
    · by_cases hB : instr &&& 4194304 = 0
      · simp [hP, hW, hB, address_add]
      · simp only [hP, hW, hB, address_add, not_true_eq_false, and_false, if_false, or_self,
          not_false_eq_true, and_self, if_true]
    · simp [hP, hW]
  · by_cases hI : instr &&& 33554432 = 0
    · by_cases hB : instr &&& 4194304 = 0
      · by_cases hU : instr &&& 8388608 = 0
        · simp [hP, hI, hB, hU, address_add, hsub _ _ himm]
        · simp [hP, hI, hB, hU, address_add]
      · by_cases hU : instr &&& 8388608 = 0
        · simp only [hP, hI, hB, hU, address_add, hsub _ _ himm, not_true_eq_false, and_false,
            if_false, or_self, not_false_eq_true, and_self, if_true, false_and, true_and]
        · simp only [hP, hI, hB, hU, address_add, not_true_eq_false, and_false,
            if_false, or_self, not_false_eq_true, and_self, if_true, false_and, true_and]
    · have hr := hrm hI hP
      have hrmlt := arm_read_reg_lt t _ rm hr
      by_cases hz : instr &&& 4080 = 0
      · obtain ⟨z1, z2⟩ := f5 hz
        have hs : ∀ c, arm_shift_by_immediate c 0 0 rm = rm := by
          intro c
          unfold arm_shift_by_immediate
          simp only [Nat.pow_zero, Nat.mul_one]
          exact Nat.mod_eq_of_lt hrmlt
        by_cases hB : instr &&& 4194304 = 0
        · by_cases hU : instr &&& 8388608 = 0
          · simp [hP, hI, hB, hU, hr, hz, z1, z2, hs, address_add, hsub _ _ hrmlt]
          · simp [hP, hI, hB, hU, hr, hz, z1, z2, hs, address_add]
        · by_cases hU : instr &&& 8388608 = 0
          · simp only [hP, hI, hB, hU, hr, hz, z1, z2, hs, address_add, hsub _ _ hrmlt,
              not_true_eq_false, and_false, if_false, or_self, not_false_eq_true, and_self,
              if_true, false_and, true_and]
          · simp only [hP, hI, hB, hU, hr, hz, z1, z2, hs, address_add,
              not_true_eq_false, and_false, if_false, or_self, not_false_eq_true, and_self,
              if_true, false_and, true_and]
      · have hs := arm_calc_shift_arch cpsr (instr >>> 5 &&& 3) (instr >>> 7 &&& 31) rm hrmlt f3 f4
        have hlt := arm_calc_shift_lt cpsr (instr >>> 5 &&& 3) (instr >>> 7 &&& 31) rm hrmlt
        simp only [Nat.reduceShiftLeft, ne_eq] at hs
        rw [← hs]
        by_cases hB : instr &&& 4194304 = 0
        · by_cases hU : instr &&& 8388608 = 0
          · simp [hP, hI, hB, hU, hr, hz, address_add, hsub _ _ hlt]
          · simp [hP, hI, hB, hU, hr, hz, address_add]
        · by_cases hU : instr &&& 8388608 = 0
          · simp only [hP, hI, hB, hU, hr, hz, address_add, hsub _ _ hlt,
              not_true_eq_false, and_false, if_false, or_self, not_false_eq_true, and_self,
              if_true, false_and, true_and]
          · simp only [hP, hI, hB, hU, hr, hz, address_add,
              not_true_eq_false, and_false, if_false, or_self, not_false_eq_true, and_self,
              if_true, false_and, true_and]

/-- An error reported by a register or memory read is not 0. -/
theorem arm_read_reg_error (t : ArmContext) (i e : Nat) (h : arm_read_reg t i = .error e) :
    e ≠ 0 := by
  unfold arm_read_reg at h
  split at h
  · rename_i hne
    simp only [Except.error.injEq] at h
    rw [← h]
    exact hne
  · cases h

theorem arm_read_mem_error (t : ArmContext) (a n e : Nat) (h : arm_read_mem t a n = .error e) :
    e ≠ 0 := by
  unfold arm_read_mem at h
  split at h
  · rename_i hne
    simp only [Except.error.injEq] at h
    rw [← h]
    exact hne
  · cases h

theorem arm_read_word_error (t : ArmContext) (a e : Nat) (h : arm_read_word t a = .error e) :
    e ≠ 0 := by
  unfold arm_read_word at h
  split at h
  · rename_i e1 h1
    simp only [Except.error.injEq] at h
    rw [← h]
    exact arm_read_mem_error t a 4 e1 h1
  · cases h

theorem arm_operand2_error (t : ArmContext) (instr cpsr e : Nat)
    (h : arm_operand2 t instr cpsr = .error e) : e ≠ 0 := by
  unfold arm_operand2 at h
  simp only at h
  cases hs : arm_read_reg t ((((instr &&& 0x00000fff) &&& 0x0f00) >>> 8) % 256) with
  | error e1 =>
    have n1 := arm_read_reg_error t _ _ hs
    cases hm : arm_read_reg t (((instr &&& 0x00000fff) &&& 0x000f) % 256) with
    | error e2 =>
      have n2 := arm_read_reg_error t _ _ hm
      simp only [hs, hm] at h
      repeat' split at h
      all_goals (try cases h)
      all_goals first
        | assumption
        | (rename_i heq; split_ifs at heq; cases heq; assumption)
    | ok m =>
      simp only [hs, hm] at h
      repeat' split at h
      all_goals (try cases h)
      all_goals (rename_i heq; split_ifs at heq; cases heq; assumption)
  | ok d =>
    cases hm : arm_read_reg t (((instr &&& 0x00000fff) &&& 0x000f) % 256) with
    | error e2 =>
      have n2 := arm_read_reg_error t _ _ hm
      simp only [hs, hm] at h
      repeat' split at h
      all_goals (try cases h)
      all_goals first
        | assumption
        | (rename_i heq; split_ifs at heq)
    | ok m =>
      simp only [hs, hm] at h
      repeat' split at h
      all_goals (try cases h)
      all_goals (rename_i heq; split_ifs at heq)

theorem arm_get_next_data_processing_error (t : ArmContext) (instr cpsr next e : Nat)
    (h : arm_get_next_data_processing t instr cpsr next = .error e) : e ≠ 0 := by
  unfold arm_get_next_data_processing at h
  simp only at h
  repeat' split at h
  all_goals (try cases h)
  all_goals first
    | exact arm_read_reg_error _ _ _ (by assumption)
    | exact arm_operand2_error _ _ _ _ (by assumption)

theorem arm_get_next_ldm_error (t : ArmContext) (instr next e : Nat)
    (h : arm_get_next_ldm t instr next = .error e) : e ≠ 0 := by
  unfold arm_get_next_ldm at h
  simp only at h
  repeat' split at h
  all_goals (try cases h)
  all_goals first
    | exact arm_read_reg_error _ _ _ (by assumption)
    | exact arm_read_word_error _ _ _ (by assumption)

theorem arm_get_next_ldr_error (t : ArmContext) (instr cpsr next e : Nat)
    (h : arm_get_next_ldr t instr cpsr next = .error e) : e ≠ 0 := by
  unfold arm_get_next_ldr at h
  simp only at h
  repeat' split at h
  all_goals (try cases h)
  all_goals first
    | exact arm_read_reg_error _ _ _ (by assumption)
    | exact arm_read_word_error _ _ _ (by assumption)
    | exact arm_read_mem_error _ _ _ _ (by assumption)
    | (rename_i heq
       repeat' split at heq
       all_goals (try cases heq)
       exact arm_read_reg_error _ _ _ (by assumption))

theorem arm_decode_error (t : ArmContext) (e : Nat) (h : arm_decode t = .error e) : e ≠ 0 := by
  unfold arm_decode at h
  simp only at h
  repeat' split at h
  all_goals (try cases h)
  all_goals first
    | exact arm_read_reg_error _ _ _ (by assumption)
    | exact arm_read_word_error _ _ _ (by assumption)
    | exact arm_get_next_data_processing_error _ _ _ _ _ (by assumption)
    | exact arm_get_next_ldr_error _ _ _ _ _ (by assumption)
    | exact arm_get_next_ldm_error _ _ _ _ (by assumption)

/-- An error of `arm_get_next_address` is an `errno`, not 0. -/
theorem arm_get_next_address_error (t : ArmContext) (e : Nat)
    (h : arm_get_next_address t = .error e) : e ≠ 0 := by
  unfold arm_get_next_address at h
  repeat' split at h
  all_goals (try cases h)
  all_goals first
    | exact arm_decode_error _ _ (by assumption)
    | exact arm_read_reg_error _ _ _ h

/-- A call of `enable_sw_stepping_mode` that returns 0 has predicted an
address, saved the four bytes there and written the break instruction. -/
theorem enable_sw_stepping_mode_ok (t : ArmContext) (h : (enable_sw_stepping_mode t).1 = 0) :
    ∃ addr, arm_get_next_address t = .ok addr ∧ first_error t.wr_err addr 4 = 0 ∧
      enable_sw_stepping_mode t =
        (0, { t with
          mem := fun a => if addr ≤ a ∧ a < addr + 4 then ARM_BREAK_INST.getD (a - addr) 0
            else t.mem a,
          ext := { sw_stepping := true,
                   opcode := (List.range 4).map (fun i => t.mem (addr + i) % 256),
                   addr := addr } }) := by
  have hlen : ARM_BREAK_INST.length = 4 := rfl
  unfold enable_sw_stepping_mode at h ⊢
  cases hn : arm_get_next_address t with
  | error e =>
    simp only [hn] at h
    exact absurd h (arm_get_next_address_error t e hn)
  | ok addr =>
    simp only [hn, hlen, arm_read_mem, arm_write_mem] at h ⊢
    by_cases hrd : first_error t.rd_err addr 4 = 0
    · by_cases hwr : first_error t.wr_err addr 4 = 0
      · refine ⟨addr, rfl, hwr, ?_⟩
        simp only [hrd, hwr, ne_eq, not_true_eq_false, if_false]
      · simp only [hrd, hwr, ne_eq, not_true_eq_false, if_false, not_false_eq_true, if_true] at h
    · simp only [hrd, ne_eq, not_false_eq_true, if_true] at h

/-- A call of `enable_sw_stepping_mode` that fails leaves `sw_stepping` and
target memory as they are. -/
theorem enable_sw_stepping_mode_fail (t : ArmContext) (h : (enable_sw_stepping_mode t).1 ≠ 0) :
    (enable_sw_stepping_mode t).2.ext.sw_stepping = t.ext.sw_stepping ∧
    (enable_sw_stepping_mode t).2.mem = t.mem := by
  have hlen : ARM_BREAK_INST.length = 4 := rfl
  unfold enable_sw_stepping_mode at h ⊢
  cases hn : arm_get_next_address t with
  | error e => exact ⟨rfl, rfl⟩
  | ok addr =>
    simp only [hn, hlen, arm_read_mem, arm_write_mem] at h ⊢
    by_cases hrd : first_error t.rd_err addr 4 = 0
    · by_cases hwr : first_error t.wr_err addr 4 = 0
      · simp only [hrd, hwr, ne_eq, not_true_eq_false, if_false] at h
      · simp only [hrd, hwr, ne_eq, not_true_eq_false, if_false, not_false_eq_true, if_true,
          and_self]
    · simp only [hrd, ne_eq, not_false_eq_true, if_true, and_self]

/-- The bytes saved at `addr` written back over the break instruction give
the memory before. -/
theorem restore_saved_bytes (mem : Nat → Nat) (addr : Nat) (hb : ∀ a, mem a < 256) (a : Nat) :
    (if addr ≤ a ∧ a < addr + 4 then
      ((List.range 4).map (fun i => mem (addr + i) % 256)).getD (a - addr) 0
    else if addr ≤ a ∧ a < addr + 4 then ARM_BREAK_INST.getD (a - addr) 0 else mem a) = mem a := by
  by_cases ha : addr ≤ a ∧ a < addr + 4
  · rw [if_pos ha]
    have hr : List.range 4 = [0, 1, 2, 3] := by decide
    rw [hr]
    obtain ⟨k, hk⟩ : ∃ k, a = addr + k := ⟨a - addr, by omega⟩
    subst hk
    rw [Nat.add_sub_cancel_left]
    have hk4 : k < 4 := by omega
    interval_cases k <;> exact Nat.mod_eq_of_lt (hb _)
  · rw [if_neg ha, if_neg ha]

/-- Memory made with `word_at` over bytes holds bytes. -/
theorem word_at_lt (base word : Nat) (rest : Nat → Nat) (h : ∀ a, rest a < 256) (a : Nat) :
    word_at base word rest a < 256 := by
  unfold word_at
  split_ifs
  · exact Nat.lt_succ_of_le Nat.and_le_right
  · exact h a

/-- Bit `k` of a mask to which bit `i` is added. -/
theorem testBit_or_shift (a i k : Nat) :
    (a ||| (1 <<< i)).testBit k = true ↔ (a.testBit k = true ∨ k = i) := by
  rw [Nat.testBit_or, Nat.one_shiftLeft, Nat.testBit_two_pow]
  simp only [Bool.or_eq_true, decide_eq_true_eq]
  constructor
  · rintro (h | h)
    · exact Or.inl h
    · exact Or.inr h.symm
  · rintro (h | h)
    · exact Or.inl h
    · exact Or.inr h.symm

/-- The end of the loop body of `set_debug_regs` leaves the extension and
`*step_over_hw_bp` as they are. -/
theorem write_control_ext (bps : ContextExtensionARM_HW) (ptrace_err : Int → Nat) (i cr : Nat)
    (st : DebugRegsState) :
    (write_control bps ptrace_err i cr st).2.ext = st.ext ∧
    (write_control bps ptrace_err i cr st).2.step_over_hw_bp = st.step_over_hw_bp :=
  ⟨rfl, rfl⟩

/-- What the body of the loop of `set_debug_regs` does to `armed` and to
`*step_over_hw_bp` for slot `i`, when no `ptrace` call fails. -/
theorem set_debug_regs_slot_exact (w : Nat) (deref : Nat → ContextBreakpoint)
    (bps : ContextExtensionARM_HW) (pc : Nat) (ptrace_err : Int → Nat) (i : Nat)
    (st : DebugRegsState)
    (h0 : (set_debug_regs_slot w deref bps pc ptrace_err i st).1 = 0) :
    (∀ k, (set_debug_regs_slot w deref bps pc ptrace_err i st).2.ext.armed.testBit k = true ↔
      (st.ext.armed.testBit k = true ∨ (k = i ∧ ¬(i = 0 ∧ st.ext.hw_stepping ≠ 0) ∧
        ∃ p, bps.hw_bps.getD i none = some p ∧ ¬(i < bps.bp_cnt ∧ (deref p).address = pc) ∧
          ¬(bps.arch ≥ ARM_DEBUG_ARCH_V7_ECP14 ∧ st.ext.skip_wp_set.testBit i = true)))) ∧
    ((set_debug_regs_slot w deref bps pc ptrace_err i st).2.step_over_hw_bp = true ↔
      (st.step_over_hw_bp = true ∨ (¬(i = 0 ∧ st.ext.hw_stepping ≠ 0) ∧
        ∃ p, bps.hw_bps.getD i none = some p ∧ ((i < bps.bp_cnt ∧ (deref p).address = pc) ∨
          (bps.arch ≥ ARM_DEBUG_ARCH_V7_ECP14 ∧ st.ext.skip_wp_set.testBit i = true))))) ∧
    (set_debug_regs_slot w deref bps pc ptrace_err i st).2.ext.hw_stepping
      = st.ext.hw_stepping ∧
    (set_debug_regs_slot w deref bps pc ptrace_err i st).2.ext.skip_wp_set
      = st.ext.skip_wp_set := by
  unfold set_debug_regs_slot at h0 ⊢
  by_cases hstep : i = 0 ∧ st.ext.hw_stepping ≠ 0
  · rw [if_pos hstep] at h0 ⊢
    simp only at h0 ⊢
    by_cases hp : ptrace_err 1 ≠ 0
    · rw [if_pos hp] at h0
      exact absurd h0 hp
    · rw [if_neg hp]
      refine ⟨fun k => ⟨fun h => Or.inl h, ?_⟩, ⟨fun h => Or.inl h, ?_⟩, rfl, rfl⟩
      · rintro (h | ⟨_, h, _⟩)
        · exact h
        · exact absurd hstep h
      · rintro (h | ⟨h, _⟩)
        · exact h
        · exact absurd hstep h
  · rw [if_neg hstep] at h0 ⊢
    cases hg : bps.hw_bps.getD i none with
    | none =>
      simp only [hg] at h0 ⊢
      refine ⟨fun k => ⟨fun h => Or.inl h, ?_⟩, ⟨fun h => Or.inl h, ?_⟩, rfl, rfl⟩
      · rintro (h | ⟨_, _, p, hp, _⟩)
        · exact h
        · cases hp
      · rintro (h | ⟨_, p, hp, _⟩)
        · exact h
        · cases hp
    | some p =>
      simp only [hg] at h0 ⊢
      by_cases c1 : i < bps.bp_cnt ∧ (deref p).address = pc
      · rw [if_pos c1] at h0 ⊢
        refine ⟨fun k => ⟨fun h => Or.inl h, ?_⟩, ⟨fun _ => Or.inr ⟨hstep, p, rfl, Or.inl c1⟩,
          fun _ => rfl⟩, rfl, rfl⟩
        rintro (h | ⟨_, _, q, hq, hn, _⟩)
        · exact h
        · cases hq
          exact absurd c1 hn
      · rw [if_neg c1] at h0 ⊢
        by_cases c2 : bps.arch ≥ ARM_DEBUG_ARCH_V7_ECP14 ∧ st.ext.skip_wp_set.testBit i = true
        · rw [if_pos c2] at h0 ⊢
          refine ⟨fun k => ⟨fun h => Or.inl h, ?_⟩, ⟨fun _ => Or.inr ⟨hstep, p, rfl, Or.inr c2⟩,
            fun _ => rfl⟩, rfl, rfl⟩
          rintro (h | ⟨_, _, q, hq, _, hn⟩)
          · exact h
          · cases hq
            exact absurd c2 hn
        · rw [if_neg c2] at h0 ⊢
          by_cases hv : ptrace_err (value_reg bps i) ≠ 0
          · rw [if_pos hv] at h0
            exact absurd h0 hv
          · rw [if_neg hv]
            refine ⟨fun k => ?_, ⟨fun h => Or.inl h, ?_⟩, rfl, rfl⟩
            · show (st.ext.armed ||| (1 <<< i)).testBit k = true ↔ _
              rw [testBit_or_shift]
              constructor
              · rintro (h | h)
                · exact Or.inl h
                · exact Or.inr ⟨h, hstep, p, rfl, c1, c2⟩
              · rintro (h | ⟨h, _⟩)
                · exact Or.inl h
                · exact Or.inr h
            · rintro (h | ⟨_, q, hq, hc⟩)
              · exact h
              · cases hq
                rcases hc with hc | hc
                · exact absurd hc c1
                · exact absurd hc c2

/-- What the loop of `set_debug_regs` over the slots `l` does to `armed` and to
`*step_over_hw_bp`, when no `ptrace` call fails. -/
theorem set_debug_regs_loop_exact (w : Nat) (deref : Nat → ContextBreakpoint)
    (bps : ContextExtensionARM_HW) (pc : Nat) (ptrace_err : Int → Nat) (l : List Nat) :
    ∀ st : DebugRegsState, (set_debug_regs_loop w deref bps pc ptrace_err l st).1 = 0 →
    (∀ k, (set_debug_regs_loop w deref bps pc ptrace_err l st).2.ext.armed.testBit k = true ↔
      (st.ext.armed.testBit k = true ∨ (k ∈ l ∧ ¬(k = 0 ∧ st.ext.hw_stepping ≠ 0) ∧
        ∃ p, bps.hw_bps.getD k none = some p ∧ ¬(k < bps.bp_cnt ∧ (deref p).address = pc) ∧
          ¬(bps.arch ≥ ARM_DEBUG_ARCH_V7_ECP14 ∧ st.ext.skip_wp_set.testBit k = true)))) ∧
    ((set_debug_regs_loop w deref bps pc ptrace_err l st).2.step_over_hw_bp = true ↔
      (st.step_over_hw_bp = true ∨ ∃ i ∈ l, ¬(i = 0 ∧ st.ext.hw_stepping ≠ 0) ∧
        ∃ p, bps.hw_bps.getD i none = some p ∧ ((i < bps.bp_cnt ∧ (deref p).address = pc) ∨
          (bps.arch ≥ ARM_DEBUG_ARCH_V7_ECP14 ∧ st.ext.skip_wp_set.testBit i = true)))) ∧
    (set_debug_regs_loop w deref bps pc ptrace_err l st).2.ext.hw_stepping
      = st.ext.hw_stepping ∧
    (set_debug_regs_loop w deref bps pc ptrace_err l st).2.ext.skip_wp_set
      = st.ext.skip_wp_set := by
  induction l with
  | nil =>
    intro st _
    refine ⟨fun k => ⟨fun h => Or.inl h, ?_⟩, ⟨fun h => Or.inl h, ?_⟩, rfl, rfl⟩
    · rintro (h | ⟨h, _⟩)
      · exact h
      · cases h
    · rintro (h | ⟨i, h, _⟩)
      · exact h
      · cases h
  | cons i l ih =>
    intro st h0
    rw [set_debug_regs_loop] at h0 ⊢
    by_cases hr : (set_debug_regs_slot w deref bps pc ptrace_err i st).1 ≠ 0
    · simp only [if_pos hr] at h0
      exact absurd h0 hr
    · simp only [if_neg hr] at h0 ⊢
      obtain ⟨s1, s2, s3, s4⟩ :=
        set_debug_regs_slot_exact w deref bps pc ptrace_err i st (not_not.mp hr)
      obtain ⟨l1, l2, l3, l4⟩ := ih _ h0
      rw [s3, s4] at l1 l2
      refine ⟨fun k => ?_, ?_, l3.trans s3, l4.trans s4⟩
      · rw [l1 k, s1 k]
        constructor
        · rintro ((h | ⟨h, a⟩) | ⟨h, a⟩)
          · exact Or.inl h
          · exact Or.inr ⟨by rw [h]; exact List.mem_cons_self _ _, by rw [h]; exact a⟩
          · exact Or.inr ⟨List.mem_cons_of_mem _ h, a⟩
        · rintro (h | ⟨h, a⟩)
          · exact Or.inl (Or.inl h)
          · rcases List.mem_cons.mp h with e | e
            · exact Or.inl (Or.inr ⟨e, by rw [← e]; exact a⟩)
            · exact Or.inr ⟨e, a⟩
      · rw [l2, s2]
        constructor
        · rintro ((h | a) | ⟨j, h, a⟩)
          · exact Or.inl h
          · exact Or.inr ⟨i, List.mem_cons_self _ _, a⟩
          · exact Or.inr ⟨j, List.mem_cons_of_mem _ h, a⟩
        · rintro (h | ⟨j, h, a⟩)
          · exact Or.inl (Or.inl h)
          · rcases List.mem_cons.mp h with e | e
            · exact Or.inl (Or.inr (by rw [← e]; exact a))
            · exact Or.inr ⟨j, e, a⟩

/-- The traversal of a replant pass preserves a property `Q` of the context
list and the table that each call of `plant_breakpoint_in_context` for a
context of the list that has not exited preserves. -/
theorem foldl_plant_in_context_preserves (Q : List Context → List BreakInstruction → Prop)
    (hplant : ∀ (s : Agent) (bp : BreakpointInfo) (ctx : Context) (a : Nat),
      Q s.contexts s.instructions → ctx ∈ s.contexts → ctx.exited = false →
      Q s.contexts (plant_breakpoint_in_context s bp ctx a).1.instructions)
    (ctx : Context) (hex : ctx.exited = false) (addrs : List Nat) :
    ∀ st : Agent × BreakpointInfo, ctx ∈ st.1.contexts → Q st.1.contexts st.1.instructions →
      Q st.1.contexts
        (addrs.foldl (fun st a => plant_breakpoint_in_context st.1 st.2 ctx a) st).1.instructions := by
  induction addrs with
  | nil => exact fun st _ h => h
  | cons a addrs ih =>
    intro st hc h
    rw [List.foldl_cons]
    have hcs := (plant_breakpoint_in_context_step st.1 st.2 ctx a).2.1.2.1
    have h1 := hplant st.1 st.2 ctx a h hc hex
    have h2 := ih (plant_breakpoint_in_context st.1 st.2 ctx a) (by rw [hcs]; exact hc)
      (by rw [hcs]; exact h1)
    rw [hcs] at h2
    exact h2

theorem plant_breakpoint_context_preserves (sv : Services) (csa : Bool) (v : Value)
    (Q : List Context → List BreakInstruction → Prop)
    (hplant : ∀ (s : Agent) (bp : BreakpointInfo) (ctx : Context) (a : Nat),
      Q s.contexts s.instructions → ctx ∈ s.contexts → ctx.exited = false →
      Q s.contexts (plant_breakpoint_in_context s bp ctx a).1.instructions)
    (st : Agent × BreakpointInfo) (ctx : Context) (hc : ctx ∈ st.1.contexts)
    (h : Q st.1.contexts st.1.instructions) :
    Q st.1.contexts (plant_breakpoint_context sv csa v st ctx).1.instructions := by
  unfold plant_breakpoint_context
  simp only
  split
  · exact h
  · rename_i hex
    have hex1 : ctx.exited = false := by
      cases he : ctx.exited
      · rfl
      · exact absurd (Or.inl he) hex
    split
    · exact h
    · split
      · exact h
      · split
        · split
          · split
            · exact h
            · split
              · exact h
              · exact hplant _ _ _ _ h hc hex1
          · split
            · rename_i file _
              split
              · exact h
              · have h1 := foldl_plant_in_context_preserves Q hplant ctx hex1
                  (sv.line_to_address ctx file st.2.line st.2.column).1 st hc h
                split
                · split
                  · exact h1
                  · exact h1
                · exact h1
            · exact h
        · split
          · exact h
          · exact hplant _ _ _ _ h hc hex1

theorem foldl_plant_breakpoint_context_preserves (sv : Services) (csa : Bool) (v : Value)
    (Q : List Context → List BreakInstruction → Prop)
    (hplant : ∀ (s : Agent) (bp : BreakpointInfo) (ctx : Context) (a : Nat),
      Q s.contexts s.instructions → ctx ∈ s.contexts → ctx.exited = false →
      Q s.contexts (plant_breakpoint_in_context s bp ctx a).1.instructions)
    (cs : List Context) :
    ∀ st : Agent × BreakpointInfo, (∀ c ∈ cs, c ∈ st.1.contexts) →
      Q st.1.contexts st.1.instructions →
      Q st.1.contexts (cs.foldl (plant_breakpoint_context sv csa v) st).1.instructions := by
  induction cs with
  | nil => exact fun st _ h => h
  | cons c cs ih =>
    intro st hc h
    rw [List.foldl_cons]
    have hcs := (plant_breakpoint_context_step sv csa v st c).2.2.1
    have h1 := plant_breakpoint_context_preserves sv csa v Q hplant st c
      (hc c (List.mem_cons_self _ _)) h
    have h2 := ih (plant_breakpoint_context sv csa v st c)
      (fun x hx => by rw [hcs]; exact hc x (List.mem_cons_of_mem _ hx)) (by rw [hcs]; exact h1)
    rw [hcs] at h2
    exact h2

theorem plant_breakpoint_preserves (sv : Services)
    (Q : List Context → List BreakInstruction → Prop)
    (hplant : ∀ (s : Agent) (bp : BreakpointInfo) (ctx : Context) (a : Nat),
      Q s.contexts s.instructions → ctx ∈ s.contexts → ctx.exited = false →
      Q s.contexts (plant_breakpoint_in_context s bp ctx a).1.instructions)
    (s : Agent) (bp : BreakpointInfo) (h : Q s.contexts s.instructions) :
    Q s.contexts (plant_breakpoint sv s bp).1.instructions := by
  have hcs : ∀ csa v bp1, Q s.contexts (plant_breakpoint_contexts sv csa v s bp1).1.instructions := by
    intro csa v bp1
    have h1 := foldl_plant_breakpoint_context_preserves sv csa v Q hplant s.contexts (s, bp1)
      (fun c hc => hc) h
    unfold plant_breakpoint_contexts
    simp only
    split
    · exact h1
    · exact h1
  unfold plant_breakpoint
  simp only
  split
  · split
    · split
      · exact h
      · exact hcs _ _ _
    · split
      · exact h
      · exact hcs _ _ _
  · split
    · exact hcs _ _ _
    · exact h

theorem plant_breakpoint_contexts_eq (sv : Services) (s : Agent) (bp : BreakpointInfo) :
    (plant_breakpoint sv s bp).1.contexts = s.contexts := by
  have hcs : ∀ csa v bp1, (plant_breakpoint_contexts sv csa v s bp1).1.contexts = s.contexts := by
    intro csa v bp1
    have h1 := (foldl_plant_breakpoint_context_step sv csa v s.contexts (s, bp1)).2.2.1
    unfold plant_breakpoint_contexts
    simp only
    split
    · exact h1
    · exact h1
  unfold plant_breakpoint
  simp only
  split
  · split
    · split
      · rfl
      · exact hcs _ _ _
    · split
      · rfl
      · exact hcs _ _ _
  · split
    · exact hcs _ _ _
    · rfl

theorem replant_loop_preserves (sv : Services)
    (Q : List Context → List BreakInstruction → Prop)
    (hplant : ∀ (s : Agent) (bp : BreakpointInfo) (ctx : Context) (a : Nat),
      Q s.contexts s.instructions → ctx ∈ s.contexts → ctx.exited = false →
      Q s.contexts (plant_breakpoint_in_context s bp ctx a).1.instructions)
    (l : List BreakpointInfo) :
    ∀ s : Agent, Q s.contexts s.instructions →
      Q s.contexts (replant_loop sv l s).2.instructions ∧
      (replant_loop sv l s).2.contexts = s.contexts := by
  induction l with
  | nil => exact fun s h => ⟨h, rfl⟩
  | cons bp l ih =>
    intro s h
    unfold replant_loop
    split
    · exact ih s h
    · simp only
      have key : ∀ r : Agent × BreakpointInfo, r.1.contexts = s.contexts →
          Q s.contexts r.1.instructions →
          Q s.contexts (replant_loop sv l
            (if r.2.status_unsupported ≠ decide (r.2.unsupported ≠ []) ∨
                r.2.status_error ≠ r.2.error ∨ r.2.status_planted ≠ r.2.planted then
              ({ r.1 with out := r.1.out ++ [(Dest.bcg, Event.status r.2.id
                    (write_breakpoint_status r.1 r.2))] },
               { r.2 with status_unsupported := decide (r.2.unsupported ≠ []),
                          status_error := r.2.error, status_planted := r.2.planted })
            else r).1).2.instructions ∧
          (replant_loop sv l
            (if r.2.status_unsupported ≠ decide (r.2.unsupported ≠ []) ∨
                r.2.status_error ≠ r.2.error ∨ r.2.status_planted ≠ r.2.planted then
              ({ r.1 with out := r.1.out ++ [(Dest.bcg, Event.status r.2.id
                    (write_breakpoint_status r.1 r.2))] },
               { r.2 with status_unsupported := decide (r.2.unsupported ≠ []),
                          status_error := r.2.error, status_planted := r.2.planted })
            else r).1).2.contexts = s.contexts := by
        intro r hrc hq
        split
        · have := ih { r.1 with out := r.1.out ++ [(Dest.bcg, Event.status r.2.id
            (write_breakpoint_status r.1 r.2))] } (by rw [← hrc] at hq; exact hq)
          exact ⟨by rw [← hrc]; exact this.1, this.2.trans hrc⟩
        · have := ih r.1 (by rw [← hrc] at hq; exact hq)
          exact ⟨by rw [← hrc]; exact this.1, this.2.trans hrc⟩
      split
      · exact key _ (plant_breakpoint_contexts_eq sv s _)
          (plant_breakpoint_preserves sv Q hplant s _ h)
      · exact key (s, _) rfl h

/-- `find_instruction` returns `NULL` exactly when no entry of the table has
the memory space and the address looked up. -/
theorem find_instruction_none_iff (s : Agent) (ctx : Context) (address : Nat) :
    (find_instruction s ctx address).1 = none ↔
      ∀ bi ∈ s.instructions, ¬((s.ctx bi.ctx).mem = ctx.mem ∧ bi.address = address) := by
  cases hf : find_index (fun bi => (s.ctx bi.ctx).mem == ctx.mem && bi.address == address)
      s.instructions with
  | none =>
    have hnone := (find_index_none _ _).mp hf
    have : find_instruction s ctx address = (none, s) := by
      unfold find_instruction
      rw [hf]
    rw [this]
    refine ⟨fun _ bi hbi hk => ?_, fun _ => rfl⟩
    have := hnone bi hbi
    simp [hk.1, hk.2] at this
  | some n =>
    obtain ⟨bi, hbi, hp⟩ := find_index_some _ _ _ hf
    rw [find_instruction_owner s ctx address n bi hf hbi]
    simp only [Bool.and_eq_true, beq_iff_eq] at hp
    refine ⟨fun h => (by cases h), fun h => ?_⟩
    exact absurd hp (h bi (List.mem_iff_getElem?.mpr ⟨n, hbi⟩))

/-- What `find_instruction` leaves of the table, seen through a function `f`
of the entries that a change of owner within the memory space does not
change. -/
theorem find_instruction_map {β : Type} (f : BreakInstruction → β) (s : Agent) (ctx : Context)
    (address : Nat)
    (hhome : ∀ bi ∈ s.instructions, (s.ctx bi.ctx).mem = ctx.mem →
      f { bi with ctx := ctx.id } = f bi) :
    (find_instruction s ctx address).2.instructions.map f = s.instructions.map f := by
  cases hf : find_index (fun bi => (s.ctx bi.ctx).mem == ctx.mem && bi.address == address)
      s.instructions with
  | none =>
    have : find_instruction s ctx address = (none, s) := by
      unfold find_instruction
      rw [hf]
    rw [this]
  | some n =>
    obtain ⟨bi, hbi, hp⟩ := find_index_some _ _ _ hf
    rw [find_instruction_owner s ctx address n bi hf hbi]
    simp only [Bool.and_eq_true, beq_iff_eq] at hp
    apply map_set_same f _ n bi _ hbi
    unfold owner_after_find
    split
    · exact hhome bi (List.mem_iff_getElem?.mpr ⟨n, hbi⟩) hp.1
    · rfl

/-- What `push_ref` leaves of the table, seen through a function `f` of the
entries that does not look at the ref list and at `ctx_cnt`. -/
theorem push_ref_map {β : Type} (f : BreakInstruction → β) (s : Agent) (n : Nat)
    (bp : BreakpointInfo) (ctx : Context)
    (hrefs : ∀ (bi : BreakInstruction) (r : List String) (c : Nat),
      f { bi with refs := r, ctx_cnt := c } = f bi) :
    (push_ref s n bp ctx).1.instructions.map f = s.instructions.map f := by
  unfold push_ref
  cases hn : s.instructions[n]? with
  | none => rfl
  | some bi =>
    simp only
    have : ∀ b : BreakpointInfo, ((s.set_instruction n
        { bi with refs := bi.refs ++ [bp.id],
                  ctx_cnt := if bi.ctx ≠ ctx.id then bi.ctx_cnt + 1 else bi.ctx_cnt }, b) :
        Agent × BreakpointInfo).1.instructions.map f = s.instructions.map f := by
      intro b
      exact map_set_same f _ n bi _ hn (hrefs bi _ _)
    split
    · exact this _
    · exact this _

/-- What `plant_breakpoint_in_context` leaves of the table, seen through a
function `f` of the entries that does not look at the ref list and at
`ctx_cnt` and that a change of owner within the memory space does not change:
the table as it was, or with the zeroed entry for `(ctx, address)` appended
when `find_instruction` returns `NULL`. -/
theorem plant_breakpoint_in_context_map {β : Type} (f : BreakInstruction → β) (s : Agent)
    (bp : BreakpointInfo) (ctx : Context) (address : Nat)
    (hrefs : ∀ (bi : BreakInstruction) (r : List String) (c : Nat),
      f { bi with refs := r, ctx_cnt := c } = f bi)
    (hhome : ∀ bi ∈ s.instructions, (s.ctx bi.ctx).mem = ctx.mem →
      f { bi with ctx := ctx.id } = f bi) :
    (plant_breakpoint_in_context s bp ctx address).1.instructions.map f = s.instructions.map f ∨
    ((∀ bi ∈ s.instructions, ¬((s.ctx bi.ctx).mem = ctx.mem ∧ bi.address = address)) ∧
      (plant_breakpoint_in_context s bp ctx address).1.instructions.map f =
        s.instructions.map f ++
          [f { ctx := ctx.id, ctx_cnt := 0, address := address,
               saved_code := List.replicate (BREAK_SIZE s) 0, error := 0, skip := false,
               refs := [], planted := false }]) := by
  have hfm := find_instruction_map f s ctx address hhome
  have hfn := find_instruction_none_iff s ctx address
  unfold plant_breakpoint_in_context
  cases hf : find_instruction s ctx address with
  | mk r s1 =>
    rw [hf] at hfm hfn
    simp only at hfm hfn
    cases r with
    | none =>
      have hs1 := find_instruction_none s ctx address s1 hf
      subst hs1
      refine Or.inr ⟨hfn.mp rfl, ?_⟩
      simp only
      rw [push_ref_map f _ _ _ _ hrefs]
      simp only [add_instruction, List.map_append, List.map_cons, List.map_nil]
    | some n =>
      simp only
      split
      · exact Or.inl hfm
      · exact Or.inl ((push_ref_map f _ _ _ _ hrefs).trans hfm)

/-- What `skip_breakpoint` leaves of the table, seen through a function `f` of
the entries that a change of owner within the memory space does not change. -/
theorem skip_breakpoint_map {β : Type} (f : BreakInstruction → β) (s : Agent) (ctx : Context)
    (hhome : ∀ bi ∈ s.instructions, (s.ctx bi.ctx).mem = ctx.mem →
      f { bi with ctx := ctx.id } = f bi) :
    (skip_breakpoint s ctx).2.instructions.map f = s.instructions.map f ∧
    (skip_breakpoint s ctx).2.contexts = s.contexts := by
  have hm := find_instruction_map f s ctx ctx.pc hhome
  have hc := (find_instruction_frame s ctx ctx.pc).1.2.1
  unfold skip_breakpoint
  split
  · exact ⟨rfl, rfl⟩
  · cases hf : find_instruction s ctx ctx.pc with
    | mk r s1 =>
      rw [hf] at hm hc
      cases r with
      | none => exact ⟨hm, hc⟩
      | some n =>
        simp only
        split
        · exact ⟨hm, hc⟩
        · exact ⟨hm, hc⟩

/-- The entry that `find_instruction` returns and the table that it leaves. -/
theorem find_instruction_entry (s : Agent) (ctx : Context) (address n : Nat) (s1 : Agent)
    (h : find_instruction s ctx address = (some n, s1)) :
    ∃ bi : BreakInstruction, s.instructions[n]? = some bi ∧
      (s.ctx bi.ctx).mem = ctx.mem ∧ bi.address = address ∧
      s1 = { s with instructions :=
        s.instructions.set n { bi with ctx := owner_after_find s ctx bi } } ∧
      s1.instructions[n]? = some { bi with ctx := owner_after_find s ctx bi } := by
  cases hf : find_index (fun bi => (s.ctx bi.ctx).mem == ctx.mem && bi.address == address)
      s.instructions with
  | none =>
    have : find_instruction s ctx address = (none, s) := by
      unfold find_instruction
      rw [hf]
    rw [this] at h
    cases h
  | some m =>
    obtain ⟨bi, hbi, hp⟩ := find_index_some _ _ _ hf
    rw [find_instruction_owner s ctx address m bi hf hbi] at h
    simp only [Prod.mk.injEq, Option.some.injEq] at h
    obtain ⟨rfl, rfl⟩ := h
    simp only [Bool.and_eq_true, beq_iff_eq] at hp
    exact ⟨bi, hbi, hp.1, hp.2, rfl, List.getElem?_set_self (getElem?_lt _ _ _ hbi)⟩

theorem remove_instruction_table (s : Agent) (bi : BreakInstruction) :
    (remove_instruction s bi).2.instructions = s.instructions ∧
    (remove_instruction s bi).2.contexts = s.contexts := by
  unfold remove_instruction
  split
  · cases hw : context_write_mem s (s.ctx bi.ctx) bi.address bi.saved_code (BREAK_SIZE s) with
    | error e => exact ⟨rfl, rfl⟩
    | ok s2 =>
      exact ⟨(context_write_mem_registry _ _ _ _ _ _ hw).2.1,
        (context_write_mem_registry _ _ _ _ _ _ hw).1.2.1⟩
  · exact ⟨rfl, rfl⟩

theorem plant_instruction_table (s : Agent) (bi : BreakInstruction) :
    (plant_instruction s bi).2.instructions = s.instructions ∧
    (plant_instruction s bi).2.contexts = s.contexts := by
  unfold plant_instruction
  simp only
  cases hr : context_read_mem s (s.ctx bi.ctx) bi.address (BREAK_SIZE s) with
  | error e => exact ⟨rfl, rfl⟩
  | ok code =>
    simp only
    cases hw : context_write_mem s (s.ctx bi.ctx) bi.address s.BREAK_INST (BREAK_SIZE s) with
    | error e => exact ⟨rfl, rfl⟩
    | ok s2 =>
      exact ⟨(context_write_mem_registry _ _ _ _ _ _ hw).2.1,
        (context_write_mem_registry _ _ _ _ _ _ hw).1.2.1⟩

/-- What the first block of `safe_skip_breakpoint` leaves of the table, seen
through a function `f` of the entries that looks neither at `skip` nor at what
`remove_instruction` changes. -/
theorem skip_instruction_map {β : Type} (f : BreakInstruction → β) (s : Agent)
    (sb : SkipBreakpointInfo)
    (hhome : ∀ bi ∈ s.instructions, (s.ctx bi.ctx).mem = (s.ctx sb.ctx).mem →
      f { bi with ctx := (s.ctx sb.ctx).id } = f bi)
    (hrem : ∀ (t : Agent) (bi : BreakInstruction), f (remove_instruction t bi).1 = f bi)
    (hskip : ∀ (bi : BreakInstruction) (b : Bool), f { bi with skip := b } = f bi) :
    (skip_instruction s sb).1.instructions.map f = s.instructions.map f ∧
    (skip_instruction s sb).1.contexts = s.contexts := by
  have hm := find_instruction_map f s (s.ctx sb.ctx) sb.address hhome
  have hc := (find_instruction_frame s (s.ctx sb.ctx) sb.address).1.2.1
  unfold skip_instruction
  split
  · cases hf : find_instruction s (s.ctx sb.ctx) sb.address with
    | mk r s1 =>
      rw [hf] at hm hc
      simp only at hm hc
      cases r with
      | none => exact ⟨hm, hc⟩
      | some n =>
        obtain ⟨bi, hbi, _, _, hs1, hn1⟩ := find_instruction_entry _ _ _ _ _ hf
        simp only [hn1, Option.getD_some]
        by_cases hsk : bi.skip = false
        · rw [if_pos hsk]
          have hr : f (if bi.planted = true then remove_instruction s1
              { bi with ctx := owner_after_find s (s.ctx sb.ctx) bi }
              else ({ bi with ctx := owner_after_find s (s.ctx sb.ctx) bi }, s1)).1 =
              f { bi with ctx := owner_after_find s (s.ctx sb.ctx) bi } := by
            split
            · exact hrem _ _
            · rfl
          have ht : (if bi.planted = true then remove_instruction s1
              { bi with ctx := owner_after_find s (s.ctx sb.ctx) bi }
              else ({ bi with ctx := owner_after_find s (s.ctx sb.ctx) bi }, s1)).2.instructions
                = s1.instructions ∧
              (if bi.planted = true then remove_instruction s1
              { bi with ctx := owner_after_find s (s.ctx sb.ctx) bi }
              else ({ bi with ctx := owner_after_find s (s.ctx sb.ctx) bi }, s1)).2.contexts
                = s1.contexts := by
            split
            · exact remove_instruction_table _ _
            · exact ⟨rfl, rfl⟩
          generalize (if bi.planted = true then remove_instruction s1
            { bi with ctx := owner_after_find s (s.ctx sb.ctx) bi }
            else ({ bi with ctx := owner_after_find s (s.ctx sb.ctx) bi }, s1)) = r at hr ht ⊢
          by_cases he : r.1.error ≠ 0
          · rw [if_pos he]
            refine ⟨?_, ht.2.trans hc⟩
            show (r.2.instructions.set n r.1).map f = _
            rw [ht.1, map_set_same f _ n _ _ hn1 hr]
            exact hm
          · rw [if_neg he]
            refine ⟨?_, ht.2.trans hc⟩
            show (r.2.instructions.set n { r.1 with skip := true }).map f = _
            rw [ht.1, map_set_same f _ n _ _ hn1 ((hskip _ _).trans hr)]
            exact hm
        · rw [if_neg hsk]
          exact ⟨hm, hc⟩
  · exact ⟨rfl, rfl⟩

/-- What `safe_restore_breakpoint` leaves of the table, seen through a
function `f` of the entries that looks neither at `skip` nor at what
`plant_instruction` changes. -/
theorem safe_restore_breakpoint_map {β : Type} (f : BreakInstruction → β) (s : Agent)
    (sb : SkipBreakpointInfo)
    (hhome : ∀ bi ∈ s.instructions, (s.ctx bi.ctx).mem = (s.ctx sb.ctx).mem →
      f { bi with ctx := (s.ctx sb.ctx).id } = f bi)
    (hplant : ∀ (t : Agent) (bi : BreakInstruction), f (plant_instruction t bi).1 = f bi)
    (hskip : ∀ (bi : BreakInstruction) (b : Bool), f { bi with skip := b } = f bi) :
    (safe_restore_breakpoint s sb).agent.instructions.map f = s.instructions.map f ∧
    (safe_restore_breakpoint s sb).agent.contexts = s.contexts := by
  have hm := find_instruction_map f s (s.ctx sb.ctx) sb.address hhome
  have hc := (find_instruction_frame s (s.ctx sb.ctx) sb.address).1.2.1
  unfold safe_restore_breakpoint
  cases hf : find_instruction s (s.ctx sb.ctx) sb.address with
  | mk r s1 =>
    rw [hf] at hm hc
    simp only at hm hc
    cases r with
    | none => exact ⟨hm, hc⟩
    | some n =>
      obtain ⟨bi, hbi, _, _, hs1, hn1⟩ := find_instruction_entry _ _ _ _ _ hf
      simp only [hn1, Option.getD_some]
      split
      · refine ⟨?_, (plant_instruction_table _ _).2.trans hc⟩
        show ((plant_instruction s1 _).2.instructions.set n (plant_instruction s1 _).1).map f = _
        rw [(plant_instruction_table _ _).1,
          map_set_same f _ n _ _ hn1 ((hplant _ _).trans (hskip _ _))]
        exact hm
      · exact ⟨hm, hc⟩

theorem plant_instruction_state (s : Agent) (bi : BreakInstruction) :
    (plant_instruction s bi).1.skip = bi.skip ∧
    (plant_instruction s bi).1.address = bi.address ∧
    ((plant_instruction s bi).1.planted = true ↔ (plant_instruction s bi).1.error = 0) ∧
    (plant_instruction s bi).2.instructions = s.instructions := by
  unfold plant_instruction
  simp only
  cases hr : context_read_mem s (s.ctx bi.ctx) bi.address (BREAK_SIZE s) with
  | error e => exact ⟨rfl, rfl, by simp, rfl⟩
  | ok code =>
    simp only
    cases hw : context_write_mem s (s.ctx bi.ctx) bi.address s.BREAK_INST (BREAK_SIZE s) with
    | error e => exact ⟨rfl, rfl, by simp, rfl⟩
    | ok s2 => exact ⟨rfl, rfl, by simp, (context_write_mem_registry _ _ _ _ _ _ hw).2.1⟩

theorem remove_instruction_state (s : Agent) (bi : BreakInstruction) :
    (remove_instruction s bi).1.skip = bi.skip ∧
    (remove_instruction s bi).1.address = bi.address ∧
    (remove_instruction s bi).1.planted = false ∧
    ((remove_instruction s bi).1.error = 0 → bi.error = 0 →
      (remove_instruction s bi).1.saved_code = bi.saved_code) ∧
    (remove_instruction s bi).2.instructions = s.instructions := by
  unfold remove_instruction
  split
  · cases hw : context_write_mem s (s.ctx bi.ctx) bi.address bi.saved_code (BREAK_SIZE s) with
    | error e => exact ⟨rfl, rfl, rfl, fun _ _ => rfl, rfl⟩
    | ok s2 => exact ⟨rfl, rfl, rfl, fun _ _ => rfl, (context_write_mem_registry _ _ _ _ _ _ hw).2.1⟩
  · exact ⟨rfl, rfl, rfl, fun _ _ => rfl, rfl⟩

theorem planted_iff_usable_consistent (bi : BreakInstruction) (h : planted_iff_usable bi) :
    planted_consistent bi :=
  ⟨h.1.mp, fun hs => (h.2 hs).2⟩

/-- A consistent entry that is skipped, or planted, satisfies the invariant of
a quiescent point. -/
theorem planted_consistent_usable (bi : BreakInstruction) (h : planted_consistent bi)
    (hsp : bi.skip = true ∨ bi.planted = true) : planted_iff_usable bi := by
  obtain ⟨h1, h2⟩ := h
  rcases hsp with hs | hp
  · have hnp : bi.planted = false := by
      cases hp : bi.planted with
      | false => rfl
      | true =>
        have := (h1 hp).1
        rw [hs] at this
        cases this
    refine ⟨⟨fun hp => ?_, fun hc => ?_⟩, fun _ => ⟨hnp, h2 hs⟩⟩
    · rw [hnp] at hp
      cases hp
    · rw [hs] at hc
      cases hc.1
  · refine ⟨⟨h1, fun _ => hp⟩, fun hs => ?_⟩
    have := (h1 hp).1
    rw [hs] at this
    cases this

/-- An entry that `plant_instruction` has just processed, and that is not
skipped, satisfies the invariant of a quiescent point. -/
theorem plant_instruction_usable (s : Agent) (bi : BreakInstruction) (hs : bi.skip = false) :
    planted_iff_usable (plant_instruction s bi).1 := by
  obtain ⟨p1, _, p3, _⟩ := plant_instruction_state s bi
  refine ⟨⟨fun hp => ⟨p1.trans hs, p3.mp hp⟩, fun hc => p3.mpr hc.2⟩, fun h => ?_⟩
  rw [p1, hs] at h
  cases h

/-- The replant pass ends with every entry of the table in the state of a
quiescent point. -/
theorem delete_unused_loop_usable (l : List BreakInstruction) :
    ∀ s : Agent, (∀ bi ∈ l, planted_consistent bi) →
      ∀ bi ∈ (delete_unused_loop l s).1, planted_iff_usable bi := by
  induction l with
  | nil =>
    intro s _ bi hbi
    simp [delete_unused_loop] at hbi
  | cons b l ih =>
    intro s h
    have hb := h b (List.mem_cons_self _ _)
    have hl : ∀ bi ∈ l, planted_consistent bi := fun bi hbi => h bi (List.mem_cons_of_mem _ hbi)
    unfold delete_unused_loop
    split
    · rename_i hs
      intro bi hbi
      rcases List.mem_cons.mp hbi with rfl | hm
      · exact planted_consistent_usable _ hb (Or.inl hs)
      · exact ih s hl bi hm
    · rename_i hs
      have hs1 : b.skip = false := by
        cases hk : b.skip with
        | false => rfl
        | true => exact absurd hk hs
      split
      · split
        · exact ih _ hl
        · exact ih _ hl
      · split
        · intro bi hbi
          rcases List.mem_cons.mp hbi with rfl | hm
          · exact plant_instruction_usable s b hs1
          · exact ih _ hl bi hm
        · rename_i hpl
          have hp1 : b.planted = true := by
            cases hk : b.planted with
            | true => rfl
            | false => exact absurd hk hpl
          split
          · intro bi hbi
            rcases List.mem_cons.mp hbi with rfl | hm
            · exact plant_instruction_usable _ _ ((remove_instruction_state s b).1.trans hs1)
            · exact ih _ hl bi hm
          · intro bi hbi
            rcases List.mem_cons.mp hbi with rfl | hm
            · exact planted_consistent_usable _ hb (Or.inr hp1)
            · exact ih _ hl bi hm

/-- The replant pass keeps, as it is, every entry that is being skipped. -/
theorem delete_unused_loop_skip (l : List BreakInstruction) :
    ∀ s : Agent, ∀ bi ∈ l, bi.skip = true → bi ∈ (delete_unused_loop l s).1 := by
  induction l with
  | nil =>
    intro s bi hbi
    cases hbi
  | cons b l ih =>
    intro s bi hbi hs
    unfold delete_unused_loop
    rcases List.mem_cons.mp hbi with rfl | hm
    · rw [if_pos hs]
      exact List.mem_cons_self _ _
    · split
      · exact List.mem_cons_of_mem _ (ih s bi hm hs)
      · split
        · split
          · exact ih _ bi hm hs
          · exact ih _ bi hm hs
        · split
          · exact List.mem_cons_of_mem _ (ih _ bi hm hs)
          · split
            · exact List.mem_cons_of_mem _ (ih _ bi hm hs)
            · exact List.mem_cons_of_mem _ (ih _ bi hm hs)

theorem planted_consistent_congr (a b : BreakInstruction)
    (h : instruction_state a = instruction_state b) (ha : planted_consistent a) :
    planted_consistent b := by
  unfold instruction_state at h
  simp only [Prod.mk.injEq] at h
  obtain ⟨_, _, h3, h4, h5⟩ := h
  unfold planted_consistent at ha ⊢
  rw [← h3, ← h4, ← h5]
  exact ha

theorem planted_iff_usable_congr (a b : BreakInstruction)
    (h : instruction_state a = instruction_state b) (ha : planted_iff_usable a) :
    planted_iff_usable b := by
  unfold instruction_state at h
  simp only [Prod.mk.injEq] at h
  obtain ⟨_, _, h3, h4, h5⟩ := h
  unfold planted_iff_usable at ha ⊢
  rw [← h3, ← h4, ← h5]
  exact ha

/-- A property of the entries that depends on `f` only holds of a table whose
image under `f` is that of a table of which it holds, followed by `m`. -/
theorem forall_of_map_eq {α β : Type} (f : α → β) (P : α → Prop) (l l1 : List α) (m : List β)
    (hmap : l1.map f = l.map f ++ m) (hcongr : ∀ a b, f a = f b → P a → P b)
    (hl : ∀ a ∈ l, P a) (hm : ∀ b, f b ∈ m → P b) : ∀ b ∈ l1, P b := by
  intro b hb
  have hfb : f b ∈ l1.map f := List.mem_map_of_mem f hb
  rw [hmap] at hfb
  rcases List.mem_append.mp hfb with h | h
  · obtain ⟨a, ha, hab⟩ := List.mem_map.mp h
    exact hcongr a b hab (hl a ha)
  · exact hm b h

/-- The planting of a breakpoint in a context keeps every entry of the table
consistent. -/
theorem plant_breakpoint_in_context_consistent (s : Agent) (bp : BreakpointInfo) (ctx : Context)
    (address : Nat) (h : ∀ bi ∈ s.instructions, planted_consistent bi) :
    ∀ bi ∈ (plant_breakpoint_in_context s bp ctx address).1.instructions,
      planted_consistent bi := by
  rcases plant_breakpoint_in_context_map instruction_state s bp ctx address
    (fun _ _ _ => rfl) (fun _ _ _ => rfl) with hm | ⟨_, hm⟩
  · exact forall_of_map_eq instruction_state planted_consistent _ _ []
      (by rw [hm, List.append_nil]) planted_consistent_congr h (fun b hb => by cases hb)
  · refine forall_of_map_eq instruction_state planted_consistent _ _ _ hm
      planted_consistent_congr h (fun b hb => ?_)
    rw [List.mem_singleton] at hb
    unfold instruction_state at hb
    simp only [Prod.mk.injEq] at hb
    obtain ⟨_, _, h3, h4, h5⟩ := hb
    unfold planted_consistent
    rw [h3, h4, h5]
    exact ⟨fun hp => (by cases hp), fun hs => (by cases hs)⟩

/-- The planting of a breakpoint in a context keeps the state of every entry
of the table. -/
theorem plant_breakpoint_in_context_keeps (s : Agent) (bp : BreakpointInfo) (ctx : Context)
    (address : Nat) (c : Nat × List Nat × Nat × Bool × Bool)
    (h : c ∈ s.instructions.map instruction_state) :
    c ∈ (plant_breakpoint_in_context s bp ctx address).1.instructions.map instruction_state := by
  rcases plant_breakpoint_in_context_map instruction_state s bp ctx address
    (fun _ _ _ => rfl) (fun _ _ _ => rfl) with hm | ⟨_, hm⟩
  · rw [hm]
    exact h
  · rw [hm]
    exact List.mem_append_left _ h

/-- A replant pass takes a table of consistent entries to a table whose
entries are in the state of a quiescent point, and keeps every entry that is
being skipped, in its state. -/
theorem event_replant_breakpoints_usable (sv : Services) (s : Agent)
    (h : ∀ bi ∈ s.instructions, planted_consistent bi) :
    (∀ bi ∈ (event_replant_breakpoints sv s).instructions, planted_iff_usable bi) ∧
    (∀ bi ∈ s.instructions, bi.skip = true →
      ∃ bi1 ∈ (event_replant_breakpoints sv s).instructions,
        instruction_state bi1 = instruction_state bi) := by
  have hclear : (clear_instruction_refs { s with replanting := false }).instructions.map
      instruction_state = s.instructions.map instruction_state := by
    simp only [clear_instruction_refs, List.map_map]
    rfl
  have h1 : ∀ bi ∈ (clear_instruction_refs { s with replanting := false }).instructions,
      planted_consistent bi :=
    forall_of_map_eq instruction_state planted_consistent _ _ []
      (by rw [hclear, List.append_nil]) planted_consistent_congr h (fun b hb => by cases hb)
  have h2 := (replant_loop_preserves sv (fun _ l => ∀ bi ∈ l, planted_consistent bi)
    (fun s bp ctx a hq _ _ => plant_breakpoint_in_context_consistent s bp ctx a hq)
    (clear_instruction_refs { s with replanting := false }).breakpoints
    (clear_instruction_refs { s with replanting := false }) h1).1
  refine ⟨?_, fun bi hbi hs => ?_⟩
  · unfold event_replant_breakpoints delete_unused_instructions
    exact delete_unused_loop_usable _ _ h2
  · have h3 := (replant_loop_preserves sv
      (fun _ l => instruction_state bi ∈ l.map instruction_state)
      (fun s bp ctx a hq _ _ => plant_breakpoint_in_context_keeps s bp ctx a _ hq)
      (clear_instruction_refs { s with replanting := false }).breakpoints
      (clear_instruction_refs { s with replanting := false })
      (by
        show instruction_state bi ∈ (clear_instruction_refs
          { s with replanting := false }).instructions.map instruction_state
        rw [hclear]
        exact List.mem_map_of_mem _ hbi)).1
    obtain ⟨b1, hb1, hc1⟩ := List.mem_map.mp h3
    have hs1 : b1.skip = true := by
      unfold instruction_state at hc1
      simp only [Prod.mk.injEq] at hc1
      rw [hc1.2.2.2.1]
      exact hs
    refine ⟨b1, ?_, hc1⟩
    unfold event_replant_breakpoints delete_unused_instructions
    exact delete_unused_loop_skip _ _ b1 hb1 hs1

/-! ## The commands leave the table of break instructions alone -/

theorem remove_breakpoint_instructions (s : Agent) (n : Nat) :
    (remove_breakpoint s n).instructions = s.instructions := by
  unfold remove_breakpoint
  split
  · rfl
  · simp only
    split
    · rw [replant_breakpoints_instructions]
      rfl
    · rfl

theorem remove_ref_instructions (s : Agent) (k : Nat) :
    (remove_ref s k).instructions = s.instructions := by
  unfold remove_ref
  split
  · rfl
  · simp only
    split
    · split
      · rw [remove_breakpoint_instructions]
      · rfl
    · rfl

theorem delete_breakpoint_refs_instructions (s : Agent) (c : Nat) :
    (delete_breakpoint_refs s c).instructions = s.instructions := by
  unfold delete_breakpoint_refs
  apply foldl_preserves _ Agent.instructions
  intro t br
  split
  · exact remove_ref_instructions _ _
  · rfl

theorem enable_breakpoint_instructions (s : Agent) (id : String) :
    (enable_breakpoint s id).instructions = s.instructions := by
  unfold enable_breakpoint
  split
  · rfl
  · split
    · rfl
    · split
      · simp only [send_instructions, apply_ite Agent.instructions,
          replant_breakpoints_instructions, ite_self]
      · rfl

theorem disable_breakpoint_instructions (s : Agent) (id : String) :
    (disable_breakpoint s id).instructions = s.instructions := by
  unfold disable_breakpoint
  split
  · rfl
  · split
    · rfl
    · split
      · simp only [send_instructions, apply_ite Agent.instructions,
          replant_breakpoints_instructions, ite_self]
      · rfl

theorem remove_breakpoint_id_instructions (c : Nat) (s : Agent) (id : String) :
    (remove_breakpoint_id c s id).instructions = s.instructions := by
  unfold remove_breakpoint_id
  split
  · rfl
  · split
    · exact remove_ref_instructions _ _
    · rfl

theorem command_ini_bps_instructions (s : Agent) (token : String) (c : Nat)
    (arg : Option (List BreakpointInfo)) :
    (command_ini_bps s token c arg).instructions = s.instructions := by
  unfold command_ini_bps
  simp only [send_instructions]
  rw [foldl_preserves _ Agent.instructions (fun t bp => add_breakpoint_instructions t c bp),
    delete_breakpoint_refs_instructions]
  apply foldl_preserves _ Agent.instructions
  intro t bp
  split
  · rfl
  · rfl

/-- A step of the engine that is not a replant pass leaves the table of break
instructions as it is. -/
theorem step_instructions (s s1 : Agent) (h : Step s s1) :
    s1.instructions = s.instructions ∨ ∃ sv, s1 = event_replant_breakpoints sv s := by
  cases h with
  | set token c arg => exact Or.inl (command_ini_bps_instructions s token c arg)
  | add token c bp => exact Or.inl (add_breakpoint_instructions s c bp)
  | change token c bp => exact Or.inl (add_breakpoint_instructions s c bp)
  | enable token c ids =>
    exact Or.inl (foldl_preserves _ Agent.instructions enable_breakpoint_instructions _ s)
  | disable token c ids =>
    exact Or.inl (foldl_preserves _ Agent.instructions disable_breakpoint_instructions _ s)
  | remove token c ids =>
    exact Or.inl (foldl_preserves _ Agent.instructions
      (remove_breakpoint_id_instructions c) _ s)
  | replant sv => exact Or.inr ⟨sv, rfl⟩
  | context contexts target => exact Or.inl rfl

/-- The entry that `safe_skip_breakpoint` stores back satisfies the invariant
of a quiescent point. -/
theorem skip_entry_usable (s : Agent) (bi : BreakInstruction) (hk : planted_iff_usable bi)
    (hs : bi.skip = false) :
    planted_iff_usable
      (if (if bi.planted = true then remove_instruction s bi else (bi, s)).1.error ≠ 0 then
        (if bi.planted = true then remove_instruction s bi else (bi, s)).1
      else { (if bi.planted = true then remove_instruction s bi else (bi, s)).1 with
        skip := true }) ∧
    (if bi.planted = true then remove_instruction s bi else (bi, s)).2.instructions
      = s.instructions := by
  obtain ⟨r1, _, r3, _, r5⟩ := remove_instruction_state s bi
  by_cases hp : bi.planted = true
  · simp only [if_pos hp]
    refine ⟨?_, r5⟩
    by_cases he : (remove_instruction s bi).1.error ≠ 0
    · rw [if_pos he]
      refine ⟨⟨fun h => ?_, fun h => absurd h.2 he⟩, fun h => ?_⟩
      · rw [r3] at h
        cases h
      · rw [r1, hs] at h
        cases h
    · rw [if_neg he]
      refine ⟨⟨fun h => ?_, fun h => (by cases h.1)⟩, fun _ => ⟨r3, not_not.mp he⟩⟩
      have : (remove_instruction s bi).1.planted = true := h
      rw [r3] at this
      cases this
  · have hp0 : bi.planted = false := by
      cases hb : bi.planted with
      | false => rfl
      | true => exact absurd hb hp
    simp only [if_neg hp]
    refine ⟨?_, trivial⟩
    by_cases he : bi.error ≠ 0
    · rw [if_pos he]
      exact hk
    · rw [if_neg he]
      refine ⟨⟨fun h => ?_, fun h => (by cases h.1)⟩, fun _ => ⟨hp0, not_not.mp he⟩⟩
      have : bi.planted = true := h
      exact absurd this hp

theorem usable_set (l : List BreakInstruction) (n : Nat) (x : BreakInstruction)
    (h : ∀ bi ∈ l, planted_iff_usable bi) (hx : planted_iff_usable x) :
    ∀ bi ∈ l.set n x, planted_iff_usable bi := by
  intro bi hbi
  rcases mem_set_cases l n x bi hbi with e | e
  · rw [e]
    exact hx
  · exact h bi e

/-- The first block of `safe_skip_breakpoint` keeps the invariant of a
quiescent point. -/
theorem skip_instruction_usable (s : Agent) (sb : SkipBreakpointInfo)
    (h : ∀ bi ∈ s.instructions, planted_iff_usable bi) :
    ∀ bi ∈ (skip_instruction s sb).1.instructions, planted_iff_usable bi := by
  unfold skip_instruction
  split
  · cases hf : find_instruction s (s.ctx sb.ctx) sb.address with
    | mk r s1 =>
      cases r with
      | none =>
        have := find_instruction_none _ _ _ _ hf
        subst this
        exact h
      | some n =>
        obtain ⟨bi, hbi, _, _, hs1, hn1⟩ := find_instruction_entry _ _ _ _ _ hf
        have hk1 : planted_iff_usable { bi with ctx := owner_after_find s (s.ctx sb.ctx) bi } :=
          planted_iff_usable_congr bi _ rfl (h bi (List.mem_iff_getElem?.mpr ⟨n, hbi⟩))
        have hall1 : ∀ b ∈ s1.instructions, planted_iff_usable b := by
          rw [hs1]
          exact usable_set _ _ _ h hk1
        simp only [hn1, Option.getD_some]
        by_cases hskip : bi.skip = false
        · rw [if_pos hskip]
          obtain ⟨e1, e2⟩ := skip_entry_usable s1
            { bi with ctx := owner_after_find s (s.ctx sb.ctx) bi } hk1 hskip
          generalize (if bi.planted = true then remove_instruction s1
            { bi with ctx := owner_after_find s (s.ctx sb.ctx) bi }
            else ({ bi with ctx := owner_after_find s (s.ctx sb.ctx) bi }, s1)) = r at e1 e2 ⊢
          by_cases he : r.1.error ≠ 0
          · rw [if_pos he] at e1 ⊢
            show ∀ b ∈ r.2.instructions.set n r.1, planted_iff_usable b
            rw [e2]
            exact usable_set _ _ _ hall1 e1
          · rw [if_neg he] at e1 ⊢
            show ∀ b ∈ r.2.instructions.set n { r.1 with skip := true }, planted_iff_usable b
            rw [e2]
            exact usable_set _ _ _ hall1 e1
        · rw [if_neg hskip]
          exact hall1
  · exact h

theorem safe_skip_breakpoint_usable (s : Agent) (sb : SkipBreakpointInfo) (step : Nat)
    (h : ∀ bi ∈ s.instructions, planted_iff_usable bi) :
    ∀ bi ∈ (safe_skip_breakpoint s sb step).agent.instructions, planted_iff_usable bi := by
  have h1 := skip_instruction_usable s sb h
  unfold safe_skip_breakpoint
  simp only
  split
  · split
    · exact h1
    · split
      · exact h1
      · exact h1
  · exact h1

theorem safe_restore_breakpoint_usable (s : Agent) (sb : SkipBreakpointInfo)
    (h : ∀ bi ∈ s.instructions, planted_iff_usable bi) :
    ∀ bi ∈ (safe_restore_breakpoint s sb).agent.instructions, planted_iff_usable bi := by
  unfold safe_restore_breakpoint
  cases hf : find_instruction s (s.ctx sb.ctx) sb.address with
  | mk r s1 =>
    cases r with
    | none =>
      have := find_instruction_none _ _ _ _ hf
      subst this
      exact h
    | some n =>
      obtain ⟨bi, hbi, _, _, hs1, hn1⟩ := find_instruction_entry _ _ _ _ _ hf
      have hk1 : planted_iff_usable { bi with ctx := owner_after_find s (s.ctx sb.ctx) bi } :=
        planted_iff_usable_congr bi _ rfl (h bi (List.mem_iff_getElem?.mpr ⟨n, hbi⟩))
      have hall1 : ∀ b ∈ s1.instructions, planted_iff_usable b := by
        rw [hs1]
        exact usable_set _ _ _ h hk1
      simp only [hn1, Option.getD_some]
      split
      · show ∀ b ∈ List.set _ n _, planted_iff_usable b
        rw [(plant_instruction_state _ _).2.2.2]
        exact usable_set _ _ _ hall1 (plant_instruction_usable _ _ rfl)
      · exact hall1

/-- The invariant of a quiescent point holds at every quiescent point. -/
theorem quiescent_usable (s : Agent) (h : Quiescent s) :
    ∀ bi ∈ s.instructions, planted_iff_usable bi := by
  induction h with
  | init break_inst contexts target =>
    intro bi hbi
    cases hbi
  | step s s1 _ hstep ih =>
    cases hstep with
    | engine _ h =>
      rcases step_instructions s s1 h with e | ⟨sv, e⟩
      · rw [e]
        exact ih
      · rw [e]
        exact (event_replant_breakpoints_usable sv s
          (fun bi hbi => planted_iff_usable_consistent bi (ih bi hbi))).1
    | lookup ctx =>
      exact forall_of_map_eq instruction_state planted_iff_usable _ _ []
        (by rw [(skip_breakpoint_map instruction_state s ctx (fun _ _ _ => rfl)).1,
          List.append_nil]) planted_iff_usable_congr ih
        (fun b hb => by cases hb)
    | skip sb step => exact safe_skip_breakpoint_usable s sb step ih
    | restore sb => exact safe_restore_breakpoint_usable s sb ih

/-- Among distinct contexts, the id of a context denotes it. -/
theorem find_of_wf (cs : List Context) (h : contexts_wf cs) (c : Context) (hc : c ∈ cs) :
    cs.find? (fun x => x.id == c.id) = some c := by
  unfold contexts_wf at h
  induction cs with
  | nil => cases hc
  | cons x l ih =>
    rw [List.map_cons, List.nodup_cons] at h
    rcases List.mem_cons.mp hc with e | e
    · subst e
      simp [List.find?]
    · have hne : (x.id == c.id) = false := by
        simp only [beq_eq_false_iff_ne, ne_eq]
        intro hx
        exact h.1 (by rw [hx]; exact List.mem_map_of_mem _ e)
      rw [List.find?, hne]
      exact ih h.2 e

theorem ctx_of_wf (s : Agent) (h : contexts_wf s.contexts) (c : Context) (hc : c ∈ s.contexts) :
    s.ctx c.id = c := by
  unfold Agent.ctx
  rw [find_of_wf _ h c hc]
  rfl

theorem mem_of_wf (cs : List Context) (h : contexts_wf cs) (c : Context) (hc : c ∈ cs) :
    mem_of cs c.id = c.mem := by
  unfold mem_of
  rw [find_of_wf _ h c hc]
  rfl

/-- The keys of the table after `plant_breakpoint_in_context` are distinct if
they were. -/
theorem plant_breakpoint_in_context_keys (s : Agent) (bp : BreakpointInfo) (ctx : Context)
    (address : Nat) (hwf : contexts_wf s.contexts)
    (h : (s.instructions.map (instruction_key s.contexts)).Nodup) (hc : ctx ∈ s.contexts) :
    ((plant_breakpoint_in_context s bp ctx address).1.instructions.map
      (instruction_key s.contexts)).Nodup := by
  have hm := mem_of_wf _ hwf ctx hc
  rcases plant_breakpoint_in_context_map (instruction_key s.contexts) s bp ctx address
    (fun _ _ _ => rfl)
    (fun bi _ hb => by
      unfold instruction_key
      simp only [hm]
      rw [← hb]
      rfl) with e | ⟨hn, e⟩
  · rw [e]
    exact h
  · rw [e]
    apply List.Nodup.append h (List.nodup_singleton _)
    intro k hk hk1
    rw [List.mem_singleton] at hk1
    obtain ⟨bi, hbi, hkey⟩ := List.mem_map.mp hk
    rw [hk1] at hkey
    unfold instruction_key at hkey
    simp only [Prod.mk.injEq, hm] at hkey
    exact hn bi hbi hkey

theorem plant_instruction_key (s : Agent) (bi : BreakInstruction) :
    (plant_instruction s bi).1.ctx = bi.ctx ∧ (plant_instruction s bi).1.address = bi.address := by
  unfold plant_instruction
  simp only
  cases hr : context_read_mem s (s.ctx bi.ctx) bi.address (BREAK_SIZE s) with
  | error e => exact ⟨rfl, rfl⟩
  | ok code =>
    simp only
    cases hw : context_write_mem s (s.ctx bi.ctx) bi.address s.BREAK_INST (BREAK_SIZE s) with
    | error e => exact ⟨rfl, rfl⟩
    | ok s2 => exact ⟨rfl, rfl⟩

theorem remove_instruction_key (s : Agent) (bi : BreakInstruction) :
    (remove_instruction s bi).1.ctx = bi.ctx ∧
    (remove_instruction s bi).1.address = bi.address := by
  unfold remove_instruction
  split
  · cases hw : context_write_mem s (s.ctx bi.ctx) bi.address bi.saved_code (BREAK_SIZE s) with
    | error e => exact ⟨rfl, rfl⟩
    | ok s2 => exact ⟨rfl, rfl⟩
  · exact ⟨rfl, rfl⟩

/-- The keys of the entries that the replant pass keeps are, in their order,
among the keys of the table. -/
theorem delete_unused_loop_keys (cs : List Context) (l : List BreakInstruction) :
    ∀ s : Agent, List.Sublist ((delete_unused_loop l s).1.map (instruction_key cs))
      (l.map (instruction_key cs)) := by
  have hp : ∀ (s : Agent) (bi : BreakInstruction),
      instruction_key cs (plant_instruction s bi).1 = instruction_key cs bi := by
    intro s bi
    unfold instruction_key
    rw [(plant_instruction_key s bi).1, (plant_instruction_key s bi).2]
  have hr : ∀ (s : Agent) (bi : BreakInstruction),
      instruction_key cs (remove_instruction s bi).1 = instruction_key cs bi := by
    intro s bi
    unfold instruction_key
    rw [(remove_instruction_key s bi).1, (remove_instruction_key s bi).2]
  induction l with
  | nil =>
    intro s
    simp [delete_unused_loop]
  | cons b l ih =>
    intro s
    unfold delete_unused_loop
    split
    · simp only [List.map_cons]
      exact List.Sublist.cons₂ _ (ih s)
    · split
      · split
        · simp only [List.map_cons]
          exact List.Sublist.cons _ (ih _)
        · simp only [List.map_cons]
          exact List.Sublist.cons _ (ih _)
      · split
        · simp only [List.map_cons, hp]
          exact List.Sublist.cons₂ _ (ih _)
        · split
          · simp only [List.map_cons, hp, hr]
            exact List.Sublist.cons₂ _ (ih _)
          · simp only [List.map_cons]
            exact List.Sublist.cons₂ _ (ih _)

/-- A replant pass keeps the contexts, and keeps the keys of the table
distinct. -/
theorem event_replant_breakpoints_keys (sv : Services) (s : Agent)
    (hwf : contexts_wf s.contexts) (h : (s.instructions.map (instruction_key s.contexts)).Nodup) :
    (event_replant_breakpoints sv s).contexts = s.contexts ∧
    ((event_replant_breakpoints sv s).instructions.map (instruction_key s.contexts)).Nodup := by
  have hclear : (clear_instruction_refs { s with replanting := false }).instructions.map
      (instruction_key s.contexts) = s.instructions.map (instruction_key s.contexts) := by
    simp only [clear_instruction_refs, List.map_map]
    rfl
  have h2 := replant_loop_preserves sv
    (fun cs l => contexts_wf cs ∧ (l.map (instruction_key cs)).Nodup)
    (fun s bp ctx a hq hc _ => ⟨hq.1, plant_breakpoint_in_context_keys s bp ctx a hq.1 hq.2 hc⟩)
    (clear_instruction_refs { s with replanting := false }).breakpoints
    (clear_instruction_refs { s with replanting := false })
    ⟨hwf, by
      show ((clear_instruction_refs { s with replanting := false }).instructions.map
        (instruction_key s.contexts)).Nodup
      rw [hclear]
      exact h⟩
  obtain ⟨⟨_, h3⟩, h4⟩ := h2
  have h5 := (delete_unused_loop_frame
    (replant_loop sv (clear_instruction_refs { s with replanting := false }).breakpoints
      (clear_instruction_refs { s with replanting := false })).2.instructions
    { (replant_loop sv (clear_instruction_refs { s with replanting := false }).breakpoints
        (clear_instruction_refs { s with replanting := false })).2 with
      breakpoints := (replant_loop sv
        (clear_instruction_refs { s with replanting := false }).breakpoints
        (clear_instruction_refs { s with replanting := false })).1 }).2.2.1
  constructor
  · unfold event_replant_breakpoints delete_unused_instructions
    exact h5.trans h4
  · unfold event_replant_breakpoints delete_unused_instructions
    exact List.Nodup.sublist (delete_unused_loop_keys s.contexts _ _) h3

theorem instruction_key_home (s : Agent) (hwf : contexts_wf s.contexts) (ctx : Context)
    (hc : ctx ∈ s.contexts) :
    ∀ bi ∈ s.instructions, (s.ctx bi.ctx).mem = ctx.mem →
      instruction_key s.contexts { bi with ctx := ctx.id } = instruction_key s.contexts bi := by
  intro bi _ hb
  unfold instruction_key
  simp only [mem_of_wf _ hwf ctx hc]
  rw [← hb]
  rfl

/-- A store through a `Context *` that keeps the id and the memory space of
the object keeps the contexts distinct and the memory space of every id. -/
theorem put_context_wf (s : Agent) (hwf : contexts_wf s.contexts) (c : Context)
    (hc : c ∈ s.contexts) (c1 : Context) (hid : c1.id = c.id) (hmem : c1.mem = c.mem) :
    contexts_wf (s.put_context c1).contexts ∧
    ∀ id, mem_of (s.put_context c1).contexts id = mem_of s.contexts id := by
  constructor
  · unfold contexts_wf Agent.put_context
    simp only [List.map_map]
    have : ((fun c => c.id) ∘ fun c0 : Context => if c0.id = c1.id then c1 else c0) =
        fun c => c.id := by
      funext c0
      simp only [Function.comp]
      split
      · rename_i h
        exact h.symm
      · rfl
    rw [this]
    exact hwf
  · intro id
    apply find_put_mem c1 id s.contexts
    intro x hx hxi
    have hx1 := find_of_wf _ hwf x hx
    have hc1 := find_of_wf _ hwf c hc
    rw [hxi, hid] at hx1
    rw [hx1] at hc1
    simp only [Option.some.injEq] at hc1
    rw [hc1, hmem]

/-- The contexts stay distinct and the keys of the table stay distinct along
the steps of `TableStep`. -/
theorem table_step_keys (s s1 : Agent) (hs : TableStep s s1)
    (hwf : contexts_wf s.contexts) (h : (s.instructions.map (instruction_key s.contexts)).Nodup) :
    contexts_wf s1.contexts ∧ (s1.instructions.map (instruction_key s1.contexts)).Nodup := by
  have hrem : ∀ (cs : List Context) (t : Agent) (bi : BreakInstruction),
      instruction_key cs (remove_instruction t bi).1 = instruction_key cs bi := by
    intro cs t bi
    unfold instruction_key
    rw [(remove_instruction_key t bi).1, (remove_instruction_key t bi).2]
  have hpl : ∀ (cs : List Context) (t : Agent) (bi : BreakInstruction),
      instruction_key cs (plant_instruction t bi).1 = instruction_key cs bi := by
    intro cs t bi
    unfold instruction_key
    rw [(plant_instruction_key t bi).1, (plant_instruction_key t bi).2]
  cases hs with
  | plant bp ctx address hc he =>
    have hcs := (plant_breakpoint_in_context_step s bp ctx address).2.1.2.1
    rw [hcs]
    exact ⟨hwf, plant_breakpoint_in_context_keys s bp ctx address hwf h hc⟩
  | replant sv =>
    obtain ⟨e1, e2⟩ := event_replant_breakpoints_keys sv s hwf h
    rw [e1]
    exact ⟨hwf, e2⟩
  | lookup ctx hc =>
    obtain ⟨e1, e2⟩ := skip_breakpoint_map (instruction_key s.contexts) s ctx
      (instruction_key_home s hwf ctx hc)
    rw [e2, e1]
    exact ⟨hwf, h⟩
  | skip sb step hc =>
    obtain ⟨c, hc1, hc2⟩ := hc
    have hctx : s.ctx sb.ctx = c := by
      rw [← hc2]
      exact ctx_of_wf s hwf c hc1
    obtain ⟨e1, e2⟩ := skip_instruction_map (instruction_key s.contexts) s sb
      (by rw [hctx]; exact instruction_key_home s hwf c hc1)
      (hrem s.contexts) (fun _ _ => rfl)
    have base : contexts_wf (skip_instruction s sb).1.contexts ∧
        ((skip_instruction s sb).1.instructions.map
          (instruction_key (skip_instruction s sb).1.contexts)).Nodup := by
      rw [e2, e1]
      exact ⟨hwf, h⟩
    unfold safe_skip_breakpoint
    simp only
    split
    · split
      · exact base
      · split
        · have hc3 : c ∈ (skip_instruction s sb).1.contexts := by
            rw [e2]
            exact hc1
          have hctx1 : (skip_instruction s sb).1.ctx sb.ctx = c := by
            unfold Agent.ctx
            rw [e2]
            exact hctx
          obtain ⟨w1, w2⟩ := put_context_wf (skip_instruction s sb).1 base.1 c hc3
            { (skip_instruction s sb).1.ctx sb.ctx with pending_intercept := true }
            (by rw [hctx1]) (by rw [hctx1])
          refine ⟨w1, ?_⟩
          have hk : (fun bi => instruction_key ((skip_instruction s sb).1.put_context
              { (skip_instruction s sb).1.ctx sb.ctx with pending_intercept := true }).contexts
              bi) = instruction_key (skip_instruction s sb).1.contexts := by
            funext bi
            unfold instruction_key
            rw [w2]
          show (((skip_instruction s sb).1.instructions).map (fun bi => instruction_key
            ((skip_instruction s sb).1.put_context
              { (skip_instruction s sb).1.ctx sb.ctx with pending_intercept := true }).contexts
              bi)).Nodup
          rw [hk]
          exact base.2
        · exact base
    · exact base
  | restore sb hc =>
    obtain ⟨c, hc1, hc2⟩ := hc
    have hctx : s.ctx sb.ctx = c := by
      rw [← hc2]
      exact ctx_of_wf s hwf c hc1
    obtain ⟨e1, e2⟩ := safe_restore_breakpoint_map (instruction_key s.contexts) s sb
      (by rw [hctx]; exact instruction_key_home s hwf c hc1)
      (hpl s.contexts) (fun _ _ => rfl)
    rw [e2, e1]
    exact ⟨hwf, h⟩
  | registry _ hi hc =>
    rw [hc, hi]
    exact ⟨hwf, h⟩
  | context contexts target hwf1 hmem =>
    refine ⟨hwf1, ?_⟩
    have : s.instructions.map (instruction_key contexts) =
        s.instructions.map (instruction_key s.contexts) := by
      apply List.map_congr_left
      intro bi hbi
      unfold instruction_key
      rw [hmem bi hbi]
    show (s.instructions.map (instruction_key contexts)).Nodup
    rw [this]
    exact h

theorem table_reachable_keys (s : Agent) (h : TableReachable s) :
    contexts_wf s.contexts ∧ (s.instructions.map (instruction_key s.contexts)).Nodup := by
  induction h with
  | init break_inst contexts target hwf => exact ⟨hwf, List.nodup_nil⟩
  | step s s1 _ hstep ih => exact table_step_keys s s1 hstep ih.1 ih.2

/-- The byte-select loop over a list of offsets: bit `k` of the result is set
when it was set before or `k = 5 + j` for an offset `j` of the list whose byte
lies in the watched range. -/
theorem byte_select_fold (w vr : Nat) (cb : ContextBreakpoint) (l : List Nat) (cr k : Nat) :
    (l.foldl (fun cr j =>
      if add32 vr j < cb.address then cr
      else if add32 vr j ≥ address_add w cb.address cb.length then cr
      else cr ||| (1 <<< (5 + j))) cr).testBit k = true ↔
      (cr.testBit k = true ∨
        ∃ j ∈ l, k = 5 + j ∧ cb.address ≤ add32 vr j ∧
          add32 vr j < address_add w cb.address cb.length) := by
  induction l generalizing cr with
  | nil => simp
  | cons j l ih =>
    rw [List.foldl_cons, ih]
    by_cases h1 : add32 vr j < cb.address
    · simp only [h1, if_true, List.mem_cons, exists_eq_or_imp]
      constructor
      · rintro (h | h)
        · exact Or.inl h
        · exact Or.inr (Or.inr h)
      · rintro (h | h | h)
        · exact Or.inl h
        · omega
        · exact Or.inr h
    · by_cases h2 : add32 vr j ≥ address_add w cb.address cb.length
      · simp only [h1, h2, if_true, if_false, List.mem_cons, exists_eq_or_imp]
        constructor
        · rintro (h | h)
          · exact Or.inl h
          · exact Or.inr (Or.inr h)
        · rintro (h | h | h)
          · exact Or.inl h
          · omega
          · exact Or.inr h
      · simp only [h1, h2, if_false, List.mem_cons, exists_eq_or_imp, testBit_or_shift]
        constructor
        · rintro ((h | h) | h)
          · exact Or.inl h
          · exact Or.inr (Or.inl ⟨h, by omega, by omega⟩)
          · exact Or.inr (Or.inr h)
        · rintro (h | h | h)
          · exact Or.inl (Or.inl h)
          · exact Or.inl (Or.inr h.1)
          · exact Or.inr h

/-- Bit `5 + j` of the byte-select mask of a watchpoint is set exactly when the
byte `vr + j` lies in the watched range. -/
theorem byte_select_testBit (w vr : Nat) (cb : ContextBreakpoint) (j : Nat) (hj : j < 4) :
    (byte_select w vr cb).testBit (5 + j) = true ↔
      (cb.address ≤ add32 vr j ∧ add32 vr j < address_add w cb.address cb.length) := by
  unfold byte_select
  rw [byte_select_fold]
  simp only [Nat.zero_testBit, Bool.false_eq_true, false_or, List.mem_range]
  constructor
  · rintro ⟨i, _, hi, h⟩
    have : i = j := by omega
    subst this
    exact h
  · intro h
    exact ⟨j, hj, rfl, h⟩

/-- The bytes that the byte-select mask of a watchpoint enables are the bytes
of the aligned word at `vr` that lie in the watched range: a byte of the range
beyond the word is not among them. -/
theorem enabled_bytes_byte_select (w vr : Nat) (cb : ContextBreakpoint) (a : Nat) :
    a ∈ enabled_bytes vr (byte_select w vr cb) ↔
      ∃ j, j < 4 ∧ a = vr + j ∧ cb.address ≤ add32 vr j ∧
        add32 vr j < address_add w cb.address cb.length := by
  unfold enabled_bytes
  simp only [List.mem_map, List.mem_filter, List.mem_range]
  constructor
  · rintro ⟨j, ⟨hj, hb⟩, rfl⟩
    exact ⟨j, hj, rfl, (byte_select_testBit w vr cb j hj).mp hb⟩
  · rintro ⟨j, hj, rfl, h⟩
    exact ⟨j, ⟨hj, (byte_select_testBit w vr cb j hj).mpr h⟩, rfl⟩

/-- The immediate form of operand 2 in `arm_get_next_data_processing`: the
8-bit constant rotated right by twice the 4-bit rotation. -/
theorem arm_operand2_immediate (t : ArmContext) (arm_instr arm_cpsr : Nat)
    (hI : arm_instr &&& 0x02000000 ≠ 0) :
    arm_operand2 t arm_instr arm_cpsr =
      .ok (some (if (arm_instr &&& 0xf00) >>> 8 = 0 then arm_instr &&& 0xff
        else ror32 (arm_instr &&& 0xff) (2 * ((arm_instr &&& 0xf00) >>> 8)))) := by
  have e1 : (arm_instr &&& 0x00000fff) &&& 0x0f00 = arm_instr &&& 0xf00 := by
    rw [Nat.and_assoc]
    rfl
  have e2 : (arm_instr &&& 0x00000fff) &&& 0x00ff = arm_instr &&& 0xff := by
    rw [Nat.and_assoc]
    rfl
  have hr : (arm_instr &&& 0xf00) >>> 8 < 16 := by
    rw [Nat.shiftRight_eq_div_pow]
    have : arm_instr &&& 0xf00 ≤ 0xf00 := Nat.and_le_right
    omega
  have hc : arm_instr &&& 0xff < 2 ^ 32 :=
    Nat.lt_of_le_of_lt Nat.and_le_right (by decide)
  unfold arm_operand2
  simp only [decide_eq_true hI, if_true, e1, e2]
  generalize (arm_instr &&& 0xf00) >>> 8 = rot at hr ⊢
  generalize arm_instr &&& 0xff = c at hc ⊢
  have hm : rot * 2 % 256 = 2 * rot := by omega
  rw [hm]
  by_cases h0 : rot = 0
  · subst h0
    rw [if_pos rfl]
    have : shl32 c (32 - 2 * 0) = 0 := by
      unfold shl32
      rw [if_neg (by decide)]
    rw [this, Nat.or_zero, shr32_eq c _ hc (by decide)]
    simp
  · rw [if_neg h0, ror32_code c (2 * rot) hc (by omega) (by omega)]

/-- The register form of operand 2 with an immediate shift in
`arm_get_next_data_processing`: the ARM shifter applied to the value of Rm. -/
theorem arm_operand2_shift_immediate (t : ArmContext) (arm_instr arm_cpsr mval : Nat)
    (hI : arm_instr &&& 0x02000000 = 0) (h4 : arm_instr &&& 0x10 = 0)
    (hm : arm_read_reg t (arm_instr &&& 0xf) = .ok mval) :
    arm_operand2 t arm_instr arm_cpsr =
      .ok (some (arm_shift_by_immediate (decide (arm_cpsr &&& (1 <<< 29) ≠ 0))
        ((arm_instr &&& 0x60) >>> 5) ((arm_instr &&& 0xf80) >>> 7) mval)) := by
  have e1 : (arm_instr &&& 0x00000fff) &&& 0x000f = arm_instr &&& 0xf := by
    rw [Nat.and_assoc]
    rfl
  have e2 : (arm_instr &&& 0x00000fff) &&& 0x0010 = arm_instr &&& 0x10 := by
    rw [Nat.and_assoc]
    rfl
  have e3 : (arm_instr &&& 0x00000fff) &&& 0x0060 = arm_instr &&& 0x60 := by
    rw [Nat.and_assoc]
    rfl
  have e4 : (arm_instr &&& 0x00000fff) &&& 0x0f80 = arm_instr &&& 0xf80 := by
    rw [Nat.and_assoc]
    rfl
  have ht : (arm_instr &&& 0x60) >>> 5 < 4 := by
    rw [Nat.shiftRight_eq_div_pow]
    have : arm_instr &&& 0x60 ≤ 0x60 := Nat.and_le_right
    omega
  have hi : (arm_instr &&& 0xf80) >>> 7 < 32 := by
    rw [Nat.shiftRight_eq_div_pow]
    have : arm_instr &&& 0xf80 ≤ 0xf80 := Nat.and_le_right
    omega
  have hr : (arm_instr &&& 0xf) % 256 = arm_instr &&& 0xf := by
    have : arm_instr &&& 0xf ≤ 0xf := Nat.and_le_right
    omega
  have hv := arm_read_reg_lt t _ _ hm
  rw [← arm_calc_shift_arch arm_cpsr _ _ mval hv hi ht]
  unfold arm_operand2
  simp only [e1, e2, e3, e4, h4, hI, hr, hm, ne_eq, not_true_eq_false, decide_False,
    Bool.false_eq_true, if_false, Nat.mod_eq_of_lt (Nat.lt_trans ht (by decide : 4 < 256))]
  generalize (arm_instr &&& 0x60) >>> 5 = st at ht ⊢
  generalize (arm_instr &&& 0xf80) >>> 7 = imm5 at hi ⊢
  generalize (arm_instr &&& 0x01e00000) >>> 21 = opcode
  have hs0 : shl32 mval 0 = mval := by
    unfold shl32
    rw [if_pos (by decide), Nat.shiftLeft_zero, Nat.mod_eq_of_lt hv]
  interval_cases st
  · by_cases h0 : imm5 = 0 ∧ opcode = 13
    · simp only [h0, and_self, if_true, arm_calc_shift, hs0]
    · simp only [true_and, h0, if_false, arm_calc_shift]
  · simp only [arm_calc_shift, one_ne_zero, false_and, if_false, true_and]
    by_cases h0 : imm5 = 0
    · simp only [h0, if_true, shr32]
      rfl
    · simp only [h0, if_false]
  · simp only [arm_calc_shift, OfNat.ofNat_ne_zero, false_and, if_false, true_and, ne_eq]
    by_cases h0 : imm5 = 0
    · subst h0
      by_cases hneg : mval &&& 0x80000000 = 0
      · simp only [if_true, hneg, not_true_eq_false, if_false]
      · simp only [if_true, hneg, not_false_eq_true, ge_iff_le, le_refl, gt_iff_lt,
          lt_self_iff_false, if_false, Nat.sub_self, shr32, Nat.zero_or]
        rfl
    · have h32 : ¬ imm5 ≥ 32 := by omega
      have h33 : ¬ imm5 > 32 := by omega
      by_cases hneg : mval &&& 0x80000000 = 0
      · simp only [h0, if_false, hneg, not_true_eq_false]
      · simp only [h0, if_false, hneg, not_false_eq_true, if_true, h32, h33]
  · simp only [arm_calc_shift, OfNat.ofNat_ne_zero, false_and, if_false, true_and, ne_eq]
    by_cases h0 : imm5 = 0
    · by_cases hc : arm_cpsr &&& 1 <<< 29 = 0
      · simp only [h0, if_true, hc, not_true_eq_false, if_false]
      · simp only [h0, if_true, hc, not_false_eq_true]
    · simp only [h0, if_false]

/-- The read check on a table without overlap, before and after the `n`-th
instruction `b1` is taken out of memory: when the raw bytes `raw2` after the
removal hold the saved code of `b1` at the bytes of `b1` and agree with the raw
bytes `raw1` before it elsewhere, both reads give the same bytes; these are the
raw bytes `raw2` outside the other planted instructions and the saved code of
such an instruction inside it. -/
theorem read_check_planted_unplanted (w : Nat) (s : Agent) (ctx : Context) (address size : Nat)
    (l : List BreakInstruction) (n : Nat) (b1 : BreakInstruction) (raw1 raw2 : List Nat)
    (ha : address + size < 2 ^ w) (hb : ∀ b ∈ l, below_top w s ctx b)
    (hno : l.Pairwise (disjoint_instructions s))
    (hn : l[n]? = some b1) (hl1 : raw1.length = size) (hl2 : raw2.length = size)
    (hin : ∀ j, j < size → covers s ctx b1 (address + j) →
      raw2.getD j 0 = b1.saved_code.getD (address + j - b1.address) 0)
    (hout : ∀ j, j < size → ¬ covers s ctx b1 (address + j) → raw1.getD j 0 = raw2.getD j 0) :
    l.foldl (read_instruction w s ctx address size) raw1 =
      (l.set n { b1 with planted := false }).foldl (read_instruction w s ctx address size) raw2 ∧
    (∀ j, j < size →
      (∀ (m : Nat) (b : BreakInstruction), m ≠ n → l[m]? = some b →
        ¬ covers s ctx b (address + j)) →
      (l.foldl (read_instruction w s ctx address size) raw1).getD j 0 = raw2.getD j 0) ∧
    (∀ j, j < size → ∀ (m : Nat) (b : BreakInstruction), m ≠ n → l[m]? = some b →
      covers s ctx b (address + j) →
      (l.foldl (read_instruction w s ctx address size) raw1).getD j 0 =
        b.saved_code.getD (address + j - b.address) 0) := by
  have h2 : ∀ j, j < size →
      (∀ (m : Nat) (b : BreakInstruction), m ≠ n → l[m]? = some b →
        ¬ covers s ctx b (address + j)) →
      (l.foldl (read_instruction w s ctx address size) raw1).getD j 0 = raw2.getD j 0 := by
    intro j hj hoth
    by_cases hc1 : covers s ctx b1 (address + j)
    · rw [foldl_read_instruction_saved w s ctx address size l raw1 j ha hb hno hj
        (by rw [hl1]; exact hj) b1 (List.getElem?_mem hn) hc1]
      exact (hin j hj hc1).symm
    · rw [foldl_read_instruction_unchanged w s ctx address size l raw1 j ha hb]
      · exact hout j hj hc1
      · intro x hx hcx
        obtain ⟨m, hm⟩ := List.mem_iff_getElem?.mp hx
        by_cases hmn : m = n
        · subst hmn
          rw [hn] at hm
          cases hm
          exact hc1 hcx.2
        · exact hoth m x hmn hm hcx.2
  have h3 : ∀ j, j < size → ∀ (m : Nat) (b : BreakInstruction), m ≠ n → l[m]? = some b →
      covers s ctx b (address + j) →
      (l.foldl (read_instruction w s ctx address size) raw1).getD j 0 =
        b.saved_code.getD (address + j - b.address) 0 := by
    intro j hj m b _ hm hc
    exact foldl_read_instruction_saved w s ctx address size l raw1 j ha hb hno hj
      (by rw [hl1]; exact hj) b (List.getElem?_mem hm) hc
  refine ⟨?_, h2, h3⟩
  have hb' : ∀ b ∈ l.set n { b1 with planted := false }, below_top w s ctx b := by
    intro b hbm
    rcases List.mem_or_eq_of_mem_set hbm with hbm | hbm
    · exact hb b hbm
    · intro hp
      rw [hbm] at hp
      cases hp
  have hno' := pairwise_set_unplanted s l n { b1 with planted := false } rfl hno
  apply list_ext_getD
  · rw [foldl_read_instruction_length, foldl_read_instruction_length, hl1, hl2]
  · intro j hj
    rw [foldl_read_instruction_length, hl1] at hj
    by_cases hcov : ∃ (m : Nat) (b : BreakInstruction), m ≠ n ∧ l[m]? = some b ∧
        covers s ctx b (address + j)
    · obtain ⟨m, b, hmn, hm, hc⟩ := hcov
      rw [h3 j hj m b hmn hm hc]
      have hm' : (l.set n { b1 with planted := false })[m]? = some b := by
        rw [List.getElem?_set_ne (Ne.symm hmn)]
        exact hm
      exact (foldl_read_instruction_saved w s ctx address size _ raw2 j ha hb' hno' hj
        (by rw [hl2]; exact hj) b (List.getElem?_mem hm') hc).symm
    · rw [h2 j hj (fun m b hmn hm hc => hcov ⟨m, b, hmn, hm, hc⟩)]
      symm
      apply foldl_read_instruction_unchanged w s ctx address size _ raw2 j ha hb'
      intro x hx hcx
      obtain ⟨m, hm⟩ := List.mem_iff_getElem?.mp hx
      by_cases hmn : m = n
      · subst hmn
        have hlt : m < l.length := by
          rcases Nat.lt_or_ge m l.length with h | h
          · exact h
          · rw [List.getElem?_eq_none h] at hn; cases hn
        rw [List.getElem?_set_self hlt] at hm
        cases hm
        have := hcx.2.1
        cases this
      · rw [List.getElem?_set_ne (Ne.symm hmn)] at hm
        exact hcov ⟨m, x, hmn, hm, hcx.2⟩

/-! ## Claims -/

/-- C1 (the claim fails): in `agentTop` the break instruction planted at
`0xFFFFFFFC` of memory space 1 takes the last four bytes of the 32-bit address
space. A client read of these four bytes returns the bytes of the break
instruction, not the saved code 1, 2, 3, 4: `bi->address + BREAK_SIZE` and
`address + size` wrap to 0 and the instruction is skipped. -/
theorem check_breakpoints_on_memory_read_top :
    agentTop.instructions = [biTop] ∧ biTop.planted = true ∧
    (agentTop.ctx biTop.ctx).mem = ctx1.mem ∧ biTop.address = 0xFFFFFFFC ∧
    biTop.saved_code = [1, 2, 3, 4] ∧ BREAK_SIZE agentTop = 4 ∧
    target_bytes agentTop ctx1.mem 0xFFFFFFFC 4 = [0xf0, 0x01, 0xf0, 0xe7] ∧
    address_add 32 0xFFFFFFFC (BREAK_SIZE agentTop) = 0 ∧
    address_add 32 0xFFFFFFFC 4 = 0 ∧
    check_breakpoints_on_memory_read 32 agentTop ctx1 0xFFFFFFFC
      (target_bytes agentTop ctx1.mem 0xFFFFFFFC 4) 4 = [0xf0, 0x01, 0xf0, 0xe7] ∧
    (check_breakpoints_on_memory_read 32 agentTop ctx1 0xFFFFFFFC
      (target_bytes agentTop ctx1.mem 0xFFFFFFFC 4) 4).getD 0 0 ≠ biTop.saved_code.getD 0 0 := by
  decide

/-- C1 (amended): for every client buffer `p`, every range
`[address, address + size)` that ends below the top of the address space
(`address + size < 2 ^ w`) and every break-instruction table in which no two
planted instructions of one memory space overlap and every planted instruction
of the memory space of `ctx` ends below the top of the address space,
`check_breakpoints_on_memory_read` returns a buffer of the same length in which
every byte `j` of the range that lies inside a planted instruction `bi` of the
memory space of `ctx` (`address + j = bi.address + k`, `k < BREAK_SIZE`) equals
`bi.saved_code[k]`, and every byte that lies in no such instruction (in
particular every byte of an instruction that is not planted or belongs to
another memory space) is unchanged. -/
theorem check_breakpoints_on_memory_read_spec (w : Nat) (s : Agent) (ctx : Context)
    (address : Nat) (p : List Nat) (size : Nat)
    (htop : address + size < 2 ^ w)
    (hbtop : ∀ bi ∈ s.instructions, bi.planted = true → (s.ctx bi.ctx).mem = ctx.mem →
      bi.address + BREAK_SIZE s < 2 ^ w)
    (hno : s.instructions.Pairwise (fun a b =>
      a.planted = true → b.planted = true → (s.ctx a.ctx).mem = (s.ctx b.ctx).mem →
        a.address + BREAK_SIZE s ≤ b.address ∨ b.address + BREAK_SIZE s ≤ a.address)) :
    (check_breakpoints_on_memory_read w s ctx address p size).length = p.length ∧
    ∀ j, j < p.length →
      (j < size → ∀ bi ∈ s.instructions, bi.planted = true → (s.ctx bi.ctx).mem = ctx.mem →
        ∀ k, k < BREAK_SIZE s → address + j = bi.address + k →
          (check_breakpoints_on_memory_read w s ctx address p size).getD j 0 =
            bi.saved_code.getD k 0) ∧
      ((∀ bi ∈ s.instructions, bi.planted = true → (s.ctx bi.ctx).mem = ctx.mem →
          ∀ k, k < BREAK_SIZE s → ¬ (j < size ∧ address + j = bi.address + k)) →
        (check_breakpoints_on_memory_read w s ctx address p size).getD j 0 = p.getD j 0) := by
  refine ⟨foldl_read_instruction_length _ _ _ _ _ _ _, ?_⟩
  intro j hjl
  constructor
  · intro hj bi hbi hp hm k hk hjk
    have hc : covers s ctx bi (address + j) := ⟨hp, hm, by omega, by omega⟩
    have := foldl_read_instruction_saved w s ctx address size s.instructions p j htop hbtop hno
      hj hjl bi hbi hc
    have e : address + j - bi.address = k := by omega
    rw [e] at this
    exact this
  · intro h
    apply foldl_read_instruction_unchanged w _ _ _ _ _ _ _ htop hbtop
    intro bi hbi hc
    exact h bi hbi hc.2.1 hc.2.2.1 (address + j - bi.address)
      (by have := hc.2.2.2.1; have := hc.2.2.2.2; omega)
      ⟨hc.1, by have := hc.2.2.2.1; omega⟩

/-- Witness of C1 (amended): a four-byte read at address 8 across the instruction
planted at address 10 in `agent1`, with 32-bit addresses. -/
theorem check_breakpoints_on_memory_read_spec_witness :
    (check_breakpoints_on_memory_read 32 agent1 ctx1 8 [8, 9, 0xcc, 11] 4).length = 4 ∧
    (check_breakpoints_on_memory_read 32 agent1 ctx1 8 [8, 9, 0xcc, 11] 4).getD 2 0 = 0x55 ∧
    (check_breakpoints_on_memory_read 32 agent1 ctx1 8 [8, 9, 0xcc, 11] 4).getD 3 0 = 11 := by
  have h := check_breakpoints_on_memory_read_spec 32 agent1 ctx1 8 [8, 9, 0xcc, 11] 4
    (by decide)
    (by
      intro bi hbi _ _
      rw [List.mem_singleton.mp hbi]
      decide)
    (List.pairwise_singleton _ _)
  refine ⟨h.1, ?_, ?_⟩
  · exact (h.2 2 (by decide)).1 (by decide) _ (List.mem_singleton.mpr rfl) rfl rfl 0
      (by decide) (by decide)
  · apply (h.2 3 (by decide)).2
    intro bi hbi _ _ k hk
    rw [List.mem_singleton.mp hbi]
    have : k = 0 := by
      have : BREAK_SIZE agent1 = 1 := rfl
      omega
    subst this
    decide

/-- C2 (the claim fails): in `agentTop` the break instruction planted at
`0xFFFFFFFC` takes the last four bytes of the 32-bit address space. For a
client write of the bytes 9, 9, 9, 9 over these four bytes the write check
leaves the saved code and the buffer as they are (`bi->address + BREAK_SIZE`
and `address + size` wrap to 0 and the instruction is skipped), so that, once
the buffer is written, target memory at the address of the instruction holds
the client's bytes and not the break instruction. -/
theorem check_breakpoints_on_memory_write_top :
    agentTop.instructions = [biTop] ∧ biTop.planted = true ∧
    (agentTop.ctx biTop.ctx).mem = ctx1.mem ∧ biTop.address = 0xFFFFFFFC ∧
    biTop.saved_code = [1, 2, 3, 4] ∧ agentTop.BREAK_INST = [0xf0, 0x01, 0xf0, 0xe7] ∧
    target_bytes agentTop ctx1.mem 0xFFFFFFFC 4 = [0xf0, 0x01, 0xf0, 0xe7] ∧
    (check_breakpoints_on_memory_write 32 agentTop ctx1 0xFFFFFFFC [9, 9, 9, 9] 4).1.instructions =
      [biTop] ∧
    (check_breakpoints_on_memory_write 32 agentTop ctx1 0xFFFFFFFC [9, 9, 9, 9] 4).2 =
      [9, 9, 9, 9] ∧
    (context_write_mem
        (check_breakpoints_on_memory_write 32 agentTop ctx1 0xFFFFFFFC [9, 9, 9, 9] 4).1 ctx1
        0xFFFFFFFC (check_breakpoints_on_memory_write 32 agentTop ctx1 0xFFFFFFFC [9, 9, 9, 9] 4).2
        4).toOption.map (fun s2 => target_bytes s2 ctx1.mem 0xFFFFFFFC 4) =
      some [9, 9, 9, 9] := by
  decide

/-- C2 (amended): for every client write buffer `p` and range
`[address, address + size)` inside it that ends below the top of the address
space (`address + size < 2 ^ w`), when no two planted instructions of one
memory space overlap and every planted instruction of the memory space of
`ctx` ends below the top of the address space,
`check_breakpoints_on_memory_write` changes of each break instruction only
`saved_code`: for a planted instruction `bi` of the memory space of `ctx` and
`k < BREAK_SIZE` with `address ≤ bi.address + k < address + size`, `saved_code[k]`
becomes the client's byte at that offset and that buffer byte becomes
`BREAK_INST[k]`; every other `saved_code` byte and every other buffer byte is
unchanged. Hence, once the buffer is written, target memory at the address of a
planted instruction that held the break instruction still holds it. -/
theorem check_breakpoints_on_memory_write_spec (w : Nat) (s : Agent) (ctx : Context)
    (address : Nat) (p : List Nat) (size : Nat) (hsz : size ≤ p.length)
    (htop : address + size < 2 ^ w)
    (hbtop : ∀ bi ∈ s.instructions, bi.planted = true → (s.ctx bi.ctx).mem = ctx.mem →
      bi.address + BREAK_SIZE s < 2 ^ w)
    (hwf : ∀ bi ∈ s.instructions, bi.saved_code.length = BREAK_SIZE s)
    (hno : s.instructions.Pairwise (fun a b =>
      a.planted = true → b.planted = true → (s.ctx a.ctx).mem = (s.ctx b.ctx).mem →
        a.address + BREAK_SIZE s ≤ b.address ∨ b.address + BREAK_SIZE s ≤ a.address)) :
    (check_breakpoints_on_memory_write w s ctx address p size).2.length = p.length ∧
    { (check_breakpoints_on_memory_write w s ctx address p size).1 with
        instructions := s.instructions } = s ∧
    (∀ (n : Nat) (bi : BreakInstruction), s.instructions[n]? = some bi →
      ∃ bi' : BreakInstruction,
        (check_breakpoints_on_memory_write w s ctx address p size).1.instructions[n]? =
          some bi' ∧
        { bi' with saved_code := bi.saved_code } = bi ∧
        ∀ k, bi'.saved_code.getD k 0 =
          if bi.planted = true ∧ (s.ctx bi.ctx).mem = ctx.mem ∧ k < BREAK_SIZE s ∧
              address ≤ bi.address + k ∧ bi.address + k < address + size
          then p.getD (bi.address + k - address) 0 else bi.saved_code.getD k 0) ∧
    (∀ j, j < p.length →
      (j < size → ∀ bi ∈ s.instructions, bi.planted = true → (s.ctx bi.ctx).mem = ctx.mem →
        ∀ k, k < BREAK_SIZE s → address + j = bi.address + k →
          (check_breakpoints_on_memory_write w s ctx address p size).2.getD j 0 =
            s.BREAK_INST.getD k 0) ∧
      ((∀ bi ∈ s.instructions, bi.planted = true → (s.ctx bi.ctx).mem = ctx.mem →
          ∀ k, k < BREAK_SIZE s → ¬ (j < size ∧ address + j = bi.address + k)) →
        (check_breakpoints_on_memory_write w s ctx address p size).2.getD j 0 = p.getD j 0)) ∧
    (∀ s2, context_write_mem (check_breakpoints_on_memory_write w s ctx address p size).1 ctx
        address (check_breakpoints_on_memory_write w s ctx address p size).2 size = .ok s2 →
      ∀ bi ∈ s.instructions, bi.planted = true → (s.ctx bi.ctx).mem = ctx.mem →
        (∀ k, k < BREAK_SIZE s → s.target.mem ctx.mem (bi.address + k) = s.BREAK_INST.getD k 0) →
        ∀ k, k < BREAK_SIZE s →
          s2.target.mem ctx.mem (bi.address + k) = s.BREAK_INST.getD k 0) := by
  have hbreak : ∀ j, j < p.length → j < size → ∀ bi ∈ s.instructions, bi.planted = true →
      (s.ctx bi.ctx).mem = ctx.mem → ∀ k, k < BREAK_SIZE s → address + j = bi.address + k →
      (check_breakpoints_on_memory_write w s ctx address p size).2.getD j 0 =
        s.BREAK_INST.getD k 0 := by
    intro j hjl hj bi hbi hp hm k hk hjk
    have hc : covers s ctx bi (address + j) := ⟨hp, hm, by omega, by omega⟩
    have := write_instructions_buf_break w s ctx address size s.instructions p j htop hbtop hno
      hj hjl bi hbi hc
    have e : address + j - bi.address = k := by omega
    rw [e] at this
    exact this
  refine ⟨(write_instructions_length _ _ _ _ _ _ _).2, rfl, ?_, ?_, ?_⟩
  · intro n bi hn
    obtain ⟨bi', h1, h2, _, h4⟩ :=
      write_instructions_saved w s ctx address size s.instructions p htop hbtop hno n bi hn
    refine ⟨bi', h1, h2, fun k => ?_⟩
    rw [h4 k]
    have hl := hwf bi (List.getElem?_mem hn)
    by_cases hc : bi.planted = true ∧ (s.ctx bi.ctx).mem = ctx.mem ∧ k < BREAK_SIZE s ∧
              address ≤ bi.address + k ∧ bi.address + k < address + size
    · rw [if_pos hc, if_pos ⟨hc.2.2.1, by omega, hc.2.2.2.1, hc.2.2.2.2, hc.1, hc.2.1,
        by omega, by omega⟩]
    · rw [if_neg hc, if_neg (fun h => hc ⟨h.2.2.2.2.1, h.2.2.2.2.2.1, h.1, h.2.2.1, h.2.2.2.1⟩)]
  · intro j hjl
    refine ⟨hbreak j hjl, fun h => ?_⟩
    apply write_instructions_buf_unchanged w _ _ _ _ _ _ _ htop hbtop
    intro bi hbi hc
    exact h bi hbi hc.2.1 hc.2.2.1 (address + j - bi.address)
      (by have := hc.2.2.2.1; have := hc.2.2.2.2; omega)
      ⟨hc.1, by have := hc.2.2.2.1; omega⟩
  · intro s2 hw bi hbi hp hm hold k hk
    unfold context_write_mem at hw
    split at hw
    · cases hw
    · split at hw
      · cases hw
      · split at hw
        · cases hw
        · cases hw
          show (if ctx.mem = ctx.mem ∧ address ≤ bi.address + k ∧ bi.address + k < address + size
            then (check_breakpoints_on_memory_write w s ctx address p size).2.getD
              (bi.address + k - address) 0
            else s.target.mem ctx.mem (bi.address + k)) = _
          by_cases hr : address ≤ bi.address + k ∧ bi.address + k < address + size
          · rw [if_pos ⟨rfl, hr⟩]
            exact hbreak (bi.address + k - address) (by omega) (by omega) bi hbi hp hm k hk
              (by omega)
          · rw [if_neg (fun h => hr h.2)]
            exact hold k hk

/-- Witness of C2 (amended): a four-byte client write at address 8 across the
instruction planted at address 10 in `agent1`, with 32-bit addresses. -/
theorem check_breakpoints_on_memory_write_spec_witness :
    (check_breakpoints_on_memory_write 32 agent1 ctx1 8 [1, 2, 3, 4] 4).2.length = 4 ∧
    (check_breakpoints_on_memory_write 32 agent1 ctx1 8 [1, 2, 3, 4] 4).2.getD 2 0 = 0xcc := by
  have h := check_breakpoints_on_memory_write_spec 32 agent1 ctx1 8 [1, 2, 3, 4] 4 (by decide)
    (by decide)
    (by
      intro bi hbi _ _
      rw [List.mem_singleton.mp hbi]
      decide)
    (by decide) (List.pairwise_singleton _ _)
  exact ⟨h.1, (h.2.2.2.1 2 (by decide)).1 (by decide) _ (List.mem_singleton.mpr rfl) rfl rfl 0
      (by decide) (by decide)⟩

/-- C3 (the claim fails): in `agent011` the break instruction `bi11` is planted
at address 11, where memory holds `0xcc` and the saved code is `0x77`. When
`bi0` is planted at address 10 and removed again, both successfully, the
client-visible read of `[8, 12)` taken while `bi0` is planted is 8, 9, 10,
`0x77`: it differs at address 11 from the bytes 8, 9, 10, `0xcc` that were in
memory before `plant_instruction` and that are in memory after
`remove_instruction`, because the read check hides `bi11` as well, as it does
in the client-visible read taken after `remove_instruction`. -/
theorem plant_read_remove_read_second_instruction :
    agent011.instructions = [bi0, bi11] ∧ bi11.planted = true ∧ bi11.address = 11 ∧
    (plant_instruction agent011 bi0).1.planted = true ∧
    (remove_instruction (plant_instruction_at agent011 0) (plant_instruction agent011 bi0).1).1.error
      = 0 ∧
    target_bytes agent011 ctx1.mem 8 4 = [8, 9, 10, 0xcc] ∧
    target_bytes (plant_instruction_at agent011 0) ctx1.mem 8 4 = [8, 9, 0xcc, 0xcc] ∧
    check_breakpoints_on_memory_read 32 (plant_instruction_at agent011 0) ctx1 8
        (target_bytes (plant_instruction_at agent011 0) ctx1.mem 8 4) 4 = [8, 9, 10, 0x77] ∧
    target_bytes (remove_instruction_at (plant_instruction_at agent011 0) 0) ctx1.mem 8 4 =
      [8, 9, 10, 0xcc] ∧
    check_breakpoints_on_memory_read 32
        (remove_instruction_at (plant_instruction_at agent011 0) 0) ctx1 8
        (target_bytes (remove_instruction_at (plant_instruction_at agent011 0) 0) ctx1.mem 8 4)
        4 = [8, 9, 10, 0x77] := by
  decide

/-- C3 (amended): for every target memory, every break instruction `bi` of the
table (the `n`-th entry) and every read range `[address, address + size)` that
ends below the top of the address space, when `plant_instruction` and then
`remove_instruction` both succeed on a stopped owner and, while `bi` is
planted, no two planted instructions of one memory space overlap and every
planted instruction of the reader's memory space ends below the top of the
address space: the client-visible read taken while the instruction is planted
(the raw target bytes post-processed by `check_breakpoints_on_memory_read`)
equals the client-visible read of the same range taken after
`remove_instruction`; the bytes in memory after `remove_instruction` equal the
bytes that were in memory before `plant_instruction`; the client-visible read
equals the bytes that were in memory before `plant_instruction` at every byte
that lies in no other planted instruction of the reader's memory space, and the
saved code of that instruction at a byte that lies in one; hence, when no other
planted instruction of the reader's memory space intersects the range, the
client-visible read equals the bytes that were in memory before
`plant_instruction`. -/
theorem plant_read_remove_read (w : Nat) (s : Agent) (n : Nat) (bi : BreakInstruction)
    (ctx : Context) (address size : Nat)
    (hn : s.instructions[n]? = some bi)
    (hex : (s.ctx bi.ctx).exited = false) (hrun : is_running (s.ctx bi.ctx) = false)
    (htop : address + size < 2 ^ w)
    (hbtop : ∀ b ∈ (plant_instruction_at s n).instructions, b.planted = true →
      (s.ctx b.ctx).mem = ctx.mem → b.address + BREAK_SIZE s < 2 ^ w)
    (hno : (plant_instruction_at s n).instructions.Pairwise (fun a b =>
      a.planted = true → b.planted = true → (s.ctx a.ctx).mem = (s.ctx b.ctx).mem →
        a.address + BREAK_SIZE s ≤ b.address ∨ b.address + BREAK_SIZE s ≤ a.address))
    (hplant : (plant_instruction s bi).1.planted = true)
    (hrem : (remove_instruction (plant_instruction_at s n) (plant_instruction s bi).1).1.error
      = 0) :
    check_breakpoints_on_memory_read w (plant_instruction_at s n) ctx address
        (target_bytes (plant_instruction_at s n) ctx.mem address size) size =
      check_breakpoints_on_memory_read w (remove_instruction_at (plant_instruction_at s n) n) ctx
        address (target_bytes (remove_instruction_at (plant_instruction_at s n) n) ctx.mem
          address size) size ∧
    target_bytes (remove_instruction_at (plant_instruction_at s n) n) ctx.mem address size =
      target_bytes s ctx.mem address size ∧
    (∀ j, j < size →
      (∀ (m : Nat) (b : BreakInstruction), m ≠ n → s.instructions[m]? = some b →
        ¬ (b.planted = true ∧ (s.ctx b.ctx).mem = ctx.mem ∧ b.address ≤ address + j ∧
          address + j < b.address + BREAK_SIZE s)) →
      (check_breakpoints_on_memory_read w (plant_instruction_at s n) ctx address
        (target_bytes (plant_instruction_at s n) ctx.mem address size) size).getD j 0 =
        (target_bytes s ctx.mem address size).getD j 0) ∧
    (∀ j, j < size → ∀ (m : Nat) (b : BreakInstruction), m ≠ n → s.instructions[m]? = some b →
      b.planted = true → (s.ctx b.ctx).mem = ctx.mem → ∀ k, k < BREAK_SIZE s →
      address + j = b.address + k →
      (check_breakpoints_on_memory_read w (plant_instruction_at s n) ctx address
        (target_bytes (plant_instruction_at s n) ctx.mem address size) size).getD j 0 =
        b.saved_code.getD k 0) ∧
    ((∀ (m : Nat) (b : BreakInstruction), m ≠ n → s.instructions[m]? = some b →
        b.planted = true → (s.ctx b.ctx).mem = ctx.mem →
        b.address + BREAK_SIZE s ≤ address ∨ address + size ≤ b.address) →
      check_breakpoints_on_memory_read w (plant_instruction_at s n) ctx address
        (target_bytes (plant_instruction_at s n) ctx.mem address size) size =
        target_bytes s ctx.mem address size) := by
  have hlt : n < s.instructions.length := by
    rcases Nat.lt_or_ge n s.instructions.length with h | h
    · exact h
    · rw [List.getElem?_eq_none h] at hn; cases hn
  have hs1 := plant_instruction_at_ok s n bi hn hplant
  have hB1 := (plant_instruction_ok s bi hplant).2.2.1
  rw [hB1] at hrem
  have hn1 : (plant_instruction_at s n).instructions[n]? = some
      { bi with error := 0, planted := true,
                saved_code := target_bytes s (s.ctx bi.ctx).mem bi.address (BREAK_SIZE s) } := by
    rw [hs1]
    exact List.getElem?_set_self hlt
  have hs2 := remove_instruction_at_ok (plant_instruction_at s n) n _ hn1
    (by rw [hs1]; exact hex) (by rw [hs1]; exact hrun) hrem
  rw [hs2]
  clear hs2 hrem
  rw [hs1] at hn1 hbtop hno ⊢
  clear hs1
  -- raw memory after the removal
  have hraw2 : ∀ j, j < size →
      (if ctx.mem = (s.ctx bi.ctx).mem ∧ bi.address ≤ address + j ∧
          address + j < bi.address + BREAK_SIZE s
       then (target_bytes s (s.ctx bi.ctx).mem bi.address (BREAK_SIZE s)).getD
          (address + j - bi.address) 0
       else (if ctx.mem = (s.ctx bi.ctx).mem ∧ bi.address ≤ address + j ∧
          address + j < bi.address + BREAK_SIZE s
        then s.BREAK_INST.getD (address + j - bi.address) 0
        else s.target.mem ctx.mem (address + j))) = s.target.mem ctx.mem (address + j) := by
    intro j _
    by_cases hc : ctx.mem = (s.ctx bi.ctx).mem ∧ bi.address ≤ address + j ∧
          address + j < bi.address + BREAK_SIZE s
    · rw [if_pos hc, target_bytes_getD _ _ _ _ _ (by omega), ← hc.1]
      congr 1
      omega
    · rw [if_neg hc, if_neg hc]
  have h3 : target_bytes
      { s with
        instructions := (s.instructions.set n
          { bi with error := 0, planted := true,
                    saved_code := target_bytes s (s.ctx bi.ctx).mem bi.address (BREAK_SIZE s) }).set n
          { bi with error := 0, planted := false,
                    saved_code := target_bytes s (s.ctx bi.ctx).mem bi.address (BREAK_SIZE s) },
        target := { s.target with
          mem := fun sp a =>
            if sp = (s.ctx bi.ctx).mem ∧ bi.address ≤ a ∧ a < bi.address + BREAK_SIZE s
            then (target_bytes s (s.ctx bi.ctx).mem bi.address (BREAK_SIZE s)).getD
              (a - bi.address) 0
            else (if sp = (s.ctx bi.ctx).mem ∧ bi.address ≤ a ∧ a < bi.address + BREAK_SIZE s
              then s.BREAK_INST.getD (a - bi.address) 0 else s.target.mem sp a) } }
      ctx.mem address size = target_bytes s ctx.mem address size := by
    apply list_ext_getD
    · rw [target_bytes_length, target_bytes_length]
    · intro j hj
      rw [target_bytes_length] at hj
      rw [target_bytes_getD _ _ _ _ _ hj, target_bytes_getD _ _ _ _ _ hj]
      exact hraw2 j hj
  have hcore := read_check_planted_unplanted w s ctx address size
    (s.instructions.set n
      { bi with error := 0, planted := true,
                saved_code := target_bytes s (s.ctx bi.ctx).mem bi.address (BREAK_SIZE s) }) n
    { bi with error := 0, planted := true,
              saved_code := target_bytes s (s.ctx bi.ctx).mem bi.address (BREAK_SIZE s) }
    (target_bytes
      { s with
        instructions := s.instructions.set n
          { bi with error := 0, planted := true,
                    saved_code := target_bytes s (s.ctx bi.ctx).mem bi.address (BREAK_SIZE s) },
        target := { s.target with
          mem := fun sp a =>
            if sp = (s.ctx bi.ctx).mem ∧ bi.address ≤ a ∧ a < bi.address + BREAK_SIZE s
            then s.BREAK_INST.getD (a - bi.address) 0 else s.target.mem sp a } }
      ctx.mem address size)
    (target_bytes s ctx.mem address size) htop hbtop hno hn1
    (target_bytes_length _ _ _ _) (target_bytes_length _ _ _ _)
    (by
      intro j hj hc
      obtain ⟨_, hm, h1, h2⟩ := hc
      have hm : (s.ctx bi.ctx).mem = ctx.mem := hm
      have h1 : bi.address ≤ address + j := h1
      have h2 : address + j < bi.address + BREAK_SIZE s := h2
      show _ = (target_bytes s (s.ctx bi.ctx).mem bi.address (BREAK_SIZE s)).getD
        (address + j - bi.address) 0
      rw [target_bytes_getD _ _ _ _ _ hj, target_bytes_getD _ _ _ _ _ (by omega), hm]
      congr 1
      omega)
    (by
      intro j hj hc
      rw [target_bytes_getD _ _ _ _ _ hj, target_bytes_getD _ _ _ _ _ hj]
      show (if ctx.mem = (s.ctx bi.ctx).mem ∧ bi.address ≤ address + j ∧
          address + j < bi.address + BREAK_SIZE s
        then s.BREAK_INST.getD (address + j - bi.address) 0
        else s.target.mem ctx.mem (address + j)) = _
      rw [if_neg]
      intro h
      exact hc ⟨rfl, h.1.symm, h.2.1, h.2.2⟩)
  obtain ⟨hc1, hc2, hc3⟩ := hcore
  have hV1 : ∀ j, j < size →
      (∀ (m : Nat) (b : BreakInstruction), m ≠ n → s.instructions[m]? = some b →
        ¬ (b.planted = true ∧ (s.ctx b.ctx).mem = ctx.mem ∧ b.address ≤ address + j ∧
          address + j < b.address + BREAK_SIZE s)) →
      (check_breakpoints_on_memory_read w
        { s with
          instructions := s.instructions.set n
            { bi with error := 0, planted := true,
                      saved_code := target_bytes s (s.ctx bi.ctx).mem bi.address (BREAK_SIZE s) },
          target := { s.target with
            mem := fun sp a =>
              if sp = (s.ctx bi.ctx).mem ∧ bi.address ≤ a ∧ a < bi.address + BREAK_SIZE s
              then s.BREAK_INST.getD (a - bi.address) 0 else s.target.mem sp a } }
        ctx address (target_bytes
        { s with
          instructions := s.instructions.set n
            { bi with error := 0, planted := true,
                      saved_code := target_bytes s (s.ctx bi.ctx).mem bi.address (BREAK_SIZE s) },
          target := { s.target with
            mem := fun sp a =>
              if sp = (s.ctx bi.ctx).mem ∧ bi.address ≤ a ∧ a < bi.address + BREAK_SIZE s
              then s.BREAK_INST.getD (a - bi.address) 0 else s.target.mem sp a } }
        ctx.mem address size) size).getD j 0 =
        (target_bytes s ctx.mem address size).getD j 0 := by
    intro j hj hoth
    apply hc2 j hj
    intro m b hmn hm hc
    rw [List.getElem?_set_ne (Ne.symm hmn)] at hm
    exact hoth m b hmn hm hc
  refine ⟨?_, h3, hV1, ?_, ?_⟩
  · exact hc1.trans (congrArg (fun r => List.foldl (read_instruction w s ctx address size) r
      ((s.instructions.set n
        { bi with error := 0, planted := true,
                  saved_code := target_bytes s (s.ctx bi.ctx).mem bi.address (BREAK_SIZE s) }).set n
        { bi with error := 0, planted := false,
                  saved_code := target_bytes s (s.ctx bi.ctx).mem bi.address (BREAK_SIZE s) }))
      h3.symm)
  · intro j hj m b hmn hm hp hmem k hk hjk
    have hm' : (s.instructions.set n
        { bi with error := 0, planted := true,
                  saved_code := target_bytes s (s.ctx bi.ctx).mem bi.address (BREAK_SIZE s) })[m]?
          = some b := by
      rw [List.getElem?_set_ne (Ne.symm hmn)]
      exact hm
    have := hc3 j hj m b hmn hm' ⟨hp, hmem, by omega, by omega⟩
    have e : address + j - b.address = k := by omega
    rw [e] at this
    exact this
  · intro hoth
    apply list_ext_getD
    · rw [target_bytes_length]
      exact (foldl_read_instruction_length _ _ _ _ _ _ _).trans (target_bytes_length _ _ _ _)
    · intro j hj
      have hj : j < size := by
        unfold check_breakpoints_on_memory_read at hj
        rw [foldl_read_instruction_length, target_bytes_length] at hj
        exact hj
      apply hV1 j hj
      intro m b hmn hm hc
      have := hoth m b hmn hm hc.1 hc.2.1
      omega

/-- Witness of C3 (amended): `bi0` is planted at address 10 of `agent011`, next
to the planted `bi11`, and removed again; the client-visible reads of
`[8, 12)` while it is planted and after the removal agree, the memory after the
removal is the memory before the plant, and the client-visible read shows the
original byte at address 10. -/
theorem plant_read_remove_read_witness :
    check_breakpoints_on_memory_read 32 (plant_instruction_at agent011 0) ctx1 8
        (target_bytes (plant_instruction_at agent011 0) ctx1.mem 8 4) 4 =
      check_breakpoints_on_memory_read 32
        (remove_instruction_at (plant_instruction_at agent011 0) 0) ctx1 8
        (target_bytes (remove_instruction_at (plant_instruction_at agent011 0) 0) ctx1.mem 8 4)
        4 ∧
    target_bytes (remove_instruction_at (plant_instruction_at agent011 0) 0) ctx1.mem 8 4 =
      target_bytes agent011 ctx1.mem 8 4 ∧
    (check_breakpoints_on_memory_read 32 (plant_instruction_at agent011 0) ctx1 8
        (target_bytes (plant_instruction_at agent011 0) ctx1.mem 8 4) 4).getD 2 0 = 10 := by
  have h := plant_read_remove_read 32 agent011 0 bi0 ctx1 8 4 rfl rfl rfl (by decide)
    (by decide) (by decide) (by decide) (by decide)
  refine ⟨h.1, h.2.1, ?_⟩
  have h2 := h.2.2.1 2 (by decide) (by
    intro m b hm hb
    cases m with
    | zero => exact absurd rfl hm
    | succ m =>
      cases m with
      | zero =>
        simp only [agent011, List.getElem?_cons_succ, List.getElem?_cons_zero,
          Option.some.injEq] at hb
        subst hb
        decide
      | succ m => simp [agent011] at hb)
  rw [h2]
  decide

/-- C4 (the claim fails): in `agent1011` the break instructions `bi10` and
`bi11` are planted at the addresses 10 and 11. The client writes 1, 2, 3, 4
over `[8, 12)`; the buffer is pre-processed by
`check_breakpoints_on_memory_write` and stored, and `bi10` is then removed
successfully. Target memory over the written range is 1, 2, 3, `0xcc` and not
the client's bytes: at address 11 it holds the break instruction of `bi11`,
which is still planted. -/
theorem write_remove_read_second_instruction :
    agent1011.instructions = [bi10, bi11] ∧ bi10.planted = true ∧ bi11.planted = true ∧
    (check_breakpoints_on_memory_write 32 agent1011 ctx1 8 [1, 2, 3, 4] 4).2 =
      [1, 2, 0xcc, 0xcc] ∧
    ((context_write_mem (check_breakpoints_on_memory_write 32 agent1011 ctx1 8 [1, 2, 3, 4] 4).1
        ctx1 8 (check_breakpoints_on_memory_write 32 agent1011 ctx1 8 [1, 2, 3, 4] 4).2
        4).toOption.map
      (fun s2 => ((s2.instructions.map (fun b => (remove_instruction s2 b).1.error)).take 1,
        target_bytes (remove_instruction_at s2 0) ctx1.mem 8 4,
        (remove_instruction_at s2 0).instructions.map (fun b => b.planted)))) =
      some ([0], [1, 2, 3, 0xcc], [false, true]) := by
  decide

/-- C4 (amended): for every planted break instruction `bi` (the `n`-th entry of
the table) whose owner is stopped, in a table in which no two planted
instructions of one memory space overlap and every planted instruction of the
writer's memory space ends below the top of the address space, and every client
write of the bytes `p` over a range `[address, address + size)` that ends below
the top of the address space: if the buffer is pre-processed by
`check_breakpoints_on_memory_write` and then stored in target memory, after a
later successful `remove_instruction` of `bi` a client read of the range
returns the client's bytes; target memory holds the client's byte at every
byte of the range that lies in no other planted instruction of the writer's
memory space, and the byte of the break instruction at a byte that lies in
one; hence, when no other planted instruction of the writer's memory space
intersects the range, target memory over the written range equals the client's
bytes. -/
theorem write_remove_read (w : Nat) (s : Agent) (n : Nat) (bi : BreakInstruction)
    (ctx : Context) (address : Nat) (p : List Nat) (size : Nat) (s2 : Agent)
    (hn : s.instructions[n]? = some bi) (hp : bi.planted = true)
    (hwf : ∀ b ∈ s.instructions, b.saved_code.length = BREAK_SIZE s) (hsz : size ≤ p.length)
    (hex : (s.ctx bi.ctx).exited = false) (hrun : is_running (s.ctx bi.ctx) = false)
    (htop : address + size < 2 ^ w)
    (hbtop : ∀ b ∈ s.instructions, b.planted = true → (s.ctx b.ctx).mem = ctx.mem →
      b.address + BREAK_SIZE s < 2 ^ w)
    (hno : s.instructions.Pairwise (fun a b =>
      a.planted = true → b.planted = true → (s.ctx a.ctx).mem = (s.ctx b.ctx).mem →
        a.address + BREAK_SIZE s ≤ b.address ∨ b.address + BREAK_SIZE s ≤ a.address))
    (hw : context_write_mem (check_breakpoints_on_memory_write w s ctx address p size).1 ctx
      address (check_breakpoints_on_memory_write w s ctx address p size).2 size = .ok s2)
    (hrem : ∃ b : BreakInstruction, s2.instructions[n]? = some b ∧
      (remove_instruction s2 b).1.error = 0) :
    check_breakpoints_on_memory_read w (remove_instruction_at s2 n) ctx address
      (target_bytes (remove_instruction_at s2 n) ctx.mem address size) size = p.take size ∧
    (∀ j, j < size →
      (∀ (m : Nat) (b : BreakInstruction), m ≠ n → s.instructions[m]? = some b →
        ¬ (b.planted = true ∧ (s.ctx b.ctx).mem = ctx.mem ∧ b.address ≤ address + j ∧
          address + j < b.address + BREAK_SIZE s)) →
      (remove_instruction_at s2 n).target.mem ctx.mem (address + j) = p.getD j 0) ∧
    (∀ j, j < size → ∀ (m : Nat) (b : BreakInstruction), m ≠ n → s.instructions[m]? = some b →
      b.planted = true → (s.ctx b.ctx).mem = ctx.mem → ∀ k, k < BREAK_SIZE s →
      address + j = b.address + k →
      (remove_instruction_at s2 n).target.mem ctx.mem (address + j) = s.BREAK_INST.getD k 0) ∧
    ((∀ (m : Nat) (b : BreakInstruction), m ≠ n → s.instructions[m]? = some b →
        b.planted = true → (s.ctx b.ctx).mem = ctx.mem →
        b.address + BREAK_SIZE s ≤ address ∨ address + size ≤ b.address) →
      target_bytes (remove_instruction_at s2 n) ctx.mem address size = p.take size) := by
  have hbtop' : ∀ b ∈ s.instructions, below_top w s ctx b := hbtop
  have hno' : s.instructions.Pairwise (disjoint_instructions s) := hno
  obtain ⟨bi', h1, h2, h3, h4⟩ :=
    write_instructions_saved w s ctx address size s.instructions p htop hbtop' hno' n bi hn
  have hctx : bi'.ctx = bi.ctx := by rw [← h2]
  have haddr : bi'.address = bi.address := by rw [← h2]
  obtain ⟨hs2, _, _⟩ := context_write_mem_ok _ _ _ _ _ _ hw
  obtain ⟨b, hb, herr⟩ := hrem
  have hnb : s2.instructions[n]? = some bi' := by rw [hs2]; exact h1
  rw [hnb] at hb
  cases hb
  have hs3 := remove_instruction_at_ok s2 n bi' hnb
    (by rw [hs2, hctx]; exact hex) (by rw [hs2, hctx]; exact hrun) herr
  have hlt : n < s2.instructions.length := by
    rcases Nat.lt_or_ge n s2.instructions.length with h | h
    · exact h
    · rw [List.getElem?_eq_none h] at hnb; cases hnb
  -- the table after the removal, entry by entry
  have htab : ∀ (m : Nat) (x : BreakInstruction),
      (remove_instruction_at s2 n).instructions[m]? = some x →
      (m = n ∧ x.planted = false) ∨
      (m ≠ n ∧ ∃ b0 : BreakInstruction, s.instructions[m]? = some b0 ∧
        { x with saved_code := b0.saved_code } = b0 ∧
        ∀ k, x.saved_code.getD k 0 =
          if k < BREAK_SIZE s ∧ k < b0.saved_code.length ∧ address ≤ b0.address + k ∧
              b0.address + k < address + size ∧ covers s ctx b0 (b0.address + k)
          then p.getD (b0.address + k - address) 0 else b0.saved_code.getD k 0) := by
    intro m x hm
    rw [hs3] at hm
    have hm : (s2.instructions.set n { bi' with planted := false })[m]? = some x := hm
    by_cases hmn : m = n
    · subst hmn
      rw [List.getElem?_set_self hlt] at hm
      cases hm
      exact Or.inl ⟨rfl, rfl⟩
    · rw [List.getElem?_set_ne (Ne.symm hmn), hs2] at hm
      have hm : (write_instructions w s ctx address size s.instructions p).1[m]? = some x := hm
      obtain ⟨b0, hb1, _⟩ := write_instructions_fields w s ctx address size s.instructions p m x hm
      obtain ⟨x', hx1, hx2, _, hx4⟩ :=
        write_instructions_saved w s ctx address size s.instructions p htop hbtop' hno' m b0 hb1
      rw [hm] at hx1
      cases hx1
      exact Or.inr ⟨hmn, b0, hb1, hx2, hx4⟩
  have htab2 : ∀ (m : Nat) (b0 : BreakInstruction), m ≠ n → s.instructions[m]? = some b0 →
      ∃ x : BreakInstruction, (remove_instruction_at s2 n).instructions[m]? = some x ∧
        { x with saved_code := b0.saved_code } = b0 := by
    intro m b0 hmn hb1
    obtain ⟨x', hx1, hx2, _, _⟩ :=
      write_instructions_saved w s ctx address size s.instructions p htop hbtop' hno' m b0 hb1
    refine ⟨x', ?_, hx2⟩
    rw [hs3]
    show (s2.instructions.set n { bi' with planted := false })[m]? = some x'
    rw [List.getElem?_set_ne (Ne.symm hmn), hs2]
    exact hx1
  -- target memory after the removal
  have hmem3 : ∀ j, j < size →
      (remove_instruction_at s2 n).target.mem ctx.mem (address + j) =
        if covers s ctx bi (address + j) then p.getD j 0
        else (write_instructions w s ctx address size s.instructions p).2.getD j 0 := by
    intro j hj
    rw [hs3]
    show (if ctx.mem = (s2.ctx bi'.ctx).mem ∧ bi'.address ≤ address + j ∧
        address + j < bi'.address + BREAK_SIZE s2
      then bi'.saved_code.getD (address + j - bi'.address) 0
      else s2.target.mem ctx.mem (address + j)) = _
    have e1 : s2.ctx bi'.ctx = s.ctx bi.ctx := by rw [hs2, hctx]; rfl
    have e2 : BREAK_SIZE s2 = BREAK_SIZE s := by rw [hs2]; rfl
    rw [e1, e2, haddr]
    have hl := hwf bi (List.getElem?_mem hn)
    by_cases hc : ctx.mem = (s.ctx bi.ctx).mem ∧ bi.address ≤ address + j ∧
        address + j < bi.address + BREAK_SIZE s
    · rw [if_pos hc, if_pos ⟨hp, hc.1.symm, hc.2.1, hc.2.2⟩, h4,
        if_pos ⟨by omega, by omega, by omega, by omega, hp, hc.1.symm, by omega, by omega⟩]
      congr 1
      omega
    · rw [if_neg hc, if_neg (fun h => hc ⟨h.2.1.symm, h.2.2.1, h.2.2.2⟩), hs2]
      show (if ctx.mem = ctx.mem ∧ address ≤ address + j ∧ address + j < address + size
        then (check_breakpoints_on_memory_write w s ctx address p size).2.getD
          (address + j - address) 0
        else s.target.mem ctx.mem (address + j)) = _
      rw [if_pos ⟨rfl, by omega, by omega⟩]
      have e3 : address + j - address = j := by omega
      rw [e3]
      rfl
  have hB : ∀ j, j < size →
      (∀ (m : Nat) (b : BreakInstruction), m ≠ n → s.instructions[m]? = some b →
        ¬ (b.planted = true ∧ (s.ctx b.ctx).mem = ctx.mem ∧ b.address ≤ address + j ∧
          address + j < b.address + BREAK_SIZE s)) →
      (remove_instruction_at s2 n).target.mem ctx.mem (address + j) = p.getD j 0 := by
    intro j hj hoth
    rw [hmem3 j hj]
    by_cases hc : covers s ctx bi (address + j)
    · rw [if_pos hc]
    · rw [if_neg hc]
      apply write_instructions_buf_unchanged w s ctx address size s.instructions p j htop hbtop'
      intro x hx hcx
      obtain ⟨m, hm⟩ := List.mem_iff_getElem?.mp hx
      by_cases hmn : m = n
      · subst hmn
        rw [hn] at hm
        cases hm
        exact hc hcx.2
      · exact hoth m x hmn hm hcx.2
  have hC : ∀ j, j < size → ∀ (m : Nat) (b : BreakInstruction), m ≠ n →
      s.instructions[m]? = some b → covers s ctx b (address + j) →
      (remove_instruction_at s2 n).target.mem ctx.mem (address + j) =
        s.BREAK_INST.getD (address + j - b.address) 0 := by
    intro j hj m b hmn hm hc
    rw [hmem3 j hj, if_neg]
    · exact write_instructions_buf_break w s ctx address size s.instructions p j htop hbtop' hno'
        hj (by omega) b (List.getElem?_mem hm) hc
    · intro hcb
      have hd := pairwise_getElem? _ (disjoint_instructions_symm s) _ hno' m n b bi hm hn hmn
        hc.1 hcb.1 (hc.2.1.trans hcb.2.1.symm)
      have := hc.2.2.1
      have := hc.2.2.2
      have := hcb.2.2.1
      have := hcb.2.2.2
      omega
  have hD : (∀ (m : Nat) (b : BreakInstruction), m ≠ n → s.instructions[m]? = some b →
        b.planted = true → (s.ctx b.ctx).mem = ctx.mem →
        b.address + BREAK_SIZE s ≤ address ∨ address + size ≤ b.address) →
      target_bytes (remove_instruction_at s2 n) ctx.mem address size = p.take size := by
    intro hoth
    apply list_ext_getD
    · rw [target_bytes_length, List.length_take, Nat.min_eq_left hsz]
    · intro j hj
      rw [target_bytes_length] at hj
      rw [target_bytes_getD _ _ _ _ _ hj, hB j hj]
      · simp [List.getD_eq_getElem?_getD, List.getElem?_take, hj]
      · intro m b hmn hm hc
        have := hoth m b hmn hm hc.1 hc.2.1
        omega
  refine ⟨?_, hB, ?_, hD⟩
  · -- the client read after the removal
    have hb3 : ∀ x ∈ (remove_instruction_at s2 n).instructions, below_top w s ctx x := by
      intro x hx
      obtain ⟨m, hm⟩ := List.mem_iff_getElem?.mp hx
      rcases htab m x hm with ⟨_, hpl⟩ | ⟨_, b0, hb1, hb2, _⟩
      · intro hp'
        rw [hpl] at hp'
        cases hp'
      · exact below_top_congr w s ctx b0 x hb2 (hbtop' b0 (List.getElem?_mem hb1))
    have hno3 : (remove_instruction_at s2 n).instructions.Pairwise (disjoint_instructions s) := by
      rw [hs3]
      show (s2.instructions.set n { bi' with planted := false }).Pairwise _
      apply pairwise_set_unplanted s _ n _ rfl
      rw [hs2]
      exact write_instructions_pairwise w s ctx address size s.instructions p hno'
    have hfold : check_breakpoints_on_memory_read w (remove_instruction_at s2 n) ctx address
        (target_bytes (remove_instruction_at s2 n) ctx.mem address size) size =
        (remove_instruction_at s2 n).instructions.foldl (read_instruction w s ctx address size)
          (target_bytes (remove_instruction_at s2 n) ctx.mem address size) := by
      rw [hs3, hs2]
      rfl
    rw [hfold]
    apply list_ext_getD
    · rw [foldl_read_instruction_length, target_bytes_length, List.length_take,
        Nat.min_eq_left hsz]
    · intro j hj
      rw [foldl_read_instruction_length, target_bytes_length] at hj
      have hpj : (p.take size).getD j 0 = p.getD j 0 := by
        simp [List.getD_eq_getElem?_getD, List.getElem?_take, hj]
      rw [hpj]
      by_cases hcov : ∃ (m : Nat) (x : BreakInstruction),
          (remove_instruction_at s2 n).instructions[m]? = some x ∧ covers s ctx x (address + j)
      · obtain ⟨m, x, hm, hcx⟩ := hcov
        rw [foldl_read_instruction_saved w s ctx address size _ _ j htop hb3 hno3 hj
          (by rw [target_bytes_length]; exact hj) x (List.getElem?_mem hm) hcx]
        rcases htab m x hm with ⟨_, hpl⟩ | ⟨_, b0, hb1, hb2, hb4⟩
        · have := hcx.1
          rw [hpl] at this
          cases this
        · have hc0 : covers s ctx b0 (address + j) := (covers_congr s ctx b0 x _ hb2).mp hcx
          have e : x.address = b0.address := by rw [← hb2]
          have hl := hwf b0 (List.getElem?_mem hb1)
          have h5 := hc0.2.2.1
          have h6 := hc0.2.2.2
          have e2 : b0.address + (address + j - b0.address) = address + j := by omega
          rw [e, hb4, if_pos ⟨by omega, by omega, by omega, by omega, by rw [e2]; exact hc0⟩]
          congr 1
          omega
      · rw [foldl_read_instruction_unchanged w s ctx address size _ _ j htop hb3
          (fun x hx hcx => by
            obtain ⟨m, hm⟩ := List.mem_iff_getElem?.mp hx
            exact hcov ⟨m, x, hm, hcx.2⟩),
          target_bytes_getD _ _ _ _ _ hj]
        apply hB j hj
        intro m b hmn hm hc
        obtain ⟨x, hx1, hx2⟩ := htab2 m b hmn hm
        exact hcov ⟨m, x, hx1, (covers_congr s ctx b x _ hx2).mpr hc⟩
  · intro j hj m b hmn hm hpl hmem k hk hjk
    have := hC j hj m b hmn hm ⟨hpl, hmem, by omega, by omega⟩
    have e : address + j - b.address = k := by omega
    rw [e] at this
    exact this

/-- Witness of C4 (amended): the client writes 1, 2, 3, 4 at address 8 across
the instructions planted at the addresses 10 and 11 in `agent1011`; after the
removal of `bi10` a client read of the range returns the client's bytes, and
target memory holds the client's byte at address 10. -/
theorem write_remove_read_witness :
    check_breakpoints_on_memory_read 32
      (remove_instruction_at
        (store_bytes (check_breakpoints_on_memory_write 32 agent1011 ctx1 8 [1, 2, 3, 4] 4).1 1 8
          (check_breakpoints_on_memory_write 32 agent1011 ctx1 8 [1, 2, 3, 4] 4).2 4) 0) ctx1 8
      (target_bytes (remove_instruction_at
        (store_bytes (check_breakpoints_on_memory_write 32 agent1011 ctx1 8 [1, 2, 3, 4] 4).1 1 8
          (check_breakpoints_on_memory_write 32 agent1011 ctx1 8 [1, 2, 3, 4] 4).2 4) 0)
        ctx1.mem 8 4) 4 = [1, 2, 3, 4] ∧
    (remove_instruction_at
      (store_bytes (check_breakpoints_on_memory_write 32 agent1011 ctx1 8 [1, 2, 3, 4] 4).1 1 8
        (check_breakpoints_on_memory_write 32 agent1011 ctx1 8 [1, 2, 3, 4] 4).2 4)
      0).target.mem ctx1.mem (8 + 2) = 3 := by
  have h := write_remove_read 32 agent1011 0 bi10 ctx1 8 [1, 2, 3, 4] 4
    (store_bytes (check_breakpoints_on_memory_write 32 agent1011 ctx1 8 [1, 2, 3, 4] 4).1 1 8
        (check_breakpoints_on_memory_write 32 agent1011 ctx1 8 [1, 2, 3, 4] 4).2 4)
    rfl rfl (by decide) (by decide) rfl rfl (by decide) (by decide) (by decide)
    rfl ⟨_, rfl, by decide⟩
  refine ⟨h.1, ?_⟩
  exact h.2.1 2 (by decide) (by
    intro m b hm hb
    cases m with
    | zero => exact absurd rfl hm
    | succ m =>
      cases m with
      | zero =>
        simp only [agent1011, List.getElem?_cons_succ, List.getElem?_cons_zero,
          Option.some.injEq] at hb
        subst hb
        decide
      | succ m => simp [agent1011] at hb)

/-- C7: for every thread `ctx` (stopped at `ctx.pc`), when every breakpoint
in the ref list of the break instruction at its PC has `ignore_count = 0` and a
condition, if any, that evaluates without error, `evaluate_breakpoint_condition`
returns 1 if and only if a break instruction exists at the PC and at least one
breakpoint in its ref list is not deleted, has no unsupported attribute, is
enabled and has either no condition or a condition that evaluates to true in
the top frame of the thread; it returns 0 when no break instruction is at the
PC, and never anything but 0 or 1. -/
theorem evaluate_breakpoint_condition_spec (sv : Services) (s : Agent) (ctx : Context)
    (hplain : ∀ (n : Nat) (bi : BreakInstruction),
      (find_instruction s ctx ctx.pc).1 = some n → s.instructions[n]? = some bi →
      ∀ id ∈ bi.refs, plain_ref sv s ctx id) :
    ((evaluate_breakpoint_condition sv s ctx).1 = 1 ↔
      ∃ (n : Nat) (bi : BreakInstruction), (find_instruction s ctx ctx.pc).1 = some n ∧
        s.instructions[n]? = some bi ∧ ∃ id ∈ bi.refs, passes_filters sv s ctx id) ∧
    ((find_instruction s ctx ctx.pc).1 = none → (evaluate_breakpoint_condition sv s ctx).1 = 0) ∧
    ((evaluate_breakpoint_condition sv s ctx).1 = 1 ∨
      (evaluate_breakpoint_condition sv s ctx).1 = 0) := by
  unfold evaluate_breakpoint_condition
  cases hf : find_instruction s ctx ctx.pc with
  | mk r s1 =>
    cases r with
    | none =>
      simp
    | some n =>
      obtain ⟨hbp, bi, hbi, _, _, bi1, hbi1, hfields⟩ := find_instruction_some s ctx ctx.pc n s1 hf
      have hrefs : ((s1.instructions[n]?).getD default).refs = bi.refs := by
        rw [hbi1, ← hfields]
        rfl
      rw [hf] at hplain
      simp only [hrefs]
      have hev := evaluate_refs_plain sv ctx bi.refs s1 (fun id hid =>
        (plain_ref_congr sv s s1 ctx id hbp).mpr (hplain n bi rfl hbi id hid))
      refine ⟨?_, by simp, hev.2⟩
      rw [hev.1]
      constructor
      · rintro ⟨id, hid, hp⟩
        exact ⟨n, bi, rfl, hbi, id, hid, (passes_filters_congr sv s s1 ctx id hbp).mp hp⟩
      · rintro ⟨m, b, hm, hb, id, hid, hp⟩
        simp only [Option.some.injEq] at hm
        subst hm
        rw [hbi] at hb
        cases hb
        exact ⟨id, hid, (passes_filters_congr sv s s1 ctx id hbp).mpr hp⟩

/-- The refs of the instruction at the PC of a thread of `agentC` are plain. -/
theorem agentC_plain (ctx : Context) :
    ∀ (n : Nat) (bi : BreakInstruction),
      (find_instruction agentC ctx ctx.pc).1 = some n → agentC.instructions[n]? = some bi →
      ∀ id ∈ bi.refs, plain_ref sv0 agentC ctx id := by
  intro n bi _ hbi id hid k bp hk hb
  have hn : n = 0 := by
    cases n with
    | zero => rfl
    | succ n => simp [agentC] at hbi
  subst hn
  have hbi' : bi = biC := by simpa [agentC] using hbi.symm
  subst hbi'
  have hid' : id = "C" := by simpa [biC] using hid
  subst hid'
  have hk' : k = 0 := by
    have h0 : find_breakpoint agentC "C" = some 0 := by decide
    rw [h0] at hk
    cases hk
    rfl
  subst hk'
  have hb' : bp = bpC := by simpa [agentC] using hb.symm
  subst hb'
  refine ⟨rfl, ?_⟩
  intro cond hc
  have hc' : cond = "r0 == 42" := by simpa [bpC, zero_breakpoint] using hc.symm
  subst hc'
  exact ⟨_, rfl⟩

/-- Witness of C7: breakpoint `C` with the condition `r0 == 42` intercepts the
thread that arrives with `r0 = 42` and not the one that arrives with `r0 = 0`. -/
theorem evaluate_breakpoint_condition_spec_witness :
    (evaluate_breakpoint_condition sv0 agentC ctx42).1 = 1 ∧
    (evaluate_breakpoint_condition sv0 agentC ctx00).1 ≠ 1 := by
  constructor
  · exact (evaluate_breakpoint_condition_spec sv0 agentC ctx42
      (agentC_plain ctx42)).1.mpr
      ⟨0, biC, by decide, rfl, "C", List.mem_singleton.mpr rfl,
        0, bpC, by decide, rfl, rfl, rfl, rfl, Or.inr ⟨"r0 == 42", _, rfl, rfl, rfl⟩⟩
  · intro h
    obtain ⟨n, bi, _, hbi, id, hid, k, bp, hk, hb, _, _, _, hc⟩ :=
      (evaluate_breakpoint_condition_spec sv0 agentC ctx00 (agentC_plain ctx00)).1.mp h
    have hn : n = 0 := by
      cases n with
      | zero => rfl
      | succ n => simp [agentC] at hbi
    subst hn
    have hbi' : bi = biC := by simpa [agentC] using hbi.symm
    subst hbi'
    have hid' : id = "C" := by simpa [biC] using hid
    subst hid'
    have hk' : k = 0 := by
      have h0 : find_breakpoint agentC "C" = some 0 := by decide
      rw [h0] at hk
      cases hk
      rfl
    subst hk'
    have hb' : bp = bpC := by simpa [agentC] using hb.symm
    subst hb'
    rcases hc with hc | ⟨cond, v, hc, hv, hvb⟩
    · simp [bpC, zero_breakpoint] at hc
    · have hc' : cond = "r0 == 42" := by simpa [bpC, zero_breakpoint] using hc.symm
      subst hc'
      have hv' : v = { type := .VALUE_INT, value := 0 } := by
        have : sv0.evaluate_expression (some ctx00) .STACK_TOP_FRAME "r0 == 42" =
            .ok { type := .VALUE_INT, value := 0 } := rfl
        rw [this] at hv
        cases hv
        rfl
      subst hv'
      exact absurd hvb (by decide)

/-- C6 (the code at the claim's input): breakpoint `I`, enabled, supported,
unconditional, with `ignore_count = 3` and `hit_count = 0`, is planted at the
address where the thread stops four consecutive times.
`evaluate_breakpoint_condition` returns 0 on the first two hits, 1 on the third
hit, after which `hit_count` is 0 again, and 0 on the fourth hit: the intercept
comes one hit earlier than `IgnoreCount: 3` asks for. -/
theorem evaluate_breakpoint_condition_ignore_count_three :
    agentI.breakpoints.map (fun bp => (bp.id, bp.planted, bp.ignore_count, bp.hit_count)) =
      [("I", 1, 3, 0)] ∧
    (evaluate_breakpoint_condition sv0 agentI ctx42).1 = 0 ∧
    (evaluate_breakpoint_condition sv0 (after_hit sv0 agentI ctx42) ctx42).1 = 0 ∧
    (evaluate_breakpoint_condition sv0
      (after_hit sv0 (after_hit sv0 agentI ctx42) ctx42) ctx42).1 = 1 ∧
    (after_hit sv0 (after_hit sv0 (after_hit sv0 agentI ctx42) ctx42) ctx42).breakpoints.map
      (fun bp => bp.hit_count) = [0] ∧
    (evaluate_breakpoint_condition sv0
      (after_hit sv0 (after_hit sv0 (after_hit sv0 agentI ctx42) ctx42) ctx42) ctx42).1 = 0 := by
  decide

/-- C10: after every replant pass (on a registry with distinct ids, which
`add_breakpoint` maintains), every breakpoint whose unsupported-attribute list
is non-empty has `planted = 0` and occurs in no break instruction's ref list,
whatever its enabled flag and location are. -/
theorem replant_unsupported_not_planted (sv : Services) (s : Agent)
    (hnd : (s.breakpoints.map (fun bp => bp.id)).Nodup) :
    ∀ bp ∈ (event_replant_breakpoints sv s).breakpoints, bp.unsupported ≠ [] →
      bp.planted = 0 ∧
      ∀ bi ∈ (event_replant_breakpoints sv s).instructions, bp.id ∉ bi.refs := by
  intro bp hbp hu
  obtain ⟨⟨h1, h2⟩, _⟩ := (event_replant_breakpoints_post sv s hnd).2.2.2.2.1 bp hbp
  constructor
  · rcases Nat.eq_zero_or_pos bp.planted with h | h
    · exact h
    · exact absurd (h1.mp h).2.1 hu
  · intro bi hbi hmem
    exact hu (h2 ⟨bi, hbi, hmem⟩).2

/-- Witness of C10: breakpoint `U`, enabled and with a valid location but with
the unknown attribute `Foo`, is still unplanted after the replant pass. -/
theorem replant_unsupported_not_planted_witness :
    (event_replant_breakpoints sv0 agentU).breakpoints.map
      (fun bp => (bp.id, bp.enabled, bp.planted)) = [("U", true, 0)] ∧
    ∀ bp ∈ (event_replant_breakpoints sv0 agentU).breakpoints, bp.unsupported ≠ [] →
      bp.planted = 0 ∧
      ∀ bi ∈ (event_replant_breakpoints sv0 agentU).instructions, bp.id ∉ bi.refs :=
  ⟨by decide, replant_unsupported_not_planted sv0 agentU (by decide)⟩

/-- C9: after a `set` command from channel `c` carrying the breakpoint list
`arg` completes, channel `c` holds a ref on exactly the ids that occur in the
list, one ref per id, whatever it referenced before; each of these ids is a
breakpoint of the registry that is not flagged deleted; and the refs held by
every other channel are unchanged. -/
theorem command_ini_bps_refs (s : Agent) (token : String) (c : Nat)
    (arg : Option (List BreakpointInfo)) :
    (command_ini_bps s token c arg).refs.filter (fun r => r.inp != c) =
      s.refs.filter (fun r => r.inp != c) ∧
    (∀ id, ({ inp := c, bp := id } : BreakpointRef) ∈ (command_ini_bps s token c arg).refs ↔
      id ∈ (arg.getD []).map (fun bp => bp.id)) ∧
    ((command_ini_bps s token c arg).refs.filter (fun r => r.inp == c)).Nodup ∧
    (∀ id ∈ (arg.getD []).map (fun bp => bp.id),
      registered (command_ini_bps s token c arg).breakpoints id) := by
  have hs1 : (s.breakpoints.foldl (fun st bp =>
      if bp.deleted = true then st
      else send (send st (.chan c) (.contextAdded bp)) (.chan c)
        (.status bp.id (write_breakpoint_status st bp))) s).refs = s.refs := by
    apply foldl_preserves _ Agent.refs
    intro t b
    split <;> rfl
  have hs2 := delete_breakpoint_refs_refs (s.breakpoints.foldl (fun st bp =>
      if bp.deleted = true then st
      else send (send st (.chan c) (.contextAdded bp)) (.chan c)
        (.status bp.id (write_breakpoint_status st bp))) s) c
  rw [hs1] at hs2
  obtain ⟨h1, h2, h3, h4⟩ := foldl_add_breakpoint_refs c (arg.getD [])
    (delete_breakpoint_refs (s.breakpoints.foldl (fun st bp =>
      if bp.deleted = true then st
      else send (send st (.chan c) (.contextAdded bp)) (.chan c)
        (.status bp.id (write_breakpoint_status st bp))) s) c)
  rw [hs2] at h1 h2 h3
  unfold command_ini_bps
  simp only [send_refs, send_breakpoints]
  refine ⟨?_, fun id => ?_, ?_, fun id hid => h4 id (Or.inr hid)⟩
  · rw [h1, List.filter_filter]
    simp
  · rw [h2 id]
    constructor
    · rintro (h | h)
      · have := (List.mem_filter.mp h).2
        simp at this
      · exact h
    · exact Or.inr
  · apply h3
    rw [List.filter_filter]
    have : ∀ r : BreakpointRef, (r.inp == c && r.inp != c) = false := by
      intro r
      cases h : (r.inp == c) <;> simp [bne, h]
    simp [this]

/-- Counterexample to C5 as stated: after `add` of the enabled breakpoint `A.1`
and a replant pass, the command `disable` leaves a reachable state, with a
replant pending, in which `A.1` has `planted = 1` although it is no longer
enabled. -/
theorem planted_positive_while_disabled :
    Reachable agentD ∧ agentD.replanting = true ∧
    agentD.breakpoints.map (fun bp => (bp.id, bp.enabled, bp.planted, bp.error)) =
      [("A.1", false, 1, 0)] ∧
    ¬ (∀ bp ∈ agentD.breakpoints,
        (bp.planted > 0 ↔ (bp.enabled = true ∧ bp.unsupported = [] ∧ bp.error = 0 ∧
          ∃ bi ∈ agentD.instructions, bp.id ∈ bi.refs))) :=
  ⟨Reachable.step _ _ (Reachable.step _ _ (Reachable.step _ _
      (Reachable.init [0xcc] [ctx7, ctx42] target0) (Step.add _ "t1" 1 bpA))
      (Step.replant _ sv0)) (Step.disable _ "t2" 1 (some ["A.1"])),
    by decide, by decide, by decide⟩

/-- C5 (amended): in every state reachable by Breakpoints commands (set, add,
change, enable, disable, remove) and replant passes in which no replant is
pending, every breakpoint `bp` of the registry satisfies: `bp.planted > 0` if
and only if `bp` is enabled, has an empty unsupported list, has `error = 0` and
is in the ref list of some break instruction. And no replant is pending after a
replant pass. -/
theorem planted_iff_no_replant_pending (s : Agent) (hr : Reachable s) :
    (s.replanting = false → ∀ bp ∈ s.breakpoints,
      (bp.planted > 0 ↔ (bp.enabled = true ∧ bp.unsupported = [] ∧ bp.error = 0 ∧
        ∃ bi ∈ s.instructions, bp.id ∈ bi.refs))) ∧
    ∀ sv : Services, (event_replant_breakpoints sv s).replanting = false :=
  ⟨fun hl bp hbp => ((registry_inv_reachable s hr).2 hl bp hbp).2,
    fun sv => (event_replant_breakpoints_post sv s (registry_inv_reachable s hr).1).1⟩

/-- Witness of C5 (amended): after `add` of `A.1` and the replant pass, no
replant is pending and `A.1`, enabled and without error, has `planted = 1` and
is in a ref list. -/
theorem planted_iff_no_replant_pending_witness :
    agentP.replanting = false ∧
    agentP.breakpoints.map (fun bp => (bp.id, bp.enabled, bp.planted, bp.error)) =
      [("A.1", true, 1, 0)] ∧
    ∀ bp ∈ agentP.breakpoints,
      (bp.planted > 0 ↔ (bp.enabled = true ∧ bp.unsupported = [] ∧ bp.error = 0 ∧
        ∃ bi ∈ agentP.instructions, bp.id ∈ bi.refs)) :=
  ⟨by decide, by decide,
    (planted_iff_no_replant_pending agentP
      (Reachable.step _ _ (Reachable.step _ _
        (Reachable.init [0xcc] [ctx7, ctx42] target0) (Step.add _ "t1" 1 bpA))
        (Step.replant _ sv0))).1 (by decide)⟩

/-- C11: when a known thread that is running reports a stop, `event_pid_stopped`
sets `stopped_by_bp` if and only if the signal is `SIGTRAP`, there is no ptrace
event, the stop is not a syscall stop, the register snapshot was read without
error, and the break instruction of the thread's memory space at
`PC - break_size` (the entry `find_instruction` finds) is neither skipped nor
in error; exactly in that case the cached PC is `PC - break_size`, otherwise it
is the PC as read; and when the snapshot cannot be read the cached PC is left
as it was. -/
theorem event_pid_stopped_by_bp (w : Nat) (s : Agent) (c : ContextDarwin) (signal event : Nat)
    (syscall : Bool) (state : Except Nat REG_SET)
    (hrun : c.ctx.stopped = false)
    (herr : ∀ e, state = .error e → e ≠ 0)
    (hmem : ∀ x ∈ s.contexts, x.id = c.ctx.id → x.mem = c.ctx.mem) :
    ((event_pid_stopped w s c signal event syscall state).2.1.stopped_by_bp = true ↔
      signal = SIGTRAP ∧ event = 0 ∧ syscall = false ∧
      ∃ (r : REG_SET) (bi : BreakInstruction), state = .ok r ∧
        s.instructions.find? (fun bi => (s.ctx bi.ctx).mem == c.ctx.mem &&
          bi.address == address_sub w r.pc (BREAK_SIZE s)) = some bi ∧
        bi.skip = false ∧ bi.error = 0) ∧
    (∀ r, state = .ok r →
      (event_pid_stopped w s c signal event syscall state).2.1.ctx.pc =
        if (event_pid_stopped w s c signal event syscall state).2.1.stopped_by_bp = true then
          address_sub w r.pc (BREAK_SIZE s) else r.pc) ∧
    (∀ e, state = .error e →
      (event_pid_stopped w s c signal event syscall state).2.1.ctx.pc = c.ctx.pc) := by
  obtain ⟨h1, h2, h3, h4, _⟩ := record_signal_ctx c signal
  have key := event_pid_stopped_running w s c signal event syscall state hrun
  obtain ⟨k1, k2, k3, k4, k5, k6, _⟩ := read_snapshot_fields (record_signal c signal) signal event
    (decide (signal ≠ SIGSTOP ∧ signal ≠ SIGTRAP) && !sigset_get c.sig_dont_stop signal) state
  rw [key]
  generalize read_snapshot (record_signal c signal) signal event
    (decide (signal ≠ SIGSTOP ∧ signal ≠ SIGTRAP) && !sigset_get c.sig_dont_stop signal) state
    = r at k1 k2 k3 k4 k5 k6 ⊢
  rw [h2] at k1
  rw [h3] at k2
  rw [h4] at k4
  have hm : ∀ id, ((s.put_context r.1.ctx).ctx id).mem = (s.ctx id).mem :=
    put_context_mem s r.1.ctx (fun x hx hid => by rw [k2]; exact hmem x hx (by rw [hid, k1]))
  have hbp := breakpoint_stop_fields w (s.put_context r.1.ctx) r.1 r.2
  rw [is_breakpoint_address_find] at hbp
  simp only [hm, k2] at hbp
  have hbs : BREAK_SIZE (s.put_context r.1.ctx) = BREAK_SIZE s := rfl
  have hins : (s.put_context r.1.ctx).instructions = s.instructions := rfl
  rw [hbs, hins] at hbp
  obtain ⟨b1, b2⟩ := hbp
  cases state with
  | error e =>
    have he := herr e rfl
    simp only at k3 k4 k5
    rw [k3, if_pos he] at b1
    refine ⟨⟨fun h => ?_, fun ⟨_, _, _, r0, bi, h0, _⟩ => (by cases h0)⟩,
      fun r0 h0 => (by cases h0), fun e' _ => ?_⟩
    · by_cases hT : signal = SIGTRAP ∧ event = 0 ∧ syscall = false
      · rw [if_pos hT] at h
        have h' : (breakpoint_stop w (s.put_context r.1.ctx) r.1 r.2).2.stopped_by_bp = true := h
        rw [b1] at h'
        cases h'
      · rw [if_neg hT] at h
        have h' : r.1.stopped_by_bp = true := h
        rw [k6] at h'
        cases h'
    · by_cases hT : signal = SIGTRAP ∧ event = 0 ∧ syscall = false
      · rw [if_pos hT]
        show (breakpoint_stop w (s.put_context r.1.ctx) r.1 r.2).2.ctx.pc = c.ctx.pc
        rw [b2, b1, k4]
        rfl
      · rw [if_neg hT]
        exact k4
  | ok x =>
    simp only at k3 k4 k5
    rw [k3, if_neg (by simp), k5] at b1
    rw [k5] at b2
    rw [k5]
    have hfound : (breakpoint_stop w (s.put_context r.1.ctx) r.1 x.pc).2.stopped_by_bp = true ↔
        ∃ bi : BreakInstruction, s.instructions.find? (fun bi => (s.ctx bi.ctx).mem == c.ctx.mem &&
          bi.address == address_sub w x.pc (BREAK_SIZE s)) = some bi ∧
          bi.skip = false ∧ bi.error = 0 := by
      rw [b1]
      cases hfd : s.instructions.find? (fun bi => (s.ctx bi.ctx).mem == c.ctx.mem &&
          bi.address == address_sub w x.pc (BREAK_SIZE s)) with
      | none => simp
      | some bi => simp
    refine ⟨⟨fun h => ?_, fun ⟨hs, hev, hsy, r0, bi, h0, hf, hsk, her⟩ => ?_⟩,
      fun r0 h0 => ?_, fun e' h0 => (by cases h0)⟩
    · by_cases hT : signal = SIGTRAP ∧ event = 0 ∧ syscall = false
      · rw [if_pos hT] at h
        obtain ⟨bi, hb⟩ := hfound.mp h
        exact ⟨hT.1, hT.2.1, hT.2.2, x, bi, rfl, hb⟩
      · rw [if_neg hT] at h
        have h' : r.1.stopped_by_bp = true := h
        rw [k6] at h'
        cases h'
    · cases h0
      rw [if_pos ⟨hs, hev, hsy⟩]
      exact hfound.mpr ⟨bi, hf, hsk, her⟩
    · cases h0
      by_cases hT : signal = SIGTRAP ∧ event = 0 ∧ syscall = false
      · rw [if_pos hT]
        show (breakpoint_stop w (s.put_context r.1.ctx) r.1 x.pc).2.ctx.pc = _
        rw [b2, k4]
      · rw [if_neg hT]
        have h' : r.1.ctx.pc = if r.1.stopped_by_bp = true then
            address_sub w x.pc (BREAK_SIZE s) else x.pc := by
          rw [k6, k4]; rfl
        exact h'

/-- Witness of C11: the running thread of `agentR` reports a `SIGTRAP` stop with
PC = 11, one byte past the break instruction planted at address 10:
`stopped_by_bp` is set and the cached PC is 10. -/
theorem event_pid_stopped_by_bp_witness :
    (event_pid_stopped 32 agentR threadR SIGTRAP 0 false (.ok snapR)).2.1.stopped_by_bp = true ∧
    (event_pid_stopped 32 agentR threadR SIGTRAP 0 false (.ok snapR)).2.1.ctx.pc = 10 ∧
    (event_pid_stopped 32 agentR threadR SIGTRAP 0 false (.ok snapR)).2.1.ctx.pc =
      if (event_pid_stopped 32 agentR threadR SIGTRAP 0 false (.ok snapR)).2.1.stopped_by_bp
          = true then
        address_sub 32 snapR.pc (BREAK_SIZE agentR) else snapR.pc :=
  ⟨by decide, by decide,
    (event_pid_stopped_by_bp 32 agentR threadR SIGTRAP 0 false (.ok snapR) (by decide)
      (fun e h => by cases h) (by decide)).2.1 snapR rfl⟩

/-- C12: for every register `Rm` in r0..r14 that holds a value `v` below
`0xFFFF0000` and every PC, `arm_get_next_address` on the always-executed
unshifted instruction `MOV PC, Rm` (`0xE1A0F000 + Rm`) returns `v`, and
`enable_sw_stepping_mode` then, when the four bytes at `v` can be read and
written, saves them and writes the break instruction at `v`, leaving the rest
of memory as it is. -/
theorem mov_pc_next_address (t : ArmContext) (Rm pc cpsr v x : Nat) (hRm : Rm < 15)
    (hpc : arm_read_reg t 15 = .ok pc) (hcpsr : arm_read_reg t 16 = .ok cpsr)
    (hfetch : arm_read_word t pc = .ok (0xE1A0F000 + Rm))
    (hv : arm_read_reg t Rm = .ok v) (hx : arm_read_reg t 0 = .ok x)
    (hlt : v < 0xFFFF0000)
    (hrd : first_error t.rd_err v 4 = 0) (hwr : first_error t.wr_err v 4 = 0) :
    arm_get_next_address t = .ok v ∧
    (enable_sw_stepping_mode t).1 = 0 ∧
    (∀ i, i < 4 → (enable_sw_stepping_mode t).2.mem (v + i) = ARM_BREAK_INST.getD i 0) ∧
    (∀ a, a < v ∨ v + 4 ≤ a → (enable_sw_stepping_mode t).2.mem a = t.mem a) ∧
    (enable_sw_stepping_mode t).2.ext.addr = v ∧
    (enable_sw_stepping_mode t).2.ext.sw_stepping = true ∧
    (enable_sw_stepping_mode t).2.ext.opcode = (List.range 4).map (fun i => t.mem (v + i) % 256) := by
  have hd := arm_decode_mov_pc t Rm pc cpsr v x hRm hpc hcpsr hfetch hv hx
  have hn : arm_get_next_address t = .ok v := by
    unfold arm_get_next_address
    rw [hd]
    simp only
    rw [if_neg (by omega)]
  have hlen : ARM_BREAK_INST.length = 4 := rfl
  have he : enable_sw_stepping_mode t =
      (0, { t with
        mem := fun a => if v ≤ a ∧ a < v + 4 then ARM_BREAK_INST.getD (a - v) 0 else t.mem a,
        ext := { sw_stepping := true, opcode := (List.range 4).map (fun i => t.mem (v + i) % 256),
                 addr := v } }) := by
    unfold enable_sw_stepping_mode
    simp only [hn, hlen, arm_read_mem, arm_write_mem, hrd, hwr, ne_eq, not_true_eq_false,
      if_false]
  rw [he]
  refine ⟨hn, rfl, fun i hi => ?_, fun a ha => ?_, rfl, rfl, rfl⟩
  · show (if v ≤ v + i ∧ v + i < v + 4 then ARM_BREAK_INST.getD (v + i - v) 0
      else t.mem (v + i)) = _
    rw [if_pos ⟨by omega, by omega⟩, Nat.add_sub_cancel_left]
  · show (if v ≤ a ∧ a < v + 4 then ARM_BREAK_INST.getD (a - v) 0 else t.mem a) = _
    rw [if_neg (by omega)]

/-- Witness of C12: `MOV PC, LR` (`0xE1A0F00E`) with LR = `0x1000` predicts
`0x1000`, and the break instruction is written there. -/
theorem mov_pc_next_address_witness :
    arm_get_next_address armMov = .ok 0x1000 ∧
    (∀ i, i < 4 → (enable_sw_stepping_mode armMov).2.mem (0x1000 + i) = ARM_BREAK_INST.getD i 0) ∧
    (enable_sw_stepping_mode armMov).2.ext.addr = 0x1000 :=
  have h := mov_pc_next_address armMov 14 0x8000 0 0x1000 0 (by decide) rfl rfl rfl rfl rfl
    (by decide) rfl rfl
  ⟨h.1, h.2.2.1, h.2.2.2.2.1⟩

/-- C13: for every LDM instruction (bits 27:25 are 100) whose condition
`arm_evaluate_condition` passes, with L = 1, S = 0, Rn ≠ 15 and bit 15 set in
the register list, the successor that `arm_get_next_address` decodes is the
32-bit word stored at the architectural slot of PC, `ldm_pc_slot`, for each
of the four addressing modes; the word is returned unchanged when it is below
`0xFFFF0000`; and the writeback bit (bit 21) does not change the result of
`arm_get_next_ldm`. -/
theorem arm_get_next_address_ldm (t : ArmContext) (pc cpsr instr rn : Nat)
    (hw : 32 ≤ t.addr_bits)
    (hpc : arm_read_reg t 15 = .ok pc) (hcpsr : arm_read_reg t 16 = .ok cpsr)
    (hfetch : arm_read_word t pc = .ok instr) (hldm : (instr >>> 25) &&& 7 = 4)
    (hcond : arm_evaluate_condition (cpsr % 2 ^ 32) instr = true)
    (hL : instr &&& (1 <<< 20) ≠ 0) (hS : instr &&& (1 <<< 22) = 0)
    (hRn : (instr >>> 16) &&& 0xf ≠ 15) (h15 : instr &&& (1 <<< 15) ≠ 0)
    (hrn : arm_read_reg t ((instr >>> 16) &&& 0xf) = .ok rn) :
    arm_decode t = arm_read_word t (ldm_pc_slot t.addr_bits instr rn) ∧
    (∀ v, arm_read_word t (ldm_pc_slot t.addr_bits instr rn) = .ok v → v < 0xFFFF0000 →
      arm_get_next_address t = .ok v) ∧
    (∀ next, arm_get_next_ldm t (instr ^^^ (1 <<< 21)) next = arm_get_next_ldm t instr next) := by
  have hrnlt : rn < 2 ^ t.addr_bits :=
    Nat.lt_of_lt_of_le (arm_read_reg_lt t _ rn hrn) (Nat.pow_le_pow_right (by decide) hw)
  have hd : arm_decode t = arm_read_word t (ldm_pc_slot t.addr_bits instr rn) := by
    unfold arm_decode
    simp only [hpc, hcpsr, hfetch, hcond, hldm, if_true]
    unfold arm_get_next_ldm ldm_pc_slot
    simp only [hL, hS, hRn, h15, hrn, ne_eq, not_false_eq_true, decide_True, not_true_eq_false,
      decide_False, Bool.true_eq_false, Bool.false_eq_true, or_self, if_false, decide_eq_true_eq]
    rw [arm_ldm_offset_eq _ _ _ hrnlt, ldm_count_succ instr h15]
    by_cases hU : instr &&& (1 <<< 23) = 0
    · simp only [hU, not_true_eq_false, if_false]
    · simp only [hU, not_false_eq_true, if_true]
      by_cases hP : instr &&& (1 <<< 24) = 0
      · simp only [hP, not_true_eq_false, if_false, Nat.add_sub_cancel]
      · simp only [hP, not_false_eq_true, if_true]
        unfold address_add
        rw [Nat.mod_add_mod, Nat.mul_add, Nat.add_assoc]
  refine ⟨hd, fun v hv hlt => ?_, ?_⟩
  · unfold arm_get_next_address
    rw [hd, hv]
    simp only
    rw [if_neg (by omega)]
  · exact fun next => arm_get_next_ldm_writeback t instr next

/-- Witness of C13: `LDMIA SP!, {R4, PC}` with SP = `0x7000`, where the slot of
PC is `0x7004` and holds `0x2048`, predicts `0x2048`. -/
theorem arm_get_next_address_ldm_witness :
    ldm_pc_slot 32 0xE8BD8010 0x7000 = 0x7004 ∧
    arm_read_word armLdm 0x7004 = .ok 0x2048 ∧
    arm_decode armLdm = arm_read_word armLdm (ldm_pc_slot armLdm.addr_bits 0xE8BD8010 0x7000) ∧
    arm_get_next_address armLdm = .ok 0x2048 :=
  have h := arm_get_next_address_ldm armLdm 0x8000 0 0xE8BD8010 0x7000 (by decide) rfl rfl rfl
    (by decide) (by decide) (by decide) (by decide) (by decide) (by decide) rfl
  ⟨by decide, rfl, h.1, h.2.1 0x2048 rfl (by decide)⟩

/-- C14: for every PC and every B or BL instruction (bits 27:25 are 101)
whose condition `arm_evaluate_condition` passes, the successor that
`arm_get_next_address` decodes is `(PC + 8 + (sign_extend(imm24) << 2)) mod
2^32`, where `imm24` is bits 23:0 of the instruction; it is returned unchanged
when it is below `0xFFFF0000`. -/
theorem arm_get_next_address_branch (t : ArmContext) (pc cpsr instr : Nat)
    (hpc : arm_read_reg t 15 = .ok pc) (hcpsr : arm_read_reg t 16 = .ok cpsr)
    (hfetch : arm_read_word t pc = .ok instr) (hb : (instr >>> 25) &&& 7 = 5)
    (hcond : arm_evaluate_condition (cpsr % 2 ^ 32) instr = true) :
    ∃ next : Nat, arm_decode t = .ok next ∧
      (next : Int) = ((pc : Int) + 8 +
        4 * (if instr % 2 ^ 24 < 2 ^ 23 then ((instr % 2 ^ 24 : Nat) : Int)
          else ((instr % 2 ^ 24 : Nat) : Int) - 2 ^ 24)) % 2 ^ 32 ∧
      (next < 0xFFFF0000 → arm_get_next_address t = .ok next) := by
  have hpclt := arm_read_reg_lt t 15 pc hpc
  have hd : arm_decode t = .ok (arm_get_next_branch pc instr) := by
    unfold arm_decode
    simp only [hpc, hcpsr, hfetch, hcond, hb, if_true, Nat.mod_eq_of_lt hpclt]
  refine ⟨_, hd, arm_get_next_branch_value pc instr, fun hn => ?_⟩
  unfold arm_get_next_address
  rw [hd]
  simp only
  rw [if_neg (by omega)]

/-- Witness of C14: `BL` with the immediate `0xFFFFFE` (-2) at PC = `0x8000`
predicts `0x8000 + 8 - 8`. -/
theorem arm_get_next_address_branch_witness :
    arm_get_next_address armBl = .ok 0x8000 ∧
    ∃ next : Nat, arm_decode armBl = .ok next ∧
      (next : Int) = ((0x8000 : Int) + 8 +
        4 * (if 0xEBFFFFFE % 2 ^ 24 < 2 ^ 23 then ((0xEBFFFFFE % 2 ^ 24 : Nat) : Int)
          else ((0xEBFFFFFE % 2 ^ 24 : Nat) : Int) - 2 ^ 24)) % 2 ^ 32 ∧
      (next < 0xFFFF0000 → arm_get_next_address armBl = .ok next) :=
  ⟨rfl, arm_get_next_address_branch armBl 0x8000 0 0xEBFFFFFE rfl rfl rfl (by decide)
    (by decide)⟩

/-- C15 (the code diverges): with the flags C = 1 and Z = 0 (`cpsr = 0x20000000`)
the condition HI of the instruction `0x8A000000` (BHI) passes on ARM, and
`arm_evaluate_condition` returns 0; with C = 0 and Z = 0, where HI fails, it
returns 1. The complementary condition LS (`0x9A000000`) is evaluated as on
ARM. -/
theorem arm_evaluate_condition_hi :
    arm_evaluate_condition 0x20000000 0x8A000000 = false ∧
    arm_evaluate_condition 0x00000000 0x8A000000 = true ∧
    arm_evaluate_condition 0x20000000 0x9A000000 = false ∧
    arm_evaluate_condition 0x00000000 0x9A000000 = true := by
  decide

/-- C16: for every machine state in which the opcode decodes to the successor
`next`, `arm_get_next_address` returns the value of LR when
`next ≥ 0xFFFF0000` (and the error of the LR read when LR cannot be read), and
`next` unchanged otherwise. -/
theorem arm_get_next_address_helper_page (t : ArmContext) (next : Nat)
    (h : arm_decode t = .ok next) :
    (next ≥ 0xFFFF0000 → arm_get_next_address t = arm_read_reg t 14) ∧
    (next ≥ 0xFFFF0000 → ∀ lr, arm_read_reg t 14 = .ok lr → arm_get_next_address t = .ok lr) ∧
    (next < 0xFFFF0000 → arm_get_next_address t = .ok next) := by
  unfold arm_get_next_address
  rw [h]
  refine ⟨fun hn => ?_, fun hn lr hlr => ?_, fun hn => ?_⟩
  · simp only
    rw [if_pos hn]
  · simp only
    rw [if_pos hn, hlr]
  · simp only
    rw [if_neg (by omega)]

/-- Witness of C16: `MOV PC, R0` with R0 = `0xFFFF0FE0` decodes to an address
of the kernel-helper page, and the address returned is LR = `0x8004`. -/
theorem arm_get_next_address_helper_page_witness :
    arm_decode armHelper = .ok 0xFFFF0FE0 ∧ arm_get_next_address armHelper = .ok 0x8004 :=
  ⟨rfl, (arm_get_next_address_helper_page armHelper 0xFFFF0FE0 rfl).2.1 (by decide) 0x8004 rfl⟩

/-- C17: for every byte sequence `b` of length `n` and every buffer of size
`buf_size ≥ max(3, 3 * ceil(n / 3))`, `read_base64` applied to the characters
written by `write_base64` for `b`, followed by a character `c` outside the
alphabet, returns `n`, stores exactly `b` in the first `n` bytes of the buffer
(leaving the others as they are) and stops in front of `c`; and `write_base64`
writes exactly the `4 * ceil(n / 3)` characters that it reports as its return
value. -/
theorem base64_round_trip (b buf : List Nat) (buf_size : Nat) (c : Int) (rest : List Int)
    (hb : ∀ x ∈ b, x < 256) (h3 : 3 ≤ buf_size) (hsize : 3 * ((b.length + 2) / 3) ≤ buf_size)
    (hlen : buf.length = buf_size) (hc : base64_digit c = none) :
    (∃ buf1 : List Nat,
      read_base64 ((write_base64 b).1.map (fun ch => (ch.toNat : Int)) ++ c :: rest) buf buf_size =
        .ok (b.length, buf1, c :: rest) ∧
      buf1.take b.length = b ∧ buf1.drop b.length = buf.drop b.length) ∧
    (write_base64 b).1.length = (write_base64 b).2 ∧
    (write_base64 b).2 = 4 * ((b.length + 2) / 3) := by
  refine ⟨?_, write_base64_loop_length b, Nat.mul_comm _ _⟩
  obtain ⟨buf1, r1, r2, r3, r4⟩ := read_base64_loop_write c rest buf_size hc b buf_size 0 buf hb
    (by omega) (by omega) hlen
  rw [Nat.zero_add] at r1
  have hn : b.length ≤ buf1.length := by omega
  refine ⟨buf1, r1, ?_, ?_⟩
  · apply List.ext_getElem?
    intro i
    rw [List.getElem?_take]
    by_cases hi : i < b.length
    · rw [if_pos hi]
      have := r3 i hi
      rw [Nat.zero_add] at this
      exact getElem?_of_getD _ _ _ _ (by omega) hi this
    · rw [if_neg hi, List.getElem?_eq_none (by omega)]
  · apply List.ext_getElem?
    intro i
    rw [List.getElem?_drop, List.getElem?_drop]
    by_cases hi : b.length + i < buf.length
    · exact getElem?_of_getD _ _ _ _ (by omega) hi (r4 _ (Or.inr (by omega)))
    · rw [List.getElem?_eq_none (by omega), List.getElem?_eq_none (by omega)]

set_option maxRecDepth 100000 in
/-- Witness of C17: the five bytes `4d 61 6e 01 ff` are written as `TWFuAf8=`
and read back into a buffer of six bytes. -/
theorem base64_round_trip_witness :
    (write_base64 [77, 97, 110, 1, 255]).1 = ['T', 'W', 'F', 'u', 'A', 'f', '8', '='] ∧
    (∃ buf1 : List Nat,
      read_base64 ((write_base64 [77, 97, 110, 1, 255]).1.map (fun ch => (ch.toNat : Int)) ++
          10 :: []) [0, 0, 0, 0, 0, 0] 6 =
        .ok ([77, 97, 110, 1, 255].length, buf1, 10 :: []) ∧
      buf1.take [77, 97, 110, 1, 255].length = [77, 97, 110, 1, 255] ∧
      buf1.drop [77, 97, 110, 1, 255].length = [0, 0, 0, 0, 0, 0].drop [77, 97, 110, 1, 255].length) :=
  ⟨rfl,
    (base64_round_trip [77, 97, 110, 1, 255] [0, 0, 0, 0, 0, 0] 6 10 [] (by decide) (by decide)
      (by decide) rfl (by decide)).1⟩

set_option maxRecDepth 100000 in
/-- C18 (the code diverges): on the group `QQ= `, whose third character is `=`
and whose fourth character is a space, `read_base64` raises no error: it
consumes the four characters and returns 1 with the byte `0x41` stored. A
character that is not a digit in second or in third place, as in `Q Q=` and
`QQ Q`, does raise `ERR_BASE64`. -/
theorem read_base64_pad_then_space :
    read_base64 (['Q', 'Q', '=', ' '].map (fun ch => (ch.toNat : Int))) [0, 0, 0] 3 =
      .ok (1, [0x41, 0, 0], []) ∧
    read_base64 (['Q', ' ', 'Q', '='].map (fun ch => (ch.toNat : Int))) [0, 0, 0] 3 =
      .error ERR_BASE64 ∧
    read_base64 (['Q', 'Q', ' ', 'Q'].map (fun ch => (ch.toNat : Int))) [0, 0, 0] 3 =
      .error ERR_BASE64 := by
  refine ⟨?_, ?_, ?_⟩ <;> rfl

/-- C20: when no breakpoint has to be skipped, the thread is not stopped at a
syscall entry and its registers can be written back, `context_continue` calls
`ptrace(PT_CONTINUE, ...)` with the lowest-numbered signal of
`pending_signals` that is not in `sig_dont_pass`, or with 0 when there is
none; the signals left pending are the pending signals other than those of
`sig_dont_pass` below the chosen one (all those of `sig_dont_pass` when none is
chosen) and, when `ptrace` succeeds, other than the signal delivered; and in
every reachable state the signal delivered is neither `SIGSTOP` nor
`SIGTRAP`. -/
theorem context_continue_signal (c : ContextDarwin) (os : OsOutcome)
    (hskip : os.skip = false) (hsys : c.syscall_enter = false) (hflush : os.set_state = 0) :
    (context_continue c os).signal =
      some ((lowest_passed c.pending_signals c.sig_dont_pass).getD 0) ∧
    (∀ m, lowest_passed c.pending_signals c.sig_dont_pass = some m ↔
      m ∈ c.pending_signals ∧ m ∉ c.sig_dont_pass ∧
        ∀ x ∈ c.pending_signals, x ∉ c.sig_dont_pass → m ≤ x) ∧
    (lowest_passed c.pending_signals c.sig_dont_pass = none ↔
      ∀ x ∈ c.pending_signals, x ∈ c.sig_dont_pass) ∧
    (∀ x, x ∈ (context_continue c os).ctx.pending_signals ↔
      x ∈ c.pending_signals ∧
      (x ∈ c.sig_dont_pass →
        ∃ m, lowest_passed c.pending_signals c.sig_dont_pass = some m ∧ m ≤ x) ∧
      (os.ptrace = 0 → x ≠ (lowest_passed c.pending_signals c.sig_dont_pass).getD 0)) ∧
    (os.ptrace = 0 → (context_continue c os).ret = 0 ∧ (context_continue c os).started = true) ∧
    (ContextReachable c →
      (lowest_passed c.pending_signals c.sig_dont_pass).getD 0 ≠ SIGSTOP ∧
      (lowest_passed c.pending_signals c.sig_dont_pass).getD 0 ≠ SIGTRAP) := by
  obtain ⟨f1, f2, f3, f4⟩ := context_continue_fields c os hskip hsys hflush
  obtain ⟨l1, l2⟩ := pass_signal_loop_spec c.sig_dont_pass _ c.pending_signals 0
    (Nat.lt_succ_self _) (fun _ _ => Nat.zero_le _)
  refine ⟨?_, lowest_passed_some _ _, lowest_passed_none _ _, ?_, fun h => ⟨f3 h, f4 h⟩, ?_⟩
  · rw [f1, l1]; rfl
  · intro x
    rw [f2]
    have hx := l2 x
    by_cases hp : os.ptrace = 0
    · rw [if_pos hp, mem_sigset_set_false, hx, l1]
      unfold lowest_passed
      constructor
      · rintro ⟨⟨h1, h2⟩, h3⟩
        refine ⟨h1, fun hd => ?_, fun _ => h3⟩
        rcases h2 with h2 | h2
        · exact absurd hd h2
        · exact h2
      · rintro ⟨h1, h2, h3⟩
        refine ⟨⟨h1, ?_⟩, h3 hp⟩
        by_cases hd : x ∈ c.sig_dont_pass
        · exact Or.inr (h2 hd)
        · exact Or.inl hd
    · rw [if_neg hp, hx]
      unfold lowest_passed
      constructor
      · rintro ⟨h1, h2⟩
        refine ⟨h1, fun hd => ?_, fun h => absurd h hp⟩
        rcases h2 with h2 | h2
        · exact absurd hd h2
        · exact h2
      · rintro ⟨h1, h2, _⟩
        refine ⟨h1, ?_⟩
        by_cases hd : x ∈ c.sig_dont_pass
        · exact Or.inr (h2 hd)
        · exact Or.inl hd
  · intro hr
    obtain ⟨n1, n2⟩ := no_stop_trap_reachable c hr
    cases hl : lowest_passed c.pending_signals c.sig_dont_pass with
    | none => exact ⟨by decide, by decide⟩
    | some m =>
      have hm := ((lowest_passed_some _ _ m).mp hl).1
      exact ⟨fun h => n1 (h ▸ hm), fun h => n2 (h ▸ hm)⟩

/-- Witness of C20: the thread `threadQ` is reachable with the signals 30, 2
and 20 pending and signal 2 in `sig_dont_pass`; `context_continue` delivers
signal 20 and leaves signal 30 pending. -/
theorem context_continue_signal_witness :
    ContextReachable threadQ ∧
    threadQ.pending_signals = [30, 2, 20] ∧ threadQ.sig_dont_pass = [2] ∧
    (context_continue threadQ osOk).signal = some 20 ∧
    (∀ x, x ∈ (context_continue threadQ osOk).ctx.pending_signals ↔ x = 30) ∧
    (20 : Nat) ≠ SIGSTOP ∧ (20 : Nat) ≠ SIGTRAP :=
  have h := context_continue_signal threadQ osOk (by decide) (by decide) (by decide)
  have hl : (lowest_passed threadQ.pending_signals threadQ.sig_dont_pass).getD 0 = 20 := by
    decide
  ⟨ContextReachable.step _ _ (ContextReachable.step _ _ (ContextReachable.step _ _
      (ContextReachable.created { threadR with sig_dont_pass := [2] } rfl)
      (ContextStep.stopped 32 agentR _ 30 0 false (.ok snapR)))
      (ContextStep.stopped 32 agentR _ 2 0 false (.ok snapR)))
      (ContextStep.stopped 32 agentR _ 20 0 false (.ok snapR)),
    by decide, by decide, h.1.trans (by decide),
    fun x => (h.2.2.2.1 x).trans (by
      have e1 : threadQ.pending_signals = [30, 2, 20] := by decide
      have e2 : threadQ.sig_dont_pass = [2] := by decide
      have e3 : lowest_passed [30, 2, 20] [2] = some 20 := by decide
      have e4 : osOk.ptrace = 0 := rfl
      rw [e1, e2, e3]
      simp only [e4, List.mem_cons, List.mem_singleton, List.not_mem_nil, or_false,
        Option.getD_some, forall_const]
      clear e1 e2 e3 e4
      constructor
      · rintro ⟨h1 | h1 | h1, h2, h3⟩
        · exact h1
        · obtain ⟨m, hm, hle⟩ := h2 h1
          cases hm
          omega
        · exact absurd h1 h3
      · intro h
        subst h
        exact ⟨Or.inl rfl, fun h => absurd h (by decide), by decide⟩),
    hl ▸ (h.2.2.2.2.2 (ContextReachable.step _ _ (ContextReachable.step _ _
      (ContextReachable.step _ _
      (ContextReachable.created { threadR with sig_dont_pass := [2] } rfl)
      (ContextStep.stopped 32 agentR _ 30 0 false (.ok snapR)))
      (ContextStep.stopped 32 agentR _ 2 0 false (.ok snapR)))
      (ContextStep.stopped 32 agentR _ 20 0 false (.ok snapR))))⟩

/-- C21 (the code at the claim's input): the OS answers `ESRCH` to the call
that stops or resumes a thread. `context_stop` returns 0 and marks the context
exiting; `context_continue` and `context_single_step` return 0 as well, but
leave `exiting` clear. -/
theorem context_continue_esrch_not_exiting :
    (context_stop threadR osGone).ret = 0 ∧
    (context_stop threadR osGone).ctx.ctx.exiting = true ∧
    threadQ.ctx.stopped = true ∧ threadQ.ctx.exiting = false ∧
    (context_continue threadQ osGone).ret = 0 ∧
    (context_continue threadQ osGone).ctx.ctx.exiting = false ∧
    (context_single_step threadQ osGone osGone).ret = 0 ∧
    (context_single_step threadQ osGone osGone).ctx.ctx.exiting = false := by
  decide

/-- C22: on a table of `MAX_HW_BPS` slots, `cpu_bp_plant` returns 0 exactly when
the breakpoint is virtual, an instruction-access breakpoint finds an empty slot
among 0..`bp_cnt` - 1 and a data-access breakpoint has `length <= wp_size` and
finds an empty slot among `bp_cnt`..`bp_cnt + wp_cnt` - 1; it then stores the
breakpoint in the lowest-indexed empty slot of each of these ranges and leaves
every other slot unchanged. `cpu_bp_remove` empties exactly the slots that hold
the given breakpoint and leaves every other slot unchanged, and when after it
slot `i` is the lowest-indexed empty breakpoint slot, the next
instruction-access breakpoint planted is stored in slot `i`. -/
theorem cpu_bp_plant_lowest_free (deref : Nat → ContextBreakpoint)
    (bps : ContextExtensionARM_HW) (bp : Nat) (probe : Option Nat)
    (hlen : bps.hw_bps.length = MAX_HW_BPS)
    (hwf : bps.info_ok = true → bps.bp_cnt ≤ MAX_HBP ∧ bps.wp_cnt ≤ MAX_HWP) :
    ((cpu_bp_plant deref bps bp probe).1 = 0 ↔
      (deref bp).access_virtual = true ∧
      ((deref bp).access_instruction = true →
        ∃ i, lowest_empty bps.hw_bps 0 (get_bp_info bps probe).bp_cnt i) ∧
      ((deref bp).access_data_read = true ∨ (deref bp).access_data_write = true →
        (deref bp).length ≤ (get_bp_info bps probe).wp_size ∧
        ∃ k, lowest_empty bps.hw_bps (get_bp_info bps probe).bp_cnt
          ((get_bp_info bps probe).bp_cnt + (get_bp_info bps probe).wp_cnt) k)) ∧
    ((cpu_bp_plant deref bps bp probe).1 = 0 → ∀ j,
      (cpu_bp_plant deref bps bp probe).2.2.hw_bps[j]? =
        if ((deref bp).access_instruction = true ∧
              lowest_empty bps.hw_bps 0 (get_bp_info bps probe).bp_cnt j) ∨
            (((deref bp).access_data_read = true ∨ (deref bp).access_data_write = true) ∧
              lowest_empty bps.hw_bps (get_bp_info bps probe).bp_cnt
                ((get_bp_info bps probe).bp_cnt + (get_bp_info bps probe).wp_cnt) j)
        then some (some bp) else bps.hw_bps[j]?) ∧
    (∀ (bp0 j : Nat), (cpu_bp_remove bps bp0).hw_bps[j]? =
        if bps.hw_bps[j]? = some (some bp0) then some none else bps.hw_bps[j]?) ∧
    (∀ (bp0 i : Nat), bps.info_ok = true → (deref bp).access_virtual = true →
      (deref bp).access_instruction = true → (deref bp).access_data_read = false →
      (deref bp).access_data_write = false →
      lowest_empty (cpu_bp_remove bps bp0).hw_bps 0 bps.bp_cnt i →
      (cpu_bp_plant deref (cpu_bp_remove bps bp0) bp probe).1 = 0 ∧
      (cpu_bp_plant deref (cpu_bp_remove bps bp0) bp probe).2.2.hw_bps[i]? = some (some bp)) := by
  have hrem : ∀ (bp0 j : Nat), (cpu_bp_remove bps bp0).hw_bps[j]? =
      if bps.hw_bps[j]? = some (some bp0) then some none else bps.hw_bps[j]? := by
    intro bp0 j
    show (clear_bp_loop bp0 MAX_HW_BPS bps.hw_bps)[j]? = _
    rw [clear_bp_loop_getElem?]
    by_cases hj : bps.hw_bps[j]? = some (some bp0)
    · have hlt := getElem?_lt _ _ _ hj
      rw [if_pos ⟨by omega, hj⟩, if_pos hj]
    · rw [if_neg (fun h => hj h.2), if_neg hj]
  refine ⟨(cpu_bp_plant_spec deref bps bp probe hlen hwf).1,
    (cpu_bp_plant_spec deref bps bp probe hlen hwf).2, hrem, ?_⟩
  intro bp0 i hok hv hi hr hw hle
  have hlen1 : (cpu_bp_remove bps bp0).hw_bps.length = MAX_HW_BPS := by
    show (clear_bp_loop bp0 MAX_HW_BPS bps.hw_bps).length = _
    rw [clear_bp_loop_length, hlen]
  have hok1 : (cpu_bp_remove bps bp0).info_ok = true := hok
  have hwf1 : (cpu_bp_remove bps bp0).info_ok = true →
      (cpu_bp_remove bps bp0).bp_cnt ≤ MAX_HBP ∧ (cpu_bp_remove bps bp0).wp_cnt ≤ MAX_HWP :=
    fun _ => hwf hok
  obtain ⟨s1, s2⟩ := cpu_bp_plant_spec deref (cpu_bp_remove bps bp0) bp probe hlen1 hwf1
  have hg := (get_bp_info_fields (cpu_bp_remove bps bp0) probe hwf1).2.2.2.2 hok1
  rw [hg] at s1 s2
  have hle1 : lowest_empty (cpu_bp_remove bps bp0).hw_bps 0 (cpu_bp_remove bps bp0).bp_cnt i := hle
  have hret : (cpu_bp_plant deref (cpu_bp_remove bps bp0) bp probe).1 = 0 :=
    s1.mpr ⟨hv, fun _ => ⟨i, hle1⟩,
      fun h => by rcases h with h | h <;> simp [hr, hw] at h⟩
  refine ⟨hret, ?_⟩
  rw [s2 hret i, if_pos (Or.inl ⟨hi, hle1⟩)]

/-- Witness of C22: in the table `bpsW`, whose breakpoint slots 0 and 1 are
taken, the watchpoint 2 is stored in slot 2, the first watchpoint slot; after
breakpoint 1 is removed from slot 0, breakpoint 5 is stored in slot 0. -/
theorem cpu_bp_plant_lowest_free_witness :
    (cpu_bp_plant cbsW bpsW 2 none).1 = 0 ∧
    (cpu_bp_plant cbsW bpsW 2 none).2.2.hw_bps.take 4 = [some 1, some 3, some 2, none] ∧
    (cpu_bp_remove bpsW 1).hw_bps.take 4 = [none, some 3, none, none] ∧
    (cpu_bp_plant cbsW (cpu_bp_remove bpsW 1) 5 none).1 = 0 ∧
    (cpu_bp_plant cbsW (cpu_bp_remove bpsW 1) 5 none).2.2.hw_bps[0]? = some (some 5) :=
  ⟨(cpu_bp_plant_lowest_free cbsW bpsW 2 none (by decide) (by decide)).1.mpr
      ⟨by decide, fun h => absurd h (by decide), fun _ => ⟨by decide, 2, by decide⟩⟩,
   by decide, by decide,
   (cpu_bp_plant_lowest_free cbsW bpsW 5 none (by decide) (by decide)).2.2.2 1 0
     (by decide) (by decide) (by decide) (by decide) (by decide) (by decide)⟩

/-- C23: for every slot table, PC, stepping mode, skip state and behaviour of
the OS, every control-register value that `set_debug_regs` passes to
`ptrace(PTRACE_SETHBPREGS, ...)` is non-zero, and it has its enable bit (bit 0)
set only for a slot that is armed (its bit is in `armed` after the call) or
that is used for single-stepping (slot 0 while `hw_stepping` is non-zero); when
the function returns 0, which it does whenever the PC can be read and no
`ptrace` call fails, it has passed a control-register value for every slot
index below `bp_cnt + wp_cnt`. -/
theorem set_debug_regs_control_values (w : Nat) (deref : Nat → ContextBreakpoint)
    (bps ext : ContextExtensionARM_HW) (pc : Except Nat Nat) (ptrace_err : Int → Nat) :
    (∀ e ∈ (set_debug_regs w deref bps ext pc ptrace_err).2.2.writes, e.control = true →
      e.value ≠ 0 ∧
      (e.value.testBit 0 = true →
        (set_debug_regs w deref bps ext pc ptrace_err).2.2.ext.armed.testBit e.slot = true ∨
        (e.slot = 0 ∧ ext.hw_stepping ≠ 0))) ∧
    ((set_debug_regs w deref bps ext pc ptrace_err).1 = 0 →
      ∀ i, i < bps.bp_cnt + bps.wp_cnt →
        ∃ e ∈ (set_debug_regs w deref bps ext pc ptrace_err).2.2.writes,
          e.control = true ∧ e.slot = i ∧ e.num = control_reg bps i) ∧
    (∀ p, pc = .ok p → (∀ n, ptrace_err n = 0) →
      (set_debug_regs w deref bps ext pc ptrace_err).1 = 0) := by
  unfold set_debug_regs
  cases pc with
  | error e =>
    simp only []
    exact ⟨fun e he => (by cases he), fun h => (by cases h), fun p hp => (by cases hp)⟩
  | ok p =>
    simp only []
    obtain ⟨t1, t2, _, _, _, t6⟩ := set_debug_regs_loop_spec w deref bps p ptrace_err
      (List.range (bps.bp_cnt + bps.wp_cnt))
      { ext := { ext with armed := 0 }, step_over_hw_bp := false, writes := [] }
    by_cases hr : (set_debug_regs_loop w deref bps p ptrace_err
        (List.range (bps.bp_cnt + bps.wp_cnt))
        { ext := { ext with armed := 0 }, step_over_hw_bp := false, writes := [] }).1 ≠ 0
    · rw [if_pos hr]
      refine ⟨?_, fun h => (by cases h), fun _ _ h => absurd (t6 h) hr⟩
      intro e he hc
      rcases t1 e he with h | ⟨_, h⟩
      · cases h
      · exact h hc
    · rw [if_neg hr]
      have hr0 : (set_debug_regs_loop w deref bps p ptrace_err
          (List.range (bps.bp_cnt + bps.wp_cnt))
          { ext := { ext with armed := 0 }, step_over_hw_bp := false, writes := [] }).1 = 0 := by
        by_contra h; exact hr h
      refine ⟨?_, fun _ i hi => t2 hr0 i (List.mem_range.mpr hi), fun _ _ _ => rfl⟩
      intro e he hc
      rcases t1 e he with h | ⟨_, h⟩
      · cases h
      · exact h hc

/-- C24 (counterexample): the process has one watchpoint slot, which holds the
armed watchpoint 2 on the bytes `0x9001` and `0x9002`, and the thread stops at
`0x4000` with a watchpoint trap that reports `si_addr = 0x5000`.
`cpu_bp_on_suspend` lists the watchpoint in `stopped_by_cb` and sets
`*triggered`, although `si_addr` is outside the watched range. -/
theorem cpu_bp_on_suspend_single_watchpoint :
    bpsS.wp_cnt = 1 ∧ bpsS.hw_bps[2]? = some (some 2) ∧ extS.armed.testBit 2 = true ∧
    (cbsW 2).address = 0x9001 ∧ (cbsW 2).length = 2 ∧ sigS.si_addr = 0x5000 ∧
    (cpu_bp_on_suspend 32 cbsW false none bpsS extS (.ok 0x4000) (.ok sigS)).stopped_by_cb
      = some [2] ∧
    (cpu_bp_on_suspend 32 cbsW false none bpsS extS (.ok 0x4000) (.ok sigS)).triggered
      = some true := by
  decide

/-- C24 (amended): after `cpu_bp_on_suspend` on a thread that is not exiting,
when the PC and the signal information can be read, the function returns 0 and
the list `L` of the breakpoints triggered holds exactly (a) the breakpoint of
every armed breakpoint slot whose address equals the PC and (b), only when the
stop signal is `SIGTRAP` with `(si_code & 0xffff) = 0x0004` and `si_errno < 0`,
every armed watchpoint, which when there are several watchpoint slots
(`wp_cnt > 1`) must have a range `[address, address + length)` that contains
`si_addr`; when `L` is not empty `stopped_by_cb` is `L`, otherwise
`stopped_by_cb` is left as it was; `*triggered` is set iff `L` is not empty;
and the slot of each watchpoint listed is recorded in `skip_wp_set`. -/
theorem cpu_bp_on_suspend_lists (w : Nat) (deref : Nat → ContextBreakpoint)
    (stopped_by_cb : Option (List Nat)) (bps ext : ContextExtensionARM_HW) (pc : Nat)
    (si : siginfo_t) :
    ∃ L : List Nat,
      (∀ q, q ∈ L ↔
        (∃ i, i < bps.bp_cnt ∧ bps.hw_bps[i]? = some (some q) ∧ (deref q).address = pc ∧
          ext.armed.testBit i = true) ∨
        ((si.si_signo = SIGTRAP ∧ si.si_code % 0x10000 = 0x0004 ∧ si.si_errno < 0) ∧
          ∃ i, bps.bp_cnt ≤ i ∧ i < bps.bp_cnt + bps.wp_cnt ∧
            bps.hw_bps[i]? = some (some q) ∧ ext.armed.testBit i = true ∧
            (bps.wp_cnt > 1 → (deref q).address ≤ si.si_addr ∧
              si.si_addr < address_add w (deref q).address (deref q).length))) ∧
      (cpu_bp_on_suspend w deref false stopped_by_cb bps ext (.ok pc) (.ok si)).ret = 0 ∧
      (cpu_bp_on_suspend w deref false stopped_by_cb bps ext (.ok pc) (.ok si)).triggered
        = some (decide (L ≠ [])) ∧
      (cpu_bp_on_suspend w deref false stopped_by_cb bps ext (.ok pc) (.ok si)).stopped_by_cb
        = (if L = [] then stopped_by_cb else some L) ∧
      (∀ i q, (si.si_signo = SIGTRAP ∧ si.si_code % 0x10000 = 0x0004 ∧ si.si_errno < 0) →
        bps.bp_cnt ≤ i → i < bps.bp_cnt + bps.wp_cnt →
        bps.hw_bps[i]? = some (some q) → ext.armed.testBit i = true →
        (bps.wp_cnt > 1 → (deref q).address ≤ si.si_addr ∧
          si.si_addr < address_add w (deref q).address (deref q).length) →
        (cpu_bp_on_suspend w deref false stopped_by_cb bps ext (.ok pc)
          (.ok si)).ext.skip_wp_set.testBit i = true) := by
  have hfin : ∀ (cbs : List Nat) (e : ContextExtensionARM_HW),
      (suspend_finish stopped_by_cb cbs e).ret = 0 ∧
      (suspend_finish stopped_by_cb cbs e).triggered = some (decide (cbs ≠ [])) ∧
      (suspend_finish stopped_by_cb cbs e).stopped_by_cb
        = (if cbs = [] then stopped_by_cb else some cbs) ∧
      (suspend_finish stopped_by_cb cbs e).ext.skip_wp_set = e.skip_wp_set := by
    intro cbs e
    unfold suspend_finish
    by_cases h : cbs = []
    · simp [h]
    · simp [h]
  unfold cpu_bp_on_suspend
  simp only [Bool.false_eq_true, if_false]
  by_cases h0 : bps.bp_cnt > 0 ∨ bps.wp_cnt > 0
  swap
  · rw [if_neg h0]
    obtain ⟨f1, f2, f3, _⟩ := hfin [] ext
    refine ⟨[], fun q => ?_, f1, f2, f3, fun i q _ h1 h2 => ?_⟩
    · constructor
      · intro h; cases h
      · rintro (⟨i, hi, _⟩ | ⟨_, i, h1, h2, _⟩) <;> omega
    · omega
  rw [if_pos h0]
  have harm : (if ext.skip_wp_addr ≠ pc then { ext with skip_wp_set := 0 } else ext).armed
      = ext.armed := by
    split_ifs <;> rfl
  generalize (if ext.skip_wp_addr ≠ pc then { ext with skip_wp_set := 0 } else ext) = ext1
    at harm ⊢
  have hcbs : (if bps.bp_cnt > 0 then
      (List.range bps.bp_cnt).foldl (suspend_bp_slot deref bps ext1 pc) [] else []) =
      (List.range bps.bp_cnt).foldl (suspend_bp_slot deref bps ext1 pc) [] := by
    by_cases hb : bps.bp_cnt > 0
    · rw [if_pos hb]
    · rw [if_neg hb]
      have : bps.bp_cnt = 0 := by omega
      rw [this]
      rfl
  rw [hcbs]
  have hmem : ∀ q, q ∈ (List.range bps.bp_cnt).foldl (suspend_bp_slot deref bps ext1 pc) [] ↔
      ∃ i, i < bps.bp_cnt ∧ bps.hw_bps[i]? = some (some q) ∧ (deref q).address = pc ∧
        ext.armed.testBit i = true := by
    intro q
    rw [suspend_bp_loop_mem, harm]
    constructor
    · rintro (h | ⟨i, hi, h⟩)
      · cases h
      · exact ⟨i, List.mem_range.mp hi, h⟩
    · rintro ⟨i, hi, h⟩
      exact Or.inr ⟨i, List.mem_range.mpr hi, h⟩
  generalize (List.range bps.bp_cnt).foldl (suspend_bp_slot deref bps ext1 pc) [] = cbs
    at hmem ⊢
  by_cases hsig : bps.wp_cnt > 0 ∧
      (si.si_signo = SIGTRAP ∧ si.si_code % 0x10000 = 0x0004 ∧ si.si_errno < 0)
  · rw [if_pos hsig.1, if_pos hsig.2]
    obtain ⟨a1, _, a3, a4⟩ := suspend_wp_loop_mem w deref bps pc si.si_addr
      (List.range' bps.bp_cnt bps.wp_cnt) (cbs, ext1)
    simp only [harm] at a3 a4
    generalize (List.range' bps.bp_cnt bps.wp_cnt).foldl
      (suspend_wp_slot w deref bps pc si.si_addr) (cbs, ext1) = R at a1 a3 a4 ⊢
    obtain ⟨f1, f2, f3, f4⟩ := hfin R.1 R.2
    refine ⟨R.1, fun q => ?_, f1, f2, f3, fun i q _ h1 h2 h3 h4 h5 => ?_⟩
    · rw [a3, hmem]
      constructor
      · rintro (h | ⟨i, hi, h⟩)
        · exact Or.inl h
        · rw [List.mem_range'_1] at hi
          exact Or.inr ⟨hsig.2, i, hi.1, hi.2, h⟩
      · rintro (h | ⟨_, i, h1, h2, h⟩)
        · exact Or.inl h
        · exact Or.inr ⟨i, List.mem_range'_1.mpr ⟨h1, h2⟩, h⟩
    · rw [f4]
      exact a4 i (List.mem_range'_1.mpr ⟨h1, h2⟩) q h3 h4 h5
  · have hgoal : ∀ r : SuspendOutcome, r = suspend_finish stopped_by_cb cbs ext1 →
        ∃ L : List Nat,
        (∀ q, q ∈ L ↔
          (∃ i, i < bps.bp_cnt ∧ bps.hw_bps[i]? = some (some q) ∧ (deref q).address = pc ∧
            ext.armed.testBit i = true) ∨
          ((si.si_signo = SIGTRAP ∧ si.si_code % 0x10000 = 0x0004 ∧ si.si_errno < 0) ∧
            ∃ i, bps.bp_cnt ≤ i ∧ i < bps.bp_cnt + bps.wp_cnt ∧
              bps.hw_bps[i]? = some (some q) ∧ ext.armed.testBit i = true ∧
              (bps.wp_cnt > 1 → (deref q).address ≤ si.si_addr ∧
                si.si_addr < address_add w (deref q).address (deref q).length))) ∧
        r.ret = 0 ∧ r.triggered = some (decide (L ≠ [])) ∧
        r.stopped_by_cb = (if L = [] then stopped_by_cb else some L) ∧
        (∀ i q, (si.si_signo = SIGTRAP ∧ si.si_code % 0x10000 = 0x0004 ∧ si.si_errno < 0) →
          bps.bp_cnt ≤ i → i < bps.bp_cnt + bps.wp_cnt →
          bps.hw_bps[i]? = some (some q) → ext.armed.testBit i = true →
          (bps.wp_cnt > 1 → (deref q).address ≤ si.si_addr ∧
            si.si_addr < address_add w (deref q).address (deref q).length) →
          r.ext.skip_wp_set.testBit i = true) := by
      intro r hr
      subst hr
      obtain ⟨f1, f2, f3, _⟩ := hfin cbs ext1
      refine ⟨cbs, fun q => ?_, f1, f2, f3, fun i q hs h1 h2 _ _ _ => ?_⟩
      · rw [hmem]
        constructor
        · exact Or.inl
        · rintro (h | ⟨hs, i, h1, h2, _⟩)
          · exact h
          · exact absurd ⟨by omega, hs⟩ hsig
      · exact absurd ⟨by omega, hs⟩ hsig
    by_cases hw : bps.wp_cnt > 0
    · rw [if_pos hw, if_neg (fun h => hsig ⟨hw, h⟩)]
      exact hgoal _ rfl
    · rw [if_neg hw]
      exact hgoal _ rfl

/-- C25: for every `n > 0`, when the break instruction at the PC of a stopped
thread has as its only ref an enabled, supported, unconditional breakpoint with
`ignore_count = n` and `hit_count = 0`, then before call number `k + 1` of
`evaluate_breakpoint_condition` the `hit_count` is `k % n`; that call returns 0
and leaves `hit_count = k % n + 1` while `k % n + 1 < n`, and it returns 1 and
leaves `hit_count = 0` when `k % n + 1` reaches `n`: the calls that return 1
are those whose number is a multiple of `n`. -/
theorem ignore_count_period (sv : Services) (s : Agent) (ctx : Context) (id : String) (n : Int)
    (hn : 0 < n) (hctx : (s.ctx ctx.id).mem = ctx.mem) (H : sole_breakpoint s ctx id n 0)
    (k : Nat) :
    sole_breakpoint (hits sv ctx k s) ctx id n ((k : Int) % n) ∧
    (evaluate_breakpoint_condition sv (hits sv ctx k s) ctx).1 =
      (if (k : Int) % n + 1 < n then 0 else 1) ∧
    sole_breakpoint (hits sv ctx (k + 1) s) ctx id n
      (if (k : Int) % n + 1 < n then (k : Int) % n + 1 else 0) ∧
    ((evaluate_breakpoint_condition sv (hits sv ctx k s) ctx).1 = 1 ↔ ((k : Int) + 1) % n = 0) := by
  have hmod : ∀ k : Int, (k + 1) % n = if k % n + 1 < n then k % n + 1 else 0 := by
    intro k
    have h1 := Int.emod_nonneg k (ne_of_gt hn)
    have h2 := Int.emod_lt_of_pos k hn
    rw [← Int.emod_add_emod]
    split_ifs with hlt
    · exact Int.emod_eq_of_lt (by omega) hlt
    · have : k % n + 1 = n := by omega
      rw [this, Int.emod_self]
  have inv : ∀ k : Nat, sole_breakpoint (hits sv ctx k s) ctx id n ((k : Int) % n) ∧
      ((hits sv ctx k s).ctx ctx.id).mem = ctx.mem := by
    intro k
    induction k with
    | zero => exact ⟨by simpa [hits] using H, hctx⟩
    | succ k ih =>
      obtain ⟨_, h2, h3⟩ := sole_breakpoint_step sv _ ctx id n _ hn ih.2 ih.1
      refine ⟨?_, h3⟩
      have e : ((k + 1 : Nat) : Int) = (k : Int) + 1 := by push_cast; rfl
      rw [e, hmod]
      exact h2
  obtain ⟨h1, h2, _⟩ := sole_breakpoint_step sv _ ctx id n _ hn (inv k).2 (inv k).1
  refine ⟨(inv k).1, h1, h2, ?_⟩
  rw [h1, hmod]
  have hnn := Int.emod_nonneg (k : Int) (ne_of_gt hn)
  split_ifs with hlt
  · constructor
    · intro h; cases h
    · intro h; omega
  · exact ⟨fun _ => rfl, fun _ => rfl⟩

/-- Witness of C25: breakpoint `I` of `agentI` has `ignore_count = 3`; the
first and the second call of `evaluate_breakpoint_condition` return 0, the
third returns 1 and leaves `hit_count = 0`. -/
theorem ignore_count_period_witness :
    (evaluate_breakpoint_condition sv0 (hits sv0 ctx42 0 agentI) ctx42).1 = 0 ∧
    (evaluate_breakpoint_condition sv0 (hits sv0 ctx42 1 agentI) ctx42).1 = 0 ∧
    (evaluate_breakpoint_condition sv0 (hits sv0 ctx42 2 agentI) ctx42).1 = 1 ∧
    sole_breakpoint (hits sv0 ctx42 3 agentI) ctx42 "I" 3 0 :=
  have H : sole_breakpoint agentI ctx42 "I" 3 0 :=
    ⟨0, (agentI.instructions[0]?).getD default, 0, (agentI.breakpoints[0]?).getD default,
      by decide, by decide, by decide, by decide, by decide, by decide, by decide, by decide,
      by decide, by decide, by decide⟩
  ⟨(ignore_count_period sv0 agentI ctx42 "I" 3 (by decide) (by decide) H 0).2.1,
   (ignore_count_period sv0 agentI ctx42 "I" 3 (by decide) (by decide) H 1).2.1,
   (ignore_count_period sv0 agentI ctx42 "I" 3 (by decide) (by decide) H 2).2.1,
   (ignore_count_period sv0 agentI ctx42 "I" 3 (by decide) (by decide) H 2).2.2.1⟩

/-- C26 (the code at the claim's input): breakpoint `E` of `agentE` has
`ignore_count = 2` and `hit_count = 0`, and the thread stops at its address.
When its condition raises an evaluation error, `evaluate_breakpoint_condition`
returns 1 and leaves `hit_count = 0`; when the same condition evaluates to
true, it returns 0 and leaves `hit_count = 1`. -/
theorem condition_error_skips_ignore_count :
    (∀ c f, sv0.evaluate_expression c f "r1 == 0" = .error (ERR_INV_EXPRESSION, "syntax error")) ∧
    (∀ c f, (svT.evaluate_expression c f "r1 == 0").map svT.value_to_boolean = .ok true) ∧
    (evaluate_breakpoint_condition sv0 agentE ctx42).1 = 1 ∧
    (evaluate_breakpoint_condition sv0 agentE ctx42).2.breakpoints.map
      (fun bp => bp.hit_count) = [0] ∧
    (evaluate_breakpoint_condition svT agentE ctx42).1 = 0 ∧
    (evaluate_breakpoint_condition svT agentE ctx42).2.breakpoints.map
      (fun bp => bp.hit_count) = [1] :=
  ⟨fun _ _ => rfl, fun _ _ => rfl, by decide, by decide, by decide, by decide⟩

/-- C27 (the code at the claim's input): the property set `bpU`, which carries
the unsupported attribute `Foo`, is applied to a breakpoint twice. After the
first `copy_breakpoint_info` the breakpoint agrees with `bpU` on every
property; the second `copy_breakpoint_info` leaves it as it is and still
returns 1, and the `change` command that applies `bpU` again broadcasts
`contextChanged`. -/
theorem copy_breakpoint_info_unsupported_twice :
    (copy_breakpoint_info zero_breakpoint bpU).1 = bpU ∧
    (copy_breakpoint_info bpU bpU).1 = bpU ∧
    (copy_breakpoint_info bpU bpU).2 = true ∧
    (copy_breakpoint_info bpA bpA).2 = false ∧
    agentU.breakpoints = [bpU] ∧
    (command_bp_change agentU "t2" 1 bpU).out.drop agentU.out.length =
      [(.bcg, .contextChanged bpU), (.chan 1, .reply "t2" 0)] := by
  decide

/-- C28 (the code at the claim's input): breakpoint `A.1` is added on a target
whose memory cannot be written. The first replant pass broadcasts the status
"planted at 4096" and stores the tuple (no unsupported attribute, error 0,
planted 1); planting the new break instruction then fails. A second replant
pass, which finds the same contexts and the same target memory, computes the
tuple (no unsupported attribute, error `EFAULT`, planted 0) and broadcasts a
second status event. -/
theorem replant_twice_status_event :
    status_events agentF1.out = [("A.1", .instances [(7, 0, 4096)])] ∧
    agentF1.breakpoints.map
      (fun bp => (bp.status_unsupported, bp.status_error, bp.status_planted)) = [(false, 0, 1)] ∧
    agentF1.contexts = [ctx7, ctx42] ∧ agentF2.contexts = [ctx7, ctx42] ∧
    agentF1.target = targetF ∧ agentF2.target = targetF ∧
    status_events (agentF2.out.drop agentF1.out.length) = [("A.1", .error EFAULT none)] ∧
    agentF2.breakpoints.map
      (fun bp => (bp.status_unsupported, bp.status_error, bp.status_planted)) =
        [(false, EFAULT, 0)] :=
  ⟨by decide, by decide, by decide, by decide, rfl, rfl, by decide, by decide⟩

/-- C29 (the code at the claim's input): breakpoint `A.1` is added on a target
whose memory cannot be written and a replant pass runs. After the pass the
`planted` counter of the breakpoint is 1 and its error is 0, while the only
break instruction that has it in its ref list is not planted (`planted` clear,
error `EFAULT`) and the byte at its address is still the original one. -/
theorem planted_counter_after_failed_plant :
    agentF1.breakpoints.map (fun bp => (bp.id, bp.planted, bp.error)) = [("A.1", 1, 0)] ∧
    agentF1.instructions.map (fun bi => (bi.address, bi.refs, bi.planted, bi.error)) =
      [(4096, ["A.1"], false, EFAULT)] ∧
    target_bytes agentF1 1 4096 1 = [0] ∧ agentF1.BREAK_INST = [0xcc] := by
  decide

/-- C30 (counterexample): the thread `threadStep` runs a single step
(`pending_step` set) and stops with `SIGSEGV`. `event_pid_stopped` leaves
`stopped_by_bp` and `end_of_step` both clear, so `end_of_step` is not
`pending_step` before the stop and not `stopped_by_bp`. -/
theorem end_of_step_clear_on_other_signal :
    threadStep.ctx.stopped = false ∧ threadStep.pending_step = true ∧
    (event_pid_stopped 32 agentR threadStep SIGSEGV 0 false (.ok snapS)).2.1.stopped_by_bp
      = false ∧
    (event_pid_stopped 32 agentR threadStep SIGSEGV 0 false (.ok snapS)).2.1.end_of_step
      = false ∧
    (event_pid_stopped 32 agentR threadStep SIGSEGV 0 false (.ok snapS)).2.1.pending_step
      = false := by
  decide

/-- C30 (amended): after every stop of a running thread processed by
`event_pid_stopped`, `pending_step` is cleared; when the signal is `SIGTRAP`,
there is no ptrace event and the stop is not a syscall stop, `end_of_step`
equals (`pending_step` before the stop) and not `stopped_by_bp`; after any
other stop `end_of_step` and `stopped_by_bp` are both clear. -/
theorem event_pid_stopped_end_of_step (w : Nat) (s : Agent) (c : ContextDarwin)
    (signal event : Nat) (syscall : Bool) (state : Except Nat REG_SET)
    (hrun : c.ctx.stopped = false) :
    (event_pid_stopped w s c signal event syscall state).2.1.pending_step = false ∧
    (signal = SIGTRAP ∧ event = 0 ∧ syscall = false →
      (event_pid_stopped w s c signal event syscall state).2.1.end_of_step =
        (c.pending_step &&
          !(event_pid_stopped w s c signal event syscall state).2.1.stopped_by_bp)) ∧
    (¬ (signal = SIGTRAP ∧ event = 0 ∧ syscall = false) →
      (event_pid_stopped w s c signal event syscall state).2.1.end_of_step = false ∧
      (event_pid_stopped w s c signal event syscall state).2.1.stopped_by_bp = false) := by
  have key := event_pid_stopped_running w s c signal event syscall state hrun
  have h5 := (record_signal_ctx c signal).2.2.2.2
  obtain ⟨_, _, _, _, _, k6, k7⟩ := read_snapshot_fields (record_signal c signal) signal event
    (decide (signal ≠ SIGSTOP ∧ signal ≠ SIGTRAP) && !sigset_get c.sig_dont_stop signal) state
  have k8 := read_snapshot_end_of_step (record_signal c signal) signal event
    (decide (signal ≠ SIGSTOP ∧ signal ≠ SIGTRAP) && !sigset_get c.sig_dont_stop signal) state
  rw [key]
  generalize read_snapshot (record_signal c signal) signal event
    (decide (signal ≠ SIGSTOP ∧ signal ≠ SIGTRAP) && !sigset_get c.sig_dont_stop signal) state
    = r at k6 k7 k8 ⊢
  rw [h5] at k7
  refine ⟨rfl, ?_, ?_⟩
  · intro hT
    rw [if_pos hT]
    show (breakpoint_stop w _ r.1 r.2).2.end_of_step =
      (c.pending_step && !(breakpoint_stop w _ r.1 r.2).2.stopped_by_bp)
    rw [(breakpoint_stop_end_of_step w _ r.1 r.2).1, k7, Bool.and_comm]
  · intro hT
    rw [if_neg hT]
    exact ⟨k8, k6⟩

/-- Witness of C30: the thread `threadStep` ends its single step with a
`SIGTRAP` at address 21, where no break instruction is planted: `end_of_step`
is set and `pending_step` is cleared. -/
theorem event_pid_stopped_end_of_step_witness :
    (event_pid_stopped 32 agentR threadStep SIGTRAP 0 false (.ok snapS)).2.1.pending_step
      = false ∧
    (event_pid_stopped 32 agentR threadStep SIGTRAP 0 false (.ok snapS)).2.1.end_of_step
      = true :=
  ⟨(event_pid_stopped_end_of_step 32 agentR threadStep SIGTRAP 0 false (.ok snapS)
      (by decide)).1,
   ((event_pid_stopped_end_of_step 32 agentR threadStep SIGTRAP 0 false (.ok snapS)
      (by decide)).2.1 ⟨rfl, rfl, rfl⟩).trans (by decide)⟩

/-- C31: when the condition of the instruction fails, when bits 27:25 are 110
or 111, for a data-processing instruction with Rd ≠ 15, for a single
load/store with L = 0 or Rd ≠ 15, and for a load/store multiple with L = 0,
S = 1, Rn = 15 or bit 15 clear in the register list, `arm_get_next_address`
returns PC+4 (for PC+4 below `0xFFFF0000`), and it returns the same in every
state that has the same registers and the same four bytes at PC, whatever the
rest of target memory holds and whether or not it can be read: no byte other
than those of the instruction is read. -/
theorem arm_get_next_address_no_prediction (t : ArmContext) (pc cpsr instr : Nat)
    (hpc : arm_read_reg t 15 = .ok pc) (hcpsr : arm_read_reg t 16 = .ok cpsr)
    (hfetch : arm_read_word t pc = .ok instr) (hlt : add32 pc 4 < 0xFFFF0000)
    (hcase : arm_evaluate_condition (cpsr % 2 ^ 32) instr = false ∨
      (instr >>> 25) &&& 7 = 6 ∨ (instr >>> 25) &&& 7 = 7 ∨
      (((instr >>> 25) &&& 7 = 0 ∨ (instr >>> 25) &&& 7 = 1) ∧ (instr >>> 12) &&& 0xf ≠ 15) ∨
      (((instr >>> 25) &&& 7 = 2 ∨ (instr >>> 25) &&& 7 = 3) ∧
        (instr &&& (1 <<< 20) = 0 ∨ (instr >>> 12) &&& 0xf ≠ 15)) ∨
      ((instr >>> 25) &&& 7 = 4 ∧ (instr &&& (1 <<< 20) = 0 ∨ instr &&& (1 <<< 22) ≠ 0 ∨
        (instr >>> 16) &&& 0xf = 15 ∨ instr &&& (1 <<< 15) = 0))) :
    arm_get_next_address t = .ok (add32 pc 4) ∧
    ∀ t1 : ArmContext, t1.regs = t.regs → t1.reg_err = t.reg_err →
      (∀ i, i < 4 → t1.mem (pc + i) = t.mem (pc + i) ∧ t1.rd_err (pc + i) = t.rd_err (pc + i)) →
      arm_get_next_address t1 = .ok (add32 pc 4) := by
  have key : ∀ t1 : ArmContext, arm_read_reg t1 15 = .ok pc → arm_read_reg t1 16 = .ok cpsr →
      arm_read_word t1 pc = .ok instr → arm_get_next_address t1 = .ok (add32 pc 4) := by
    intro t1 h1 h2 h3
    unfold arm_get_next_address
    rw [arm_decode_no_prediction t1 pc cpsr instr h1 h2 h3 hcase]
    simp only
    rw [if_neg (by omega)]
  refine ⟨key t hpc hcpsr hfetch, fun t1 hr he hm => ?_⟩
  apply key t1
  · rw [arm_read_reg_congr t t1 hr he, hpc]
  · rw [arm_read_reg_congr t t1 hr he, hcpsr]
  · rw [arm_read_word_congr t t1 pc hm, hfetch]
/-- Witness of C31: on `LDR R0, [R1]` at PC = `0x8000` the prediction is
`0x8004`, also when no byte of memory other than the instruction can be
read. -/
theorem arm_get_next_address_no_prediction_witness :
    arm_get_next_address armLdrR0 = .ok 0x8004 ∧
    arm_read_mem armLdrR0Blind 0x9000 4 = .error EFAULT ∧
    arm_get_next_address armLdrR0Blind = .ok 0x8004 :=
  have h := arm_get_next_address_no_prediction armLdrR0 0x8000 0 0xE5910000 rfl rfl rfl
    (by decide)
    (Or.inr (Or.inr (Or.inr (Or.inr (Or.inl ⟨Or.inl (by decide), Or.inr (by decide)⟩)))))
  ⟨h.1, rfl, h.2 armLdrR0Blind rfl rfl (by decide)⟩

/-- C32 (the code diverges): on `MOV PC, R0, LSL R8` with R0 = `0x1000` and
R8 = 4, a register-specified shift with bit 4 set and bit 7 clear, whose
shifter operand is `0x1000 << 4 = 0x10000`, `arm_get_next_data_processing`
computes no operand 2 (the test `operand2 & 0x00800` is that of bit 11, the
top bit of the field Rs) and `arm_get_next_address` returns PC+4; on the same
instruction with Rs = R3 the operand and the prediction are `0x10000`. -/
theorem arm_operand2_shift_by_r8 :
    arm_operand2 armShiftR8 0xE1A0F810 0 = .ok none ∧
    arm_get_next_address armShiftR8 = .ok 0x8004 ∧
    arm_operand2 armShiftR3 0xE1A0F310 0 = .ok (some 0x10000) ∧
    arm_get_next_address armShiftR3 = .ok 0x10000 :=
  ⟨rfl, rfl, rfl, rfl⟩

/-- C33 (the code diverges): on `SBC PC, R1, R2` with R1 = `0x9000` and
R2 = `0x1000`, whose result is `0x8000` with C = 1 and `0x7FFF` with C = 0, the
prediction is `0x8001` and `0x8000`; on `RSC PC, R2, R1` likewise; and on
`ADD PC, R1, PC` at PC = `0x8000` with R1 = `0x100`, whose result is
`0x100 + 0x8008`, the prediction is `0x8100`, Rm = R15 being read as PC, while
`ADD PC, PC, R1` is predicted as `0x8108`. -/
theorem arm_data_processing_sbc_and_rm_pc :
    arm_get_next_address (armSbc 0x20000000) = .ok 0x8001 ∧
    arm_get_next_address (armSbc 0) = .ok 0x8000 ∧
    arm_get_next_address (armRsc 0x20000000) = .ok 0x8001 ∧
    arm_get_next_address (armRsc 0) = .ok 0x8000 ∧
    arm_get_next_address armAddRmPc = .ok 0x8100 ∧
    arm_get_next_address armAddRnPc = .ok 0x8108 :=
  ⟨rfl, rfl, rfl, rfl, rfl, rfl⟩

/-- C34 (the claim fails): on the post-indexed word load with W = 1
`LDRT PC, [R1], #0`, with R1 = `0x9000` and the word `0x2048` stored at the
effective address `0x9000`, `arm_get_next_address` predicts PC+4 and not
`0x2048`. -/
theorem arm_get_next_address_ldrt :
    ldr_effective_address 0xE4B1F000 0x9000 0 false = 0x9000 ∧
    arm_read_word armLdrt 0x9000 = .ok 0x2048 ∧
    arm_get_next_address armLdrt = .ok 0x8004 :=
  ⟨rfl, rfl, rfl⟩

/-- C34 (amended): for every single load (bits 27:26 are 01, L = 1) with
Rd = 15 whose condition passes, on a target with 32-bit addresses, the
successor that `arm_get_next_address` decodes is PC+4 for the post-indexed
form with W = 1 (P = 0, W = 1), and otherwise the 32-bit word (B = 0) or the
zero-extended byte (B = 1) stored at the architectural effective address
`ldr_effective_address`: Rn plus or minus (by U) the 12-bit immediate or the
register offset shifted by LSL/LSR/ASR/ROR `#imm5` (a zero amount meaning
LSR #32, ASR #32 and RRX) when P = 1, and Rn itself when P = 0, with Rn = 15
reading as PC+8; the decoded value is returned unchanged when it is below
`0xFFFF0000`. -/
theorem arm_get_next_address_ldr (t : ArmContext) (pc cpsr instr rn rm : Nat)
    (hw : t.addr_bits = 32)
    (hpc : arm_read_reg t 15 = .ok pc) (hcpsr : arm_read_reg t 16 = .ok cpsr)
    (hfetch : arm_read_word t pc = .ok instr)
    (hldr : (instr >>> 25) &&& 7 = 2 ∨ (instr >>> 25) &&& 7 = 3)
    (hcond : arm_evaluate_condition (cpsr % 2 ^ 32) instr = true)
    (hL : instr &&& (1 <<< 20) ≠ 0) (hRd : (instr >>> 12) &&& 0xf = 15)
    (hrn : arm_read_reg t ((instr >>> 16) &&& 0xf) = .ok rn)
    (hrm : instr &&& (1 <<< 25) ≠ 0 → instr &&& (1 <<< 24) ≠ 0 →
      arm_read_reg t (instr &&& 0xf) = .ok rm) :
    arm_decode t =
      (if instr &&& (1 <<< 24) = 0 ∧ instr &&& (1 <<< 21) ≠ 0 then .ok (add32 pc 4)
       else if instr &&& (1 <<< 22) ≠ 0 then
         arm_read_byte t
           (ldr_effective_address instr rn rm (decide (cpsr % 2 ^ 32 &&& (1 <<< 29) ≠ 0)))
       else arm_read_word t
         (ldr_effective_address instr rn rm (decide (cpsr % 2 ^ 32 &&& (1 <<< 29) ≠ 0)))) ∧
    (∀ v, arm_decode t = .ok v → v < 0xFFFF0000 → arm_get_next_address t = .ok v) := by
  have hpclt := arm_read_reg_lt t 15 pc hpc
  have hd : arm_decode t = arm_get_next_ldr t instr (cpsr % 2 ^ 32) (add32 pc 4) := by
    unfold arm_decode
    simp only [hpc, hcpsr, hfetch, hcond, if_true, Nat.mod_eq_of_lt hpclt]
    rcases hldr with h | h
    · simp only [h]
    · simp only [h]
  refine ⟨?_, fun v hv hlt => ?_⟩
  · rw [hd]
    exact arm_get_next_ldr_spec t instr (cpsr % 2 ^ 32) (add32 pc 4) rn rm hw hL hRd hrn hrm
  · unfold arm_get_next_address
    rw [hv]
    simp only
    rw [if_neg (by omega)]

/-- Witness of C34: `LDR PC, [R1, R2, LSL #2]` with R1 = `0x9000` and R2 = 4,
where the word at the effective address `0x9010` is `0x2048`, predicts
`0x2048`. -/
theorem arm_get_next_address_ldr_witness :
    ldr_effective_address 0xE791F102 0x9000 4 false = 0x9010 ∧
    arm_decode armLdrPc = arm_read_word armLdrPc 0x9010 ∧
    arm_get_next_address armLdrPc = .ok 0x2048 :=
  have h := arm_get_next_address_ldr armLdrPc 0x8000 0 0xE791F102 0x9000 4 rfl rfl rfl rfl
    (Or.inr (by decide)) (by decide) (by decide) (by decide) rfl (fun _ _ => rfl)
  ⟨rfl, rfl, h.2 0x2048 rfl (by decide)⟩

/-- C35: after `set_debug_regs` succeeds for a thread whose PC is `pc`, where
no bit of an instruction slot is set in `skip_wp_set` on debug architecture v7
or later (the function asserts it), bit `i` of the thread's `armed` mask is set
if and only if `i` is one of the `bp_cnt + wp_cnt` slots, slot `i` holds a user
breakpoint, it is not the slot taken for single-stepping (slot 0 while
`hw_stepping ≠ 0`), the breakpoint is not in an instruction slot with its
address equal to `pc`, and it is not a watchpoint being stepped over (its bit
set in `skip_wp_set` on debug architecture v7 or later); `*step_over_hw_bp` is
set iff some occupied slot was left unarmed for one of the last two reasons;
and the thread's `hw_bps_regs_generation` equals the group's
`hw_bps_generation`. -/
theorem set_debug_regs_armed (w : Nat) (deref : Nat → ContextBreakpoint)
    (bps ext : ContextExtensionARM_HW) (pc : Nat) (ptrace_err : Int → Nat)
    (hok : (set_debug_regs w deref bps ext (.ok pc) ptrace_err).1 = 0)
    (hassert : ∀ i, i < bps.bp_cnt → bps.arch ≥ ARM_DEBUG_ARCH_V7_ECP14 →
      ext.skip_wp_set.testBit i = false) :
    (∀ i, (set_debug_regs w deref bps ext (.ok pc) ptrace_err).2.2.ext.armed.testBit i = true ↔
      (i < bps.bp_cnt + bps.wp_cnt ∧ ¬(i = 0 ∧ ext.hw_stepping ≠ 0) ∧
        ∃ p, bps.hw_bps.getD i none = some p ∧ ¬(i < bps.bp_cnt ∧ (deref p).address = pc) ∧
          ¬(bps.bp_cnt ≤ i ∧ bps.arch ≥ ARM_DEBUG_ARCH_V7_ECP14 ∧
            ext.skip_wp_set.testBit i = true))) ∧
    ((set_debug_regs w deref bps ext (.ok pc) ptrace_err).2.2.step_over_hw_bp = true ↔
      ∃ i, i < bps.bp_cnt + bps.wp_cnt ∧ ¬(i = 0 ∧ ext.hw_stepping ≠ 0) ∧
        ∃ p, bps.hw_bps.getD i none = some p ∧ ((i < bps.bp_cnt ∧ (deref p).address = pc) ∨
          (bps.bp_cnt ≤ i ∧ bps.arch ≥ ARM_DEBUG_ARCH_V7_ECP14 ∧
            ext.skip_wp_set.testBit i = true))) ∧
    (set_debug_regs w deref bps ext (.ok pc) ptrace_err).2.2.ext.hw_bps_regs_generation
      = bps.hw_bps_generation := by
  have hskip : ∀ i, (bps.arch ≥ ARM_DEBUG_ARCH_V7_ECP14 ∧ ext.skip_wp_set.testBit i = true) ↔
      (bps.bp_cnt ≤ i ∧ bps.arch ≥ ARM_DEBUG_ARCH_V7_ECP14 ∧
        ext.skip_wp_set.testBit i = true) := by
    intro i
    constructor
    · rintro ⟨a, b⟩
      refine ⟨?_, a, b⟩
      by_contra hlt
      have := hassert i (by omega) a
      rw [b] at this
      cases this
    · rintro ⟨_, a, b⟩
      exact ⟨a, b⟩
  unfold set_debug_regs at hok ⊢
  simp only at hok ⊢
  by_cases hr : (set_debug_regs_loop w deref bps pc ptrace_err
      (List.range (bps.bp_cnt + bps.wp_cnt))
      { ext := { ext with armed := 0 }, step_over_hw_bp := false, writes := [] }).1 ≠ 0
  · rw [if_pos hr] at hok
    cases hok
  · rw [if_neg hr]
    obtain ⟨l1, l2, _, _⟩ := set_debug_regs_loop_exact w deref bps pc ptrace_err
      (List.range (bps.bp_cnt + bps.wp_cnt))
      { ext := { ext with armed := 0 }, step_over_hw_bp := false, writes := [] }
      (not_not.mp hr)
    refine ⟨fun i => ?_, ?_, rfl⟩
    · show (set_debug_regs_loop w deref bps pc ptrace_err
        (List.range (bps.bp_cnt + bps.wp_cnt))
        { ext := { ext with armed := 0 }, step_over_hw_bp := false, writes := [] }
        ).2.ext.armed.testBit i = true ↔ _
      rw [l1 i]
      simp only [Nat.zero_testBit, Bool.false_eq_true, false_or, List.mem_range]
      constructor
      · rintro ⟨hi, hs, p, hp, c1, c2⟩
        exact ⟨hi, hs, p, hp, c1, fun h => c2 ((hskip i).mpr h)⟩
      · rintro ⟨hi, hs, p, hp, c1, c2⟩
        exact ⟨hi, hs, p, hp, c1, fun h => c2 ((hskip i).mp h)⟩
    · show (set_debug_regs_loop w deref bps pc ptrace_err
        (List.range (bps.bp_cnt + bps.wp_cnt))
        { ext := { ext with armed := 0 }, step_over_hw_bp := false, writes := [] }
        ).2.step_over_hw_bp = true ↔ _
      rw [l2]
      simp only [Bool.false_eq_true, false_or, List.mem_range]
      constructor
      · rintro ⟨i, hi, hs, p, hp, hc⟩
        exact ⟨i, hi, hs, p, hp, hc.imp id (hskip i).mp⟩
      · rintro ⟨i, hi, hs, p, hp, hc⟩
        exact ⟨i, hi, hs, p, hp, hc.imp id (hskip i).mpr⟩

/-- Witness of C35: with the breakpoint of slot 0 at the PC `0x8000` and the
watchpoint of slot 2, only bit 2 of `armed` is set and `*step_over_hw_bp` is
set. -/
theorem set_debug_regs_armed_witness :
    (set_debug_regs 32 cbsW bpsS default (.ok 0x8000) (fun _ => 0)).2.2.ext.armed = 4 ∧
    (set_debug_regs 32 cbsW bpsS default (.ok 0x8000) (fun _ => 0)).2.2.step_over_hw_bp = true ∧
    (∀ i, (set_debug_regs 32 cbsW bpsS default (.ok 0x8000) (fun _ => 0)).2.2.ext.armed.testBit i
        = true ↔
      (i < bpsS.bp_cnt + bpsS.wp_cnt ∧
        ¬(i = 0 ∧ (default : ContextExtensionARM_HW).hw_stepping ≠ 0) ∧
        ∃ p, bpsS.hw_bps.getD i none = some p ∧ ¬(i < bpsS.bp_cnt ∧ (cbsW p).address = 0x8000) ∧
          ¬(bpsS.bp_cnt ≤ i ∧ bpsS.arch ≥ ARM_DEBUG_ARCH_V7_ECP14 ∧
            (default : ContextExtensionARM_HW).skip_wp_set.testBit i = true))) :=
  ⟨by decide, by decide,
    (set_debug_regs_armed 32 cbsW bpsS default 0x8000 (fun _ => 0) (by decide)
      (fun i _ _ => Nat.zero_testBit i)).1⟩

/-- C36 (the code diverges): the write watchpoint on the four bytes at
`0x9002`, of a length within `wp_size = 4`, is accepted by `cpu_bp_plant` in
slot 2, and `set_debug_regs` arms it with the value register `0x9000` and the
control register `0x197`, whose byte-select bits enable the bytes `0x9002` and
`0x9003` only: the bytes `0x9004` and `0x9005` of the watched range are not
selected. -/
theorem set_debug_regs_watchpoint_across_words :
    (cbsX 2).length ≤ bpsW.wp_size ∧
    (cpu_bp_plant cbsX bpsW 2 none).1 = 0 ∧
    (cpu_bp_plant cbsX bpsW 2 none).2.2.hw_bps.getD 2 none = some 2 ∧
    (set_debug_regs 32 cbsX (cpu_bp_plant cbsX bpsW 2 none).2.2 default (.ok 0x7000)
      (fun _ => 0)).1 = 0 ∧
    (set_debug_regs 32 cbsX (cpu_bp_plant cbsX bpsW 2 none).2.2 default (.ok 0x7000)
      (fun _ => 0)).2.2.ext.armed.testBit 2 = true ∧
    (set_debug_regs 32 cbsX (cpu_bp_plant cbsX bpsW 2 none).2.2 default (.ok 0x7000)
      (fun _ => 0)).2.2.writes.filter (fun e => e.slot == 2) =
      [{ slot := 2, control := false, num := -5, value := 0x9000 },
       { slot := 2, control := true, num := -6, value := 0x197 }] ∧
    enabled_bytes 0x9000 0x197 = [0x9002, 0x9003] ∧
    (List.range (cbsX 2).length).map (fun j => (cbsX 2).address + j) =
      [0x9002, 0x9003, 0x9004, 0x9005] := by
  decide

/-- C37: in every state reachable through `plant_breakpoint_in_context`,
replant passes and the skip sequencer (over distinct contexts, the owners of
the break instructions staying in their memory spaces), the break-instruction
table does not hold two entries with the same memory space and the same
address; `find_instruction` returns `NULL` exactly when the table has no entry
for `(ctx.mem, address)`, and otherwise the index of an entry of that memory
space and address, which is the only such entry of the table. -/
theorem instruction_table_unique (s : Agent) (h : TableReachable s) :
    unique_instructions s ∧
    ∀ (ctx : Context) (address : Nat),
      ((find_instruction s ctx address).1 = none ↔
        ∀ bi ∈ s.instructions, ¬((s.ctx bi.ctx).mem = ctx.mem ∧ bi.address = address)) ∧
      ∀ n, (find_instruction s ctx address).1 = some n →
        ∃ bi, s.instructions[n]? = some bi ∧ (s.ctx bi.ctx).mem = ctx.mem ∧
          bi.address = address ∧
          ∀ (m : Nat) (b : BreakInstruction), s.instructions[m]? = some b →
            (s.ctx b.ctx).mem = ctx.mem → b.address = address → m = n := by
  have hk := (table_reachable_keys s h).2
  have hu : unique_instructions s := by
    intro i j a b hi hj hm ha
    apply nodup_map_index (instruction_key s.contexts) s.instructions hk i j a b hi hj
    unfold instruction_key
    rw [ha]
    exact congrArg (fun x => (x, b.address)) hm
  refine ⟨hu, fun ctx address => ⟨find_instruction_none_iff s ctx address, fun n hn => ?_⟩⟩
  cases hf : find_instruction s ctx address with
  | mk r s1 =>
    rw [hf] at hn
    simp only at hn
    subst hn
    obtain ⟨bi, hbi, h1, h2, _, _⟩ := find_instruction_entry s ctx address n s1 hf
    refine ⟨bi, hbi, h1, h2, fun m b hb hbm hba => ?_⟩
    exact hu m n b bi hb hbi (hbm.trans h1.symm) (hba.trans h2.symm)

/-- Witness of C37: after breakpoint `A.1` is added and a replant pass ran over
the process `ctx7` and its thread `ctx42`, the table holds the one entry for
address 4096, which `find_instruction` returns for the thread. -/
theorem instruction_table_unique_witness :
    agentP.instructions.map (fun bi => (bi.ctx, bi.address)) = [(7, 4096)] ∧
    (find_instruction agentP ctx42 4096).1 = some 0 ∧
    unique_instructions agentP :=
  ⟨by decide, by decide,
    (instruction_table_unique agentP
      (TableReachable.step _ _ (TableReachable.step _ _
        (TableReachable.init [0xcc] [ctx7, ctx42] target0
          (by decide : ([7, 1] : List Nat).Nodup))
        (TableStep.registry (ini_breakpoints_service [0xcc] [ctx7, ctx42] target0)
          (command_bp_add (ini_breakpoints_service [0xcc] [ctx7, ctx42] target0) "t1" 1 bpA)
          rfl rfl))
        (TableStep.replant _ sv0))).1⟩

/-- C38: at every quiescent point (in the initial state and after each
complete command, replant pass, `safe_skip_breakpoint` or
`safe_restore_breakpoint`), every entry of the break-instruction table has
`planted` set iff `skip` is clear and `error` is 0; an entry with `skip` set is
unplanted and error-free; and a replant pass keeps every entry that has `skip`
set in the table, with its address, saved bytes, `skip`, `planted` and
`error`. -/
theorem quiescent_planted_iff (s : Agent) (h : Quiescent s) :
    (∀ bi ∈ s.instructions,
      (bi.planted = true ↔ (bi.skip = false ∧ bi.error = 0)) ∧
      (bi.skip = true → bi.planted = false ∧ bi.error = 0)) ∧
    (∀ (sv : Services), ∀ bi ∈ s.instructions, bi.skip = true →
      ∃ bi1 ∈ (event_replant_breakpoints sv s).instructions,
        bi1.address = bi.address ∧ bi1.saved_code = bi.saved_code ∧ bi1.skip = true ∧
        bi1.planted = false ∧ bi1.error = 0) := by
  have hu := quiescent_usable s h
  refine ⟨fun bi hbi => hu bi hbi, fun sv bi hbi hs => ?_⟩
  obtain ⟨bi1, hb1, hc⟩ := (event_replant_breakpoints_usable sv s
    (fun b hb => planted_iff_usable_consistent b (hu b hb))).2 bi hbi hs
  unfold instruction_state at hc
  simp only [Prod.mk.injEq] at hc
  obtain ⟨c1, c2, c3, c4, c5⟩ := hc
  have := (hu bi hbi).2 hs
  exact ⟨bi1, hb1, c1, c2, c4.trans hs, c5.trans this.1, c3.trans this.2⟩

/-- Witness of C38: after breakpoint `A.1` is added and planted and
`safe_skip_breakpoint` ran for the thread stopped at it, the only entry of the
table has `skip` set, is unplanted and error-free, and a replant pass keeps
it. -/
theorem quiescent_planted_iff_witness :
    agentK.instructions.map (fun bi => (bi.address, bi.skip, bi.planted, bi.error)) =
      [(4096, true, false, 0)] ∧
    (event_replant_breakpoints sv0 agentK).instructions.map
      (fun bi => (bi.address, bi.skip, bi.planted, bi.error)) = [(4096, true, false, 0)] ∧
    (∀ bi ∈ agentK.instructions,
      (bi.planted = true ↔ (bi.skip = false ∧ bi.error = 0)) ∧
      (bi.skip = true → bi.planted = false ∧ bi.error = 0)) :=
  ⟨by decide, by decide,
    (quiescent_planted_iff agentK
      (Quiescent.step _ _ (Quiescent.step _ _ (Quiescent.step _ _
        (Quiescent.init [0xcc] [ctx7, ctx42] target0)
        (QuiescentStep.engine _ _ (Step.add _ "t1" 1 bpA)))
        (QuiescentStep.engine _ _ (Step.replant _ sv0)))
        (QuiescentStep.skip _ sbK 0))).1⟩


/-- C39 (the code diverges): on a target that cannot be written, with a
process and its stopped thread in one memory space and a breakpoint `D` whose
condition holds in both, the first replant pass leaves one break instruction
at `0x1000` with the planting error `EFAULT` and the ref list `[D]`; in the
second pass both contexts resolve `D` to that instruction, `bp->planted` stays
0 because of the error, the search of the ref list is skipped, and the ref list
becomes `[D, D]`. -/
theorem replant_twice_duplicate_ref :
    agentD1.instructions.map (fun bi => (bi.address, bi.error, bi.planted, bi.refs)) =
      [(4096, EFAULT, false, ["D"])] ∧
    agentD2.instructions.map (fun bi => (bi.address, bi.error, bi.planted, bi.refs)) =
      [(4096, EFAULT, false, ["D", "D"])] ∧
    agentD2.breakpoints.map (fun bp => (bp.id, bp.planted, bp.error)) = [("D", 0, EFAULT)] := by
  decide

/-- C40: for every stopped thread whose process has not exited, that is not
in software stepping mode and whose memory holds bytes, a call of
`enable_sw_stepping_mode` that returns 0 has predicted a next address `addr`
and set `sw_stepping`; after it the four bytes at `addr` hold the break
instruction `F0 01 F0 E7` and every other byte of target memory is as before;
the call of `disable_sw_stepping_mode` that follows returns 0, clears
`sw_stepping` and restores target memory to its content before the enable;
and a call of `enable_sw_stepping_mode` that fails leaves `sw_stepping` at 0
and target memory as it is. -/
theorem sw_stepping_round_trip (t : ArmContext) (hex : t.exited = false)
    (hsw : t.ext.sw_stepping = false) (hb : ∀ a, t.mem a < 256) :
    ((enable_sw_stepping_mode t).1 = 0 →
      ∃ addr, arm_get_next_address t = .ok addr ∧
        (enable_sw_stepping_mode t).2.ext.sw_stepping = true ∧
        (∀ i, i < 4 → (enable_sw_stepping_mode t).2.mem (addr + i) = ARM_BREAK_INST.getD i 0) ∧
        (∀ a, a < addr ∨ addr + 4 ≤ a → (enable_sw_stepping_mode t).2.mem a = t.mem a) ∧
        (disable_sw_stepping_mode (enable_sw_stepping_mode t).2).1 = 0 ∧
        (disable_sw_stepping_mode (enable_sw_stepping_mode t).2).2.ext.sw_stepping = false ∧
        (disable_sw_stepping_mode (enable_sw_stepping_mode t).2).2.mem = t.mem) ∧
    ((enable_sw_stepping_mode t).1 ≠ 0 →
      (enable_sw_stepping_mode t).2.ext.sw_stepping = false ∧
      (enable_sw_stepping_mode t).2.mem = t.mem) := by
  constructor
  · intro h
    obtain ⟨addr, hn, hwr, he⟩ := enable_sw_stepping_mode_ok t h
    have hlen : ARM_BREAK_INST.length = 4 := rfl
    refine ⟨addr, hn, ?_⟩
    rw [he]
    refine ⟨rfl, fun i hi => ?_, fun a ha => ?_, ?_⟩
    · show (if addr ≤ addr + i ∧ addr + i < addr + 4 then ARM_BREAK_INST.getD (addr + i - addr) 0
        else t.mem (addr + i)) = _
      rw [if_pos ⟨by omega, by omega⟩, Nat.add_sub_cancel_left]
    · show (if addr ≤ a ∧ a < addr + 4 then ARM_BREAK_INST.getD (a - addr) 0 else t.mem a) = _
      rw [if_neg (by omega)]
    · unfold disable_sw_stepping_mode
      simp only [if_true, hex, Bool.false_eq_true, if_false, arm_write_mem, hlen, hwr, ne_eq,
        not_true_eq_false]
      refine ⟨trivial, trivial, ?_⟩
      funext a
      exact restore_saved_bytes t.mem addr hb a
  · intro h
    have hf := enable_sw_stepping_mode_fail t h
    exact ⟨hf.1.trans hsw, hf.2⟩

/-- Witness of C40: on `MOV PC, LR` with LR = `0x1000`, enabling the software
stepping mode succeeds, with the break instruction at `0x1000`, and disabling
it restores target memory. -/
theorem sw_stepping_round_trip_witness :
    (enable_sw_stepping_mode armMov).1 = 0 ∧
    arm_get_next_address armMov = .ok 0x1000 ∧
    (enable_sw_stepping_mode armMov).2.mem 0x1000 = 0xf0 ∧
    (disable_sw_stepping_mode (enable_sw_stepping_mode armMov).2).1 = 0 ∧
    (disable_sw_stepping_mode (enable_sw_stepping_mode armMov).2).2.mem = armMov.mem :=
  have h := (sw_stepping_round_trip armMov rfl rfl
    (word_at_lt 0x8000 0xE1A0F00E (fun _ => 0) (fun _ => Nat.zero_lt_succ 255))).1 rfl
  h.elim fun _ hh => ⟨rfl, rfl, rfl, hh.2.2.2.2.1, hh.2.2.2.2.2.2⟩

end Tcf
